import Mathlib

/-!
Verification of termfun: canvas, history ring, key decoder, tiles, session and
text clipping.

A shallow embedding of `canvas.go`, `ringbuffer.go`, `readkey.go`, `csi.go`,
`tile.go`, `handler.go`, `tileterm.go` and `format/formatTextClipCol.go` of
`exyzzy/termfun`, followed by theorems about the embedded functions.

Conventions of the embedding:
* Go `int` and `rune` values are `Int`; `/` and `%` of Go truncate toward zero,
  so they are `Int.tdiv` and `Int.tmod`.  Arithmetic on them is exact: the
  statements are about coordinates, extents and sizes whose sums, differences and
  products stay inside the machine word, where Go computes the same values.
* A `byte` is a `Nat`; a shift that produces a byte is reduced modulo 256.
* A function that can panic at run time (index out of range, division by
  zero, negative shift count, negative length) returns `Option`, `none` being
  the panic.  A loop without a syntactic bound takes a fuel argument and
  returns `none` when the fuel runs out.
* A method with a pointer receiver takes the receiver and returns the new one.
* A Go `string` is the list of its bytes (`GoString`); a `range` loop over a
  string decodes UTF-8 as `utf8.DecodeRuneInString` does.
* A counting `for` loop is a recursion on the number of its iterations.
* A `float32` is the fraction that is its value; a conversion to float32 and a
  float32 product or difference round to the nearest float32, ties to even, and
  `int(x)` truncates.
-/

namespace Termfun

/-! ## canvas.go -/

/-- Canvas holds a bit buffer for plotting: pixel extent, byte extent, the byte
buffer and the two mode flags. -/
structure Canvas where
  pwidth : Int
  pheight : Int
  bwidth : Int
  bheight : Int
  value : List Nat
  xor : Bool
  wrap : Bool
deriving DecidableEq, Repr

namespace Canvas

/-- Init sets every field from `w` and `h`; `make` panics on a negative length. -/
def Init (w h : Int) : Option Canvas :=
  let bwidth := Int.tdiv w 2 + 1
  let bheight := Int.tdiv h 2 + 1
  if bwidth * bheight < 0 then none
  else some
    { pwidth := w, pheight := h, bwidth := bwidth, bheight := bheight,
      value := List.replicate (bwidth * bheight).toNat 0,
      xor := false, wrap := false }

/-- NewCanvas returns a new initialised canvas. -/
def NewCanvas (w h : Int) : Option Canvas := Init w h

def Width (c : Canvas) : Int := c.pwidth

def Height (c : Canvas) : Int := c.pheight

def PlotXor (c : Canvas) : Canvas := { c with xor := true }

def PlotOr (c : Canvas) : Canvas := { c with xor := false }

def PlotWrap (c : Canvas) : Canvas := { c with wrap := true }

def PlotUnwrap (c : Canvas) : Canvas := { c with wrap := false }

/-- The coordinate normalisation that opens both Plot and Read, for one axis:
the optional wrap `(v + extent) % extent` (a panic when the extent is zero),
then the two clamping tests in the order of the source. -/
def normAxis (wrap : Bool) (extent v : Int) : Option Int :=
  if wrap && extent == 0 then none
  else
    let v := if wrap then Int.tmod (v + extent) extent else v
    let v := if v < 0 then 0 else v
    let v := if v ≥ extent then extent - 1 else v
    some v

/-- The addressing shared by Plot and Read (the same statements in both):
normalised coordinates, then `index := yi*bwidth + xi` and
`bit := byte(0x1 << (ym*2 + xm))`.  The result is the pair (index, bit);
`none` is a panic of the wrap modulus or of a negative shift count. -/
def address (c : Canvas) (x y : Int) : Option (Int × Nat) :=
  match normAxis c.wrap c.pwidth x, normAxis c.wrap c.pheight y with
  | some x, some y =>
    let xi := Int.tdiv x 2
    let xm := Int.tmod x 2
    let yi := Int.tdiv y 2
    let ym := Int.tmod y 2
    let index := yi * c.bwidth + xi
    let s := ym * 2 + xm
    if s < 0 then none else some (index, (1 <<< s.toNat) % 256)
  | _, _ => none

/-- Indexing of the byte buffer: a negative or too large index panics. -/
def byteAt (c : Canvas) (index : Int) : Option Nat :=
  if index < 0 then none else c.value[index.toNat]?

/-- Plot a pixel on the canvas. -/
def Plot (c : Canvas) (x y : Int) : Option Canvas :=
  match c.address x y with
  | none => none
  | some (index, bit) =>
    match c.byteAt index with
    | none => none
    | some v =>
      some { c with value := c.value.set index.toNat (if c.xor then v ^^^ bit else v ||| bit) }

/-- Read a location from the canvas to see if it is set. -/
def Read (c : Canvas) (x y : Int) : Option Bool :=
  match c.address x y with
  | none => none
  | some (index, bit) =>
    match c.byteAt index with
    | none => none
    | some v => some (v &&& bit == bit)

/-- Clear the canvas. -/
def Clear (c : Canvas) : Canvas := { c with value := c.value.map (fun _ => 0) }

/-- The loop of Line, over an arbitrary plotting action `plot` on a state `σ`:
plot, leave at the end point, otherwise update `err`, `x0`, `y0`. -/
def lineLoop {σ : Type} (plot : σ → Int → Int → Option σ) (x1 y1 dx dy sx sy : Int) :
    Nat → σ → Int → Int → Int → Option σ
  | 0, _, _, _, _ => none
  | fuel + 1, s, x0, y0, err =>
    match plot s x0 y0 with
    | none => none
    | some s =>
      if x0 = x1 ∧ y0 = y1 then some s
      else
        let e2 := 2 * err
        let err1 := if e2 > -dy then err - dy else err
        let x0 := if e2 > -dy then x0 + sx else x0
        let err2 := if e2 < dx then err1 + dx else err1
        let y0 := if e2 < dx then y0 + sy else y0
        lineLoop plot x1 y1 dx dy sx sy fuel s x0 y0 err2

/-- The absolute value computed at the head of Line. -/
def lineAbs (d : Int) : Int := if d < 0 then -d else d

/-- The step direction computed at the head of Line. -/
def lineSign (a b : Int) : Int := if a < b then 1 else -1

/-- Line, Bresenham's algorithm, over an arbitrary plotting action. -/
def lineWith {σ : Type} (plot : σ → Int → Int → Option σ) (fuel : Nat) (s : σ)
    (x0 y0 x1 y1 : Int) : Option σ :=
  let dx := lineAbs (x1 - x0)
  let dy := lineAbs (y1 - y0)
  let sx := lineSign x0 x1
  let sy := lineSign y0 y1
  let err := dx - dy
  lineLoop plot x1 y1 dx dy sx sy fuel s x0 y0 err

/-- Line uses Bresenham's algorithm to plot a line on the canvas. -/
def Line (c : Canvas) (fuel : Nat) (x0 y0 x1 y1 : Int) : Option Canvas :=
  lineWith Plot fuel c x0 y0 x1 y1

/-- A plotting action that only records the coordinates it is called with,
in call order. -/
def recordPlot (log : List (Int × Int)) (x y : Int) : Option (List (Int × Int)) :=
  some (log ++ [(x, y)])

/-- The coordinates that Line passes to Plot, in call order. -/
def linePlots (fuel : Nat) (x0 y0 x1 y1 : Int) : Option (List (Int × Int)) :=
  lineWith recordPlot fuel [] x0 y0 x1 y1

/-- A sequence of Plot calls, in order. -/
def plotAll (c : Canvas) : List (Int × Int) → Option Canvas
  | [] => some c
  | p :: ps =>
    match c.Plot p.1 p.2 with
    | none => none
    | some c => plotAll c ps

/-- A sequence of calls of a plotting action, in order. -/
def plotSeq {σ : Type} (plot : σ → Int → Int → Option σ) (s : σ) :
    List (Int × Int) → Option σ
  | [] => some s
  | p :: ps =>
    match plot s p.1 p.2 with
    | none => none
    | some s => plotSeq plot s ps

/-- The points at which the loop of Line calls its plotting action, as a list:
the loop of `lineLoop` with the plotting action left out. -/
def lineTrace (x1 y1 dx dy sx sy : Int) : Nat → Int → Int → Int → Option (List (Int × Int))
  | 0, _, _, _ => none
  | fuel + 1, x0, y0, err =>
    if x0 = x1 ∧ y0 = y1 then some [(x0, y0)]
    else
      let e2 := 2 * err
      let err1 := if e2 > -dy then err - dy else err
      let x0n := if e2 > -dy then x0 + sx else x0
      let err2 := if e2 < dx then err1 + dx else err1
      let y0n := if e2 < dx then y0 + sy else y0
      (lineTrace x1 y1 dx dy sx sy fuel x0n y0n err2).map (fun l => (x0, y0) :: l)

/-- Two coordinates differ by at most 1 in x and at most 1 in y. -/
def near (a b : Int × Int) : Prop :=
  -1 ≤ b.1 - a.1 ∧ b.1 - a.1 ≤ 1 ∧ -1 ≤ b.2 - a.2 ∧ b.2 - a.2 ≤ 1

instance (a b : Int × Int) : Decidable (near a b) := by unfold near; infer_instance

/-- Every two consecutive coordinates of the list are `near`: an 8-connected
path. -/
def connected : List (Int × Int) → Prop
  | [] => True
  | [_] => True
  | a :: b :: rest => near a b ∧ connected (b :: rest)

/-- The lattice point `p` lies on the closed straight segment from `(x0,y0)`
to `(x1,y1)`: collinear with the end points and inside their bounding box. -/
def onSegment (x0 y0 x1 y1 : Int) (p : Int × Int) : Prop :=
  (p.1 - x0) * (y1 - y0) = (p.2 - y0) * (x1 - x0) ∧
    min x0 x1 ≤ p.1 ∧ p.1 ≤ max x0 x1 ∧ min y0 y1 ≤ p.2 ∧ p.2 ≤ max y0 y1

instance (x0 y0 x1 y1 : Int) (p : Int × Int) : Decidable (onSegment x0 y0 x1 y1 p) := by
  unfold onSegment; infer_instance

/-- The point with step counts `(i, j)` is close to the ideal line of an
x-major segment with extents `dx ≥ dy`: twice the deviation `j*dx - i*dy` lies
strictly between `dy - 2*dx` and `dx`. -/
def closeTo (dx dy i j : Int) : Prop :=
  dy - 2 * dx < 2 * (j * dx - i * dy) ∧ 2 * (j * dx - i * dy) < dx

/-- What the x-major analysis of the loop of Line establishes about the points
`pts` visited from `(x, y)`, the point after `i` steps in x, with `n` iterations
to go: first and last point, connectedness, length, closeness of every point to
the ideal line, and one point in every remaining column. -/
def TraceOK (x0 y0 dx dy sx sy : Int) (n : Nat) (i x y : Int) (pts : List (Int × Int)) : Prop :=
  pts.head? = some (x, y) ∧ pts.getLast? = some (x0 + dx * sx, y0 + dy * sy) ∧
    connected pts ∧ pts.length = n + 1 ∧
    (∀ p ∈ pts, ∃ i2 j2, i ≤ i2 ∧ i2 ≤ dx ∧ p = (x0 + i2 * sx, y0 + j2 * sy) ∧
      closeTo dx dy i2 j2) ∧
    (∀ i2, i ≤ i2 → i2 ≤ dx → ∃ j2, (x0 + i2 * sx, y0 + j2 * sy) ∈ pts)

/-- The number of loop iterations that Line needs:
`max(|x1-x0|, |y1-y0|) + 1`. -/
def lineSteps (x0 y0 x1 y1 : Int) : Nat :=
  (max (lineAbs (x1 - x0)) (lineAbs (y1 - y0))).toNat + 1

/-- The trace of Line from its start state: `lineTrace` with the values that
the head of Line computes. -/
def lineStart (fuel : Nat) (x0 y0 x1 y1 : Int) : Option (List (Int × Int)) :=
  lineTrace x1 y1 (lineAbs (x1 - x0)) (lineAbs (y1 - y0)) (lineSign x0 x1) (lineSign y0 y1)
    fuel x0 y0 (lineAbs (x1 - x0) - lineAbs (y1 - y0))

/-- What is established about the coordinates `pts` that Line passes to Plot:
first and last point, connectedness, number of points, every lattice point of
the segment is there, and for a horizontal, vertical or 45-degree segment
nothing else is. -/
def LineOK (x0 y0 x1 y1 : Int) (pts : List (Int × Int)) : Prop :=
  pts.head? = some (x0, y0) ∧ pts.getLast? = some (x1, y1) ∧ connected pts ∧
    pts.length = lineSteps x0 y0 x1 y1 ∧
    (∀ p, onSegment x0 y0 x1 y1 p → p ∈ pts) ∧
    ((x0 = x1 ∨ y0 = y1 ∨ lineAbs (x1 - x0) = lineAbs (y1 - y0)) →
      ∀ p ∈ pts, onSegment x0 y0 x1 y1 p)

/-- The shape that Init establishes and no method changes. -/
def WF (c : Canvas) : Prop :=
  c.bwidth = Int.tdiv c.pwidth 2 + 1 ∧ c.bheight = Int.tdiv c.pheight 2 + 1 ∧
    (c.value.length : Int) = c.bwidth * c.bheight

instance (c : Canvas) : Decidable c.WF := by unfold WF; infer_instance

/-- A coordinate clamped to the nearest edge of `[0, extent - 1]`. -/
def clampTo (extent v : Int) : Int := max 0 (min (extent - 1) v)

/-- The buffer index of an in-range pixel. -/
def cellIndex (c : Canvas) (x y : Int) : Int := y / 2 * c.bwidth + x / 2

/-- The bit number of an in-range pixel inside its byte. -/
def cellBit (x y : Int) : Nat := (y % 2 * 2 + x % 2).toNat

/-- The stored value of an in-range pixel. -/
def pix (c : Canvas) (x y : Int) : Bool :=
  (c.value.getD (cellIndex c x y).toNat 0).testBit (cellBit x y)

end Canvas

end Termfun

namespace Termfun

/-! ## ringbuffer.go -/

/-- A Go string: its bytes.  Go strings are byte sequences, sliced and
measured in bytes; the text "abc" is `[97, 98, 99]`. -/
abbrev GoString := List Nat

/-- The type stRingBuffer is a ring buffer of strings.  A nil `entries` slice
is `none`. -/
structure stRingBuffer where
  entries : Option (List GoString)
  max : Int
  head : Int
  size : Int
deriving DecidableEq, Repr

namespace stRingBuffer

/-- The zero value of the struct: the empty ring. -/
def empty : stRingBuffer := { entries := none, max := 0, head := 0, size := 0 }

def defaultNumEntries : Int := 100

/-- Add stores `a` in the slot after `head`.  The modulus panics when `max`
is zero and the store panics when the slot is outside `entries`. -/
def Add (s : stRingBuffer) (a : GoString) : Option stRingBuffer :=
  let s :=
    if s.entries = none then
      { s with entries := some (List.replicate defaultNumEntries.toNat []),
               max := defaultNumEntries }
    else s
  if s.max = 0 then none
  else
    let head := Int.tmod (s.head + 1) s.max
    match s.entries with
    | none => none
    | some es =>
      if head < 0 ∨ head ≥ es.length then none
      else
        some { entries := some (es.set head.toNat a), max := s.max, head := head,
               size := if s.size < s.max then s.size + 1 else s.size }

/-- NthPreviousEntry returns the value passed to the nth previous call to Add,
with `ok`, together with the (unchanged) receiver.  Indexing outside `entries`
panics. -/
def NthPreviousEntry (s : stRingBuffer) (n : Int) : Option (stRingBuffer × GoString × Bool) :=
  if n < 0 ∨ n ≥ s.size then some (s, [], false)
  else
    let index := s.head - n
    let index := if index < 0 then index + s.max else index
    match s.entries with
    | none => none
    | some es =>
      if index < 0 then none
      else
        match es[index.toNat]? with
        | none => none
        | some v => some (s, v, true)

/-- A sequence of Add calls, in order. -/
def addAll (s : stRingBuffer) : List GoString → Option stRingBuffer
  | [] => some s
  | a :: rest =>
    match s.Add a with
    | none => none
    | some s => addAll s rest

/-- The state of the ring after the strings `added` have been added to the
empty ring, `added` being non-empty: 100 slots, `head` at the count modulo
100, and each of the last `min count 100` strings in its slot. -/
def Holds (s : stRingBuffer) (added : List GoString) : Prop :=
  ∃ es, s.entries = some es ∧ es.length = 100 ∧ s.max = 100 ∧
    s.head = ((added.length % 100 : Nat) : Int) ∧
    s.size = ((min added.length 100 : Nat) : Int) ∧
    ∀ k, k < min added.length 100 →
      es[(added.length - k) % 100]? = added[added.length - 1 - k]?

end stRingBuffer

/-! ## readkey.go -/

def CtrlA : Int := 1
def CtrlC : Int := 3
def CtrlQ : Int := 17
def CtrlT : Int := 20
def CtrlU : Int := 21

def KeyTab : Int := 9
def KeyEnter : Int := 13
def KeyEscape : Int := 27
def KeySpace : Int := 32
def KeyLBracket : Int := 91
def KeyBackspace : Int := 127

def KeyUnknown : Int := 0xd800
def KeyUp : Int := 0xd800 + 1
def KeyDown : Int := 0xd800 + 2
def KeyLeft : Int := 0xd800 + 3
def KeyRight : Int := 0xd800 + 4
def KeyBackTab : Int := 0xd800 + 5
def KeyDel : Int := 0xd800 + 6

/-- The errors of the input source. -/
inductive Error where
  | eof
  | invalidUnreadRune
  | other (code : Nat)
deriving DecidableEq, Repr

/-- The part of `bufio.Reader` (Go standard library) that ReadKey uses, as a
state: the runes still to be read, each with its encoded size in bytes; the
error that the source reports once they are exhausted; and the rune that
UnreadRune would push back, present only when the last operation was a
successful ReadRune. -/
structure Reader where
  input : List (Int × Int)
  failure : Error
  last : Option (Int × Int)
deriving DecidableEq, Repr

namespace Reader

/-- ReadRune by the contract of `bufio.Reader`: the next rune and its size,
or `(0, 0, err)` when the source fails. -/
def ReadRune (rd : Reader) : Reader × Int × Int × Option Error :=
  match rd.input with
  | [] => ({ rd with last := none }, 0, 0, some rd.failure)
  | (c, n) :: rest => ({ rd with input := rest, last := some (c, n) }, c, n, none)

/-- UnreadRune by the contract of `bufio.Reader`: pushes the last rune back;
an error when the last operation was not a successful ReadRune. -/
def UnreadRune (rd : Reader) : Reader × Option Error :=
  match rd.last with
  | none => (rd, some Error.invalidUnreadRune)
  | some p => ({ rd with input := p :: rd.input, last := none }, none)

end Reader

/-- The three results of ReadKey. -/
structure KeyResult where
  r : Int
  size : Int
  err : Option Error
deriving DecidableEq, Repr

/-- The loop of ReadKey with its local variables `keybuf`, `keylen`, `bts`.
The store `keybuf[keylen] = c` panics outside the four slots. -/
def readKeyLoop : Nat → Reader → List Int → Int → Int → Option (Reader × KeyResult)
  | 0, _, _, _, _ => none
  | fuel + 1, reader, keybuf, keylen, bts =>
    match reader.ReadRune with
    | (reader, c, n, some err) => some (reader, { r := c, size := n, err := some err })
    | (reader, c, n, none) =>
      let bts := bts + n
      if keylen < 0 ∨ keylen ≥ keybuf.length then none
      else
        let keybuf := keybuf.set keylen.toNat c
        let keylen := keylen + 1
        if keylen = 1 ∧ keybuf.getD 0 0 ≠ KeyEscape then
          some (reader, { r := keybuf.getD 0 0, size := keylen, err := none })
        else if keylen = 2 ∧ keybuf.getD 1 0 ≠ KeyLBracket then
          match reader.UnreadRune with
          | (reader, some err) => some (reader, { r := c, size := n, err := some err })
          | (reader, none) =>
            some (reader, { r := keybuf.getD 0 0, size := keylen - n, err := none })
        else if keylen = 3 ∧ keybuf.getD 2 0 = 65 then
          some (reader, { r := KeyUp, size := bts, err := none })
        else if keylen = 3 ∧ keybuf.getD 2 0 = 66 then
          some (reader, { r := KeyDown, size := bts, err := none })
        else if keylen = 3 ∧ keybuf.getD 2 0 = 67 then
          some (reader, { r := KeyRight, size := bts, err := none })
        else if keylen = 3 ∧ keybuf.getD 2 0 = 68 then
          some (reader, { r := KeyLeft, size := bts, err := none })
        else if keylen = 3 ∧ keybuf.getD 2 0 = 90 then
          some (reader, { r := KeyBackTab, size := bts, err := none })
        else if keylen = 3 ∧ keybuf.getD 2 0 ≠ 51 then
          some (reader, { r := KeyUnknown, size := bts, err := none })
        else if keylen = 4 then
          if keybuf.getD 2 0 = 51 ∧ keybuf.getD 3 0 = 126 then
            some (reader, { r := KeyDel, size := bts, err := none })
          else
            some (reader, { r := KeyUnknown, size := bts, err := none })
        else readKeyLoop fuel reader keybuf keylen bts

/-- ReadKey is a drop-in replacement for bufio.ReadRune but returns common
keyboard keypresses that are multi-rune as a single rune of the surrogate
area. -/
def ReadKey (fuel : Nat) (reader : Reader) : Option (Reader × KeyResult) :=
  readKeyLoop fuel reader [0, 0, 0, 0] 0 0

/-- Successive calls of ReadKey on the same reader, `k` of them: the results
in call order and the reader left behind. -/
def readKeys (fuel : Nat) : Nat → Reader → Option (List KeyResult × Reader)
  | 0, reader => some ([], reader)
  | k + 1, reader =>
    match ReadKey fuel reader with
    | none => none
    | some (reader, res) =>
      match readKeys fuel k reader with
      | none => none
      | some (rest, reader) => some (res :: rest, reader)

/-! ## tile.go, handler.go, tileterm.go

Pointers to tiles are indices into `TileTerm.heap`, the list of all Tile
objects ever made by the session; a nil pointer is `none`.  A `float32` is a
fraction (`Frac`), and every float32 operation rounds its exact result to the
nearest float32, ties to even, as the hardware does.  The session mutex is
the flag `TileTerm.lock`, and a `Lock` on a held mutex is the outcome
`Run.blocked`; the mutex of a single tile is taken and released inside
`setDirty` and the buffer methods only, never nested, and is left out.  The
terminal files and the input reader of the session are left out. -/

/-- The outcome of a session method: a result, a run-time panic, a wait
without end for a mutex that is held, or no fuel left. -/
inductive Run (α : Type) where
  | done (a : α)
  | panic
  | blocked
  | outOfFuel

structure Point where
  X : Int
  Y : Int
deriving DecidableEq, Repr

structure Rect where
  Min : Point
  Max : Point
deriving DecidableEq, Repr

/-- LocType is a location within the parent. -/
inductive LocType where
  | Loc_Top
  | Loc_Bottom
  | Loc_Left
  | Loc_Right
deriving DecidableEq, Repr

inductive TileType where
  | TileType_ScrollDown
  | TileType_ScrollDownClip
  | TileType_ScrollDownClipRaw
  | TileType_ScrollUp
deriving DecidableEq, Repr

/-- A `float32` value, written as the fraction `num / den` with `den > 0`.  The
fraction stands for the float32 nearest to it, ties to even: the fraction itself
when it is a float32 value, and the value that a constant such as `.9` or `0.8`
has after its conversion to float32 otherwise.  The operations below convert
their operands first.  NaN and the infinities are not values of this type. -/
structure Frac where
  num : Int
  den : Int
deriving DecidableEq, Repr

namespace Frac

/-- The number of units of `2^-149`, the smallest positive float32, in 1. -/
def units : Nat := 2 ^ 149

/-- The integer nearest to `a / b`; a tie goes to the even integer. -/
def nearestEven (a b : Nat) : Nat :=
  if 2 * (a % b) < b then a / b
  else if b < 2 * (a % b) then a / b + 1
  else if (a / b) % 2 = 0 then a / b else a / b + 1

/-- The number of halvings that bring `t` below `2^24`, with `fuel` for at
least that many.  For a value of `t` units, the step of the float32 grid at the
value is `2^(shiftCount t t)` units. -/
def shiftCount : Nat → Nat → Nat
  | 0, _ => 0
  | fuel + 1, t => if t < 2 ^ 24 then 0 else shiftCount fuel (t / 2) + 1

/-- The conversion to float32, round to nearest, ties to even.  The value is
measured in units of `2^-149` and rounded to a multiple of the step of the
float32 grid at the value: 24 significant bits, and one unit for the subnormal
values.  The result is a fraction of denominator `units`.  A value beyond the
largest float32, where float32 has an infinity, is rounded in the same way and
kept. -/
def float32 (f : Frac) : Frac :=
  let a := f.num.natAbs * units
  let b := f.den.natAbs
  let k := shiftCount (a / b) (a / b)
  let m := nearestEven a (b * 2 ^ k)
  { num := (if f.num < 0 then -1 else 1) * ((m * 2 ^ k : Nat) : Int), den := (units : Int) }

/-- The conversion `int(x)` of a float32 `x`: truncation toward zero.  For a
value outside the range of the 64-bit `int`, an infinity included, Go leaves the
result to the implementation; it is `-2^63` here, as on amd64. -/
def toInt (f : Frac) : Int :=
  if f.num < -(2 ^ 63) * f.den ∨ 2 ^ 63 * f.den ≤ f.num then -(2 ^ 63)
  else Int.tdiv f.num f.den

/-- The float32 product `x * y`: the exact product of the two float32 values,
rounded to float32. -/
def mul (f g : Frac) : Frac :=
  float32 { num := (float32 f).num * (float32 g).num, den := (float32 f).den * (float32 g).den }

/-- The conversion `int(float32(n) * f)`: the conversion of `n` to float32, the
float32 product, the truncation. -/
def scale (n : Int) (f : Frac) : Int := toInt (mul { num := n, den := 1 } f)

/-- The float32 difference `1. - f`. -/
def compl (f : Frac) : Frac :=
  float32 { num := (float32 f).den - (float32 f).num, den := (float32 f).den }

end Frac

/-- Tile contains the state for a Tile.  The field `handler` is the variant
whose entry of the handler table the tile points to. -/
structure Tile where
  handler : TileType
  name : GoString
  bounds : Rect
  buffer : GoString
  cursor : GoString
  outline : Option (List Int)
  curPos : Point
  fraction : Frac
  location : LocType
  parent : Option Nat
  line : GoString
  dirty : Bool
  start : Point
  keyCallback : Option (Int → Bool)
  lineCallback : Option (GoString → Bool)
  history : stRingBuffer
  historyIndex : Int
  historyPending : GoString

namespace Tile

/-- Width returns the Tile's Width. -/
def Width (t : Tile) : Int := t.bounds.Max.X - t.bounds.Min.X + 1

/-- Height returns the Tile's Height. -/
def Height (t : Tile) : Int := t.bounds.Max.Y - t.bounds.Min.Y + 1

def setLine (t : Tile) (line : GoString) : Tile := { t with line := line }

def setDirty (t : Tile) : Tile := { t with dirty := true }

end Tile

/-- DecRect returns a rect decreased by 1, to allow for an outline. -/
def DecRect (r : Rect) : Rect :=
  { Min := { X := r.Min.X + 1, Y := r.Min.Y + 1 }, Max := { X := r.Max.X - 1, Y := r.Max.Y - 1 } }

/-- IncRect returns a rect increased by 1. -/
def IncRect (r : Rect) : Rect :=
  { Min := { X := r.Min.X - 1, Y := r.Min.Y - 1 }, Max := { X := r.Max.X + 1, Y := r.Max.Y + 1 } }

/-- The bytes of `fmt.Sprintf("%c", r)`: the UTF-8 encoding of the rune, with
U+FFFD in place of a rune that is negative, a surrogate or above U+10FFFF. -/
def sprintfC (r : Int) : GoString :=
  let r := if r < 0 ∨ r > 0x10FFFF ∨ (0xD800 ≤ r ∧ r ≤ 0xDFFF) then 0xFFFD else r
  let n := r.toNat
  if n < 0x80 then [n]
  else if n < 0x800 then [0xC0 + n / 64, 0x80 + n % 64]
  else if n < 0x10000 then [0xE0 + n / 4096, 0x80 + n / 64 % 64, 0x80 + n % 64]
  else [0xF0 + n / 262144, 0x80 + n / 4096 % 64, 0x80 + n / 64 % 64, 0x80 + n % 64]

/-- The key handler of TileType_ScrollDown. -/
def sd_KeyPress (t : Tile) (r : Int) : Tile × Bool :=
  if r = KeyUp then
    if t.start.Y > 0 then
      (Tile.setDirty { t with start := { t.start with Y := t.start.Y - 1 } }, false)
    else (t, false)
  else if r = KeyDown then
    (Tile.setDirty { t with start := { t.start with Y := t.start.Y + 1 } }, false)
  else (t, false)

/-- The key handler of TileType_ScrollDownClip. -/
def sdc_KeyPress (t : Tile) (r : Int) : Tile × Bool :=
  if r = KeyUp then
    if t.start.Y > 0 then
      (Tile.setDirty { t with start := { t.start with Y := t.start.Y - 1 } }, false)
    else (t, false)
  else if r = KeyDown then
    (Tile.setDirty { t with start := { t.start with Y := t.start.Y + 1 } }, false)
  else if r = KeyLeft then
    if t.start.X > 0 then
      (Tile.setDirty { t with start := { t.start with X := t.start.X - 1 } }, false)
    else (t, false)
  else if r = KeyRight then
    (Tile.setDirty { t with start := { t.start with X := t.start.X + 1 } }, false)
  else (t, false)

/-- The key handler of TileType_ScrollDownClipRaw. -/
def sdcr_KeyPress (t : Tile) (r : Int) : Tile × Bool :=
  match t.keyCallback with
  | some cb => (t, cb r)
  | none => (t, false)

/-- The key handler of TileType_ScrollUp.  `none` is a panic inside the
history ring. -/
def su_KeyPress (t : Tile) (r : Int) : Option (Tile × Bool) :=
  if r = KeyEnter then
    match t.lineCallback with
    | none => some (t, false)
    | some cb =>
      if cb t.line then some (t, true)
      else
        let t := { t with historyIndex := -1 }
        match t.history.Add t.line with
        | none => none
        | some h => some ({ t with history := h, line := [] }, false)
  else if r = KeyUp then
    match t.history.NthPreviousEntry (t.historyIndex + 1) with
    | none => none
    | some (h, entry, ok) =>
      let t := { t with history := h }
      if !ok then some (t, false)
      else
        let t := if t.historyIndex = -1 then { t with historyPending := t.line } else t
        let t := { t with historyIndex := t.historyIndex + 1 }
        some (t.setLine entry, false)
  else if r = KeyDown then
    if t.historyIndex = -1 then some (t, false)
    else if t.historyIndex = 0 then
      let t := t.setLine t.historyPending
      some ({ t with historyIndex := t.historyIndex - 1 }, false)
    else
      match t.history.NthPreviousEntry (t.historyIndex - 1) with
      | none => none
      | some (h, entry, ok) =>
        let t := { t with history := h }
        if ok then
          let t := { t with historyIndex := t.historyIndex - 1 }
          some (t.setLine entry, false)
        else some (t, false)
  else if r = KeyBackspace then
    if t.line.length > 0 then
      some ({ t with line := t.line.take (t.line.length - 1) }, false)
    else some (t, false)
  else some ({ t with line := t.line ++ sprintfC r }, false)

/-- The call `t.handler.KeyPress(t, r)` through the handler table. -/
def Tile.KeyPress (t : Tile) (r : Int) : Option (Tile × Bool) :=
  match t.handler with
  | TileType.TileType_ScrollDown => some (sd_KeyPress t r)
  | TileType.TileType_ScrollDownClip => some (sdc_KeyPress t r)
  | TileType.TileType_ScrollDownClipRaw => some (sdcr_KeyPress t r)
  | TileType.TileType_ScrollUp => su_KeyPress t r

/-- Successive key presses on a ScrollUp tile, as long as the handler returns
false. -/
def su_pressAll (t : Tile) : List Int → Option Tile
  | [] => some t
  | r :: rest =>
    match su_KeyPress t r with
    | none => none
    | some (t, _) => su_pressAll t rest

/-- TileTerm contains the state for a TileTerm session. -/
structure TileTerm where
  width : Int
  height : Int
  big : Option Nat
  focus : Option Nat
  tiles : List Nat
  dirty : Bool
  lock : Bool
  heap : List Tile

namespace TileTerm

/-- NewTileTerm returns a new TileTerm session. -/
def NewTileTerm : TileTerm :=
  { width := 0, height := 0, big := none, focus := none, tiles := [], dirty := true,
    lock := false, heap := [] }

/-- The composite literal `Tile{name: name, cursor: cursor, outline: &outline,
fraction: fraction, location: location, parent: parent, handler:
tileHandler[handler], historyIndex: -1}` of AddTile: the other fields are zero. -/
def newTile (name cursor : GoString) (outline : List Int) (fraction : Frac)
    (location : LocType) (parent : Option Nat) (handler : TileType) : Tile :=
  { handler := handler, name := name, bounds := ⟨⟨0, 0⟩, ⟨0, 0⟩⟩, buffer := [],
    cursor := cursor, outline := some outline, curPos := ⟨0, 0⟩, fraction := fraction,
    location := location, parent := parent, line := [], dirty := false,
    start := ⟨0, 0⟩, keyCallback := none, lineCallback := none,
    history := stRingBuffer.empty, historyIndex := -1, historyPending := [] }

/-- AddTile adds a new tile to the TileTerm session.  The results are the new
tile and the error. -/
def AddTile (tTerm : TileTerm) (name cursor : GoString) (outline : List Int) (fraction : Frac)
    (location : LocType) (parent : Option Nat) (handler : TileType) :
    Run (TileTerm × Option Nat × Option String) :=
  if tTerm.tiles.length > 0 ∧ parent = none then Run.done (tTerm, none, some "no parent tile")
  else if tTerm.lock then Run.blocked
  else
    let tile : Tile := newTile name cursor outline fraction location parent handler
    let p := tTerm.heap.length
    let tTerm := { tTerm with heap := tTerm.heap ++ [tile], tiles := tTerm.tiles ++ [p] }
    let tTerm := if tTerm.tiles.length = 1 then { tTerm with focus := some p } else tTerm
    Run.done (tTerm, some p, none)

/-- The loop of deleteTileChildren over the tile list as it is when the loop
starts; `del` is DeleteTile. -/
def deleteChildrenLoop (del : TileTerm → Option Nat → Run TileTerm) (tile : Option Nat) :
    List Nat → TileTerm → Run TileTerm
  | [], tTerm => Run.done tTerm
  | v :: rest, tTerm =>
    match tTerm.heap[v]? with
    | none => Run.panic
    | some vt =>
      if vt.parent = tile then
        match del tTerm (some v) with
        | Run.done tTerm => deleteChildrenLoop del tile rest tTerm
        | Run.panic => Run.panic
        | Run.blocked => Run.blocked
        | Run.outOfFuel => Run.outOfFuel
      else deleteChildrenLoop del tile rest tTerm

/-- DeleteTile deletes a tile and all of its children.  It takes the session
mutex, and releases it when it returns. -/
def DeleteTile : Nat → TileTerm → Option Nat → Run TileTerm
  | 0, _, _ => Run.outOfFuel
  | fuel + 1, tTerm, tile =>
    if tTerm.lock then Run.blocked
    else
      let tTerm := { tTerm with lock := true }
      let focused : Option TileTerm :=
        if tTerm.focus = tile then
          match tTerm.tiles with
          | [] => none
          | first :: _ =>
            if tile ≠ some first then some { tTerm with focus := some first }
            else some { tTerm with focus := none }
        else some tTerm
      match focused with
      | none => Run.panic
      | some tTerm =>
        let newTiles := tTerm.tiles.filter (fun v => decide (some v ≠ tile))
        let tTerm := { tTerm with tiles := newTiles }
        match deleteChildrenLoop (DeleteTile fuel) tile tTerm.tiles tTerm with
        | Run.done tTerm => Run.done { tTerm with lock := false }
        | Run.panic => Run.panic
        | Run.blocked => Run.blocked
        | Run.outOfFuel => Run.outOfFuel

/-- TileByIndex returns a tile by its index. -/
def TileByIndex (tTerm : TileTerm) (index : Int) : Option Nat :=
  if index ≥ 0 ∧ index < tTerm.tiles.length then tTerm.tiles[index.toNat]? else none

/-- The store `p.bounds = r` into the tile object at `p`. -/
def setBounds (tTerm : TileTerm) (p : Nat) (r : Rect) : TileTerm :=
  match tTerm.heap[p]? with
  | none => tTerm
  | some t => { tTerm with heap := tTerm.heap.set p { t with bounds := r } }

/-- The fraction that layoutTiles uses for tile `w`: its own, or the zoom
override when a tile is enlarged. -/
def zoomFraction (tTerm : TileTerm) (w : Nat) (fraction : Frac) : Option Frac :=
  match tTerm.big with
  | none => some fraction
  | some b =>
    if w = b then some ⟨9, 10⟩
    else
      match tTerm.heap[b]? with
      | none => none
      | some bt => if some w = bt.parent then some ⟨9, 10⟩ else some ⟨1, 10⟩

/-- The `switch w.location` of layoutTiles on the rectangle `pr` of the
parent: the rectangle `wr` of the tile and what is left of `pr`. -/
def splitRect (location : LocType) (fraction : Frac) (pr : Rect) : Rect × Rect :=
  match location with
  | LocType.Loc_Top =>
    let dh := Frac.scale (pr.Max.Y - pr.Min.Y + 1) fraction + pr.Min.Y
    ({ pr with Max := { pr.Max with Y := dh - 1 } }, { pr with Min := { pr.Min with Y := dh } })
  | LocType.Loc_Bottom =>
    let dh := Frac.scale (pr.Max.Y - pr.Min.Y + 1) fraction.compl + pr.Min.Y
    ({ pr with Min := { pr.Min with Y := dh } }, { pr with Max := { pr.Max with Y := dh - 1 } })
  | LocType.Loc_Left =>
    let dw := Frac.scale (pr.Max.X - pr.Min.X + 1) fraction + pr.Min.X
    ({ pr with Max := { pr.Max with X := dw - 1 } }, { pr with Min := { pr.Min with X := dw } })
  | LocType.Loc_Right =>
    let dw := Frac.scale (pr.Max.X - pr.Min.X + 1) fraction.compl + pr.Min.X
    ({ pr with Min := { pr.Min with X := dw } }, { pr with Max := { pr.Max with X := dw - 1 } })

/-- The body of the loop of layoutTiles for the tile `w` at index `i`.  A nil
or dangling pointer that is followed is a panic. -/
def layoutTile (tTerm : TileTerm) (tw th : Int) (i : Nat) (w : Nat) : Option TileTerm :=
  match tTerm.heap[w]? with
  | none => none
  | some wt =>
    if i = 0 then
      let wr : Rect := { Min := { X := 1, Y := 1 }, Max := { X := tw, Y := th } }
      let wr := if wt.outline.isSome then DecRect wr else wr
      some (tTerm.setBounds w wr)
    else
      match wt.parent with
      | none => none
      | some p =>
        match tTerm.heap[p]? with
        | none => none
        | some pt =>
          match tTerm.zoomFraction w wt.fraction with
          | none => none
          | some fraction =>
            let pr := if pt.outline.isSome then IncRect pt.bounds else pt.bounds
            let split := splitRect wt.location fraction pr
            let pr := if pt.outline.isSome then DecRect split.2 else split.2
            let tTerm := tTerm.setBounds p pr
            let wr := if wt.outline.isSome then DecRect split.1 else split.1
            some (tTerm.setBounds w wr)

/-- The loop of layoutTiles over the tile list, from index `i` on. -/
def layoutLoop (tw th : Int) : Nat → List Nat → TileTerm → Option TileTerm
  | _, [], tTerm => some tTerm
  | i, w :: rest, tTerm =>
    match layoutTile tTerm tw th i w with
    | none => none
    | some tTerm => layoutLoop tw th (i + 1) rest tTerm

/-- The method layoutTiles computes all tile sizes based on terminal width and
height. -/
def layoutTiles (tTerm : TileTerm) : Run TileTerm :=
  if tTerm.lock then Run.blocked
  else
    match layoutLoop tTerm.width tTerm.height 0 tTerm.tiles { tTerm with lock := true } with
    | none => Run.panic
    | some tTerm => Run.done { tTerm with lock := false }

/-- The session is well formed: the mutex is free, the tiles of the list are
distinct objects of the heap, tile 0 has no parent and the parent of every
other tile is an earlier tile of the list. -/
def WellFormed (tTerm : TileTerm) : Prop :=
  tTerm.lock = false ∧ tTerm.tiles.Nodup ∧
    ∀ i v, tTerm.tiles[i]? = some v →
      ∃ vt, tTerm.heap[v]? = some vt ∧
        (i = 0 → vt.parent = none) ∧
        (0 < i → ∃ j p, j < i ∧ tTerm.tiles[j]? = some p ∧ vt.parent = some p)

end TileTerm

/-- Successive key presses through a handler that cannot panic. -/
def pressKeys (handler : Tile → Int → Tile × Bool) (t : Tile) (keys : List Int) : Tile :=
  keys.foldl (fun t r => (handler t r).1) t

/-- The ring is the result of Adds to the empty ring. -/
def stRingBuffer.Reachable (s : stRingBuffer) : Prop :=
  ∃ added, stRingBuffer.addAll stRingBuffer.empty added = some s

namespace TileTerm

/-- The session after AddTile, or the session itself when AddTile does not
return. -/
def afterAddTile (tTerm : TileTerm) (name cursor : GoString) (outline : List Int)
    (fraction : Frac) (location : LocType) (parent : Option Nat) (handler : TileType) :
    TileTerm :=
  match tTerm.AddTile name cursor outline fraction location parent handler with
  | Run.done (tTerm, _, _) => tTerm
  | _ => tTerm

/-- The single-line box character set. -/
def SingleBox : List Int := [0x2501, 0x2503, 0x250F, 0x2513, 0x2517, 0x251B]

/-- A session with a three-level tree root -> child -> grandchild, made by
three AddTile calls on a new session: the tiles are the pointers 0, 1, 2. -/
def threeLevel : TileTerm :=
  ((NewTileTerm.afterAddTile [] [] SingleBox ⟨1, 1⟩ LocType.Loc_Top none
        TileType.TileType_ScrollUp).afterAddTile [] [] SingleBox ⟨1, 2⟩ LocType.Loc_Top (some 0)
      TileType.TileType_ScrollDown).afterAddTile [] [] SingleBox ⟨1, 2⟩ LocType.Loc_Top (some 1)
    TileType.TileType_ScrollDown

/-- The point `q` lies in the rectangle `r`. -/
def contains (r : Rect) (q : Point) : Prop :=
  r.Min.X ≤ q.X ∧ q.X ≤ r.Max.X ∧ r.Min.Y ≤ q.Y ∧ q.Y ≤ r.Max.Y

/-- The rectangle `pr` of a parent is cut by `location` into the allotment `wr`
of the tile and the remainder `rest`: the two do not overlap, they are adjacent
along the split axis, they keep the extent of `pr` on the other axis, and
together they cover exactly `pr`. -/
def Partition (location : LocType) (pr wr rest : Rect) : Prop :=
  (∀ q, ¬ (contains wr q ∧ contains rest q)) ∧
    (∀ q, contains pr q ↔ contains wr q ∨ contains rest q) ∧
    (match location with
      | LocType.Loc_Top =>
        rest.Min.Y = wr.Max.Y + 1 ∧ wr.Min.X = pr.Min.X ∧ wr.Max.X = pr.Max.X ∧
          rest.Min.X = pr.Min.X ∧ rest.Max.X = pr.Max.X
      | LocType.Loc_Bottom =>
        wr.Min.Y = rest.Max.Y + 1 ∧ wr.Min.X = pr.Min.X ∧ wr.Max.X = pr.Max.X ∧
          rest.Min.X = pr.Min.X ∧ rest.Max.X = pr.Max.X
      | LocType.Loc_Left =>
        rest.Min.X = wr.Max.X + 1 ∧ wr.Min.Y = pr.Min.Y ∧ wr.Max.Y = pr.Max.Y ∧
          rest.Min.Y = pr.Min.Y ∧ rest.Max.Y = pr.Max.Y
      | LocType.Loc_Right =>
        wr.Min.X = rest.Max.X + 1 ∧ wr.Min.Y = pr.Min.Y ∧ wr.Max.Y = pr.Max.Y ∧
          rest.Min.Y = pr.Min.Y ∧ rest.Max.Y = pr.Max.Y)

end TileTerm

namespace TileTerm

/-- The root tile object of `threeLevel`. -/
def rootTile : Tile :=
  newTile [] [] SingleBox ⟨1, 1⟩ LocType.Loc_Top none TileType.TileType_ScrollUp

/-- The child tile object of `threeLevel`. -/
def childTile : Tile :=
  newTile [] [] SingleBox ⟨1, 2⟩ LocType.Loc_Top (some 0) TileType.TileType_ScrollDown

/-- The full terminal rectangle that layoutTiles gives to tile 0. -/
def fullRect (tw th : Int) : Rect := { Min := { X := 1, Y := 1 }, Max := { X := tw, Y := th } }

end TileTerm

/-! ## canvas.go: rendering and bitmaps -/

/-- A counting loop `for i := start; ...; i++` that runs its body `k` times on
a state the body may panic on. -/
def countLoop {σ : Type} (body : Int → σ → Option σ) : Nat → Int → σ → Option σ
  | 0, _, s => some s
  | k + 1, i, s =>
    match body i s with
    | none => none
    | some s => countLoop body k (i + 1) s

/-- A loop `for i, a := range l` from index `i` on. -/
def rangeLoop {α σ : Type} (body : Int → α → σ → Option σ) : Int → List α → σ → Option σ
  | _, [], s => some s
  | i, a :: rest, s =>
    match body i a s with
    | none => none
    | some s => rangeLoop body (i + 1) rest s

namespace Canvas

/-- The glyph of each 2x2 quadrant value (bits 1 2 / 4 8). -/
def BlocksDense : List Int :=
  [0x20, 0x2598, 0x259d, 0x2580, 0x2596, 0x258c, 0x259e, 0x259b,
   0x2597, 0x259a, 0x2590, 0x259c, 0x2584, 0x2599, 0x259f, 0x2588]

/-- The two glyphs of each 2x2 quadrant value in the 1x2 rendering. -/
def BlocksAspect : List (Int × Int) :=
  [(0x20, 0x20), (0x2580, 0x20), (0x20, 0x2580), (0x2580, 0x2580),
   (0x2584, 0x20), (0x2588, 0x20), (0x2584, 0x2580), (0x2588, 0x2580),
   (0x20, 0x2584), (0x2580, 0x2584), (0x20, 0x2588), (0x2580, 0x2588),
   (0x2584, 0x2584), (0x2588, 0x2584), (0x2584, 0x2588), (0x2588, 0x2588)]

/-- The text that the inner loop body of StringDense appends for the byte at
`index`; indexing the buffer or the glyph table out of range panics. -/
def denseCell (c : Canvas) (index : Int) : Option GoString :=
  match c.byteAt index with
  | none => none
  | some v =>
    match BlocksDense[v]? with
    | none => none
    | some g => some (sprintfC g)

/-- The text that the inner loop body of StringAspect appends for the byte at
`index`. -/
def aspectCell (c : Canvas) (index : Int) : Option GoString :=
  match c.byteAt index with
  | none => none
  | some v =>
    match BlocksAspect[v]? with
    | none => none
    | some g => some (sprintfC g.1 ++ sprintfC g.2)

/-- The two nested loops shared by StringAspect and StringDense, over the text
`cell` of one byte. -/
def renderWith (c : Canvas) (cell : Int → Option GoString) : Option GoString :=
  countLoop (fun y str =>
    match countLoop (fun x str =>
        match cell (y * c.bwidth + x) with
        | none => none
        | some g => some (str ++ g)) c.bwidth.toNat 0 str with
    | none => none
    | some str => some (str ++ [13, 10])) c.bheight.toNat 0 []

/-- Render the canvas to a string as "square" (1x2) pixels. -/
def StringAspect (c : Canvas) : Option GoString := c.renderWith c.aspectCell

/-- Render the canvas to a string as dense (2x2) rectangle pixels. -/
def StringDense (c : Canvas) : Option GoString := c.renderWith c.denseCell

/-- Bmp over an arbitrary plotting action: for every row `j`, byte `i` and
`b` from 0 to 7, plot when `e & bit == bit` with `bit := byte(0x80 >> b)`. -/
def bmpWith {σ : Type} (plot : σ → Int → Int → Option σ) (s : σ) (x y : Int)
    (bmp : List (List Nat)) : Option σ :=
  rangeLoop (fun j a s =>
    rangeLoop (fun i e s =>
      countLoop (fun b s =>
        let bit := (0x80 >>> b.toNat) % 256
        if e &&& bit = bit then plot s (x + i * 8 + b) (y + j) else some s) 8 0 s) 0 a s) 0 bmp s

/-- Bmp plots a bitmap to the canvas. -/
def Bmp (c : Canvas) (x y : Int) (bmp : List (List Nat)) : Option Canvas :=
  bmpWith Plot c x y bmp

/-- The coordinates that Bmp passes to Plot, in call order. -/
def bmpPlots (x y : Int) (bmp : List (List Nat)) : Option (List (Int × Int)) :=
  bmpWith recordPlot [] x y bmp

/-- The pixels of one byte `e`, the `i`-th of row `j`: bit `7 - b` of `e`
stands for the offset `b`, most significant bit leftmost. -/
def bytePoints (x y j i : Int) (e : Nat) : List (Int × Int) :=
  ((List.range 8).filter (fun b => e.testBit (7 - b))).map
    (fun (b : Nat) => (x + i * 8 + (b : Int), y + j))

/-- The pixels of the bytes of row `j`, from byte index `i` on. -/
def rowPoints (x y j : Int) : Int → List Nat → List (Int × Int)
  | _, [] => []
  | i, e :: rest => bytePoints x y j i e ++ rowPoints x y j (i + 1) rest

/-- The pixels of a bitmap, from row index `j` on. -/
def bmpPoints (x y : Int) : Int → List (List Nat) → List (Int × Int)
  | _, [] => []
  | j, a :: rest => rowPoints x y j 0 a ++ bmpPoints x y (j + 1) rest

/-- The buffer can be rendered: the extents are not negative, the buffer has
one byte per cell and every byte is a quadrant value (below 16). -/
def Renderable (c : Canvas) : Prop :=
  0 ≤ c.bwidth ∧ 0 ≤ c.bheight ∧ (c.value.length : Int) = c.bwidth * c.bheight ∧
    ∀ v ∈ c.value, v < 16

instance (c : Canvas) : Decidable c.Renderable := by unfold Renderable; infer_instance

/-- The text of `rows` rows of `cols` glyphs each, every row closed by "\r\n". -/
def glyphRows (rows : List (List Int)) : GoString :=
  (rows.map (fun row => (row.map sprintfC).flatten ++ [13, 10])).flatten

/-- A canvas of 3 x 3 pixels, 2 x 2 bytes, with the bytes 1, 0, 8, 15. -/
def quadCanvas : Canvas := Canvas.mk 3 3 2 2 [1, 0, 8, 15] false false

/-- The glyph of every cell of the buffer in the dense rendering, row by row. -/
def denseGlyphs (c : Canvas) : List (List Int) :=
  (List.range c.bheight.toNat).map (fun y =>
    (List.range c.bwidth.toNat).map (fun x =>
      BlocksDense.getD (c.value.getD (y * c.bwidth.toNat + x) 0) 0))

/-- The two glyphs of every cell of the buffer in the 1x2 rendering, row by
row. -/
def aspectGlyphs (c : Canvas) : List (List Int) :=
  (List.range c.bheight.toNat).map (fun y =>
    ((List.range c.bwidth.toNat).map (fun x =>
      [(BlocksAspect.getD (c.value.getD (y * c.bwidth.toNat + x) 0) (0, 0)).1,
       (BlocksAspect.getD (c.value.getD (y * c.bwidth.toNat + x) 0) (0, 0)).2])).flatten)

end Canvas

/-- The seven sentinel tokens of ReadKey. -/
def sentinels : List Int := [KeyUnknown, KeyUp, KeyDown, KeyLeft, KeyRight, KeyBackTab, KeyDel]

/-- A Unicode scalar value: a code point up to U+10FFFF outside the surrogate
band. -/
def validScalar (r : Int) : Prop := 0 ≤ r ∧ r ≤ 0x10FFFF ∧ ¬ (0xD800 ≤ r ∧ r ≤ 0xDFFF)

instance (r : Int) : Decidable (validScalar r) := by unfold validScalar; infer_instance

/-! ## csi.go and the render handler of TileType_ScrollUp -/

/-- The decimal digits of `n`, most significant first, in front of `acc`. -/
def digitsLoop : Nat → Nat → GoString → GoString
  | 0, _, acc => acc
  | fuel + 1, n, acc =>
    if n < 10 then (48 + n) :: acc else digitsLoop fuel (n / 10) ((48 + n % 10) :: acc)

/-- The bytes of `fmt.Sprintf("%d", n)`. -/
def sprintfD (n : Int) : GoString :=
  if n < 0 then 45 :: digitsLoop (n.natAbs + 1) n.natAbs []
  else digitsLoop (n.natAbs + 1) n.natAbs []

/-- The control sequence introducer, ESC '['. -/
def CSI : GoString := [0x1b, 0x5b]

/-- CUP - Cursor Position: `fmt.Sprintf("%s%d;%dH", CSI, n, m)`. -/
def CUP (m n : Int) : GoString := CSI ++ sprintfD n ++ [59] ++ sprintfD m ++ [72]

/-- The function `strings.Repeat`, which panics on a negative count. -/
def stringsRepeat (s : GoString) (count : Int) : Option GoString :=
  if count < 0 then none else some (List.replicate count.toNat s).flatten

/-- The function `strings.Split` for a separator of one byte. -/
def stringsSplit (sep : Nat) : GoString → List GoString
  | [] => [[]]
  | b :: rest =>
    if b = sep then [] :: stringsSplit sep rest
    else
      match stringsSplit sep rest with
      | [] => [[b]]
      | l :: ls => (b :: l) :: ls

/-- Indexing of a slice with an `int`: out of range panics. -/
def sliceAt {α : Type} (l : List α) (i : Int) : Option α :=
  if i < 0 then none else l[i.toNat]?

/-- The loop of wrapStr.  The slice expression `str[:ln]` panics when `ln` is
negative. -/
def wrapLoop (ln : Int) : Nat → GoString → List GoString → Option (List GoString)
  | 0, _, _ => none
  | fuel + 1, str, out =>
    if (str.length : Int) > 0 then
      if (str.length : Int) > ln then
        if ln < 0 then none
        else wrapLoop ln fuel (str.drop ln.toNat) (out ++ [str.take ln.toNat])
      else
        match stringsRepeat [32] (ln - str.length) with
        | none => none
        | some pad => wrapLoop ln fuel [] (out ++ [str ++ pad])
    else some out

/-- Function wrapStr returns single string s as strings that are clipped or
space padded. -/
def wrapStr (fuel : Nat) (s : GoString) (ln : Int) : Option (List GoString) :=
  if ln = 0 then some []
  else
    let str := if s.length = 0 then [32] else s
    wrapLoop ln fuel str []

/-- A counting loop `for y := start; ...; y--` that runs its body `k` times. -/
def countDown {σ : Type} (body : Int → σ → Option σ) : Nat → Int → σ → Option σ
  | 0, _, s => some s
  | k + 1, y, s =>
    match body y s with
    | none => none
    | some s => countDown body k (y - 1) s

/-- The local variables of su_RenderText that its loop changes. -/
structure SuState where
  str : GoString
  sub : List GoString
  curSub : Int
  curSS : Int
deriving DecidableEq, Repr

/-- The body of the loop of su_RenderText for the screen row `y`. -/
def su_RenderRow (fuel : Nat) (t : Tile) (ss : List GoString) (blankLine : GoString) (y : Int)
    (st : SuState) : Option SuState :=
  let str := st.str ++ CUP t.bounds.Min.X y
  if st.curSub ≥ 0 then
    match sliceAt st.sub st.curSub with
    | none => none
    | some newLine => some { st with str := str ++ newLine, curSub := st.curSub - 1 }
  else if st.curSS ≥ 0 then
    match sliceAt ss st.curSS with
    | none => none
    | some s =>
      match wrapStr fuel s t.Width with
      | none => none
      | some sub =>
        let curSub : Int := sub.length - 1
        match sliceAt sub curSub with
        | none => none
        | some newLine =>
          some { str := str ++ newLine, sub := sub, curSub := curSub - 1, curSS := st.curSS - 1 }
  else some { st with str := str ++ blankLine }

/-- The logical lines of a ScrollUp tile: the buffer split at "\n", the last
piece replaced by `cursor + line`. -/
def su_Lines (t : Tile) : List GoString :=
  let ss := stringsSplit 10 t.buffer
  ss.set (ss.length - 1) (t.cursor ++ t.line)

/-- The render handler of TileType_ScrollUp: the text it returns and the tile
with its cursor position set.  The fuel is that of each wrapStr call. -/
def su_RenderText (fuel : Nat) (t : Tile) : Option (Tile × GoString) :=
  match stringsRepeat [32] t.Width with
  | none => none
  | some blankLine =>
    let ss := su_Lines t
    match countDown (su_RenderRow fuel t ss blankLine) t.Height.toNat t.bounds.Max.Y
        { str := [], sub := [], curSub := -1, curSS := (ss.length : Int) - 1 } with
    | none => none
    | some st =>
      let t := { t with curPos := { X := t.bounds.Min.X, Y := t.bounds.Max.Y } }
      let t := { t with curPos := { t.curPos with X := t.curPos.X + (t.cursor.length + t.line.length) } }
      some (t, st.str)

/-- The text of positioned rows, the first at screen row `y`, each next one a
row higher. -/
def emitRows (x : Int) : Int → List GoString → GoString
  | _, [] => []
  | y, r :: rs => CUP x y ++ r ++ emitRows x (y - 1) rs

/-- The last `h` rows of `rows`, top to bottom, preceded by blank rows when
there are fewer than `h`. -/
def lastRows (h : Nat) (blank : GoString) (rows : List GoString) : List GoString :=
  (List.replicate h blank ++ rows).drop rows.length

/-- The rows of one logical line: what wrapStr returns for it. -/
def rowsOf (fuel : Nat) (ln : Int) (s : GoString) : List GoString := (wrapStr fuel s ln).getD []

/-- The rows that the loop of su_RenderText has still to emit, top to bottom:
those of the logical lines not yet wrapped and those left of `sub`. -/
def pendingRows (fuel : Nat) (ln : Int) (ss : List GoString) (st : SuState) : List GoString :=
  ((ss.take (st.curSS + 1).toNat).map (rowsOf fuel ln)).flatten ++
    st.sub.take (st.curSub + 1).toNat

/-- The two indices of the loop of su_RenderText are in range. -/
def SuInv (ss : List GoString) (st : SuState) : Prop :=
  -1 ≤ st.curSub ∧ st.curSub + 1 ≤ st.sub.length ∧ -1 ≤ st.curSS ∧ st.curSS + 1 ≤ ss.length

/-- A ScrollUp tile of 5 columns and 3 rows with the buffer "hi\n", the cursor
"> " and the input line "x". -/
def suDemoTile : Tile :=
  { TileTerm.rootTile with
    bounds := ⟨⟨1, 1⟩, ⟨5, 3⟩⟩, buffer := [104, 105, 10], cursor := [62, 32], line := [120] }

/-! ## format/formatTextClipCol.go

The functions of the Go standard library that FormatTextClipCol calls are
modelled by their documented behaviour: UTF-8 decoding as in
`utf8.DecodeRuneInString` (which the `range` loop over a string performs),
`strings.Replace` with count -1, and `unicode.IsPrint`, whose Latin-1 part is
the table of package unicode and whose part above U+00FF is the parameter
`beyond`. -/

/-- The rune `utf8.RuneError`, U+FFFD. -/
def RuneError : Int := 0xFFFD

/-- The function `utf8.DecodeRuneInString`: the first rune of `s` and its width
in bytes; `(RuneError, 1)` for an invalid or truncated encoding and
`(RuneError, 0)` for the empty string. -/
def decodeRune (s : GoString) : Int × Nat :=
  match s with
  | [] => (RuneError, 0)
  | s0 :: _ =>
    if s0 < 0x80 then ((s0 : Int), 1)
    else if s0 < 0xC2 ∨ 0xF4 < s0 then (RuneError, 1)
    else
      let sz := if s0 < 0xE0 then 2 else if s0 < 0xF0 then 3 else 4
      let lo := if s0 = 0xE0 then 0xA0 else if s0 = 0xF0 then 0x90 else 0x80
      let hi := if s0 = 0xED then 0x9F else if s0 = 0xF4 then 0x8F else 0xBF
      if s.length < sz then (RuneError, 1)
      else
        let s1 := s.getD 1 0
        if s1 < lo ∨ hi < s1 then (RuneError, 1)
        else if sz ≤ 2 then (((s0 % 32 * 64 + s1 % 64 : Nat) : Int), 2)
        else
          let s2 := s.getD 2 0
          if s2 < 0x80 ∨ 0xBF < s2 then (RuneError, 1)
          else if sz ≤ 3 then (((s0 % 16 * 4096 + s1 % 64 * 64 + s2 % 64 : Nat) : Int), 3)
          else
            let s3 := s.getD 3 0
            if s3 < 0x80 ∨ 0xBF < s3 then (RuneError, 1)
            else
              (((s0 % 8 * 262144 + s1 % 64 * 4096 + s2 % 64 * 64 + s3 % 64 : Nat) : Int), 4)

/-- The runes that `for _, r = range s` yields, `k` bytes of `s` being the
rest of the rune decoded last. -/
def runesFrom : Nat → GoString → List Int
  | _, [] => []
  | 0, b :: rest => (decodeRune (b :: rest)).1 :: runesFrom ((decodeRune (b :: rest)).2 - 1) rest
  | k + 1, _ :: rest => runesFrom k rest

/-- The runes that `for _, r = range s` yields. -/
def stringRunes (s : GoString) : List Int := runesFrom 0 s

/-- The function `utf8.RuneCountInString`. -/
def RuneCountInString (s : GoString) : Int := (stringRunes s).length

/-- The function `unicode.IsPrint`: letters, marks, numbers, punctuation,
symbols and the ASCII space.  Up to U+00FF these are 0x20..0x7E and 0xA1..0xFF
without the soft hyphen 0xAD; `beyond` is the table for the rest. -/
def IsPrint (beyond : Int → Bool) (r : Int) : Bool :=
  if 0 ≤ r ∧ r ≤ 0xFF then decide ((0x20 ≤ r ∧ r ≤ 0x7E) ∨ (0xA1 ≤ r ∧ r ≠ 0xAD))
  else beyond r

/-- The call `strings.Replace(text, "\r\n", "\n", -1)`. -/
def replaceCRLF : GoString → GoString
  | [] => []
  | [b] => [b]
  | b1 :: b2 :: rest =>
    if b1 = 13 ∧ b2 = 10 then 10 :: replaceCRLF rest else b1 :: replaceCRLF (b2 :: rest)

/-- The call `strings.Replace(text, old, new, -1)` for an `old` of one byte. -/
def replaceByte (old : Nat) (new : GoString) (text : GoString) : GoString :=
  (text.map (fun b => if b = old then new else [b])).flatten

/-- The local variables `c`, `j` and the builder `b` of FormatTextClipCol. -/
structure ClipState where
  c : Int
  j : Int
  b : GoString
deriving DecidableEq, Repr

/-- The body of the loop over the runes of one line. -/
def clipRune (isPrint : Int → Bool) (width col : Int) (st : ClipState) (r : Int) : ClipState :=
  let st :=
    if st.c ≥ col ∧ st.c < col + width then { st with b := st.b ++ sprintfC r, j := st.j + 1 }
    else st
  if isPrint r then { st with c := st.c + 1 } else st

/-- The body of the loop over the lines: the new value of `lines[i]`. -/
def clipLine (isPrint : Int → Bool) (width col : Int) (blankLine : GoString) (line : GoString) :
    Option GoString :=
  let st := (stringRunes line).foldl (clipRune isPrint width col) { c := 0, j := 0, b := [] }
  if st.j = 0 then some blankLine
  else if st.c ≥ col ∧ st.c < col + width then
    match stringsRepeat [32] (col + width - st.c) with
    | none => none
    | some pad => some (st.b ++ pad)
  else some st.b

/-- The loop over the lines. -/
def clipLines (isPrint : Int → Bool) (width col : Int) (blankLine : GoString) :
    List GoString → Option (List GoString)
  | [] => some []
  | line :: rest =>
    match clipLine isPrint width col blankLine line with
    | none => none
    | some l =>
      match clipLines isPrint width col blankLine rest with
      | none => none
      | some ls => some (l :: ls)

/-- FormatTextClipCol preserves tabs and newlines.  Lines longer than width
are clipped at width.  All lines space padded to width.  Each single visible
rune counts toward width, beginning at column col. -/
def FormatTextClipCol (isPrint : Int → Bool) (text : GoString) (width tabSize col : Int) :
    Option (List GoString) :=
  let text := replaceCRLF text
  let text := replaceByte 13 [10] text
  match stringsRepeat [32] tabSize with
  | none => none
  | some tab =>
    let text := replaceByte 9 tab text
    let lines := stringsSplit 10 text
    match stringsRepeat [32] width with
    | none => none
    | some blankLine => clipLines isPrint width col blankLine lines

/-- The lines that the loop of FormatTextClipCol runs over: the text after the
three replacements, split at "\n"; `tab` is the replacement of a tab. -/
def textLines (text tab : GoString) : List GoString :=
  stringsSplit 10 (replaceByte 9 tab (replaceByte 13 [10] (replaceCRLF text)))

/-- The encoding of a list of runes, as WriteRune appends them. -/
def encodeRunes (ws : List Int) : GoString := (ws.map sprintfC).flatten

/-- What holds of the loop variables after some runes of a line, `ws` being the
runes written so far: the builder holds their encoding, `j` counts them, the
printable ones among them are those counted by `c` inside the window, and
before each of them fewer than `width` printable runes were written. -/
def ClipInv (isPrint : Int → Bool) (width col : Int) (st : ClipState) (ws : List Int) : Prop :=
  st.b = encodeRunes ws ∧ st.j = ws.length ∧
    (ws.countP isPrint : Int) = max 0 (min st.c (col + width) - col) ∧
    (0 < st.j → col ≤ st.c) ∧
    (∀ k, k < ws.length → ((ws.take k).countP isPrint : Int) < width)

/-! ## Rendering of a session: tile.go, handler.go, tileterm.go -/

/-- CUU - Cursor Up. -/
def CUU (n : Int) : GoString := CSI ++ sprintfD n ++ [65]

/-- CUD - Cursor Down. -/
def CUD (n : Int) : GoString := CSI ++ sprintfD n ++ [66]

/-- CUB - Cursor Back. -/
def CUB (n : Int) : GoString := CSI ++ sprintfD n ++ [68]

def SGR_Bold : Int := 1

def SGR_Negative : Int := 7

/-- SGR - Select Graphic Rendition. -/
def SGR (n : List Int) : GoString :=
  match n with
  | [] => []
  | n0 :: rest => CSI ++ sprintfD n0 ++ (rest.map (fun k => 59 :: sprintfD k)).flatten ++ [109]

/-- HLine is a helper to make a horizontal line using a character. -/
def HLine (x1 x2 y c : Int) : Option GoString :=
  match stringsRepeat (sprintfC c) (x2 - x1) with
  | none => none
  | some line => some (CUP x1 y ++ line)

/-- HLineText is a helper to make a horizontal line with text in the center;
the style is applied to the text. -/
def HLineText (x1 x2 y c : Int) (text : GoString) (style : List Int) : Option GoString :=
  let h := Int.tdiv (x2 - x1 - text.length) 2
  match stringsRepeat (sprintfC c) h with
  | none => none
  | some left =>
    let str := CUP x1 y ++ left
    let str := str ++ (SGR style ++ text ++ SGR [0])
    match stringsRepeat (sprintfC c) (x2 - x1 - text.length - h) with
    | none => none
    | some right => some (str ++ right)

/-- VLine is a helper to make a vertical line using a character. -/
def VLine (x y1 y2 c : Int) : Option GoString :=
  match stringsRepeat (sprintfC c ++ CUB 1 ++ CUD 1) (y2 - y1) with
  | none => none
  | some line => some (CUP x y1 ++ line)

/-- CharAt places a character at a location. -/
def CharAt (x y c : Int) : GoString := CUP x y ++ sprintfC c

def Box_Horiz : Nat := 0
def Box_Vert : Nat := 1
def Box_UL : Nat := 2
def Box_UR : Nat := 3
def Box_LL : Nat := 4
def Box_LR : Nat := 5

/-- Box returns a box using a char set, with optional top title that can be
styled.  The char set is an array of six elements in the source. -/
def Box (r : Rect) (chars : List Int) (text : GoString) (style : List Int) : Option GoString :=
  if r.Max.X - r.Min.X < 2 ∨ r.Max.Y - r.Min.Y < 2 then some []
  else
    let str := CharAt r.Min.X r.Min.Y (chars.getD Box_UL 0)
    let str := str ++ CUU 1
    let top :=
      if (text.length : Int) > r.Max.X - r.Min.X then
        HLine (r.Min.X + 1) r.Max.X r.Min.Y (chars.getD Box_Horiz 0)
      else HLineText (r.Min.X + 1) r.Max.X r.Min.Y (chars.getD Box_Horiz 0) text style
    match top with
    | none => none
    | some top =>
      let str := str ++ top
      let str := str ++ CharAt r.Max.X r.Min.Y (chars.getD Box_UR 0)
      match VLine r.Max.X (r.Min.Y + 1) r.Max.Y (chars.getD Box_Vert 0) with
      | none => none
      | some right =>
        let str := str ++ right
        let str := str ++ CharAt r.Max.X r.Max.Y (chars.getD Box_LR 0)
        match HLine (r.Min.X + 1) r.Max.X r.Max.Y (chars.getD Box_Horiz 0) with
        | none => none
        | some bottom =>
          let str := str ++ bottom
          let str := str ++ CharAt r.Min.X r.Max.Y (chars.getD Box_LL 0)
          match VLine r.Min.X (r.Min.Y + 1) r.Max.Y (chars.getD Box_Vert 0) with
          | none => none
          | some left => some (str ++ left)

/-- The method renderOutline of a tile renders the tile outline. -/
def Tile.renderOutline (t : Tile) (focus : Bool) : Option GoString :=
  match t.outline with
  | none => some []
  | some chars =>
    if focus then Box (IncRect t.bounds) chars t.name [SGR_Negative, SGR_Bold]
    else Box (IncRect t.bounds) chars t.name []

/-- Function renderLinesDown renders top to bottom any lines that lie within
the tile boundary, using blank lines as needed; `origin` sets the cursor
position. -/
def renderLinesDown (t : Tile) (lines : List GoString) (origin : Tile → Tile) :
    Option (Tile × GoString) :=
  match stringsRepeat [32] t.Width with
  | none => none
  | some blankLine =>
    match countLoop (fun y str =>
        let str := str ++ CUP t.bounds.Min.X y
        let index := y - t.bounds.Min.Y + t.start.Y
        if index ≥ 0 ∧ index < lines.length then
          match sliceAt lines index with
          | none => none
          | some newLine => some (str ++ newLine)
        else some (str ++ blankLine)) t.Height.toNat t.bounds.Min.Y [] with
    | none => none
    | some str => some (origin t, str)

def sd_SetCurPosOrigin (t : Tile) : Tile :=
  { t with curPos := { X := t.bounds.Min.X, Y := t.bounds.Min.Y } }

/-- What the render handlers take from outside this package: the fuel of the
wrapStr calls, the table of `unicode.IsPrint` above U+00FF, and the function
`format.FormatTextBreak`, whose source is not part of the files at hand. -/
structure RenderEnv where
  fuel : Nat
  beyond : Int → Bool
  FormatTextBreak : GoString → Int → Int → Option (List GoString)

/-- The render handler of TileType_ScrollDown. -/
def sd_RenderText (env : RenderEnv) (t : Tile) : Option (Tile × GoString) :=
  let tabs := 3
  match env.FormatTextBreak t.buffer t.Width tabs with
  | none => none
  | some lines => renderLinesDown t lines sd_SetCurPosOrigin

/-- The render handler of TileType_ScrollDownClip and
TileType_ScrollDownClipRaw. -/
def sdc_RenderText (env : RenderEnv) (t : Tile) : Option (Tile × GoString) :=
  let tabs := 3
  match FormatTextClipCol (IsPrint env.beyond) t.buffer t.Width tabs t.start.X with
  | none => none
  | some lines => renderLinesDown t lines sd_SetCurPosOrigin

/-- The field Render of the entry of the handler table that the tile points
to. -/
def Tile.Render (env : RenderEnv) (t : Tile) : Option (Tile × GoString) :=
  match t.handler with
  | TileType.TileType_ScrollDown => sd_RenderText env t
  | TileType.TileType_ScrollDownClip => sdc_RenderText env t
  | TileType.TileType_ScrollDownClipRaw => sdc_RenderText env t
  | TileType.TileType_ScrollUp => su_RenderText env.fuel t

/-- The result of a session method, when it has one. -/
def Run.result? {α : Type} : Run α → Option α
  | Run.done a => some a
  | _ => none

namespace TileTerm

/-- The loop of dirtyAllTiles. -/
def dirtyLoop : List Nat → TileTerm → Option TileTerm
  | [], tTerm => some tTerm
  | v :: rest, tTerm =>
    match tTerm.heap[v]? with
    | none => none
    | some t => dirtyLoop rest { tTerm with heap := tTerm.heap.set v t.setDirty }

/-- The method dirtyAllTiles sets all tiles to dirty. -/
def dirtyAllTiles (tTerm : TileTerm) : Run TileTerm :=
  if tTerm.lock then Run.blocked
  else
    match dirtyLoop tTerm.tiles { tTerm with lock := true } with
    | none => Run.panic
    | some tTerm => Run.done { tTerm with lock := false }

/-- The method setSize sets the size of the TileTerm session. -/
def setSize (tTerm : TileTerm) (width height : Int) : Run TileTerm :=
  if tTerm.lock then Run.blocked
  else Run.done { tTerm with width := width, height := height }

/-- The method getSize returns the size of the TileTerm session. -/
def getSize (tTerm : TileTerm) : Int × Int := (tTerm.width, tTerm.height)

/-- The method renderCursor renders the cursor of the focus tile. -/
def renderCursor (tTerm : TileTerm) : Option GoString :=
  match tTerm.focus with
  | none => some []
  | some f =>
    match tTerm.heap[f]? with
    | none => none
    | some ft => some (CUP ft.curPos.X ft.curPos.Y)

/-- The loop of the method renderOutline of the session. -/
def renderOutlineLoop (tTerm : TileTerm) : List Nat → GoString → Option GoString
  | [], str => some str
  | w :: rest, str =>
    match tTerm.heap[w]? with
    | none => none
    | some wt =>
      match wt.renderOutline (decide (tTerm.focus = some w)) with
      | none => none
      | some s => renderOutlineLoop tTerm rest (str ++ s)

/-- The method renderOutline renders the borders of all tiles. -/
def renderOutline (tTerm : TileTerm) : Option GoString :=
  renderOutlineLoop tTerm tTerm.tiles []

/-- The loop of renderText. -/
def renderTextLoop (env : RenderEnv) : List Nat → TileTerm → GoString →
    Option (TileTerm × GoString)
  | [], tTerm, str => some (tTerm, str)
  | v :: rest, tTerm, str =>
    match tTerm.heap[v]? with
    | none => none
    | some t =>
      if t.dirty then
        match t.Render env with
        | none => none
        | some (t2, s) =>
          renderTextLoop env rest { tTerm with heap := tTerm.heap.set v t2 } (str ++ s)
      else renderTextLoop env rest tTerm str

/-- The method renderText renders the text of any dirty tile. -/
def renderText (env : RenderEnv) (tTerm : TileTerm) : Option (TileTerm × GoString) :=
  match renderTextLoop env tTerm.tiles tTerm [] with
  | none => none
  | some (tTerm, str) =>
    match tTerm.renderCursor with
    | none => none
    | some cur => some (tTerm, str ++ cur)

/-- The block of String that is run for a full redraw. -/
def fullRedraw (tTerm : TileTerm) (w h : Int) : Run (TileTerm × GoString) :=
  match tTerm.dirtyAllTiles with
  | Run.done tTerm =>
    match tTerm.setSize w h with
    | Run.done tTerm =>
      match tTerm.layoutTiles with
      | Run.done tTerm =>
        match tTerm.renderOutline with
        | none => Run.panic
        | some str => Run.done (tTerm, str)
      | Run.panic => Run.panic
      | Run.blocked => Run.blocked
      | Run.outOfFuel => Run.outOfFuel
    | Run.panic => Run.panic
    | Run.blocked => Run.blocked
    | Run.outOfFuel => Run.outOfFuel
  | Run.panic => Run.panic
  | Run.blocked => Run.blocked
  | Run.outOfFuel => Run.outOfFuel

/-- The method String returns the current string of the rendered TileTerm
session.  `size` is what `term.GetSize` returns, `none` for an error. -/
def String (env : RenderEnv) (size : Option (Int × Int)) (tTerm : TileTerm) :
    Run (TileTerm × GoString) :=
  match size with
  | none => Run.panic
  | some (w, h) =>
    let (cw, ch) := tTerm.getSize
    let first : Run (TileTerm × GoString) :=
      if cw ≠ w ∨ ch ≠ h ∨ tTerm.dirty then tTerm.fullRedraw w h
      else Run.done (tTerm, [])
    match first with
    | Run.done (tTerm, str) =>
      match tTerm.renderText env with
      | none => Run.panic
      | some (tTerm, text) => Run.done (tTerm, str ++ text)
    | Run.panic => Run.panic
    | Run.blocked => Run.blocked
    | Run.outOfFuel => Run.outOfFuel

/-- A session with one ScrollUp tile, the root, made by AddTile on a new
session, after "hi\n" was written to the tile (Write sets the tile dirty). -/
def oneTile : TileTerm :=
  let s := afterAddTile NewTileTerm [] [62, 32] SingleBox ⟨1, 1⟩ LocType.Loc_Top none
    TileType.TileType_ScrollUp
  { s with heap := s.heap.map (fun t => { t with buffer := [104, 105, 10], dirty := true }) }

/-- An environment for the render handlers: fuel 20 and tables that are not
consulted by a ScrollUp tile. -/
def demoEnv : RenderEnv :=
  { fuel := 20, beyond := fun _ => true, FormatTextBreak := fun _ _ _ => some [] }

end TileTerm

namespace TileTerm

/-- The texts of two consecutive renders of a session with the terminal size
`size` at both, nothing being done to the session between them. -/
def renderTwice (env : RenderEnv) (size : Option (Int × Int)) (tTerm : TileTerm) :
    Option (GoString × GoString) :=
  match String env size tTerm with
  | Run.done (s1, out1) =>
    match String env size s1 with
    | Run.done (_, out2) => some (out1, out2)
    | _ => none
  | _ => none

end TileTerm

namespace TileTerm

/-- The dirty flag of the session and those of its tile objects after one
render. -/
def dirtyAfter (env : RenderEnv) (size : Option (Int × Int)) (tTerm : TileTerm) :
    Option (Bool × List Bool) :=
  match String env size tTerm with
  | Run.done (s1, _) => some (s1.dirty, s1.heap.map (fun t => t.dirty))
  | _ => none

end TileTerm

/-! ## Degenerate geometry, reachable states -/

/-- ClearRect returns a clear rectangle of spaces. -/
def ClearRect (r : Rect) : Option GoString :=
  if r.Max.X - r.Min.X < 1 ∨ r.Max.Y - r.Min.Y < 1 then some []
  else
    match stringsRepeat [32] (r.Max.X - r.Min.X + 1) with
    | none => none
    | some spc =>
      countLoop (fun j str => some (str ++ CUP r.Min.X j ++ spc))
        (r.Max.Y - r.Min.Y + 1).toNat r.Min.Y []

/-- The method Clear of a tile clears the tile. -/
def Tile.Clear (t : Tile) : Option GoString := ClearRect t.bounds

namespace Canvas

def SBox_Horiz : Int := 0x2501

def SBox_Vert : Int := 0x2503

def SBox_UL : Int := 0x250F

def SBox_UR : Int := 0x2513

def SBox_LL : Int := 0x2517

def SBox_LR : Int := 0x251B

/-- The statements shared by StringAspectBorder and StringDenseBorder, over the
text `cell` of one byte and the number `k` of glyphs per byte: the top bar, the
rows between two vertical bars, the bottom bar. -/
def renderBorderWith (c : Canvas) (cell : Int → Option GoString) (k : Int) : Option GoString :=
  match stringsRepeat (sprintfC SBox_Horiz) (c.bwidth * k) with
  | none => none
  | some bar =>
    let str := sprintfC SBox_UL
    let str := str ++ bar
    let str := str ++ (sprintfC SBox_UR ++ [13, 10])
    match countLoop (fun y str =>
        let str := str ++ sprintfC SBox_Vert
        match countLoop (fun x str =>
            match cell (y * c.bwidth + x) with
            | none => none
            | some g => some (str ++ g)) c.bwidth.toNat 0 str with
        | none => none
        | some str => some (str ++ (sprintfC SBox_Vert ++ [13, 10]))) c.bheight.toNat 0 str with
    | none => none
    | some str =>
      let str := str ++ sprintfC SBox_LL
      let str := str ++ bar
      some (str ++ (sprintfC SBox_LR ++ [13, 10]))

/-- Render the canvas to a string as "square" (1x2) pixels, with a border. -/
def StringAspectBorder (c : Canvas) : Option GoString := c.renderBorderWith c.aspectCell 2

/-- Render the canvas to a string as dense (2x2) rectangle pixels, with a
border. -/
def StringDenseBorder (c : Canvas) : Option GoString := c.renderBorderWith c.denseCell 1

/-- The canvas states that a program can reach: Init, then any sequence of
Plot, Line, Bmp and Clear calls that return, and of mode toggles. -/
inductive Reachable : Canvas → Prop
  | init (w h : Int) (c : Canvas) : Init w h = some c → Reachable c
  | plot (c d : Canvas) (x y : Int) : Reachable c → c.Plot x y = some d → Reachable d
  | line (c d : Canvas) (fuel : Nat) (x0 y0 x1 y1 : Int) :
      Reachable c → c.Line fuel x0 y0 x1 y1 = some d → Reachable d
  | bmp (c d : Canvas) (x y : Int) (bmp : List (List Nat)) :
      Reachable c → c.Bmp x y bmp = some d → Reachable d
  | clear (c : Canvas) : Reachable c → Reachable c.Clear
  | plotXor (c : Canvas) : Reachable c → Reachable c.PlotXor
  | plotOr (c : Canvas) : Reachable c → Reachable c.PlotOr
  | plotWrap (c : Canvas) : Reachable c → Reachable c.PlotWrap
  | plotUnwrap (c : Canvas) : Reachable c → Reachable c.PlotUnwrap

/-- The bits that a sequence of xor-plots, given as (byte index, bit mask)
pairs, flips in the byte `k`. -/
def xorMask : List (Nat × Nat) → Nat → Nat
  | [], _ => 0
  | q :: rest, k => (if q.1 = k then q.2 else 0) ^^^ xorMask rest k

/-- The (byte index, bit mask) pair of each in-range coordinate of a list. -/
def cellsOf (c : Canvas) (ps : List (Int × Int)) : List (Nat × Nat) :=
  ps.map (fun p => ((cellIndex c p.1 p.2).toNat, 2 ^ cellBit p.1 p.2))

/-- What is established about the trace of Line beyond `LineOK`: no coordinate
twice, and every coordinate in the box of the end points. -/
def lineOnce (x0 y0 x1 y1 : Int) (pts : List (Int × Int)) : Prop :=
  pts.length = lineSteps x0 y0 x1 y1 ∧ pts.Nodup ∧
    ∀ p ∈ pts, min x0 x1 ≤ p.1 ∧ p.1 ≤ max x0 x1 ∧ min y0 y1 ≤ p.2 ∧ p.2 ≤ max y0 y1

/-- A canvas of 10 x 6 pixels in xor mode with some pixels set. -/
def xorCanvas : Canvas := Canvas.mk 10 6 6 4 ((List.range 24).map (fun i => i % 16)) true false

end Canvas

namespace TileTerm

/-- The session states that the claim of the tile tree speaks about: a new
session, then any sequence of AddTile calls that return a tile and of
DeleteTile calls that return. -/
inductive Reachable : TileTerm → Prop
  | new : Reachable NewTileTerm
  | add (t u : TileTerm) (name cursor : GoString) (outline : List Int) (fraction : Frac)
      (location : LocType) (parent : Option Nat) (handler : TileType) (p : Nat) :
      Reachable t →
      t.AddTile name cursor outline fraction location parent handler =
        Run.done (u, some p, none) →
      Reachable u
  | delete (t u : TileTerm) (fuel : Nat) (tile : Option Nat) :
      Reachable t → DeleteTile fuel t tile = Run.done u → Reachable u

/-- The parent passed to AddTile is nil for the first tile of the list and a
tile of the list for a later one. -/
def ParentListed (t : TileTerm) (parent : Option Nat) : Prop :=
  match parent with
  | none => t.tiles = []
  | some p => p ∈ t.tiles

/-- The session states reached when every AddTile call names a parent that is
in the tile list at the time of the call. -/
inductive ReachableListed : TileTerm → Prop
  | new : ReachableListed NewTileTerm
  | add (t u : TileTerm) (name cursor : GoString) (outline : List Int) (fraction : Frac)
      (location : LocType) (parent : Option Nat) (handler : TileType) (p : Nat) :
      ReachableListed t → t.ParentListed parent →
      t.AddTile name cursor outline fraction location parent handler =
        Run.done (u, some p, none) →
      ReachableListed u
  | delete (t u : TileTerm) (fuel : Nat) (tile : Option Nat) :
      ReachableListed t → DeleteTile fuel t tile = Run.done u → ReachableListed u

/-- Tile 0 of the list has no parent, and the parent of every later tile of the
list is a tile of the list. -/
def ParentsInList (t : TileTerm) : Prop :=
  (∀ v, t.tiles[0]? = some v → ∃ vt, t.heap[v]? = some vt ∧ vt.parent = none) ∧
    ∀ i v, 0 < i → t.tiles[i]? = some v →
      ∃ vt p, t.heap[v]? = some vt ∧ vt.parent = some p ∧ p ∈ t.tiles

/-- Along the list `rest`, which follows the tiles `seen`: the first tile of
the whole list has no parent, and the parent of every other tile is a tile
before it. -/
def ParentsBefore (heap : List Tile) : List Nat → List Nat → Prop
  | _, [] => True
  | seen, v :: rest =>
    (∃ vt, heap[v]? = some vt ∧
        ((seen = [] ∧ vt.parent = none) ∨ ∃ p, p ∈ seen ∧ vt.parent = some p)) ∧
      ParentsBefore heap (seen ++ [v]) rest

/-- The session after DeleteTile, or the session itself when DeleteTile does
not return. -/
def afterDeleteTile (fuel : Nat) (tTerm : TileTerm) (tile : Option Nat) : TileTerm :=
  match DeleteTile fuel tTerm tile with
  | Run.done tTerm => tTerm
  | _ => tTerm

/-- The session after AddTile(root) and AddTile(child of root): the tiles are
the pointers 0 and 1. -/
def twoLevel : TileTerm :=
  (NewTileTerm.afterAddTile [] [] SingleBox ⟨1, 1⟩ LocType.Loc_Top none
      TileType.TileType_ScrollUp).afterAddTile [] [] SingleBox ⟨1, 2⟩ LocType.Loc_Top (some 0)
    TileType.TileType_ScrollDown

/-- The session made from `twoLevel` by DeleteTile(child) and an AddTile with
the deleted child as parent. -/
def staleParent : TileTerm :=
  (afterDeleteTile 1 twoLevel (some 1)).afterAddTile [] [] SingleBox ⟨1, 2⟩ LocType.Loc_Top
    (some 1) TileType.TileType_ScrollDown

/-- The session made from `threeLevel` by DeleteTile(grandchild) and an AddTile
with the root as parent. -/
def regrown : TileTerm :=
  (afterDeleteTile 1 threeLevel (some 2)).afterAddTile [] [] SingleBox ⟨1, 2⟩ LocType.Loc_Top
    (some 0) TileType.TileType_ScrollDown

end TileTerm

namespace TileTerm

/-- The extent of the rectangle `pr` along the axis that the switch of
layoutTiles splits for `location`: the height for Top and Bottom, the width for
Left and Right. -/
def splitExtent (location : LocType) (pr : Rect) : Int :=
  match location with
  | LocType.Loc_Top => pr.Max.Y - pr.Min.Y + 1
  | LocType.Loc_Bottom => pr.Max.Y - pr.Min.Y + 1
  | LocType.Loc_Left => pr.Max.X - pr.Min.X + 1
  | LocType.Loc_Right => pr.Max.X - pr.Min.X + 1

/-- The session made on a new session by AddTile of a root with the box
character set `o1` and AddTile of a child of the root with the box character
set `o2`, edge Top and the given fraction, with the terminal size `tw` x `th`
as setSize stores it. -/
def rootChild (o1 o2 : List Int) (fraction : Frac) (tw th : Int) : TileTerm :=
  { (NewTileTerm.afterAddTile [] [] o1 ⟨1, 1⟩ LocType.Loc_Top none
        TileType.TileType_ScrollUp).afterAddTile [] [] o2 fraction LocType.Loc_Top (some 0)
      TileType.TileType_ScrollDown with
    width := tw, height := th }

/-- The bounds of the tiles of the list, in list order, after layoutTiles. -/
def layoutBounds (tTerm : TileTerm) : Option (List (Option Rect)) :=
  match tTerm.layoutTiles with
  | Run.done u => some (u.tiles.map (fun v => (u.heap[v]?).map (fun t => t.bounds)))
  | _ => none

/-- The session after AddTile(root) and DeleteTile(root): no tile is left. -/
def emptied : TileTerm :=
  afterDeleteTile 1 (NewTileTerm.afterAddTile [] [] SingleBox ⟨1, 1⟩ LocType.Loc_Top none
    TileType.TileType_ScrollUp) (some 0)

end TileTerm

end Termfun

/-! ## Theorems -/

namespace Termfun

namespace Canvas

theorem normAxis_clamp (extent v : Int) (h : 1 ≤ extent) :
    normAxis false extent v = some (clampTo extent v) := by
  unfold normAxis clampTo
  simp only [Bool.false_and, Bool.false_eq_true, if_false, Option.some.injEq]
  split_ifs <;> omega

theorem clampTo_range (extent v : Int) (h : 1 ≤ extent) :
    0 ≤ clampTo extent v ∧ clampTo extent v < extent := by
  unfold clampTo; omega

theorem clampTo_id (extent v : Int) (h0 : 0 ≤ v) (h1 : v < extent) : clampTo extent v = v := by
  unfold clampTo; omega

theorem normAxis_inrange (w : Bool) (extent v : Int) (h0 : 0 ≤ v) (h1 : v < extent) :
    normAxis w extent v = some v := by
  cases w
  · rw [normAxis_clamp _ _ (by omega), clampTo_id _ _ h0 h1]
  · have hne : (extent == 0) = false := by
      rw [beq_eq_false_iff_ne]; omega
    have hm : Int.tmod (v + extent) extent = v := by
      rw [Int.tmod_eq_emod (by omega) (by omega), Int.add_emod_self, Int.emod_eq_of_lt h0 h1]
    unfold normAxis
    simp only [Bool.true_and, hne, Bool.false_eq_true, if_false, if_true, hm]
    rw [if_neg (by omega), if_neg (by omega)]

theorem cellBit_le (x y : Int) : cellBit x y ≤ 3 := by
  unfold cellBit; omega

theorem shift_byte (k : Nat) (h : k ≤ 3) : (1 <<< k) % 256 = 2 ^ k := by
  interval_cases k <;> rfl

theorem address_inrange (c : Canvas) (x y : Int)
    (hx0 : 0 ≤ x) (hx1 : x < c.pwidth) (hy0 : 0 ≤ y) (hy1 : y < c.pheight) :
    c.address x y = some (cellIndex c x y, 2 ^ cellBit x y) := by
  unfold address
  rw [normAxis_inrange _ _ _ hx0 hx1, normAxis_inrange _ _ _ hy0 hy1]
  simp only [Int.tdiv_eq_ediv hx0 (by norm_num : (0 : Int) ≤ 2),
    Int.tdiv_eq_ediv hy0 (by norm_num : (0 : Int) ≤ 2),
    Int.tmod_eq_emod hx0 (by norm_num : (0 : Int) ≤ 2),
    Int.tmod_eq_emod hy0 (by norm_num : (0 : Int) ≤ 2)]
  rw [if_neg (by omega)]
  have hk := shift_byte (cellBit x y) (cellBit_le x y)
  unfold cellBit at hk
  rw [hk]
  rfl

theorem address_clamp (c : Canvas) (hw : c.wrap = false) (hW : 1 ≤ c.pwidth)
    (hH : 1 ≤ c.pheight) (x y : Int) :
    c.address x y = c.address (clampTo c.pwidth x) (clampTo c.pheight y) := by
  have hx := clampTo_range c.pwidth x hW
  have hy := clampTo_range c.pheight y hH
  unfold address
  rw [normAxis_inrange _ _ _ hx.1 hx.2, normAxis_inrange _ _ _ hy.1 hy.2, hw,
    normAxis_clamp _ _ hW, normAxis_clamp _ _ hH]

theorem cellIndex_range (c : Canvas) (hwf : c.WF) (x y : Int)
    (hx0 : 0 ≤ x) (hx1 : x < c.pwidth) (hy0 : 0 ≤ y) (hy1 : y < c.pheight) :
    0 ≤ cellIndex c x y ∧ cellIndex c x y < c.value.length := by
  obtain ⟨hbw, hbh, hlen⟩ := hwf
  rw [Int.tdiv_eq_ediv (by omega) (by norm_num)] at hbw hbh
  unfold cellIndex
  have h1 : 0 ≤ y / 2 := by omega
  have h2 : y / 2 ≤ c.bheight - 1 := by omega
  have h3 : 0 ≤ x / 2 := by omega
  have h4 : x / 2 < c.bwidth := by omega
  have h5 : 0 ≤ c.bwidth := by omega
  have h6 : 0 ≤ y / 2 * c.bwidth := mul_nonneg h1 h5
  have h7 : y / 2 * c.bwidth ≤ (c.bheight - 1) * c.bwidth := mul_le_mul_of_nonneg_right h2 h5
  rw [hlen]
  constructor
  · omega
  · nlinarith

theorem cell_inj (c : Canvas) (hwf : c.WF) (x y u v : Int)
    (hx0 : 0 ≤ x) (hx1 : x < c.pwidth) (hu0 : 0 ≤ u) (hu1 : u < c.pwidth)
    (hi : cellIndex c x y = cellIndex c u v) (hb : cellBit x y = cellBit u v) :
    x = u ∧ y = v := by
  obtain ⟨hbw, -, -⟩ := hwf
  rw [Int.tdiv_eq_ediv (by omega) (by norm_num)] at hbw
  unfold cellIndex at hi
  unfold cellBit at hb
  have h5 : 0 ≤ c.bwidth := by omega
  have hxb : x / 2 < c.bwidth := by omega
  have hub : u / 2 < c.bwidth := by omega
  have hx2 : 0 ≤ x / 2 := by omega
  have hu2 : 0 ≤ u / 2 := by omega
  have hy : y / 2 = v / 2 := by
    rcases lt_trichotomy (y / 2) (v / 2) with h | h | h
    · have := mul_le_mul_of_nonneg_right (by omega : y / 2 + 1 ≤ v / 2) h5
      rw [add_mul, one_mul] at this
      omega
    · exact h
    · have := mul_le_mul_of_nonneg_right (by omega : v / 2 + 1 ≤ y / 2) h5
      rw [add_mul, one_mul] at this
      omega
  rw [hy] at hi
  omega

theorem and_bit (v k : Nat) : (v &&& 2 ^ k == 2 ^ k) = v.testBit k := by
  rw [Nat.and_two_pow]
  have : 2 ^ k ≠ 0 := by positivity
  cases v.testBit k <;> simp [this, Ne.symm this]

theorem byteAt_cell (c : Canvas) (hwf : c.WF) (x y : Int)
    (hx0 : 0 ≤ x) (hx1 : x < c.pwidth) (hy0 : 0 ≤ y) (hy1 : y < c.pheight) :
    c.byteAt (cellIndex c x y) = some (c.value.getD (cellIndex c x y).toNat 0) := by
  have hr := cellIndex_range c hwf x y hx0 hx1 hy0 hy1
  have hlt : (cellIndex c x y).toNat < c.value.length := by omega
  unfold byteAt
  rw [if_neg (by omega), List.getD_eq_getElem?_getD, List.getElem?_eq_getElem hlt]
  rfl

theorem Read_inrange (c : Canvas) (hwf : c.WF) (x y : Int)
    (hx0 : 0 ≤ x) (hx1 : x < c.pwidth) (hy0 : 0 ≤ y) (hy1 : y < c.pheight) :
    c.Read x y = some (pix c x y) := by
  unfold Read
  rw [address_inrange c x y hx0 hx1 hy0 hy1]
  simp only [byteAt_cell c hwf x y hx0 hx1 hy0 hy1, and_bit]
  rfl

theorem Plot_inrange (c : Canvas) (hwf : c.WF) (x y : Int)
    (hx0 : 0 ≤ x) (hx1 : x < c.pwidth) (hy0 : 0 ≤ y) (hy1 : y < c.pheight) :
    c.Plot x y = some
      { c with
        value := c.value.set (cellIndex c x y).toNat
          (if c.xor then c.value.getD (cellIndex c x y).toNat 0 ^^^ 2 ^ cellBit x y
            else c.value.getD (cellIndex c x y).toNat 0 ||| 2 ^ cellBit x y) } := by
  unfold Plot
  rw [address_inrange c x y hx0 hx1 hy0 hy1]
  simp only [byteAt_cell c hwf x y hx0 hx1 hy0 hy1]

theorem Plot_clamp (c : Canvas) (hw : c.wrap = false) (hW : 1 ≤ c.pwidth)
    (hH : 1 ≤ c.pheight) (x y : Int) :
    c.Plot x y = c.Plot (clampTo c.pwidth x) (clampTo c.pheight y) := by
  unfold Plot
  rw [address_clamp c hw hW hH]

theorem Read_clamp (c : Canvas) (hw : c.wrap = false) (hW : 1 ≤ c.pwidth)
    (hH : 1 ≤ c.pheight) (x y : Int) :
    c.Read x y = c.Read (clampTo c.pwidth x) (clampTo c.pheight y) := by
  unfold Read
  rw [address_clamp c hw hW hH]

theorem pix_set (c : Canvas) (i w : Nat) (u v : Int) (hlt : i < c.value.length) :
    pix { c with value := c.value.set i w } u v =
      if i = (cellIndex c u v).toNat then w.testBit (cellBit u v) else pix c u v := by
  unfold pix cellIndex
  simp only [List.getD_eq_getElem?_getD, List.getElem?_set, hlt, if_true]
  split_ifs <;> rfl

/-- What an in-range Plot does to the stored pixels: the plotted pixel is set
(or-plot) or flipped (xor-plot) and every other pixel keeps its value. -/
theorem Plot_pix (c : Canvas) (hwf : c.WF) (x y : Int)
    (hx0 : 0 ≤ x) (hx1 : x < c.pwidth) (hy0 : 0 ≤ y) (hy1 : y < c.pheight) :
    ∃ d, c.Plot x y = some d ∧ d.WF ∧ d.wrap = c.wrap ∧ d.xor = c.xor ∧
      d.pwidth = c.pwidth ∧ d.pheight = c.pheight ∧
      ∀ u v, 0 ≤ u → u < c.pwidth → 0 ≤ v → v < c.pheight →
        pix d u v = if u = x ∧ v = y then (if c.xor then !pix c u v else true)
          else pix c u v := by
  refine ⟨_, Plot_inrange c hwf x y hx0 hx1 hy0 hy1, ?_, rfl, rfl, rfl, rfl, ?_⟩
  · obtain ⟨h1, h2, h3⟩ := hwf
    exact ⟨h1, h2, by simpa [List.length_set] using h3⟩
  · intro u v hu0 hu1 hv0 hv1
    have hr := cellIndex_range c hwf x y hx0 hx1 hy0 hy1
    have hr2 := cellIndex_range c hwf u v hu0 hu1 hv0 hv1
    have hlt : (cellIndex c x y).toNat < c.value.length := by omega
    rw [pix_set c _ _ u v hlt]
    unfold pix
    by_cases hi : (cellIndex c x y).toNat = (cellIndex c u v).toNat
    · have hi2 : cellIndex c u v = cellIndex c x y := by omega
      rw [if_pos hi, hi2]
      by_cases hb : cellBit u v = cellBit x y
      · obtain ⟨e1, e2⟩ := cell_inj c hwf u v x y hu0 hu1 hx0 hx1 hi2 hb
        subst e1 e2
        cases c.xor <;> simp [Nat.testBit_lor, Nat.testBit_xor, Nat.testBit_two_pow]
      · have hne : ¬ (u = x ∧ v = y) := by
          rintro ⟨e1, e2⟩; subst e1 e2; exact hb rfl
        rw [if_neg hne]
        have hb2 : ¬ cellBit x y = cellBit u v := fun h => hb h.symm
        cases c.xor <;> simp [Nat.testBit_lor, Nat.testBit_xor, Nat.testBit_two_pow, hb2]
    · have hne : ¬ (u = x ∧ v = y) := by
        rintro ⟨e1, e2⟩; subst e1 e2; exact hi rfl
      rw [if_neg hi, if_neg hne]

/-- Init with non-negative extents succeeds and gives a well-shaped, cleared
canvas in the default mode. -/
theorem Init_WF (w h : Int) (hw : 0 ≤ w) (hh : 0 ≤ h) :
    ∃ c, Init w h = some c ∧ c.WF ∧ c.Clear = c ∧ c.xor = false ∧ c.wrap = false ∧
      c.pwidth = w ∧ c.pheight = h := by
  have h1 : 0 ≤ Int.tdiv w 2 + 1 := by
    rw [Int.tdiv_eq_ediv hw (by norm_num)]; omega
  have h2 : 0 ≤ Int.tdiv h 2 + 1 := by
    rw [Int.tdiv_eq_ediv hh (by norm_num)]; omega
  have h3 : 0 ≤ (Int.tdiv w 2 + 1) * (Int.tdiv h 2 + 1) := mul_nonneg h1 h2
  refine ⟨_, by unfold Init; simp only []; rw [if_neg (by omega)], ?_, ?_, rfl, rfl, rfl, rfl⟩
  · exact ⟨rfl, rfl, by simp [Int.toNat_of_nonneg h3]⟩
  · simp [Clear]

theorem Clear_WF (c : Canvas) (hwf : c.WF) : c.Clear.WF := by
  obtain ⟨h1, h2, h3⟩ := hwf
  exact ⟨h1, h2, by simpa [Clear] using h3⟩

theorem Clear_pix (c : Canvas) (u v : Int) : pix c.Clear u v = false := by
  unfold pix Clear
  simp only [List.getD_eq_getElem?_getD, List.getElem?_map]
  cases c.value[(cellIndex { c with value := c.value.map (fun _ => 0) } u v).toNat]? <;> simp

/-- Or-plotting a sequence: every pixel is its old value or-ed with the
plots that clamp to it. -/
theorem plotAll_or (ps : List (Int × Int)) :
    ∀ c : Canvas, c.WF → 1 ≤ c.pwidth → 1 ≤ c.pheight → c.xor = false → c.wrap = false →
      ∃ d, plotAll c ps = some d ∧ d.WF ∧ d.wrap = false ∧
        d.pwidth = c.pwidth ∧ d.pheight = c.pheight ∧
        ∀ u v, 0 ≤ u → u < c.pwidth → 0 ≤ v → v < c.pheight →
          pix d u v = (pix c u v ||
            ps.any (fun p => decide (clampTo c.pwidth p.1 = u ∧ clampTo c.pheight p.2 = v))) := by
  induction ps with
  | nil =>
    intro c hwf _ _ _ hw
    exact ⟨c, rfl, hwf, hw, rfl, rfl, fun u v _ _ _ _ => by simp⟩
  | cons p ps ih =>
    intro c hwf hW hH hx hw
    have hX := clampTo_range c.pwidth p.1 hW
    have hY := clampTo_range c.pheight p.2 hH
    obtain ⟨d1, hd1, hwf1, hw1, hx1, hpw, hph, hpix1⟩ :=
      Plot_pix c hwf _ _ hX.1 hX.2 hY.1 hY.2
    rw [← Plot_clamp c hw hW hH] at hd1
    obtain ⟨d, hd, hwfd, hwd, hpwd, hphd, hpixd⟩ :=
      ih d1 hwf1 (by omega) (by omega) (by rw [hx1, hx]) (by rw [hw1, hw])
    refine ⟨d, ?_, hwfd, hwd, by omega, by omega, ?_⟩
    · simp only [plotAll, hd1, hd]
    · intro u v hu0 hu1 hv0 hv1
      rw [hpixd u v hu0 (by omega) hv0 (by omega), hpix1 u v hu0 hu1 hv0 hv1, hx, hpw, hph,
        List.any_cons]
      by_cases h : u = clampTo c.pwidth p.1 ∧ v = clampTo c.pheight p.2
      · obtain ⟨e1, e2⟩ := h
        simp [e1, e2]
      · have h2 : ¬ (clampTo c.pwidth p.1 = u ∧ clampTo c.pheight p.2 = v) :=
          fun h3 => h ⟨h3.1.symm, h3.2.symm⟩
        simp [h, h2]

/-- Xor-plotting a sequence of in-range pixels: every pixel is its old value
flipped once per plot of it. -/
theorem plotAll_xor (ps : List (Int × Int)) :
    ∀ c : Canvas, c.WF → c.xor = true →
      (∀ p ∈ ps, 0 ≤ p.1 ∧ p.1 < c.pwidth ∧ 0 ≤ p.2 ∧ p.2 < c.pheight) →
      ∃ d, plotAll c ps = some d ∧ d.WF ∧ d.wrap = c.wrap ∧
        d.pwidth = c.pwidth ∧ d.pheight = c.pheight ∧
        ∀ u v, 0 ≤ u → u < c.pwidth → 0 ≤ v → v < c.pheight →
          pix d u v = (pix c u v ^^ decide (ps.count (u, v) % 2 = 1)) := by
  induction ps with
  | nil =>
    intro c hwf _ _
    exact ⟨c, rfl, hwf, rfl, rfl, rfl, fun u v _ _ _ _ => by simp⟩
  | cons p ps ih =>
    intro c hwf hx hps
    obtain ⟨hp0, hp1, hp2, hp3⟩ := hps p (List.mem_cons_self _ _)
    obtain ⟨d1, hd1, hwf1, hw1, hx1, hpw, hph, hpix1⟩ :=
      Plot_pix c hwf _ _ hp0 hp1 hp2 hp3
    obtain ⟨d, hd, hwfd, hwd, hpwd, hphd, hpixd⟩ :=
      ih d1 hwf1 (by rw [hx1, hx])
        (fun q hq => by rw [hpw, hph]; exact hps q (List.mem_cons_of_mem _ hq))
    refine ⟨d, ?_, hwfd, by rw [hwd, hw1], by omega, by omega, ?_⟩
    · simp only [plotAll, hd1, hd]
    · intro u v hu0 hu1 hv0 hv1
      rw [hpixd u v hu0 (by omega) hv0 (by omega), hpix1 u v hu0 hu1 hv0 hv1, hx,
        List.count_cons]
      by_cases h : u = p.1 ∧ v = p.2
      · have h2 : (p == (u, v)) = true := by
          obtain ⟨e1, e2⟩ := h
          simp [e1, e2]
        rw [if_pos h, if_pos h2]
        have h3 : (List.count (u, v) ps + 1) % 2 = 1 ↔ ¬ List.count (u, v) ps % 2 = 1 := by
          omega
        by_cases h4 : List.count (u, v) ps % 2 = 1 <;> simp [h3, h4]
      · have h2 : ¬ (p == (u, v)) = true := by
          intro h3
          have h4 : p = (u, v) := by simpa using h3
          exact h ⟨by rw [h4], by rw [h4]⟩
        rw [if_neg h, if_neg h2, Nat.add_zero]

theorem set_getD_self (l : List Nat) (i : Nat) : l.set i (l.getD i 0) = l := by
  apply List.ext_getElem?
  intro n
  rw [List.getElem?_set, List.getD_eq_getElem?_getD]
  by_cases h : i = n
  · subst h
    by_cases h2 : i < l.length
    · simp [h2, List.getElem?_eq_getElem h2]
    · simp [h2, List.getElem?_eq_none (Nat.le_of_not_lt h2)]
  · simp [h]

theorem set_xor_twice (l : List Nat) (i b : Nat) (hlt : i < l.length) :
    (l.set i (l.getD i 0 ^^^ b)).set i ((l.set i (l.getD i 0 ^^^ b)).getD i 0 ^^^ b) = l := by
  rw [List.set_set, List.getD_eq_getElem?_getD (l.set i _), List.getElem?_set_self hlt,
    Option.getD_some, Nat.xor_cancel_right, set_getD_self]

/-- Xor-plotting the same in-range pixel twice gives back the canvas. -/
theorem Plot_xor_twice (c : Canvas) (hwf : c.WF) (hx : c.xor = true)
    (x y : Int) (hx0 : 0 ≤ x) (hx1 : x < c.pwidth) (hy0 : 0 ≤ y) (hy1 : y < c.pheight) :
    ∃ d, c.Plot x y = some d ∧ d.Plot x y = some c := by
  obtain ⟨d, hd, hwfd, hwd, hxd, hpw, hph, -⟩ := Plot_pix c hwf x y hx0 hx1 hy0 hy1
  refine ⟨d, hd, ?_⟩
  have hr := cellIndex_range c hwf x y hx0 hx1 hy0 hy1
  have hlt : (cellIndex c x y).toNat < c.value.length := by omega
  have key := set_xor_twice c.value (cellIndex c x y).toNat (2 ^ cellBit x y) hlt
  rw [Plot_inrange c hwf x y hx0 hx1 hy0 hy1, hx] at hd
  rw [Plot_inrange d hwfd x y hx0 (by omega) hy0 (by omega)]
  have hd2 := (Option.some.inj hd).symm
  subst hd2
  obtain ⟨pw, ph, bw, bh, val, xr, wr⟩ := c
  simp only at hx
  subst hx
  simp only [cellIndex, if_true] at key ⊢
  rw [key]

/-! ### Line -/

theorem plotAll_eq_plotSeq (ps : List (Int × Int)) :
    ∀ c : Canvas, plotAll c ps = plotSeq Plot c ps := by
  induction ps with
  | nil => intro c; rfl
  | cons p ps ih =>
    intro c
    simp only [plotAll, plotSeq]
    cases c.Plot p.1 p.2 with
    | none => rfl
    | some d => exact ih d

theorem plotSeq_record (ps : List (Int × Int)) :
    ∀ log : List (Int × Int), plotSeq recordPlot log ps = some (log ++ ps) := by
  induction ps with
  | nil => intro log; simp [plotSeq]
  | cons p ps ih =>
    intro log
    simp only [plotSeq, recordPlot]
    rw [ih]
    simp

/-- The loop of Line performs its plotting action exactly on the points of
`lineTrace`, in order. -/
theorem lineLoop_eq_trace {σ : Type} (plot : σ → Int → Int → Option σ)
    (x1 y1 dx dy sx sy : Int) :
    ∀ (fuel : Nat) (s : σ) (x0 y0 err : Int),
      lineLoop plot x1 y1 dx dy sx sy fuel s x0 y0 err =
        (lineTrace x1 y1 dx dy sx sy fuel x0 y0 err).bind (plotSeq plot s) := by
  intro fuel
  induction fuel with
  | zero => intro s x0 y0 err; rfl
  | succ fuel ih =>
    intro s x0 y0 err
    simp only [lineLoop, lineTrace]
    by_cases hend : x0 = x1 ∧ y0 = y1
    · simp only [if_pos hend, Option.some_bind, plotSeq]
    · simp only [if_neg hend]
      cases hl : lineTrace x1 y1 dx dy sx sy fuel (if 2 * err > -dy then x0 + sx else x0)
          (if 2 * err < dx then y0 + sy else y0)
          (if 2 * err < dx then (if 2 * err > -dy then err - dy else err) + dx
            else if 2 * err > -dy then err - dy else err) with
      | none =>
        cases hp : plot s x0 y0 with
        | none => rfl
        | some s2 => simp only [ih, hl]; rfl
      | some l =>
        cases hp : plot s x0 y0 with
        | none => simp [plotSeq, hp]
        | some s2 => simp [ih, hl, plotSeq, hp]

/-- The loop of Line is symmetric under the exchange of the two axes (the
error term changes its sign). -/
theorem lineTrace_swap (x1 y1 dx dy sx sy : Int) :
    ∀ (fuel : Nat) (x0 y0 err : Int),
      lineTrace y1 x1 dy dx sy sx fuel y0 x0 (-err) =
        (lineTrace x1 y1 dx dy sx sy fuel x0 y0 err).map (List.map Prod.swap) := by
  intro fuel
  induction fuel with
  | zero => intro x0 y0 err; rfl
  | succ fuel ih =>
    intro x0 y0 err
    simp only [lineTrace]
    by_cases hend : x0 = x1 ∧ y0 = y1
    · rw [if_pos hend, if_pos ⟨hend.2, hend.1⟩]
      rfl
    · rw [if_neg hend, if_neg (fun h => hend ⟨h.2, h.1⟩)]
      have e1 : (if 2 * -err > -dx then y0 + sy else y0) =
          (if 2 * err < dx then y0 + sy else y0) := by
        split_ifs <;> omega
      have e2 : (if 2 * -err < dy then x0 + sx else x0) =
          (if 2 * err > -dy then x0 + sx else x0) := by
        split_ifs <;> omega
      have e3 : (if 2 * -err < dy then (if 2 * -err > -dx then -err - dx else -err) + dy
            else if 2 * -err > -dx then -err - dx else -err) =
          -(if 2 * err < dx then (if 2 * err > -dy then err - dy else err) + dx
            else if 2 * err > -dy then err - dy else err) := by
        split_ifs <;> omega
      rw [e1, e2, e3, ih]
      simp only [Option.map_map]
      rfl

theorem connected_swap (l : List (Int × Int)) :
    connected (l.map Prod.swap) ↔ connected l := by
  induction l with
  | nil => simp [connected]
  | cons a l ih =>
    cases l with
    | nil => simp [connected]
    | cons b rest =>
      simp only [List.map_cons, connected] at ih ⊢
      rw [ih]
      simp only [near, Prod.fst_swap, Prod.snd_swap]
      constructor <;> rintro ⟨⟨h1, h2, h3, h4⟩, h5⟩ <;> exact ⟨⟨h3, h4, h1, h2⟩, h5⟩

theorem onSegment_swap (x0 y0 x1 y1 : Int) (p : Int × Int) :
    onSegment y0 x0 y1 x1 p.swap ↔ onSegment x0 y0 x1 y1 p := by
  simp only [onSegment, Prod.fst_swap, Prod.snd_swap]
  constructor <;> rintro ⟨h1, h2, h3, h4, h5⟩ <;> exact ⟨h1.symm, h4, h5, h2, h3⟩

/-- An integer multiple of `d > 0` strictly between `-2d` and `d/2` (doubled:
between `-2d` and `d`) is zero. -/
theorem mul_mid (t d : Int) (hd : 0 < d) (h1 : -(2 * d) < 2 * (t * d)) (h2 : 2 * (t * d) < d) :
    t = 0 := by
  by_contra hne
  rcases lt_or_gt_of_ne hne with h | h
  · have := mul_le_mul_of_nonneg_right (by omega : t ≤ -1) (le_of_lt hd)
    omega
  · have := mul_le_mul_of_nonneg_right (by omega : 1 ≤ t) (le_of_lt hd)
    omega

/-- One more point in front of an analysed trace. -/
theorem TraceOK_cons (x0 y0 dx dy sx sy : Int) (n : Nat) (i j x y xn yn : Int)
    (pts : List (Int × Int)) (hnear : near (x, y) (xn, yn))
    (hx : x = x0 + i * sx) (hy : y = y0 + j * sy) (hc : closeTo dx dy i j) (hi : i ≤ dx)
    (h : TraceOK x0 y0 dx dy sx sy n (i + 1) xn yn pts) :
    TraceOK x0 y0 dx dy sx sy (n + 1) i x y ((x, y) :: pts) := by
  obtain ⟨hhead, hlast, hconn, hlen, hclose, hcover⟩ := h
  cases pts with
  | nil => simp at hlen
  | cons q rest =>
    simp only [List.head?_cons, Option.some.injEq] at hhead
    subst hhead
    refine ⟨rfl, ?_, ⟨hnear, hconn⟩, by simp [hlen], ?_, ?_⟩
    · rw [List.getLast?_cons_cons]; exact hlast
    · intro p hp
      rcases List.mem_cons.1 hp with rfl | hp
      · exact ⟨i, j, le_refl _, hi, by rw [hx, hy], hc⟩
      · obtain ⟨i2, j2, h1, h2, h3, h4⟩ := hclose p hp
        exact ⟨i2, j2, by omega, h2, h3, h4⟩
    · intro i2 h1 h2
      by_cases h3 : i2 = i
      · exact ⟨j, by rw [h3, ← hx, ← hy]; exact List.mem_cons_self _ _⟩
      · obtain ⟨j2, hj2⟩ := hcover i2 (by omega) h2
        exact ⟨j2, List.mem_cons_of_mem _ hj2⟩

/-- The x-major analysis of the loop of Line: from the state after `i` steps in
x and `j` steps in y, with the error term in closed form and close to the ideal
line, `dx - i + 1` iterations reach the end point. -/
theorem trace_xmajor (x0 y0 dx dy sx sy : Int) (hsx : sx = 1 ∨ sx = -1)
    (hsy : sy = 1 ∨ sy = -1) (hdx : 0 < dx) (hdy : 0 ≤ dy) (hle : dy ≤ dx) :
    ∀ (n : Nat) (i j D E x y : Int), x = x0 + i * sx → y = y0 + j * sy →
      D = j * dx - i * dy → E = dx - dy + D → dx - i = n →
      dy - 2 * dx < 2 * D → 2 * D < dx →
      ∃ pts, (∀ fuel, n + 1 ≤ fuel →
          lineTrace (x0 + dx * sx) (y0 + dy * sy) dx dy sx sy fuel x y E = some pts) ∧
        TraceOK x0 y0 dx dy sx sy n i x y pts := by
  intro n
  induction n with
  | zero =>
    intro i j D E x y hx hy hD hE hn h1 h2
    have hi : i = dx := by omega
    have hj : j = dy := by
      have e : (j - dy) * dx = D := by rw [hD, hi]; ring
      have := mul_mid (j - dy) dx hdx (by rw [e]; omega) (by rw [e]; omega)
      omega
    refine ⟨[(x, y)], ?_, rfl, ?_, trivial, rfl, ?_, ?_⟩
    · intro fuel hf
      obtain ⟨f, rfl⟩ : ∃ f, fuel = f + 1 := ⟨fuel - 1, by omega⟩
      simp only [lineTrace]
      rw [if_pos ⟨by rw [hx, hi], by rw [hy, hj]⟩]
    · rw [hx, hy, hi, hj]; rfl
    · intro p hp
      rw [List.mem_singleton] at hp
      exact ⟨i, j, le_refl _, by omega, by rw [hp, hx, hy], by unfold closeTo; omega⟩
    · intro i2 h3 h4
      have : i2 = i := by omega
      exact ⟨j, by rw [this, ← hx, ← hy]; exact List.mem_singleton_self _⟩
  | succ n ih =>
    intro i j D E x y hx hy hD hE hn h1 h2
    have hne : ¬ (x = x0 + dx * sx ∧ y = y0 + dy * sy) := by
      rintro ⟨h, -⟩
      rcases hsx with rfl | rfl <;> omega
    have hc1 : 2 * E > -dy := by omega
    have hc : closeTo dx dy i j := by unfold closeTo; omega
    by_cases hc2 : 2 * E < dx
    · obtain ⟨pts, hpts, hok⟩ := ih (i + 1) (j + 1) (D + dx - dy) (E - dy + dx) (x + sx) (y + sy)
        (by rw [hx]; ring) (by rw [hy]; ring) (by rw [hD]; ring) (by rw [hE]; ring)
        (by omega) (by omega) (by omega)
      refine ⟨(x, y) :: pts, ?_, TraceOK_cons x0 y0 dx dy sx sy n i j x y _ _ pts ?_ hx hy hc
        (by omega) hok⟩
      · intro fuel hf
        obtain ⟨f, rfl⟩ : ∃ f, fuel = f + 1 := ⟨fuel - 1, by omega⟩
        simp only [lineTrace, if_neg hne, if_pos hc1, if_pos hc2]
        rw [hpts f (by omega)]
        rfl
      · unfold near
        rcases hsx with rfl | rfl <;> rcases hsy with rfl | rfl <;> simp
    · obtain ⟨pts, hpts, hok⟩ := ih (i + 1) j (D - dy) (E - dy) (x + sx) y
        (by rw [hx]; ring) hy (by rw [hD]; ring) (by rw [hE]; ring)
        (by omega) (by omega) (by omega)
      refine ⟨(x, y) :: pts, ?_, TraceOK_cons x0 y0 dx dy sx sy n i j x y _ _ pts ?_ hx hy hc
        (by omega) hok⟩
      · intro fuel hf
        obtain ⟨f, rfl⟩ : ∃ f, fuel = f + 1 := ⟨fuel - 1, by omega⟩
        simp only [lineTrace, if_neg hne, if_pos hc1, if_neg hc2]
        rw [hpts f (by omega)]
        rfl
      · unfold near
        rcases hsx with rfl | rfl <;> simp

/-- The x-major case of Line in terms of the extents and directions: the
trace from the start point, and what it contains. -/
theorem xmajor_line (x0 y0 dx dy sx sy : Int) (hsx : sx = 1 ∨ sx = -1)
    (hsy : sy = 1 ∨ sy = -1) (hdx : 0 < dx) (hdy : 0 ≤ dy) (hle : dy ≤ dx) :
    ∃ pts, (∀ fuel, dx.toNat + 1 ≤ fuel →
        lineTrace (x0 + dx * sx) (y0 + dy * sy) dx dy sx sy fuel x0 y0 (dx - dy) = some pts) ∧
      pts.head? = some (x0, y0) ∧ pts.getLast? = some (x0 + dx * sx, y0 + dy * sy) ∧
      connected pts ∧ pts.length = dx.toNat + 1 ∧
      (∀ p, onSegment x0 y0 (x0 + dx * sx) (y0 + dy * sy) p → p ∈ pts) ∧
      ((dy = 0 ∨ dy = dx) → ∀ p ∈ pts, onSegment x0 y0 (x0 + dx * sx) (y0 + dy * sy) p) := by
  obtain ⟨pts, hpts, hhead, hlast, hconn, hlen, hclose, hcover⟩ :=
    trace_xmajor x0 y0 dx dy sx sy hsx hsy hdx hdy hle dx.toNat 0 0 0 (dx - dy) x0 y0
      (by ring) (by ring) (by ring) (by ring) (by omega) (by omega) (by omega)
  have hsx2 : sx * sx = 1 := by rcases hsx with rfl | rfl <;> rfl
  have hsy2 : sy * sy = 1 := by rcases hsy with rfl | rfl <;> rfl
  refine ⟨pts, hpts, hhead, hlast, hconn, hlen, ?_, ?_⟩
  · rintro ⟨u, v⟩ ⟨hcross, hb1, hb2, hb3, hb4⟩
    simp only at hcross hb1 hb2 hb3 hb4
    have hi0 : 0 ≤ (u - x0) * sx ∧ (u - x0) * sx ≤ dx := by
      rcases hsx with rfl | rfl <;> omega
    obtain ⟨j2, hj2⟩ := hcover ((u - x0) * sx) hi0.1 hi0.2
    obtain ⟨i3, j3, -, -, heq, hc1, hc2⟩ := hclose _ hj2
    have hi3 : i3 = (u - x0) * sx := by
      have := congrArg Prod.fst heq
      simp only at this
      rcases hsx with rfl | rfl <;> omega
    have hj3 : j3 = j2 := by
      have := congrArg Prod.snd heq
      simp only at this
      rcases hsy with rfl | rfl <;> omega
    subst hi3 hj3
    have hlat : (u - x0) * sx * dy = (v - y0) * sy * dx := by
      have h2 : (u - x0) * sx * dy * (sy * sy) = (v - y0) * sy * dx * (sx * sx) := by
        linear_combination (sx * sy) * hcross
      rw [hsx2, hsy2] at h2
      linarith
    have e : (j3 - (v - y0) * sy) * dx = j3 * dx - (u - x0) * sx * dy := by
      rw [hlat]; ring
    have hm := mul_mid (j3 - (v - y0) * sy) dx hdx (by rw [e]; omega) (by rw [e]; omega)
    have hu : x0 + (u - x0) * sx * sx = u := by rw [mul_assoc, hsx2]; ring
    have hv : y0 + j3 * sy = v := by
      have : j3 = (v - y0) * sy := by omega
      rw [this, mul_assoc, hsy2]; ring
    rw [hu, hv] at hj2
    exact hj2
  · intro hspecial p hp
    obtain ⟨i2, j2, hi0, hi1, heq, hc1, hc2⟩ := hclose p hp
    have hj : j2 * dx = i2 * dy := by
      rcases hspecial with h0 | h0
      · subst h0
        have := mul_mid j2 dx hdx (by omega) (by omega)
        rw [this]; ring
      · subst h0
        have e : (j2 - i2) * dy = j2 * dy - i2 * dy := by ring
        have := mul_mid (j2 - i2) dy hdx (by rw [e]; omega) (by rw [e]; omega)
        have : j2 = i2 := by omega
        rw [this]
    have hj0 : 0 ≤ j2 ∧ j2 ≤ dy := by
      constructor
      · by_contra hneg
        have := mul_le_mul_of_nonneg_right (by omega : j2 ≤ -1) (le_of_lt hdx)
        have := mul_nonneg hi0 hdy
        omega
      · by_contra hbig
        have := mul_le_mul_of_nonneg_right (by omega : dy + 1 ≤ j2) (le_of_lt hdx)
        have := mul_le_mul_of_nonneg_right hi1 hdy
        rw [add_mul] at *
        have e : dy * dx = dx * dy := mul_comm _ _
        omega
    subst heq
    refine ⟨?_, ?_⟩
    · simp only
      linear_combination (-(sx * sy)) * hj
    · simp only
      rcases hsx with rfl | rfl <;> rcases hsy with rfl | rfl <;> omega

theorem lineAbs_eq_abs (d : Int) : lineAbs d = |d| := by
  unfold lineAbs
  split_ifs with h
  · exact (abs_of_neg h).symm
  · exact (abs_of_nonneg (le_of_not_lt h)).symm

theorem linePlots_eq_lineStart (fuel : Nat) (x0 y0 x1 y1 : Int) :
    linePlots fuel x0 y0 x1 y1 = lineStart fuel x0 y0 x1 y1 := by
  unfold linePlots lineWith lineStart
  simp only [lineLoop_eq_trace]
  cases lineTrace x1 y1 (lineAbs (x1 - x0)) (lineAbs (y1 - y0)) (lineSign x0 x1)
      (lineSign y0 y1) fuel x0 y0 (lineAbs (x1 - x0) - lineAbs (y1 - y0)) with
  | none => rfl
  | some l => simp [plotSeq_record]

theorem Line_eq_lineStart (c : Canvas) (fuel : Nat) (x0 y0 x1 y1 : Int) :
    c.Line fuel x0 y0 x1 y1 = (lineStart fuel x0 y0 x1 y1).bind (plotAll c) := by
  unfold Line lineWith lineStart
  simp only [lineLoop_eq_trace]
  cases lineTrace x1 y1 (lineAbs (x1 - x0)) (lineAbs (y1 - y0)) (lineSign x0 x1)
      (lineSign y0 y1) fuel x0 y0 (lineAbs (x1 - x0) - lineAbs (y1 - y0)) with
  | none => rfl
  | some l => simp [plotAll_eq_plotSeq]

theorem line_xmajor_ends (x0 y0 x1 y1 : Int)
    (hle : lineAbs (y1 - y0) ≤ lineAbs (x1 - x0)) :
    ∃ pts, (∀ fuel, lineSteps x0 y0 x1 y1 ≤ fuel → lineStart fuel x0 y0 x1 y1 = some pts) ∧
      LineOK x0 y0 x1 y1 pts := by
  have hsx : lineSign x0 x1 = 1 ∨ lineSign x0 x1 = -1 := by
    unfold lineSign; split_ifs <;> simp
  have hsy : lineSign y0 y1 = 1 ∨ lineSign y0 y1 = -1 := by
    unfold lineSign; split_ifs <;> simp
  have hx1 : x0 + lineAbs (x1 - x0) * lineSign x0 x1 = x1 := by
    unfold lineAbs lineSign; split_ifs <;> omega
  have hy1 : y0 + lineAbs (y1 - y0) * lineSign y0 y1 = y1 := by
    unfold lineAbs lineSign; split_ifs <;> omega
  have hdy : 0 ≤ lineAbs (y1 - y0) := by unfold lineAbs; split_ifs <;> omega
  have hsteps : lineSteps x0 y0 x1 y1 = (lineAbs (x1 - x0)).toNat + 1 := by
    unfold lineSteps; rw [max_eq_left hle]
  by_cases hdx : lineAbs (x1 - x0) = 0
  · have hdy0 : lineAbs (y1 - y0) = 0 := by omega
    have hx : x0 = x1 := by unfold lineAbs at hdx; split_ifs at hdx <;> omega
    have hy : y0 = y1 := by unfold lineAbs at hdy0; split_ifs at hdy0 <;> omega
    subst hx hy
    refine ⟨[(x0, y0)], ?_, rfl, rfl, trivial, ?_, ?_, ?_⟩
    · intro fuel hf
      obtain ⟨f, rfl⟩ : ∃ f, fuel = f + 1 := ⟨fuel - 1, by unfold lineSteps at hf; omega⟩
      simp [lineStart, lineTrace]
    · rw [hsteps, hdx]; rfl
    · rintro ⟨u, v⟩ ⟨-, hb1, hb2, hb3, hb4⟩
      simp only at hb1 hb2 hb3 hb4
      have hu : u = x0 := by omega
      have hv : v = y0 := by omega
      rw [hu, hv]
      exact List.mem_singleton_self _
    · intro _ p hp
      rw [List.mem_singleton] at hp
      subst hp
      simp [onSegment]
  · have hpos : 0 < lineAbs (x1 - x0) := by
      have : 0 ≤ lineAbs (x1 - x0) := by unfold lineAbs; split_ifs <;> omega
      omega
    obtain ⟨pts, hpts, hhead, hlast, hconn, hlen, hall, honly⟩ :=
      xmajor_line x0 y0 (lineAbs (x1 - x0)) (lineAbs (y1 - y0)) (lineSign x0 x1)
        (lineSign y0 y1) hsx hsy hpos hdy hle
    rw [hx1, hy1] at hpts hlast hall honly
    refine ⟨pts, ?_, hhead, hlast, hconn, by rw [hlen, hsteps], hall, ?_⟩
    · intro fuel hf
      exact hpts fuel (by omega)
    · intro hsp
      apply honly
      rcases hsp with h | h | h
      · exfalso; rw [h] at hpos; simp [lineAbs] at hpos
      · left; rw [h]; simp [lineAbs]
      · right; exact h.symm

theorem lineStart_swap (fuel : Nat) (x0 y0 x1 y1 : Int) :
    lineStart fuel y0 x0 y1 x1 = (lineStart fuel x0 y0 x1 y1).map (List.map Prod.swap) := by
  unfold lineStart
  rw [← lineTrace_swap, neg_sub]

/-- For every pair of end points: enough fuel gives the trace of Line, and the
trace has the properties of `LineOK`. -/
theorem line_ends (x0 y0 x1 y1 : Int) :
    ∃ pts, (∀ fuel, lineSteps x0 y0 x1 y1 ≤ fuel → lineStart fuel x0 y0 x1 y1 = some pts) ∧
      LineOK x0 y0 x1 y1 pts := by
  by_cases hle : lineAbs (y1 - y0) ≤ lineAbs (x1 - x0)
  · exact line_xmajor_ends x0 y0 x1 y1 hle
  · obtain ⟨qs, hqs, hhead, hlast, hconn, hlen, hall, honly⟩ :=
      line_xmajor_ends y0 x0 y1 x1 (by omega)
    have hsteps : lineSteps y0 x0 y1 x1 = lineSteps x0 y0 x1 y1 := by
      unfold lineSteps; rw [max_comm]
    have hswap : ∀ l : List (Int × Int), (l.map Prod.swap).map Prod.swap = l := by
      intro l; simp
    refine ⟨qs.map Prod.swap, ?_, ?_, ?_, ?_, ?_, ?_, ?_⟩
    · intro fuel hf
      have h1 := hqs fuel (by rw [hsteps]; exact hf)
      rw [lineStart_swap] at h1
      cases hl : lineStart fuel x0 y0 x1 y1 with
      | none => rw [hl] at h1; simp at h1
      | some l =>
        rw [hl] at h1
        simp only [Option.map_some', Option.some.injEq] at h1
        rw [← h1, hswap]
    · cases qs with
      | nil => simp at hhead
      | cons q rest =>
        simp only [List.head?_cons, Option.some.injEq] at hhead
        subst hhead
        rfl
    · rw [List.getLast?_map, hlast]; rfl
    · exact (connected_swap qs).2 hconn
    · rw [List.length_map, hlen, hsteps]
    · intro p hp
      have := hall p.swap ((onSegment_swap x0 y0 x1 y1 p).2 hp)
      exact List.mem_map.2 ⟨p.swap, this, by simp⟩
    · intro hsp p hp
      obtain ⟨q, hq, rfl⟩ := List.mem_map.1 hp
      have := honly (by rcases hsp with h | h | h
                        · exact Or.inr (Or.inl h)
                        · exact Or.inl h
                        · exact Or.inr (Or.inr h.symm)) q hq
      exact (onSegment_swap x0 y0 x1 y1 q.swap).1 (by simpa using this)

/-- C1: on a canvas with W ≥ 1 and H ≥ 1 in the default mode (or-plot, no
wrap), after Clear and any sequence of Plot calls with arbitrary integer
coordinates, every Plot succeeds and Read of an in-range pixel is true exactly
when some plotted coordinate, clamped componentwise to the nearest edge, is that
pixel; and on any buffer content a Plot leaves Read unchanged at every in-range
pixel other than the (clamped) plotted one. -/
theorem C1_or_plot_read (c : Canvas) (hwf : c.WF) (hW : 1 ≤ c.pwidth) (hH : 1 ≤ c.pheight)
    (hx : c.xor = false) (hw : c.wrap = false) (ps : List (Int × Int)) :
    (∃ d, plotAll c.Clear ps = some d ∧
      ∀ x y, 0 ≤ x → x < c.pwidth → 0 ≤ y → y < c.pheight →
        ∃ b, d.Read x y = some b ∧
          (b = true ↔ ∃ p ∈ ps, clampTo c.pwidth p.1 = x ∧ clampTo c.pheight p.2 = y)) ∧
    (∀ px py x y, 0 ≤ x → x < c.pwidth → 0 ≤ y → y < c.pheight →
      ¬ (clampTo c.pwidth px = x ∧ clampTo c.pheight py = y) →
      ∃ d, c.Plot px py = some d ∧ d.Read x y = c.Read x y) := by
  constructor
  · obtain ⟨d, hd, hwfd, hwd, hpw, hph, hpix⟩ :=
      plotAll_or ps c.Clear (Clear_WF c hwf) hW hH hx hw
    refine ⟨d, hd, ?_⟩
    intro x y hx0 hx1 hy0 hy1
    refine ⟨_, Read_inrange d hwfd x y hx0 (by rw [hpw]; exact hx1) hy0
      (by rw [hph]; exact hy1), ?_⟩
    rw [hpix x y hx0 hx1 hy0 hy1, Clear_pix]
    simp [Clear]
  · intro px py x y hx0 hx1 hy0 hy1 hne
    have hX := clampTo_range c.pwidth px hW
    have hY := clampTo_range c.pheight py hH
    obtain ⟨d, hd, hwfd, hwd, hxd, hpw, hph, hpix⟩ :=
      Plot_pix c hwf _ _ hX.1 hX.2 hY.1 hY.2
    rw [← Plot_clamp c hw hW hH] at hd
    refine ⟨d, hd, ?_⟩
    rw [Read_inrange d hwfd x y hx0 (by omega) hy0 (by omega),
      Read_inrange c hwf x y hx0 hx1 hy0 hy1, hpix x y hx0 hx1 hy0 hy1,
      if_neg (fun h => hne ⟨h.1.symm, h.2.symm⟩)]

/-- C1 at a 3 x 3 canvas with stale content, plotting (5,-1) and (1,1). -/
theorem C1_or_plot_read_witness :
    (∃ d, plotAll (Canvas.mk 3 3 2 2 [5, 0, 9, 0] false false).Clear [(5, -1), (1, 1)] = some d ∧
      ∀ x y, 0 ≤ x → x < 3 → 0 ≤ y → y < 3 →
        ∃ b, d.Read x y = some b ∧
          (b = true ↔ ∃ p ∈ [((5 : Int), (-1 : Int)), (1, 1)],
            clampTo 3 p.1 = x ∧ clampTo 3 p.2 = y)) ∧
    (∀ px py x y, 0 ≤ x → x < 3 → 0 ≤ y → y < 3 →
      ¬ (clampTo 3 px = x ∧ clampTo 3 py = y) →
      ∃ d, (Canvas.mk 3 3 2 2 [5, 0, 9, 0] false false).Plot px py = some d ∧
        d.Read x y = (Canvas.mk 3 3 2 2 [5, 0, 9, 0] false false).Read x y) :=
  C1_or_plot_read (Canvas.mk 3 3 2 2 [5, 0, 9, 0] false false) (by decide) (by decide)
    (by decide) rfl rfl [(5, -1), (1, 1)]

/-- C2: on a canvas in xor mode (whatever the wrap flag), after Clear and any
sequence of Plot calls with in-range coordinates, every Plot succeeds and Read
of an in-range pixel is true exactly when the pixel was plotted an odd number of
times; and on any buffer content, plotting the same in-range pixel twice gives
back the very same canvas.  In-range coordinates exist only when W ≥ 1 and
H ≥ 1, so the extents need no hypothesis of their own. -/
theorem C2_xor_plot_parity (c : Canvas) (hwf : c.WF) (hx : c.xor = true)
    (ps : List (Int × Int))
    (hps : ∀ p ∈ ps, 0 ≤ p.1 ∧ p.1 < c.pwidth ∧ 0 ≤ p.2 ∧ p.2 < c.pheight) :
    (∃ d, plotAll c.Clear ps = some d ∧
      ∀ x y, 0 ≤ x → x < c.pwidth → 0 ≤ y → y < c.pheight →
        d.Read x y = some (decide (ps.count (x, y) % 2 = 1))) ∧
    (∀ x y, 0 ≤ x → x < c.pwidth → 0 ≤ y → y < c.pheight →
      ∃ d, c.Plot x y = some d ∧ d.Plot x y = some c) := by
  constructor
  · obtain ⟨d, hd, hwfd, hwd, hpw, hph, hpix⟩ :=
      plotAll_xor ps c.Clear (Clear_WF c hwf) hx hps
    refine ⟨d, hd, ?_⟩
    intro x y hx0 hx1 hy0 hy1
    rw [Read_inrange d hwfd x y hx0 (by rw [hpw]; exact hx1) hy0 (by rw [hph]; exact hy1),
      hpix x y hx0 hx1 hy0 hy1, Clear_pix]
    simp
  · intro x y hx0 hx1 hy0 hy1
    exact Plot_xor_twice c hwf hx x y hx0 hx1 hy0 hy1

/-- C2 at a 3 x 3 xor canvas with stale content, plotting (2,0), (1,1), (2,0). -/
theorem C2_xor_plot_parity_witness :
    (∃ d, plotAll (Canvas.mk 3 3 2 2 [5, 0, 9, 0] true false).Clear [(2, 0), (1, 1), (2, 0)]
        = some d ∧
      ∀ x y, 0 ≤ x → x < 3 → 0 ≤ y → y < 3 →
        d.Read x y = some (decide
          ([((2 : Int), (0 : Int)), (1, 1), (2, 0)].count (x, y) % 2 = 1))) ∧
    (∀ x y, 0 ≤ x → x < 3 → 0 ≤ y → y < 3 →
      ∃ d, (Canvas.mk 3 3 2 2 [5, 0, 9, 0] true false).Plot x y = some d ∧
        d.Plot x y = some (Canvas.mk 3 3 2 2 [5, 0, 9, 0] true false)) :=
  C2_xor_plot_parity (Canvas.mk 3 3 2 2 [5, 0, 9, 0] true false) (by decide) rfl
    [(2, 0), (1, 1), (2, 0)] (by decide)

/-- C3: for all integer end points Line terminates (every fuel from
`max(|x1-x0|, |y1-y0|) + 1` on gives the same result, and on any canvas Line is
then exactly the sequence of Plot calls on the recorded coordinates); the
coordinates passed to Plot start at `(x0,y0)`, end at `(x1,y1)`, and every two
consecutive ones differ by at most 1 in x and at most 1 in y; for equal end
points the single point is plotted once. -/
theorem C3_line_connected_path (x0 y0 x1 y1 : Int) :
    ∃ pts, (∀ fuel, lineSteps x0 y0 x1 y1 ≤ fuel →
        linePlots fuel x0 y0 x1 y1 = some pts ∧
        ∀ c : Canvas, c.Line fuel x0 y0 x1 y1 = plotAll c pts) ∧
      pts.head? = some (x0, y0) ∧ pts.getLast? = some (x1, y1) ∧ connected pts ∧
      (x0 = x1 → y0 = y1 → pts = [(x0, y0)]) := by
  obtain ⟨pts, hpts, hhead, hlast, hconn, hlen, -, -⟩ := line_ends x0 y0 x1 y1
  refine ⟨pts, ?_, hhead, hlast, hconn, ?_⟩
  · intro fuel hf
    refine ⟨by rw [linePlots_eq_lineStart]; exact hpts fuel hf, fun c => ?_⟩
    rw [Line_eq_lineStart, hpts fuel hf]
    rfl
  · intro hx hy
    subst hx hy
    have h1 : pts.length = 1 := by
      rw [hlen]; simp [lineSteps, lineAbs]
    match pts, hhead, h1 with
    | [q], hq, _ =>
      simp only [List.head?_cons, Option.some.injEq] at hq
      rw [hq]

/-- C3 at the segment from (0,0) to (5,2). -/
theorem C3_line_connected_path_witness :
    ∃ pts, (∀ fuel, lineSteps 0 0 5 2 ≤ fuel →
        linePlots fuel 0 0 5 2 = some pts ∧
        ∀ c : Canvas, c.Line fuel 0 0 5 2 = plotAll c pts) ∧
      pts.head? = some (0, 0) ∧ pts.getLast? = some (5, 2) ∧ connected pts ∧
      ((0 : Int) = 5 → (0 : Int) = 2 → pts = [(0, 0)]) :=
  C3_line_connected_path 0 0 5 2

/-- C4: for all integer end points, every lattice point on the closed straight
segment from `(x0,y0)` to `(x1,y1)` is among the coordinates that Line passes to
Plot; for a horizontal, vertical or 45-degree segment the plotted coordinates
are exactly the lattice points of the segment. -/
theorem C4_line_lattice_points (x0 y0 x1 y1 : Int) :
    ∃ pts, (∀ fuel, lineSteps x0 y0 x1 y1 ≤ fuel → linePlots fuel x0 y0 x1 y1 = some pts) ∧
      (∀ p, onSegment x0 y0 x1 y1 p → p ∈ pts) ∧
      ((y0 = y1 ∨ x0 = x1 ∨ |x1 - x0| = |y1 - y0|) →
        ∀ p, p ∈ pts ↔ onSegment x0 y0 x1 y1 p) := by
  obtain ⟨pts, hpts, -, -, -, -, hall, honly⟩ := line_ends x0 y0 x1 y1
  refine ⟨pts, ?_, hall, ?_⟩
  · intro fuel hf
    rw [linePlots_eq_lineStart]
    exact hpts fuel hf
  · intro hsp p
    refine ⟨honly ?_ p, hall p⟩
    rcases hsp with h | h | h
    · exact Or.inr (Or.inl h)
    · exact Or.inl h
    · exact Or.inr (Or.inr (by rw [lineAbs_eq_abs, lineAbs_eq_abs]; exact h))

/-- C4 at the 45-degree segment from (1,4) to (4,1). -/
theorem C4_line_lattice_points_witness :
    ∃ pts, (∀ fuel, lineSteps 1 4 4 1 ≤ fuel → linePlots fuel 1 4 4 1 = some pts) ∧
      (∀ p, onSegment 1 4 4 1 p → p ∈ pts) ∧
      (((4 : Int) = 1 ∨ (1 : Int) = 4 ∨ |(4 : Int) - 1| = |(1 : Int) - 4|) →
        ∀ p, p ∈ pts ↔ onSegment 1 4 4 1 p) :=
  C4_line_lattice_points 1 4 4 1

end Canvas

/-! ### HistoryRing -/

namespace stRingBuffer

theorem Add_Holds (s : stRingBuffer) (added : List GoString) (a : GoString) (h : Holds s added) :
    ∃ t, s.Add a = some t ∧ Holds t (added ++ [a]) := by
  obtain ⟨es, he, hlen, hmax, hhead, hsize, hent⟩ := h
  have hh : Int.tmod (s.head + 1) 100 = (((added.length + 1) % 100 : Nat) : Int) := by
    rw [hhead, Int.tmod_eq_emod (by omega) (by norm_num)]; omega
  refine ⟨{ entries := some (es.set ((added.length + 1) % 100) a), max := 100,
            head := (((added.length + 1) % 100 : Nat) : Int),
            size := ((min (added.length + 1) 100 : Nat) : Int) }, ?_, ?_⟩
  · unfold Add
    simp only [he, hmax, hh, reduceCtorEq, if_false]
    rw [if_neg (by norm_num), if_neg (by omega)]
    simp only [Int.toNat_ofNat, hsize]
    congr 2
    split_ifs <;> omega
  · refine ⟨_, rfl, by simp [hlen], rfl, by simp, by simp, ?_⟩
    intro k hk
    simp only [List.length_append, List.length_singleton] at hk ⊢
    have hlt : (added.length + 1) % 100 < es.length := by omega
    rw [List.getElem?_set]
    by_cases hk0 : k = 0
    · subst hk0
      simp only [Nat.sub_zero, if_true]
      rw [if_pos hlt]
      simp
    · rw [if_neg (by omega)]
      have := hent (k - 1) (by omega)
      have e1 : (added.length + 1 - k) % 100 = (added.length - (k - 1)) % 100 := by
        congr 1; omega
      have e2 : added.length + 1 - 1 - k = added.length - 1 - (k - 1) := by omega
      rw [e1, e2, this, List.getElem?_append_left (by omega)]

theorem addAll_Holds (rest : List GoString) :
    ∀ (s : stRingBuffer) (added : List GoString), Holds s added →
      ∃ t, addAll s rest = some t ∧ Holds t (added ++ rest) := by
  induction rest with
  | nil => intro s added h; exact ⟨s, rfl, by simpa using h⟩
  | cons a rest ih =>
    intro s added h
    obtain ⟨t, ht, hHolds⟩ := Add_Holds s added a h
    obtain ⟨u, hu, hHolds2⟩ := ih t (added ++ [a]) hHolds
    exact ⟨u, by simp only [addAll, ht, hu], by simpa using hHolds2⟩

theorem Add_first (a : GoString) :
    ∃ t, empty.Add a = some t ∧ Holds t [a] := by
  refine ⟨{ entries := some ((List.replicate 100 []).set 1 a), max := 100, head := 1,
            size := 1 }, rfl, _, rfl, by simp, rfl, rfl, rfl, ?_⟩
  intro k hk
  have : k = 0 := by simp at hk; omega
  subst this
  simp

/-- C5: starting from the empty ring and after any sequence of Adds `added`
(N of them, N ≥ 0), all Adds succeed, the size is `min N 100` and so never
exceeds the capacity 100, and for every integer n NthPreviousEntry(n) returns
the (N - n)-th added string with ok when `0 ≤ n < min N 100` and the empty
string with not-ok otherwise; it returns the ring unchanged. -/
theorem C5_history_ring (added : List GoString) (n : Int) :
    ∃ s, addAll empty added = some s ∧
      s.size = min (added.length : Int) 100 ∧ s.size ≤ 100 ∧
      s.NthPreviousEntry n = some (s,
        if 0 ≤ n ∧ n < min (added.length : Int) 100
        then (added.getD (added.length - 1 - n.toNat) [], true) else ([], false)) := by
  cases added with
  | nil =>
    refine ⟨empty, rfl, by decide, by decide, ?_⟩
    unfold NthPreviousEntry
    have h1 : n < 0 ∨ n ≥ empty.size := by
      have : empty.size = 0 := rfl
      omega
    rw [if_pos h1, if_neg]
    simp only [List.length_nil, Nat.cast_zero]
    omega
  | cons a rest =>
    obtain ⟨t, ht, hHolds⟩ := Add_first a
    obtain ⟨s, hs, hH⟩ := addAll_Holds rest t [a] hHolds
    simp only [List.singleton_append] at hH
    obtain ⟨es, he, hlen, hmax, hhead, hsize, hent⟩ := hH
    refine ⟨s, by simp only [addAll, ht, hs], by rw [hsize]; omega, by rw [hsize]; omega, ?_⟩
    unfold NthPreviousEntry
    by_cases hn : 0 ≤ n ∧ n < min ((a :: rest).length : Int) 100
    · rw [if_neg (by rw [hsize]; omega), if_pos hn, he]
      simp only [hhead, hmax]
      have hk := hent n.toNat (by omega)
      have hidx : (if (((a :: rest).length % 100 : Nat) : Int) - n < 0
          then (((a :: rest).length % 100 : Nat) : Int) - n + 100
          else (((a :: rest).length % 100 : Nat) : Int) - n).toNat
          = ((a :: rest).length - n.toNat) % 100 := by
        split_ifs <;> omega
      rw [if_neg (by split_ifs <;> omega), hidx, hk,
        List.getElem?_eq_getElem (by omega : (a :: rest).length - 1 - n.toNat
          < (a :: rest).length)]
      simp only [List.getD_eq_getElem?_getD]
      rw [List.getElem?_eq_getElem (by omega : (a :: rest).length - 1 - n.toNat
          < (a :: rest).length)]
      rfl
    · rw [if_pos (by rw [hsize]; omega), if_neg hn]

end stRingBuffer

/-! ### KeyDecoder -/

/-- C7: for every input stream whose first rune r is not ESC (27), ReadKey
returns r with no error and consumes exactly that one rune, the rest of the
stream being untouched; hence on a stream that contains no ESC, as many ReadKey
calls as there are runes return the runes of the stream in order, without
error, and leave the stream empty. -/
theorem C7_plain_rune (r n : Int) (rest : List (Int × Int)) (e : Error)
    (last : Option (Int × Int)) (fuel : Nat) (hf : 1 ≤ fuel) (hr : r ≠ 27) :
    ReadKey fuel (Reader.mk ((r, n) :: rest) e last) =
        some ((Reader.mk rest e (some (r, n))),
          (KeyResult.mk r 1 none)) ∧
      ∀ (input : List (Int × Int)) (l : Option (Int × Int)), (∀ p ∈ input, p.1 ≠ 27) →
        ∃ rd, readKeys fuel input.length (Reader.mk input e l) =
            some (input.map (fun p => (KeyResult.mk p.1 1 none)), rd) ∧
          rd.input = [] := by
  have one : ∀ (r n : Int) (rest : List (Int × Int)) (l : Option (Int × Int)), r ≠ 27 →
      ReadKey fuel (Reader.mk ((r, n) :: rest) e l) =
        some ((Reader.mk rest e (some (r, n))),
          (KeyResult.mk r 1 none)) := by
    intro r n rest l hr
    obtain ⟨f, rfl⟩ : ∃ f, fuel = f + 1 := ⟨fuel - 1, by omega⟩
    simp [ReadKey, readKeyLoop, Reader.ReadRune, KeyEscape, hr]
  refine ⟨one r n rest last hr, ?_⟩
  intro input
  induction input with
  | nil => intro l _; exact ⟨_, rfl, rfl⟩
  | cons p rest ih =>
    intro l hno
    obtain ⟨rd, hrd, hemp⟩ := ih (some (p.1, p.2))
      (fun q hq => hno q (List.mem_cons_of_mem _ hq))
    refine ⟨rd, ?_, hemp⟩
    have h1 := one p.1 p.2 rest l (hno p (List.mem_cons_self _ _))
    simp only [List.length_cons, readKeys, h1, hrd, List.map_cons]

/-- C7 at the stream 'a' 'b' with fuel 4. -/
theorem C7_plain_rune_witness :
    ReadKey 4 (Reader.mk [(97, 1), (98, 1)] Error.eof none) =
        some ((Reader.mk [(98, 1)] Error.eof (some (97, 1))),
          (KeyResult.mk 97 1 none)) ∧
      ∀ (input : List (Int × Int)) (l : Option (Int × Int)), (∀ p ∈ input, p.1 ≠ 27) →
        ∃ rd, readKeys 4 input.length (Reader.mk input Error.eof l) =
            some (input.map (fun p => (KeyResult.mk p.1 1 none)), rd) ∧
          rd.input = [] :=
  C7_plain_rune 97 1 [(98, 1)] Error.eof none 4 (by decide) (by decide)

/-- C6: for every input stream that begins ESC '[' r3, with enough fuel:
ReadKey returns KeyUp, KeyDown, KeyRight, KeyLeft or KeyBackTab when r3 is 'A',
'B', 'C', 'D' or 'Z', having consumed exactly those 3 runes; when r3 is '3' and
a fourth rune r4 follows, it returns KeyDel if r4 is '~' and KeyUnknown
otherwise, having consumed exactly 4 runes; for any other r3 it returns
KeyUnknown having consumed exactly 3 runes with nothing pushed back.  No error
is returned in any of these cases, and the size is the byte count of the
consumed runes. -/
theorem C6_escape_sequences (n1 n2 n3 r3 : Int) (rest : List (Int × Int)) (e : Error)
    (last : Option (Int × Int)) (fuel : Nat) (hf : 4 ≤ fuel) :
    (∀ key, (r3, key) ∈ [(65, KeyUp), (66, KeyDown), (67, KeyRight), (68, KeyLeft),
          (90, KeyBackTab)] →
        ReadKey fuel (Reader.mk ((27, n1) :: (91, n2) :: (r3, n3) :: rest) e last) =
          some ((Reader.mk rest e (some (r3, n3))),
            (KeyResult.mk key (n1 + n2 + n3) none))) ∧
      (r3 = 51 → ∀ r4 n4 rest2, rest = (r4, n4) :: rest2 →
        ReadKey fuel (Reader.mk ((27, n1) :: (91, n2) :: (r3, n3) :: rest) e last) =
          some ((Reader.mk rest2 e (some (r4, n4))),
            (KeyResult.mk (if r4 = 126 then KeyDel else KeyUnknown) (n1 + n2 + n3 + n4) none))) ∧
      (r3 ∉ [65, 66, 67, 68, 90, 51] →
        ReadKey fuel (Reader.mk ((27, n1) :: (91, n2) :: (r3, n3) :: rest) e last) =
          some ((Reader.mk rest e (some (r3, n3))),
            (KeyResult.mk KeyUnknown (n1 + n2 + n3) none))) := by
  obtain ⟨f, rfl⟩ : ∃ f, fuel = f + 4 := ⟨fuel - 4, by omega⟩
  refine ⟨?_, ?_, ?_⟩
  · intro key hkey
    simp only [List.mem_cons, Prod.mk.injEq, List.mem_singleton, List.not_mem_nil,
      or_false] at hkey
    rcases hkey with ⟨rfl, rfl⟩ | ⟨rfl, rfl⟩ | ⟨rfl, rfl⟩ | ⟨rfl, rfl⟩ | ⟨rfl, rfl⟩ <;>
      simp [ReadKey, readKeyLoop, Reader.ReadRune, KeyEscape, KeyLBracket]
  · rintro rfl r4 n4 rest2 rfl
    by_cases h4 : r4 = 126
    · simp [ReadKey, readKeyLoop, Reader.ReadRune, KeyEscape, KeyLBracket, h4]
    · simp [ReadKey, readKeyLoop, Reader.ReadRune, KeyEscape, KeyLBracket, h4]
  · intro hno
    simp only [List.mem_cons, List.mem_singleton, List.not_mem_nil, or_false, not_or] at hno
    obtain ⟨h1, h2, h3, h4, h5, h6⟩ := hno
    simp [ReadKey, readKeyLoop, Reader.ReadRune, KeyEscape, KeyLBracket, h1, h2, h3, h4, h5, h6]

/-- C6 at the stream ESC '[' 'A' 'x' with fuel 4. -/
theorem C6_escape_sequences_witness :
    (∀ key, ((65 : Int), key) ∈ [(65, KeyUp), (66, KeyDown), (67, KeyRight), (68, KeyLeft),
          (90, KeyBackTab)] →
        ReadKey 4 (Reader.mk ((27, 1) :: (91, 1) :: (65, 1) :: [(120, 1)]) Error.eof none) =
          some ((Reader.mk [(120, 1)] Error.eof (some (65, 1))),
            (KeyResult.mk key (1 + 1 + 1) none))) ∧
      ((65 : Int) = 51 → ∀ r4 n4 rest2, [((120 : Int), (1 : Int))] = (r4, n4) :: rest2 →
        ReadKey 4 (Reader.mk ((27, 1) :: (91, 1) :: (65, 1) :: [(120, 1)]) Error.eof none) =
          some ((Reader.mk rest2 Error.eof (some (r4, n4))),
            (KeyResult.mk (if r4 = 126 then KeyDel else KeyUnknown) (1 + 1 + 1 + n4) none))) ∧
      ((65 : Int) ∉ [65, 66, 67, 68, 90, 51] →
        ReadKey 4 (Reader.mk ((27, 1) :: (91, 1) :: (65, 1) :: [(120, 1)]) Error.eof none) =
          some ((Reader.mk [(120, 1)] Error.eof (some (65, 1))),
            (KeyResult.mk KeyUnknown (1 + 1 + 1) none))) :=
  C6_escape_sequences 1 1 1 65 [(120, 1)] Error.eof none 4 (by decide)

/-- C8: for every input stream that begins ESC r2 with r2 different from '[',
ReadKey returns plain ESC (27) with no error (its size result being `2 - n2`,
n2 the encoded size of r2) and pushes r2 back: the reader it leaves has r2 and
the rest of the stream still to come, so the next ReadRune returns r2; on
ESC ESC '[' 'A' two successive ReadKey calls return ESC and then KeyUp. -/
theorem C8_escape_pushback (n1 r2 n2 : Int) (rest : List (Int × Int)) (e : Error)
    (last : Option (Int × Int)) (fuel : Nat) (hf : 2 ≤ fuel) (h2 : r2 ≠ 91) :
    ReadKey fuel (Reader.mk ((27, n1) :: (r2, n2) :: rest) e last) =
        some ((Reader.mk ((r2, n2) :: rest) e none), (KeyResult.mk 27 (2 - n2) none)) ∧
      (Reader.ReadRune (Reader.mk ((r2, n2) :: rest) e none)).2 = (r2, n2, none) ∧
      (readKeys 4 2 (Reader.mk [(27, 1), (27, 1), (91, 1), (65, 1)] e last)).map
          (fun p => p.1.map (fun res => (res.r, res.err))) =
        some [(27, none), (KeyUp, none)] := by
  obtain ⟨f, rfl⟩ : ∃ f, fuel = f + 2 := ⟨fuel - 2, by omega⟩
  refine ⟨?_, rfl, ?_⟩
  · simp [ReadKey, readKeyLoop, Reader.ReadRune, Reader.UnreadRune, KeyEscape, KeyLBracket, h2]
  · simp [readKeys, ReadKey, readKeyLoop, Reader.ReadRune, Reader.UnreadRune, KeyEscape,
      KeyLBracket, KeyUp]

/-- C8 at the stream ESC 'x' 'y' with fuel 4. -/
theorem C8_escape_pushback_witness :
    ReadKey 4 (Reader.mk ((27, 1) :: (120, 1) :: [(121, 1)]) Error.eof none) =
        some ((Reader.mk ((120, 1) :: [(121, 1)]) Error.eof none),
          (KeyResult.mk 27 (2 - 1) none)) ∧
      (Reader.ReadRune (Reader.mk ((120, 1) :: [(121, 1)]) Error.eof none)).2 =
        (120, 1, none) ∧
      (readKeys 4 2 (Reader.mk [(27, 1), (27, 1), (91, 1), (65, 1)] Error.eof none)).map
          (fun p => p.1.map (fun res => (res.r, res.err))) =
        some [(27, none), (KeyUp, none)] :=
  C8_escape_pushback 1 120 1 [(121, 1)] Error.eof none 4 (by decide) (by decide)

/-- C9: if the rune read fails (end of input included) at the first, second,
third or fourth rune of a token, that is on a stream that stops after nothing,
after ESC, after ESC '[' or after ESC '[' '3', ReadKey returns exactly the error
of the source, with the rune 0 and the size 0 of the failed read: no key token
is made of the runes already read. -/
theorem C9_read_failure (input : List (Int × Int)) (e : Error) (last : Option (Int × Int))
    (fuel : Nat) (hf : 4 ≤ fuel)
    (hpre : input.map Prod.fst ∈ [[], [27], [27, 91], [27, 91, 51]]) :
    ReadKey fuel (Reader.mk input e last) =
      some ((Reader.mk [] e none), (KeyResult.mk 0 0 (some e))) := by
  obtain ⟨f, rfl⟩ : ∃ f, fuel = f + 4 := ⟨fuel - 4, by omega⟩
  simp only [List.mem_cons, List.mem_singleton, List.not_mem_nil, or_false] at hpre
  rcases hpre with h | h | h | h
  · obtain rfl : input = [] := by simpa using h
    simp [ReadKey, readKeyLoop, Reader.ReadRune]
  · match input, h with
    | [(c1, n1)], h =>
      simp only [List.map_cons, List.map_nil, List.cons.injEq, and_true] at h
      subst h
      simp [ReadKey, readKeyLoop, Reader.ReadRune, KeyEscape]
  · match input, h with
    | [(c1, n1), (c2, n2)], h =>
      simp only [List.map_cons, List.map_nil, List.cons.injEq, and_true] at h
      obtain ⟨rfl, rfl⟩ := h
      simp [ReadKey, readKeyLoop, Reader.ReadRune, KeyEscape, KeyLBracket]
  · match input, h with
    | [(c1, n1), (c2, n2), (c3, n3)], h =>
      simp only [List.map_cons, List.map_nil, List.cons.injEq, and_true] at h
      obtain ⟨rfl, rfl, rfl⟩ := h
      simp [ReadKey, readKeyLoop, Reader.ReadRune, KeyEscape, KeyLBracket]

/-- C9 at the stream ESC '[' '3' followed by end of input. -/
theorem C9_read_failure_witness :
    ReadKey 4 (Reader.mk [(27, 1), (91, 1), (51, 1)] Error.eof none) =
      some ((Reader.mk [] Error.eof none),
        (KeyResult.mk 0 0 (some Error.eof))) :=
  C9_read_failure [(27, 1), (91, 1), (51, 1)] Error.eof none 4 (by decide) (by decide)

/-- C10, as stated, fails: on the stream that is a single ESC followed by end
of input no amount of fuel makes ReadKey return the rune 27. -/
theorem C10_counterexample :
    ¬ ∃ fuel rd res, ReadKey fuel (Reader.mk [(27, 1)] Error.eof none) =
        some (rd, res) ∧ res.r = 27 := by
  rintro ⟨fuel, rd, res, h, hr⟩
  match fuel, h with
  | 0, h => simp [ReadKey, readKeyLoop] at h
  | 1, h => simp [ReadKey, readKeyLoop, Reader.ReadRune, KeyEscape] at h
  | f + 2, h =>
    simp [ReadKey, readKeyLoop, Reader.ReadRune, KeyEscape] at h
    rw [← h.2] at hr
    simp at hr

/-- C10 amended: when the input stream is a single ESC rune (of any encoded
size) followed by a failing read such as end of input, ReadKey with fuel for two
iterations returns that error with the rune 0 and the size 0, not the ESC key,
and leaves the stream empty. -/
theorem C10_lone_escape_is_error (n1 : Int) (e : Error) (last : Option (Int × Int))
    (fuel : Nat) (hf : 2 ≤ fuel) :
    ReadKey fuel (Reader.mk [(27, n1)] e last) =
      some ((Reader.mk [] e none), (KeyResult.mk 0 0 (some e))) := by
  obtain ⟨f, rfl⟩ : ∃ f, fuel = f + 2 := ⟨fuel - 2, by omega⟩
  simp [ReadKey, readKeyLoop, Reader.ReadRune, KeyEscape]

/-- C10 amended, at ESC then end of input with fuel 4. -/
theorem C10_lone_escape_is_error_witness :
    ReadKey 4 (Reader.mk [(27, 1)] Error.eof none) =
      some ((Reader.mk [] Error.eof none),
        (KeyResult.mk 0 0 (some Error.eof))) :=
  C10_lone_escape_is_error 1 Error.eof none 4 (by decide)

/-! ### Canvas in wrap mode -/

/-- C20 fails on the code beyond one period below zero: on a 3 x 3 canvas in
wrap mode Plot(-4, 0) sets the pixel (0,0), as Plot(0,0) does, and not the pixel
(2,0) of the mathematical modulus `-4 mod 3 = 2`; Read(-4, 0) reads the pixel
(0,0) likewise. -/
theorem C20_wrap_far_negative :
    (-4 : Int) % 3 = 2 ∧
      (Canvas.mk 3 3 2 2 [0, 0, 0, 0] false true).Plot (-4) 0 =
        (Canvas.mk 3 3 2 2 [0, 0, 0, 0] false true).Plot 0 0 ∧
      (Canvas.mk 3 3 2 2 [0, 0, 0, 0] false true).Plot (-4) 0 ≠
        (Canvas.mk 3 3 2 2 [0, 0, 0, 0] false true).Plot 2 0 ∧
      (Canvas.mk 3 3 2 2 [0, 1, 0, 0] false true).Read (-4) 0 = some false ∧
      (Canvas.mk 3 3 2 2 [0, 1, 0, 0] false true).Read 2 0 = some true := by
  decide

/-! ### Tile key handlers -/

theorem pressKeys_start_nonneg (handler : Tile → Int → Tile × Bool)
    (hstep : ∀ t r, 0 ≤ t.start.X ∧ 0 ≤ t.start.Y →
      0 ≤ (handler t r).1.start.X ∧ 0 ≤ (handler t r).1.start.Y) (keys : List Int) :
    ∀ t : Tile, 0 ≤ t.start.X ∧ 0 ≤ t.start.Y →
      0 ≤ (pressKeys handler t keys).start.X ∧ 0 ≤ (pressKeys handler t keys).start.Y := by
  induction keys with
  | nil => intro t h; exact h
  | cons r rest ih =>
    intro t h
    exact ih _ (hstep t r h)

theorem sd_KeyPress_nonneg (t : Tile) (r : Int) (h : 0 ≤ t.start.X ∧ 0 ≤ t.start.Y) :
    0 ≤ (sd_KeyPress t r).1.start.X ∧ 0 ≤ (sd_KeyPress t r).1.start.Y := by
  unfold sd_KeyPress
  split_ifs <;> simp [Tile.setDirty] <;> omega

theorem sdc_KeyPress_nonneg (t : Tile) (r : Int) (h : 0 ≤ t.start.X ∧ 0 ≤ t.start.Y) :
    0 ≤ (sdc_KeyPress t r).1.start.X ∧ 0 ≤ (sdc_KeyPress t r).1.start.Y := by
  unfold sdc_KeyPress
  split_ifs <;> simp [Tile.setDirty] <;> omega

/-- C19: for ScrollDown and ScrollDownClip tiles, which dispatch to sd_KeyPress
and sdc_KeyPress, and every key: the handler returns false; Up lowers the
vertical offset by 1 when it is positive and otherwise changes nothing in the
tile; Down raises it by 1; in ScrollDownClip Left and Right do the same to the
horizontal offset, in ScrollDown they change nothing; every other key changes
nothing; and under any key sequence from offsets that are not negative, (0,0)
among them, both offsets stay at 0 or above. -/
theorem C19_scroll_keys (t : Tile) (r : Int) :
    (t.handler = TileType.TileType_ScrollDown → t.KeyPress r = some (sd_KeyPress t r)) ∧
      (t.handler = TileType.TileType_ScrollDownClip → t.KeyPress r = some (sdc_KeyPress t r)) ∧
      (sd_KeyPress t r).2 = false ∧ (sdc_KeyPress t r).2 = false ∧
      (0 < t.start.Y →
        (sd_KeyPress t KeyUp).1.start = ⟨t.start.X, t.start.Y - 1⟩ ∧
        (sdc_KeyPress t KeyUp).1.start = ⟨t.start.X, t.start.Y - 1⟩) ∧
      (t.start.Y ≤ 0 → (sd_KeyPress t KeyUp).1 = t ∧ (sdc_KeyPress t KeyUp).1 = t) ∧
      (sd_KeyPress t KeyDown).1.start = ⟨t.start.X, t.start.Y + 1⟩ ∧
      (sdc_KeyPress t KeyDown).1.start = ⟨t.start.X, t.start.Y + 1⟩ ∧
      (0 < t.start.X → (sdc_KeyPress t KeyLeft).1.start = ⟨t.start.X - 1, t.start.Y⟩) ∧
      (t.start.X ≤ 0 → (sdc_KeyPress t KeyLeft).1 = t) ∧
      (sdc_KeyPress t KeyRight).1.start = ⟨t.start.X + 1, t.start.Y⟩ ∧
      (r ≠ KeyUp → r ≠ KeyDown → (sd_KeyPress t r).1 = t) ∧
      (r ≠ KeyUp → r ≠ KeyDown → r ≠ KeyLeft → r ≠ KeyRight → (sdc_KeyPress t r).1 = t) ∧
      (∀ keys : List Int, 0 ≤ t.start.X ∧ 0 ≤ t.start.Y →
        (0 ≤ (pressKeys sd_KeyPress t keys).start.X ∧
          0 ≤ (pressKeys sd_KeyPress t keys).start.Y) ∧
        (0 ≤ (pressKeys sdc_KeyPress t keys).start.X ∧
          0 ≤ (pressKeys sdc_KeyPress t keys).start.Y)) := by
  refine ⟨?_, ?_, ?_, ?_, ?_, ?_, ?_, ?_, ?_, ?_, ?_, ?_, ?_, ?_⟩
  · intro h; simp [Tile.KeyPress, h]
  · intro h; simp [Tile.KeyPress, h]
  · unfold sd_KeyPress; split_ifs <;> rfl
  · unfold sdc_KeyPress; split_ifs <;> rfl
  · intro h
    simp [sd_KeyPress, sdc_KeyPress, Tile.setDirty, h]
  · intro h
    have h2 : ¬ t.start.Y > 0 := by omega
    simp [sd_KeyPress, sdc_KeyPress, h2]
  · simp [sd_KeyPress, Tile.setDirty, KeyUp, KeyDown]
  · simp [sdc_KeyPress, Tile.setDirty, KeyUp, KeyDown]
  · intro h
    simp [sdc_KeyPress, Tile.setDirty, KeyUp, KeyDown, KeyLeft, h]
  · intro h
    have h2 : ¬ t.start.X > 0 := by omega
    simp [sdc_KeyPress, KeyUp, KeyDown, KeyLeft, h2]
  · simp [sdc_KeyPress, Tile.setDirty, KeyUp, KeyDown, KeyLeft, KeyRight]
  · intro h1 h2
    simp [sd_KeyPress, h1, h2]
  · intro h1 h2 h3 h4
    simp [sdc_KeyPress, h1, h2, h3, h4]
  · intro keys h
    exact ⟨pressKeys_start_nonneg sd_KeyPress sd_KeyPress_nonneg keys t h,
      pressKeys_start_nonneg sdc_KeyPress sdc_KeyPress_nonneg keys t h⟩

theorem su_KeyPress_other (t : Tile) (r : Int) (hE : r ≠ KeyEnter) (hU : r ≠ KeyUp)
    (hD : r ≠ KeyDown) (hB : r ≠ KeyBackspace) :
    su_KeyPress t r = some ({ t with line := t.line ++ sprintfC r }, false) := by
  unfold su_KeyPress
  rw [if_neg hE, if_neg hU, if_neg hD, if_neg hB]

theorem su_KeyPress_backspace (t : Tile) :
    su_KeyPress t KeyBackspace =
      some (if t.line.length > 0 then { t with line := t.line.take (t.line.length - 1) } else t,
        false) := by
  unfold su_KeyPress
  rw [if_neg (by decide), if_neg (by decide), if_neg (by decide), if_pos rfl]
  split_ifs <;> rfl

/-- C18 fails on the code for a key of more than one byte: after the key 'é'
(U+00E9, the bytes 195 169) and Backspace the input line is the old line
followed by the byte 195, not the old line; Backspace cuts one byte. -/
theorem C18_backspace_cuts_one_byte (t : Tile) :
    sprintfC 233 = [195, 169] ∧
      (su_pressAll t [233, KeyBackspace]).map (fun u => u.line) = some (t.line ++ [195]) := by
  refine ⟨by decide, ?_⟩
  simp only [su_pressAll, su_KeyPress_backspace,
    su_KeyPress_other t 233 (by decide) (by decide) (by decide) (by decide)]
  have : sprintfC 233 = [195, 169] := by decide
  simp [this, List.take_append_eq_append_take]

/-- For a key of one byte, any rune from 0 to 127 other than Enter and
Backspace, the key and then Backspace give back the input line; Backspace on
the empty line leaves it empty. -/
theorem su_backspace_one_byte (t : Tile) (r : Int) (h0 : 0 ≤ r) (h1 : r < 128)
    (hE : r ≠ KeyEnter) (hB : r ≠ KeyBackspace) :
    (su_pressAll t [r, KeyBackspace]).map (fun u => u.line) = some t.line ∧
      (t.line = [] → su_KeyPress t KeyBackspace = some (t, false)) := by
  have hU : r ≠ KeyUp := by unfold KeyUp; omega
  have hD : r ≠ KeyDown := by unfold KeyDown; omega
  have hc : ¬ (r < 0 ∨ r > 1114111 ∨ 55296 ≤ r ∧ r ≤ 57343) := by omega
  have hn : r.toNat < 128 := by omega
  have hs : sprintfC r = [r.toNat] := by
    simp [sprintfC, hc, hn]
  constructor
  · simp only [su_pressAll, su_KeyPress_backspace, su_KeyPress_other t r hE hU hD hB, hs]
    simp [List.take_append_eq_append_take]
  · intro hl
    rw [su_KeyPress_backspace, hl]
    rfl

/-! ### ScrollUp tiles and their history -/

namespace stRingBuffer

/-- What NthPreviousEntry returns on the ring that holds the strings `added`. -/
theorem Nth_Holds (s : stRingBuffer) (added : List GoString) (n : Int) (hH : Holds s added) :
    s.NthPreviousEntry n = some (s,
      if 0 ≤ n ∧ n < min (added.length : Int) 100
      then (added.getD (added.length - 1 - n.toNat) [], true) else ([], false)) := by
  obtain ⟨es, he, hlen, hmax, hhead, hsize, hent⟩ := hH
  unfold NthPreviousEntry
  by_cases hn : 0 ≤ n ∧ n < min (added.length : Int) 100
  · rw [if_neg (by rw [hsize]; omega), if_pos hn, he]
    simp only [hhead, hmax]
    have hk := hent n.toNat (by omega)
    have hidx : (if ((added.length % 100 : Nat) : Int) - n < 0
        then ((added.length % 100 : Nat) : Int) - n + 100
        else ((added.length % 100 : Nat) : Int) - n).toNat
        = (added.length - n.toNat) % 100 := by
      split_ifs <;> omega
    rw [if_neg (by split_ifs <;> omega), hidx, hk,
      List.getElem?_eq_getElem (by omega : added.length - 1 - n.toNat < added.length)]
    simp only [List.getD_eq_getElem?_getD]
    rw [List.getElem?_eq_getElem (by omega : added.length - 1 - n.toNat < added.length)]
    rfl
  · rw [if_pos (by rw [hsize]; omega), if_neg hn]

theorem addAll_append (l1 l2 : List GoString) :
    ∀ s : stRingBuffer, addAll s (l1 ++ l2) = (addAll s l1).bind (fun t => addAll t l2) := by
  induction l1 with
  | nil => intro s; rfl
  | cons a l1 ih =>
    intro s
    simp only [List.cons_append, addAll]
    cases s.Add a with
    | none => rfl
    | some t => exact ih t

/-- Adds to the empty ring never fail, and a non-empty sequence of them leaves
the ring that holds the added strings. -/
theorem addAll_total (added : List GoString) :
    ∃ s, addAll empty added = some s ∧ (added ≠ [] → Holds s added) := by
  cases added with
  | nil => exact ⟨empty, rfl, fun h => absurd rfl h⟩
  | cons a rest =>
    obtain ⟨t, ht, hHolds⟩ := Add_first a
    obtain ⟨s, hs, hH⟩ := addAll_Holds rest t [a] hHolds
    exact ⟨s, by simp only [addAll, ht, hs], fun _ => by simpa using hH⟩

/-- An Add to a reachable ring succeeds, the ring stays reachable, and the added
string is its entry at offset 0. -/
theorem Reachable_Add (s : stRingBuffer) (a : GoString) (h : s.Reachable) :
    ∃ t, s.Add a = some t ∧ t.Reachable ∧ t.NthPreviousEntry 0 = some (t, a, true) := by
  obtain ⟨added, hs⟩ := h
  obtain ⟨t, ht, hH⟩ := addAll_total (added ++ [a])
  have hH2 := hH (by simp)
  rw [addAll_append, hs] at ht
  simp only [Option.some_bind, addAll] at ht
  cases hadd : s.Add a with
  | none => rw [hadd] at ht; simp at ht
  | some u =>
    rw [hadd] at ht
    simp only [Option.some.injEq] at ht
    subst ht
    refine ⟨u, rfl, ⟨added ++ [a], by rw [addAll_append, hs]; simp [addAll, hadd]⟩, ?_⟩
    rw [Nth_Holds u (added ++ [a]) 0 hH2]
    simp

end stRingBuffer

theorem su_pressAll_append (l1 l2 : List Int) :
    ∀ t : Tile, su_pressAll t (l1 ++ l2) = (su_pressAll t l1).bind (fun u => su_pressAll u l2) := by
  induction l1 with
  | nil => intro t; rfl
  | cons r l1 ih =>
    intro t
    simp only [List.cons_append, su_pressAll]
    cases su_KeyPress t r with
    | none => rfl
    | some p => exact ih p.1

theorem su_KeyPress_enter (t : Tile) (cb : GoString → Bool) (h : stRingBuffer)
    (hcb : t.lineCallback = some cb) (hf : cb t.line = false) (hadd : t.history.Add t.line = some h) :
    su_KeyPress t KeyEnter =
      some ({ t with historyIndex := -1, history := h, line := [] }, false) := by
  unfold su_KeyPress
  rw [if_pos rfl]
  simp only [hcb, hf, Bool.false_eq_true, if_false, hadd]

theorem su_KeyPress_enter_true (t : Tile) (cb : GoString → Bool)
    (hcb : t.lineCallback = some cb) (hf : cb t.line = true) :
    su_KeyPress t KeyEnter = some (t, true) := by
  unfold su_KeyPress
  rw [if_pos rfl]
  simp only [hcb, hf, if_true]

/-- C16: for a ScrollUp tile with a submission callback and a history made by
Adds: when the callback returns false on the input line L, Enter returns false
and leaves NthPreviousEntry(0) = L, an empty input line and history index -1;
when it returns true, Enter returns true and the tile is unchanged; and from an
empty line the keys 'a', 'b', 'c', Enter (the callback returning false on
"abc") leave history offset 0 = "abc" and an empty input line. -/
theorem C16_enter_archives_line (t : Tile) (cb : GoString → Bool)
    (hcb : t.lineCallback = some cb) (hh : t.history.Reachable) :
    (cb t.line = false →
        ∃ u, su_KeyPress t KeyEnter = some (u, false) ∧
          u.history.NthPreviousEntry 0 = some (u.history, t.line, true) ∧
          u.line = [] ∧ u.historyIndex = -1) ∧
      (cb t.line = true → su_KeyPress t KeyEnter = some (t, true)) ∧
      (t.line = [] → cb [97, 98, 99] = false →
        ∃ u, su_pressAll t [97, 98, 99, KeyEnter] = some u ∧
          u.history.NthPreviousEntry 0 = some (u.history, [97, 98, 99], true) ∧
          u.line = []) := by
  refine ⟨?_, su_KeyPress_enter_true t cb hcb, ?_⟩
  · intro hf
    obtain ⟨h, hadd, -, hnth⟩ := stRingBuffer.Reachable_Add t.history t.line hh
    exact ⟨_, su_KeyPress_enter t cb h hcb hf hadd, hnth, rfl, rfl⟩
  · intro hl hf
    obtain ⟨h, hadd, -, hnth⟩ := stRingBuffer.Reachable_Add t.history [97, 98, 99] hh
    have e1 : sprintfC 97 = [97] := by decide
    have e2 : sprintfC 98 = [98] := by decide
    have e3 : sprintfC 99 = [99] := by decide
    refine ⟨{ t with historyIndex := -1, history := h, line := [] }, ?_, hnth, rfl⟩
    simp only [su_pressAll,
      su_KeyPress_other _ 97 (by decide) (by decide) (by decide) (by decide),
      su_KeyPress_other _ 98 (by decide) (by decide) (by decide) (by decide),
      su_KeyPress_other _ 99 (by decide) (by decide) (by decide) (by decide), e1, e2, e3, hl,
      List.nil_append, List.singleton_append, List.cons_append]
    rw [su_KeyPress_enter { t with line := [97, 98, 99] } cb h hcb hf hadd]

/-- C16 at a fresh ScrollUp tile whose callback always returns false. -/
theorem C16_enter_archives_line_witness :
    ((fun _ => false) ([] : GoString) = false →
        ∃ u, su_KeyPress (Tile.mk TileType.TileType_ScrollUp [] ⟨⟨0, 0⟩, ⟨0, 0⟩⟩ [] [] none
              ⟨0, 0⟩ ⟨1, 1⟩ LocType.Loc_Top none [] false ⟨0, 0⟩ none (some (fun _ => false))
              stRingBuffer.empty (-1) []) KeyEnter = some (u, false) ∧
          u.history.NthPreviousEntry 0 = some (u.history, [], true) ∧
          u.line = [] ∧ u.historyIndex = -1) ∧
      ((fun _ => false) ([] : GoString) = true →
        su_KeyPress (Tile.mk TileType.TileType_ScrollUp [] ⟨⟨0, 0⟩, ⟨0, 0⟩⟩ [] [] none
              ⟨0, 0⟩ ⟨1, 1⟩ LocType.Loc_Top none [] false ⟨0, 0⟩ none (some (fun _ => false))
              stRingBuffer.empty (-1) []) KeyEnter =
          some (Tile.mk TileType.TileType_ScrollUp [] ⟨⟨0, 0⟩, ⟨0, 0⟩⟩ [] [] none
              ⟨0, 0⟩ ⟨1, 1⟩ LocType.Loc_Top none [] false ⟨0, 0⟩ none (some (fun _ => false))
              stRingBuffer.empty (-1) [], true)) ∧
      (([] : GoString) = [] → (fun _ => false) ([97, 98, 99] : GoString) = false →
        ∃ u, su_pressAll (Tile.mk TileType.TileType_ScrollUp [] ⟨⟨0, 0⟩, ⟨0, 0⟩⟩ [] [] none
              ⟨0, 0⟩ ⟨1, 1⟩ LocType.Loc_Top none [] false ⟨0, 0⟩ none (some (fun _ => false))
              stRingBuffer.empty (-1) []) [97, 98, 99, KeyEnter] = some u ∧
          u.history.NthPreviousEntry 0 = some (u.history, [97, 98, 99], true) ∧
          u.line = []) :=
  C16_enter_archives_line (Tile.mk TileType.TileType_ScrollUp [] ⟨⟨0, 0⟩, ⟨0, 0⟩⟩ [] [] none
    ⟨0, 0⟩ ⟨1, 1⟩ LocType.Loc_Top none [] false ⟨0, 0⟩ none (some (fun _ => false))
    stRingBuffer.empty (-1) []) (fun _ => false) rfl ⟨[], rfl⟩

theorem su_KeyPress_up (t : Tile) (added : List GoString) (hH : stRingBuffer.Holds t.history added)
    (h0 : -1 ≤ t.historyIndex) (h1 : t.historyIndex + 1 < min (added.length : Int) 100) :
    su_KeyPress t KeyUp =
      some ({ t with
          historyPending := if t.historyIndex = -1 then t.line else t.historyPending,
          historyIndex := t.historyIndex + 1,
          line := added.getD (added.length - 1 - (t.historyIndex + 1).toNat) [] }, false) := by
  unfold su_KeyPress
  rw [if_neg (by decide), if_pos rfl, stRingBuffer.Nth_Holds _ added _ hH,
    if_pos ⟨by omega, h1⟩]
  by_cases hi : t.historyIndex = -1
  · simp [hi, Tile.setLine]
  · simp [hi, Tile.setLine]

theorem su_KeyPress_up_oldest (t : Tile) (added : List GoString)
    (hH : stRingBuffer.Holds t.history added)
    (h1 : t.historyIndex + 1 = min (added.length : Int) 100) :
    su_KeyPress t KeyUp = some (t, false) := by
  unfold su_KeyPress
  rw [if_neg (by decide), if_pos rfl, stRingBuffer.Nth_Holds _ added _ hH,
    if_neg (by omega)]
  rfl

theorem su_KeyPress_down_none (t : Tile) (h : t.historyIndex = -1) :
    su_KeyPress t KeyDown = some (t, false) := by
  unfold su_KeyPress
  rw [if_neg (by decide), if_neg (by decide), if_pos rfl, if_pos h]

theorem su_KeyPress_down_zero (t : Tile) (h : t.historyIndex = 0) :
    su_KeyPress t KeyDown =
      some ({ t with line := t.historyPending, historyIndex := -1 }, false) := by
  unfold su_KeyPress
  rw [if_neg (by decide), if_neg (by decide), if_pos rfl, if_neg (by omega), if_pos h]
  simp [Tile.setLine, h]

theorem su_KeyPress_down (t : Tile) (added : List GoString)
    (hH : stRingBuffer.Holds t.history added)
    (h0 : 1 ≤ t.historyIndex) (h1 : t.historyIndex < min (added.length : Int) 100 + 1) :
    su_KeyPress t KeyDown =
      some ({ t with
          historyIndex := t.historyIndex - 1,
          line := added.getD (added.length - 1 - (t.historyIndex - 1).toNat) [] }, false) := by
  unfold su_KeyPress
  rw [if_neg (by decide), if_neg (by decide), if_pos rfl, if_neg (by omega), if_neg (by omega),
    stRingBuffer.Nth_Holds _ added _ hH, if_pos ⟨by omega, by omega⟩]
  simp [Tile.setLine]

/-- Up pressed `j + 1` times from history index -1. -/
theorem su_ups (t : Tile) (added : List GoString) (hH : stRingBuffer.Holds t.history added)
    (hidx : t.historyIndex = -1) :
    ∀ j : Nat, j + 1 ≤ min added.length 100 →
      su_pressAll t (List.replicate (j + 1) KeyUp) =
        some { t with
          historyPending := t.line, historyIndex := (j : Int),
          line := added.getD (added.length - 1 - j) [] } := by
  intro j
  induction j with
  | zero =>
    intro hj
    simp only [List.replicate, su_pressAll]
    rw [su_KeyPress_up t added hH (by omega) (by omega)]
    simp [hidx]
  | succ j ih =>
    intro hj
    rw [List.replicate_succ', su_pressAll_append, ih (by omega)]
    simp only [Option.some_bind, su_pressAll]
    rw [su_KeyPress_up _ added]
    · have e : ((j : Int) + 1).toNat = j + 1 := by omega
      have e2 : ¬ (j : Int) = -1 := by omega
      simp [e, e2]
    · exact hH
    · simp only []; omega
    · simp only []; omega

/-- Down pressed `i + 1` times from history index `i`. -/
theorem su_downs (added : List GoString) :
    ∀ (i : Nat) (w : Tile), stRingBuffer.Holds w.history added → w.historyIndex = (i : Int) →
      i < min added.length 100 →
      su_pressAll w (List.replicate (i + 1) KeyDown) =
        some { w with historyIndex := -1, line := w.historyPending } := by
  intro i
  induction i with
  | zero =>
    intro w _ hidx _
    simp only [List.replicate, su_pressAll]
    rw [su_KeyPress_down_zero w (by simpa using hidx)]
  | succ i ih =>
    intro w hH hidx hi
    rw [List.replicate_succ, su_pressAll]
    rw [su_KeyPress_down w added hH (by omega) (by omega)]
    simp only []
    rw [ih]
    · exact hH
    · simp only []; omega
    · omega

/-- C17: for a ScrollUp tile with history index -1, uncommitted input line L
and a history holding the strings `added` (k = min(N, 100) entries, k ≥ 1), and
every m with 1 ≤ m ≤ k: Up pressed m times sets the line to the (m-1)-th
previous history entry and the index to m-1, and Down pressed m times after that
restores the line to L and the index to -1; Up at the oldest entry and Down at
index -1 change nothing. -/
theorem C17_history_navigation (t : Tile) (added : List GoString) (m : Nat)
    (hH : stRingBuffer.Holds t.history added) (hidx : t.historyIndex = -1)
    (hm1 : 1 ≤ m) (hmk : m ≤ min added.length 100) :
    (∃ u, su_pressAll t (List.replicate m KeyUp) = some u ∧
        t.history.NthPreviousEntry ((m : Int) - 1) = some (t.history, u.line, true) ∧
        u.historyIndex = (m : Int) - 1 ∧
        ∃ v, su_pressAll u (List.replicate m KeyDown) = some v ∧
          v.line = t.line ∧ v.historyIndex = -1 ∧ v.history = t.history) ∧
      (∀ w : Tile, stRingBuffer.Holds w.history added →
        w.historyIndex + 1 = min (added.length : Int) 100 →
        su_KeyPress w KeyUp = some (w, false)) ∧
      su_KeyPress t KeyDown = some (t, false) := by
  refine ⟨?_, fun w hw h => su_KeyPress_up_oldest w added hw h,
    su_KeyPress_down_none t hidx⟩
  obtain ⟨j, rfl⟩ : ∃ j, m = j + 1 := ⟨m - 1, by omega⟩
  refine ⟨_, su_ups t added hH hidx j hmk, ?_, by simp, ?_⟩
  · rw [stRingBuffer.Nth_Holds _ added _ hH, if_pos ⟨by omega, by omega⟩]
    have e : ((j + 1 : Nat) : Int) - 1 = (j : Int) := by omega
    simp [e]
  · refine ⟨_, su_downs added j _ hH rfl (by omega), rfl, rfl, rfl⟩

/-- C17 at a tile whose history holds "a" and "b", with input line "x" and
m = 2. -/
theorem C17_history_navigation_witness :
    (∃ u, su_pressAll (Tile.mk TileType.TileType_ScrollUp [] ⟨⟨0, 0⟩, ⟨0, 0⟩⟩ [] [] none
            ⟨0, 0⟩ ⟨1, 1⟩ LocType.Loc_Top none [120] false ⟨0, 0⟩ none none
            (stRingBuffer.mk (some ((List.replicate 100 []).set 1 [97] |>.set 2 [98])) 100 2 2)
            (-1) []) (List.replicate 2 KeyUp) = some u ∧
        (stRingBuffer.mk (some ((List.replicate 100 []).set 1 [97] |>.set 2 [98])) 100 2
            2).NthPreviousEntry (((2 : Nat) : Int) - 1) =
          some (stRingBuffer.mk (some ((List.replicate 100 []).set 1 [97] |>.set 2 [98])) 100 2
            2, u.line, true) ∧
        u.historyIndex = ((2 : Nat) : Int) - 1 ∧
        ∃ v, su_pressAll u (List.replicate 2 KeyDown) = some v ∧
          v.line = [120] ∧ v.historyIndex = -1 ∧
          v.history =
            stRingBuffer.mk (some ((List.replicate 100 []).set 1 [97] |>.set 2 [98])) 100 2 2) ∧
      (∀ w : Tile, stRingBuffer.Holds w.history [[97], [98]] →
        w.historyIndex + 1 = min (([[97], [98]] : List GoString).length : Int) 100 →
        su_KeyPress w KeyUp = some (w, false)) ∧
      su_KeyPress (Tile.mk TileType.TileType_ScrollUp [] ⟨⟨0, 0⟩, ⟨0, 0⟩⟩ [] [] none
            ⟨0, 0⟩ ⟨1, 1⟩ LocType.Loc_Top none [120] false ⟨0, 0⟩ none none
            (stRingBuffer.mk (some ((List.replicate 100 []).set 1 [97] |>.set 2 [98])) 100 2 2)
            (-1) []) KeyDown =
        some (Tile.mk TileType.TileType_ScrollUp [] ⟨⟨0, 0⟩, ⟨0, 0⟩⟩ [] [] none
            ⟨0, 0⟩ ⟨1, 1⟩ LocType.Loc_Top none [120] false ⟨0, 0⟩ none none
            (stRingBuffer.mk (some ((List.replicate 100 []).set 1 [97] |>.set 2 [98])) 100 2 2)
            (-1) [], false) :=
  C17_history_navigation (Tile.mk TileType.TileType_ScrollUp [] ⟨⟨0, 0⟩, ⟨0, 0⟩⟩ [] [] none
      ⟨0, 0⟩ ⟨1, 1⟩ LocType.Loc_Top none [120] false ⟨0, 0⟩ none none
      (stRingBuffer.mk (some ((List.replicate 100 []).set 1 [97] |>.set 2 [98])) 100 2 2)
      (-1) []) [[97], [98]] 2
    ⟨_, rfl, by simp, rfl, rfl, rfl, by
      intro k hk
      have hk2 : k < 2 := by simpa using hk
      interval_cases k <;> rfl⟩
    rfl (by decide) (by decide)

/-! ### Session: AddTile, DeleteTile, layoutTiles -/

namespace TileTerm

/-- The result of AddTile when it does not fail. -/
theorem AddTile_ok (tTerm : TileTerm) (name cursor : GoString) (outline : List Int)
    (fraction : Frac) (location : LocType) (parent : Option Nat) (handler : TileType)
    (hlock : tTerm.lock = false) (hok : ¬ (tTerm.tiles.length > 0 ∧ parent = none)) :
    tTerm.AddTile name cursor outline fraction location parent handler =
      Run.done (TileTerm.mk tTerm.width tTerm.height tTerm.big
          (if tTerm.tiles = [] then some tTerm.heap.length else tTerm.focus)
          (tTerm.tiles ++ [tTerm.heap.length]) tTerm.dirty false
          (tTerm.heap ++ [newTile name cursor outline fraction location parent handler]),
        some tTerm.heap.length, none) := by
  unfold AddTile
  rw [if_neg hok, hlock]
  by_cases he : tTerm.tiles = []
  · simp [he, hlock]
  · have : ¬ (tTerm.tiles ++ [tTerm.heap.length]).length = 1 := by
      have := List.length_pos.2 he
      simp only [List.length_append, List.length_singleton]
      omega
    simp [he, this, hlock]

/-- C13, amended: with the session mutex free, AddTile returns the error "no
parent tile" exactly when the session has at least one tile and the parent
argument is nil, and then the session is unchanged and no tile is returned;
otherwise it returns without error a new tile object that is appended at the
end of the tile list, the existing tiles, their order and their objects
unchanged; a tile added to an empty tile list becomes the focus, and an add to
a non-empty tile list leaves the focus unchanged. -/
theorem C13_add_tile (tTerm : TileTerm) (name cursor : GoString) (outline : List Int)
    (fraction : Frac) (location : LocType) (parent : Option Nat) (handler : TileType)
    (hlock : tTerm.lock = false) :
    ∃ u tile err, tTerm.AddTile name cursor outline fraction location parent handler =
        Run.done (u, tile, err) ∧
      (err = some "no parent tile" ↔ (tTerm.tiles ≠ [] ∧ parent = none)) ∧
      (err ≠ none → u = tTerm ∧ tile = none) ∧
      (err = none →
        tile = some tTerm.heap.length ∧ u.tiles = tTerm.tiles ++ [tTerm.heap.length] ∧
        (∃ t, u.heap = tTerm.heap ++ [t] ∧ t.parent = parent ∧ t.fraction = fraction ∧
          t.location = location ∧ t.handler = handler ∧ t.outline = some outline ∧
          t.historyIndex = -1) ∧
        u.focus = (if tTerm.tiles = [] then some tTerm.heap.length else tTerm.focus) ∧
        u.lock = false ∧ u.big = tTerm.big) := by
  by_cases hfail : tTerm.tiles.length > 0 ∧ parent = none
  · refine ⟨tTerm, none, some "no parent tile", ?_, ?_, ?_, ?_⟩
    · unfold AddTile; rw [if_pos hfail]
    · constructor
      · intro _
        exact ⟨fun h => by rw [h] at hfail; simp at hfail, hfail.2⟩
      · intro _; rfl
    · intro _; exact ⟨rfl, rfl⟩
    · intro h; simp at h
  · have hne : ¬ (tTerm.tiles ≠ [] ∧ parent = none) := by
      rintro ⟨h1, h2⟩
      exact hfail ⟨List.length_pos.2 h1, h2⟩
    refine ⟨_, _, _, AddTile_ok tTerm name cursor outline fraction location parent handler
      hlock hfail, ?_, ?_, ?_⟩
    · constructor
      · intro h; simp at h
      · intro h; exact absurd h hne
    · intro h; exact absurd rfl h
    · intro _
      exact ⟨rfl, rfl, ⟨_, rfl, rfl, rfl, rfl, rfl, rfl, rfl⟩, rfl, rfl, rfl⟩

/-- C13 at a new session, adding a root tile. -/
theorem C13_add_tile_witness :
    ∃ u tile err, NewTileTerm.AddTile [] [] SingleBox ⟨1, 1⟩ LocType.Loc_Top none
          TileType.TileType_ScrollUp = Run.done (u, tile, err) ∧
      (err = some "no parent tile" ↔ (NewTileTerm.tiles ≠ [] ∧ (none : Option Nat) = none)) ∧
      (err ≠ none → u = NewTileTerm ∧ tile = none) ∧
      (err = none →
        tile = some NewTileTerm.heap.length ∧
        u.tiles = NewTileTerm.tiles ++ [NewTileTerm.heap.length] ∧
        (∃ t, u.heap = NewTileTerm.heap ++ [t] ∧ t.parent = none ∧ t.fraction = ⟨1, 1⟩ ∧
          t.location = LocType.Loc_Top ∧ t.handler = TileType.TileType_ScrollUp ∧
          t.outline = some SingleBox ∧ t.historyIndex = -1) ∧
        u.focus = (if NewTileTerm.tiles = [] then some NewTileTerm.heap.length
          else NewTileTerm.focus) ∧
        u.lock = false ∧ u.big = NewTileTerm.big) :=
  C13_add_tile NewTileTerm [] [] SingleBox ⟨1, 1⟩ LocType.Loc_Top none
    TileType.TileType_ScrollUp rfl

end TileTerm

namespace TileTerm

/-- The loop of deleteTileChildren, run while the session mutex is held (as it
is inside DeleteTile), waits without end as soon as the list has a child of
`tile`: the DeleteTile it calls takes the mutex again. -/
theorem deleteChildrenLoop_blocked (fuel : Nat) (tile : Option Nat) (l : List Nat) :
    ∀ tTerm : TileTerm, tTerm.lock = true →
      (∀ v ∈ l, ∃ vt, tTerm.heap[v]? = some vt) →
      (∃ v ∈ l, ∃ vt, tTerm.heap[v]? = some vt ∧ vt.parent = tile) →
      deleteChildrenLoop (DeleteTile (fuel + 1)) tile l tTerm = Run.blocked := by
  induction l with
  | nil => intro tTerm _ _ h; obtain ⟨v, hv, -⟩ := h; simp at hv
  | cons v rest ih =>
    intro tTerm hlock hheap hchild
    obtain ⟨vt, hvt⟩ := hheap v (List.mem_cons_self _ _)
    simp only [deleteChildrenLoop, hvt]
    by_cases hp : vt.parent = tile
    · rw [if_pos hp]
      simp [DeleteTile, hlock]
    · rw [if_neg hp]
      apply ih tTerm hlock (fun u hu => hheap u (List.mem_cons_of_mem _ hu))
      obtain ⟨u, hu, ut, hut, hpar⟩ := hchild
      rcases List.mem_cons.1 hu with rfl | hu
      · rw [hvt] at hut
        simp only [Option.some.injEq] at hut
        subst hut
        exact absurd hpar hp
      · exact ⟨u, hu, ut, hut, hpar⟩

/-- The loop of deleteTileChildren returns the session as it is when the list
has no child of `tile`. -/
theorem deleteChildrenLoop_leaf (del : TileTerm → Option Nat → Run TileTerm)
    (tile : Option Nat) (l : List Nat) (tTerm : TileTerm)
    (hheap : ∀ v ∈ l, ∃ vt, tTerm.heap[v]? = some vt)
    (hleaf : ∀ v ∈ l, ∀ vt, tTerm.heap[v]? = some vt → vt.parent ≠ tile) :
    deleteChildrenLoop del tile l tTerm = Run.done tTerm := by
  induction l with
  | nil => rfl
  | cons v rest ih =>
    obtain ⟨vt, hvt⟩ := hheap v (List.mem_cons_self _ _)
    simp only [deleteChildrenLoop, hvt]
    rw [if_neg (hleaf v (List.mem_cons_self _ _) vt hvt)]
    exact ih (fun u hu => hheap u (List.mem_cons_of_mem _ hu))
      (fun u hu => hleaf u (List.mem_cons_of_mem _ hu))

/-- DeleteTile of a tile that has a child in the tile list never returns: with
fuel for the nested call it waits for the session mutex that it holds itself. -/
theorem DeleteTile_blocked_of_child (tTerm : TileTerm) (t : Nat) (fuel : Nat)
    (hlock : tTerm.lock = false)
    (hheap : ∀ v ∈ tTerm.tiles, ∃ vt, tTerm.heap[v]? = some vt)
    (hchild : ∃ v ∈ tTerm.tiles, v ≠ t ∧ ∃ vt, tTerm.heap[v]? = some vt ∧ vt.parent = some t) :
    DeleteTile (fuel + 2) tTerm (some t) = Run.blocked := by
  obtain ⟨c, hc, hct, ct, hcheap, hcpar⟩ := hchild
  have hfilter : ∀ v, v ∈ tTerm.tiles.filter (fun v => decide (some v ≠ some t)) →
      v ∈ tTerm.tiles := fun v hv => (List.mem_filter.1 hv).1
  have hcin : c ∈ tTerm.tiles.filter (fun v => decide (some v ≠ some t)) :=
    List.mem_filter.2 ⟨hc, by simpa using hct⟩
  cases htl : tTerm.tiles with
  | nil => rw [htl] at hc; simp at hc
  | cons first rest =>
    rw [htl] at hheap hfilter hcin
    unfold DeleteTile
    simp only [hlock, Bool.false_eq_true, if_false, htl]
    by_cases hf : tTerm.focus = some t
    · by_cases hfirst : some t ≠ some first
      · simp only [hf, if_true, if_pos hfirst]
        rw [deleteChildrenLoop_blocked]
        · rfl
        · exact fun v hv => hheap v (hfilter v hv)
        · exact ⟨c, hcin, ct, hcheap, hcpar⟩
      · simp only [hf, if_true, if_neg hfirst]
        rw [deleteChildrenLoop_blocked]
        · rfl
        · exact fun v hv => hheap v (hfilter v hv)
        · exact ⟨c, hcin, ct, hcheap, hcpar⟩
    · simp only [hf, if_false]
      rw [deleteChildrenLoop_blocked]
      · rfl
      · exact fun v hv => hheap v (hfilter v hv)
      · exact ⟨c, hcin, ct, hcheap, hcpar⟩

/-- DeleteTile of a tile without a child in the tile list returns: the tile is
taken out of the list, the other tiles keep their order, and a focus on the
tile goes to the first tile of the old list, or to nil when the tile is that
first tile. -/
theorem DeleteTile_leaf (tTerm : TileTerm) (t : Nat) (fuel : Nat)
    (hlock : tTerm.lock = false) (hne : tTerm.tiles ≠ [])
    (hheap : ∀ v ∈ tTerm.tiles, ∃ vt, tTerm.heap[v]? = some vt)
    (hleaf : ∀ v ∈ tTerm.tiles, ∀ vt, tTerm.heap[v]? = some vt → vt.parent ≠ some t) :
    DeleteTile (fuel + 1) tTerm (some t) =
      Run.done (TileTerm.mk tTerm.width tTerm.height tTerm.big
        (if tTerm.focus = some t then
          (if some t ≠ tTerm.tiles.head? then tTerm.tiles.head? else none) else tTerm.focus)
        (tTerm.tiles.filter (fun v => decide (v ≠ t))) tTerm.dirty false tTerm.heap) := by
  have hfilter : ∀ v, v ∈ tTerm.tiles.filter (fun v => decide (some v ≠ some t)) →
      v ∈ tTerm.tiles := fun v hv => (List.mem_filter.1 hv).1
  have hfe : tTerm.tiles.filter (fun v => decide (some v ≠ some t)) =
      tTerm.tiles.filter (fun v => decide (v ≠ t)) := by
    congr 1; funext v; simp
  cases htl : tTerm.tiles with
  | nil => exact absurd htl hne
  | cons first rest =>
    rw [htl] at hheap hfilter hleaf hfe
    unfold DeleteTile
    simp only [hlock, Bool.false_eq_true, if_false, htl, List.head?_cons]
    by_cases hf : tTerm.focus = some t
    · by_cases hfirst : some t ≠ some first
      · simp only [hf, if_true, if_pos hfirst]
        rw [deleteChildrenLoop_leaf]
        · simp only [hfe]
        · exact fun v hv => hheap v (hfilter v hv)
        · exact fun v hv => hleaf v (hfilter v hv)
      · simp only [hf, if_true, if_neg hfirst]
        rw [deleteChildrenLoop_leaf]
        · simp only [hfe]
        · exact fun v hv => hheap v (hfilter v hv)
        · exact fun v hv => hleaf v (hfilter v hv)
    · simp only [hf, if_false]
      rw [deleteChildrenLoop_leaf]
      · simp only [hfe]
      · exact fun v hv => hheap v (hfilter v hv)
      · exact fun v hv => hleaf v (hfilter v hv)

theorem threeLevel_tiles :
    threeLevel.tiles = [0, 1, 2] ∧ threeLevel.heap.map (fun t => t.parent) = [none, some 0, some 1] ∧
      threeLevel.lock = false ∧ threeLevel.focus = some 0 ∧ threeLevel.heap.length = 3 := by
  refine ⟨rfl, rfl, rfl, rfl, rfl⟩

theorem threeLevel_WellFormed : threeLevel.WellFormed := by
  refine ⟨rfl, by decide, ?_⟩
  intro i v h
  have ht : threeLevel.tiles = [0, 1, 2] := rfl
  rw [ht] at h ⊢
  match i, h with
  | 0, h =>
    simp at h; subst h
    exact ⟨_, rfl, fun _ => rfl, fun h => absurd h (by decide)⟩
  | 1, h =>
    simp at h; subst h
    exact ⟨_, rfl, fun h => absurd h (by decide), fun _ => ⟨0, 0, by decide, rfl, rfl⟩⟩
  | 2, h =>
    simp at h; subst h
    exact ⟨_, rfl, fun h => absurd h (by decide), fun _ => ⟨1, 1, by decide, rfl, rfl⟩⟩
  | n + 3, h => simp at h

/-- C11 fails on the code: in the well-formed session `threeLevel` (root 0 ->
child 1 -> grandchild 2, made by three AddTile calls) DeleteTile(child) never
returns, whatever the fuel: it runs out of fuel or, from fuel 2 on, waits
without end for the session mutex that it holds itself.  The tile list that the
claim describes, root alone, is never reached. -/
theorem C11_delete_child_never_returns :
    threeLevel.WellFormed ∧ threeLevel.tiles = [0, 1, 2] ∧
      threeLevel.heap.map (fun t => t.parent) = [none, some 0, some 1] ∧
      (∀ fuel u, DeleteTile fuel threeLevel (some 1) ≠ Run.done u) ∧
      (∀ fuel, DeleteTile (fuel + 2) threeLevel (some 1) = Run.blocked) := by
  have hb : ∀ fuel, DeleteTile (fuel + 2) threeLevel (some 1) = Run.blocked := fun fuel =>
    DeleteTile_blocked_of_child threeLevel 1 fuel rfl
      (by
        intro v hv
        have ht : threeLevel.tiles = [0, 1, 2] := rfl
        rw [ht] at hv
        simp only [List.mem_cons, List.mem_singleton, List.not_mem_nil, or_false] at hv
        rcases hv with rfl | rfl | rfl <;> exact ⟨_, rfl⟩)
      ⟨2, by decide, by decide, _, rfl, rfl⟩
  refine ⟨threeLevel_WellFormed, rfl, rfl, ?_, hb⟩
  intro fuel u h
  match fuel, h with
  | 0, h => simp [DeleteTile] at h
  | 1, h =>
    have : DeleteTile 1 threeLevel (some 1) = Run.outOfFuel := rfl
    rw [this] at h
    exact Run.noConfusion h
  | f + 2, h =>
    rw [hb f] at h
    exact Run.noConfusion h

/-- C12 fails on the code: in the session `threeLevel` with the focus on the
grandchild, DeleteTile(child) removes the focused tile by the claim, yet never
returns, whatever the fuel, so the focus is never handed to the root; with the
focus on the child itself the same holds.  The cause is the one of C11.  On a
tile without children the code does what the claim says: DeleteTile(grandchild)
with the focus on the grandchild returns with the tiles root, child and the
focus on the root. -/
theorem C12_focus_never_handed_over :
    (∀ fuel u, DeleteTile fuel { threeLevel with focus := some 2 } (some 1) ≠ Run.done u) ∧
      (∀ fuel u, DeleteTile fuel { threeLevel with focus := some 1 } (some 1) ≠ Run.done u) ∧
      (∃ u, DeleteTile 1 { threeLevel with focus := some 2 } (some 2) = Run.done u ∧
        u.tiles = [0, 1] ∧ u.focus = some 0) := by
  have hb : ∀ (foc : Option Nat) (fuel : Nat),
      DeleteTile (fuel + 2) { threeLevel with focus := foc } (some 1) = Run.blocked :=
    fun foc fuel =>
      DeleteTile_blocked_of_child { threeLevel with focus := foc } 1 fuel rfl
        (by
          intro v hv
          have ht : ({ threeLevel with focus := foc } : TileTerm).tiles = [0, 1, 2] := rfl
          rw [ht] at hv
          simp only [List.mem_cons, List.mem_singleton, List.not_mem_nil, or_false] at hv
          rcases hv with rfl | rfl | rfl <;> exact ⟨_, rfl⟩)
        ⟨2, by show (2 : Nat) ∈ [0, 1, 2]; decide, by decide, _, rfl, rfl⟩
  have never : ∀ (foc : Option Nat) (fuel : Nat) (u : TileTerm),
      DeleteTile fuel { threeLevel with focus := foc } (some 1) ≠ Run.done u := by
    intro foc fuel u h
    match fuel, h with
    | 0, h => simp [DeleteTile] at h
    | 1, h =>
      have : DeleteTile 1 { threeLevel with focus := foc } (some 1) = Run.outOfFuel := by
        by_cases hf : foc = some 1
        · subst hf; rfl
        · simp [DeleteTile, hf, threeLevel_tiles.1, deleteChildrenLoop]
          rfl
      rw [this] at h
      exact Run.noConfusion h
    | f + 2, h =>
      rw [hb foc f] at h
      exact Run.noConfusion h
  exact ⟨never (some 2), never (some 1), ⟨_, rfl, rfl, rfl⟩⟩

end TileTerm

/-! ### Layout -/

namespace TileTerm

theorem setBounds_heap_same (tTerm : TileTerm) (p : Nat) (r : Rect) (t : Tile)
    (h : tTerm.heap[p]? = some t) :
    (tTerm.setBounds p r).heap[p]? = some { t with bounds := r } := by
  have hlt : p < tTerm.heap.length := by
    by_contra hge
    rw [List.getElem?_eq_none (Nat.le_of_not_lt hge)] at h
    simp at h
  simp only [setBounds, h]
  rw [List.getElem?_set_self hlt]

theorem setBounds_heap_other (tTerm : TileTerm) (p q : Nat) (r : Rect) (hne : p ≠ q) :
    (tTerm.setBounds p r).heap[q]? = tTerm.heap[q]? := by
  unfold setBounds
  cases h : tTerm.heap[p]? with
  | none => rfl
  | some t =>
    simp only []
    rw [List.getElem?_set, if_neg hne]

theorem setBounds_fields (tTerm : TileTerm) (p : Nat) (r : Rect) :
    (tTerm.setBounds p r).tiles = tTerm.tiles ∧ (tTerm.setBounds p r).big = tTerm.big ∧
      (tTerm.setBounds p r).lock = tTerm.lock ∧ (tTerm.setBounds p r).focus = tTerm.focus ∧
      (tTerm.setBounds p r).width = tTerm.width ∧
      (tTerm.setBounds p r).height = tTerm.height := by
  unfold setBounds
  cases tTerm.heap[p]? <;> exact ⟨rfl, rfl, rfl, rfl, rfl, rfl⟩

theorem IncRect_DecRect (r : Rect) : IncRect (DecRect r) = r := by
  simp [IncRect, DecRect]

/-- The zoom override keeps the fraction between 0 and 1. -/
theorem zoomFraction_range (tTerm : TileTerm) (w : Nat) (f g : Frac)
    (h0 : 0 < f.num) (h1 : f.num ≤ f.den) (h : tTerm.zoomFraction w f = some g) :
    0 ≤ g.num ∧ g.num ≤ g.den ∧ 0 < g.den := by
  unfold zoomFraction at h
  cases hb : tTerm.big with
  | none =>
    rw [hb] at h
    simp only [Option.some.injEq] at h
    subst h
    omega
  | some b =>
    rw [hb] at h
    simp only [] at h
    by_cases hw : w = b
    · rw [if_pos hw] at h
      simp only [Option.some.injEq] at h
      subst h
      decide
    · rw [if_neg hw] at h
      cases hbt : tTerm.heap[b]? with
      | none => rw [hbt] at h; simp at h
      | some bt =>
        rw [hbt] at h
        simp only [] at h
        split_ifs at h <;> simp only [Option.some.injEq] at h <;> subst h <;> decide

/-- The body of the loop of layoutTiles for a tile other than tile 0 whose
parent object is another object. -/
theorem layoutTile_nonroot (tTerm : TileTerm) (tw th : Int) (i w p : Nat) (wt pt : Tile)
    (g : Frac) (hi : i ≠ 0) (hw : tTerm.heap[w]? = some wt) (hpar : wt.parent = some p)
    (hp : tTerm.heap[p]? = some pt) (hg : tTerm.zoomFraction w wt.fraction = some g) :
    layoutTile tTerm tw th i w = some ((tTerm.setBounds p
      (if pt.outline.isSome then DecRect (splitRect wt.location g
        (if pt.outline.isSome then IncRect pt.bounds else pt.bounds)).2
      else (splitRect wt.location g
        (if pt.outline.isSome then IncRect pt.bounds else pt.bounds)).2)).setBounds w
      (if wt.outline.isSome then DecRect (splitRect wt.location g
        (if pt.outline.isSome then IncRect pt.bounds else pt.bounds)).1
      else (splitRect wt.location g
        (if pt.outline.isSome then IncRect pt.bounds else pt.bounds)).1)) := by
  unfold layoutTile
  simp only [hw, if_neg hi, hpar, hp, hg]

/-- The body of the loop of layoutTiles for tile 0. -/
theorem layoutTile_root (tTerm : TileTerm) (tw th : Int) (w : Nat) (wt : Tile)
    (hw : tTerm.heap[w]? = some wt) :
    layoutTile tTerm tw th 0 w =
      some (tTerm.setBounds w
        (if wt.outline.isSome then DecRect (fullRect tw th) else fullRect tw th)) := by
  unfold layoutTile
  simp only [hw, if_true, fullRect]

end TileTerm

/-! ### Canvas rendering and bitmaps -/

theorem plotSeq_append {σ : Type} (plot : σ → Int → Int → Option σ) (l1 l2 : List (Int × Int)) :
    ∀ s : σ, Canvas.plotSeq plot s (l1 ++ l2) =
      (Canvas.plotSeq plot s l1).bind (fun s => Canvas.plotSeq plot s l2) := by
  induction l1 with
  | nil => intro s; rfl
  | cons p ps ih =>
    intro s
    simp only [List.cons_append, Canvas.plotSeq]
    cases plot s p.1 p.2 with
    | none => rfl
    | some d => exact ih d

namespace Canvas

theorem bit_of_shift (n : Nat) (h : n ≤ 7) : (0x80 >>> n) % 256 = 2 ^ (7 - n) := by
  interval_cases n <;> rfl

/-- The loop over the eight bits of one byte plots the pixels of `bytePoints`,
from bit offset `n` on. -/
theorem bmp_bits {σ : Type} (plot : σ → Int → Int → Option σ) (x y j i : Int) (e : Nat) :
    ∀ (k n : Nat) (s : σ), n + k ≤ 8 →
      countLoop (fun b s =>
        let bit := (0x80 >>> b.toNat) % 256
        if e &&& bit = bit then plot s (x + i * 8 + b) (y + j) else some s) k (n : Int) s =
      plotSeq plot s (((List.range' n k).filter (fun b => e.testBit (7 - b))).map
        (fun (b : Nat) => (x + i * 8 + (b : Int), y + j))) := by
  intro k
  induction k with
  | zero => intro n s _; rfl
  | succ k ih =>
    intro n s hle
    have hn : n ≤ 7 := by omega
    have hbit : (0x80 >>> (n : Int).toNat) % 256 = 2 ^ (7 - n) := by
      rw [Int.toNat_ofNat]; exact bit_of_shift n hn
    have hcast : ((n : Int) + 1) = ((n + 1 : Nat) : Int) := by push_cast; rfl
    simp only [countLoop, List.range'_succ, hbit]
    have hiff : (e &&& 2 ^ (7 - n) = 2 ^ (7 - n)) ↔ e.testBit (7 - n) = true := by
      rw [← and_bit]; simp
    by_cases ht : e.testBit (7 - n) = true
    · rw [if_pos (hiff.2 ht), List.filter_cons_of_pos (by simpa using ht)]
      simp only [List.map_cons, plotSeq]
      cases plot s (x + i * 8 + (n : Int)) (y + j) with
      | none => rfl
      | some d =>
        simp only []
        rw [hcast]
        exact ih (n + 1) d (by omega)
    · rw [if_neg (fun h => ht (hiff.1 h)), List.filter_cons_of_neg (by simpa using ht)]
      simp only []
      rw [hcast]
      exact ih (n + 1) s (by omega)

theorem bmp_row {σ : Type} (plot : σ → Int → Int → Option σ) (x y j : Int) (a : List Nat) :
    ∀ (i : Int) (s : σ),
      rangeLoop (fun i e s =>
        countLoop (fun b s =>
          let bit := (0x80 >>> b.toNat) % 256
          if e &&& bit = bit then plot s (x + i * 8 + b) (y + j) else some s) 8 0 s) i a s =
      plotSeq plot s (rowPoints x y j i a) := by
  induction a with
  | nil => intro i s; rfl
  | cons e rest ih =>
    intro i s
    simp only [rangeLoop, rowPoints]
    have hb := bmp_bits plot x y j i e 8 0 s (by omega)
    simp only [Nat.cast_zero] at hb
    rw [hb, plotSeq_append, bytePoints, List.range_eq_range']
    cases plotSeq plot s (((List.range' 0 8).filter (fun b => e.testBit (7 - b))).map
        (fun (b : Nat) => (x + i * 8 + (b : Int), y + j))) with
    | none => rfl
    | some d => exact ih (i + 1) d

/-- Bmp performs its plotting action exactly on the pixels of `bmpPoints`, in
order. -/
theorem bmpWith_eq {σ : Type} (plot : σ → Int → Int → Option σ) (x y : Int)
    (bmp : List (List Nat)) :
    ∀ (j : Int) (s : σ),
      rangeLoop (fun j a s =>
        rangeLoop (fun i e s =>
          countLoop (fun b s =>
            let bit := (0x80 >>> b.toNat) % 256
            if e &&& bit = bit then plot s (x + i * 8 + b) (y + j) else some s) 8 0 s) 0 a s)
        j bmp s =
      plotSeq plot s (bmpPoints x y j bmp) := by
  induction bmp with
  | nil => intro j s; rfl
  | cons a rest ih =>
    intro j s
    simp only [rangeLoop, bmpPoints]
    rw [bmp_row, plotSeq_append]
    cases plotSeq plot s (rowPoints x y j 0 a) with
    | none => rfl
    | some d => exact ih (j + 1) d

theorem mem_bytePoints (x y j i : Int) (e : Nat) (p : Int × Int) :
    p ∈ bytePoints x y j i e ↔
      ∃ b : Nat, b < 8 ∧ e.testBit (7 - b) = true ∧ p = (x + 8 * i + b, y + j) := by
  simp only [bytePoints, List.mem_map, List.mem_filter, List.mem_range]
  constructor
  · rintro ⟨b, ⟨hb, ht⟩, rfl⟩
    exact ⟨b, hb, ht, by rw [mul_comm i 8]⟩
  · rintro ⟨b, hb, ht, rfl⟩
    exact ⟨b, ⟨hb, ht⟩, by rw [mul_comm i 8]⟩

theorem mem_rowPoints (x y j : Int) (a : List Nat) (p : Int × Int) :
    ∀ i0 : Int, p ∈ rowPoints x y j i0 a ↔
      ∃ (i b : Nat) (e : Nat), a[i]? = some e ∧ b < 8 ∧ e.testBit (7 - b) = true ∧
        p = (x + 8 * (i0 + i) + b, y + j) := by
  induction a with
  | nil => intro i0; simp [rowPoints]
  | cons e rest ih =>
    intro i0
    simp only [rowPoints, List.mem_append, mem_bytePoints, ih]
    constructor
    · rintro (⟨b, hb, ht, rfl⟩ | ⟨i, b, e2, he, hb, ht, rfl⟩)
      · exact ⟨0, b, e, by simp, hb, ht, by simp⟩
      · exact ⟨i + 1, b, e2, by simpa using he, hb, ht, by push_cast; ring_nf⟩
    · rintro ⟨i, b, e2, he, hb, ht, rfl⟩
      cases i with
      | zero =>
        left
        simp only [List.getElem?_cons_zero, Option.some.injEq] at he
        subst he
        exact ⟨b, hb, ht, by simp⟩
      | succ i =>
        right
        exact ⟨i, b, e2, by simpa using he, hb, ht, by push_cast; ring_nf⟩

theorem mem_bmpPoints (x y : Int) (bmp : List (List Nat)) (p : Int × Int) :
    ∀ j0 : Int, p ∈ bmpPoints x y j0 bmp ↔
      ∃ (j i b : Nat) (a : List Nat) (e : Nat), bmp[j]? = some a ∧ a[i]? = some e ∧ b < 8 ∧
        e.testBit (7 - b) = true ∧ p = (x + 8 * i + b, y + (j0 + j)) := by
  induction bmp with
  | nil => intro j0; simp [bmpPoints]
  | cons a rest ih =>
    intro j0
    simp only [bmpPoints, List.mem_append, mem_rowPoints, ih]
    constructor
    · rintro (⟨i, b, e, he, hb, ht, rfl⟩ | ⟨j, i, b, a2, e, ha, he, hb, ht, rfl⟩)
      · exact ⟨0, i, b, a, e, by simp, he, hb, ht, by simp⟩
      · exact ⟨j + 1, i, b, a2, e, by simpa using ha, he, hb, ht, by push_cast; ring_nf⟩
    · rintro ⟨j, i, b, a2, e, ha, he, hb, ht, rfl⟩
      cases j with
      | zero =>
        left
        simp only [List.getElem?_cons_zero, Option.some.injEq] at ha
        subst ha
        exact ⟨i, b, e, he, hb, ht, by simp⟩
      | succ j =>
        right
        exact ⟨j, i, b, a2, e, by simpa using ha, he, hb, ht, by push_cast; ring_nf⟩

theorem bmpPoints_zero (x y : Int) (bmp : List (List Nat))
    (hz : ∀ a ∈ bmp, ∀ e ∈ a, e = 0) : bmpPoints x y 0 bmp = [] := by
  apply List.eq_nil_iff_forall_not_mem.2
  intro p hp
  obtain ⟨j, i, b, a, e, ha, he, -, ht, -⟩ := (mem_bmpPoints x y bmp p 0).1 hp
  have h0 : e = 0 := hz a (List.getElem?_mem ha) e (List.getElem?_mem he)
  subst h0
  simp at ht

/-- C24: for every origin and every bitmap, Bmp calls Plot exactly on the
coordinates of `bmpPoints`, in order: the recorded calls are that list, on a
canvas Bmp is that sequence of Plot calls, and a coordinate is in the list
exactly when it is `(x + 8*i + b, y + j)` with `b < 8` and bit `7 - b` (the bit
`0x80 >> b`) of `rows[j][i]` set.  An empty bitmap and a bitmap of zero bytes
leave the canvas unchanged. -/
theorem C24_bmp_plots (c : Canvas) (x y : Int) (bmp : List (List Nat)) :
    bmpPlots x y bmp = some (bmpPoints x y 0 bmp) ∧
      c.Bmp x y bmp = plotAll c (bmpPoints x y 0 bmp) ∧
      (∀ p, p ∈ bmpPoints x y 0 bmp ↔
        ∃ (j i b : Nat) (a : List Nat) (e : Nat), bmp[j]? = some a ∧ a[i]? = some e ∧ b < 8 ∧
          e.testBit (7 - b) = true ∧ p = (x + 8 * i + b, y + j)) ∧
      c.Bmp x y [] = some c ∧
      ((∀ a ∈ bmp, ∀ e ∈ a, e = 0) → c.Bmp x y bmp = some c) := by
  have hB : ∀ bmp2, c.Bmp x y bmp2 = plotAll c (bmpPoints x y 0 bmp2) := by
    intro bmp2
    rw [plotAll_eq_plotSeq]
    exact bmpWith_eq Plot x y bmp2 0 c
  refine ⟨?_, hB bmp, ?_, rfl, ?_⟩
  · have h := bmpWith_eq recordPlot x y bmp 0 []
    rw [plotSeq_record] at h
    simpa [bmpPlots, bmpWith] using h
  · intro p
    rw [mem_bmpPoints]
    simp
  · intro hz
    rw [hB, bmpPoints_zero x y bmp hz]
    rfl

end Canvas

/-- A counting loop whose body appends the text `g i` in iteration `i` appends
the texts of all its iterations, in order. -/
theorem countLoop_acc (body : Int → GoString → Option GoString) (g : Int → GoString) :
    ∀ (k : Nat) (start : Int) (str : GoString),
      (∀ n : Nat, n < k → ∀ str, body (start + n) str = some (str ++ g (start + n))) →
      countLoop body k start str =
        some (str ++ ((List.range k).map (fun n : Nat => g (start + n))).flatten) := by
  intro k
  induction k with
  | zero => intro start str _; simp [countLoop]
  | succ k ih =>
    intro start str h
    have h0 := h 0 (Nat.succ_pos k) str
    simp only [Nat.cast_zero, add_zero] at h0
    simp only [countLoop, h0]
    rw [ih (start + 1) (str ++ g start)]
    · have hm : List.map (fun n : Nat => g (start + 1 + (n : Int))) (List.range k) =
          List.map ((fun n : Nat => g (start + (n : Int))) ∘ Nat.succ) (List.range k) := by
        apply List.map_congr_left
        intro n _
        have he : start + 1 + (n : Int) = start + ((n.succ : Nat) : Int) := by push_cast; ring
        simp only [Function.comp, he]
      rw [List.range_succ_eq_map]
      simp only [List.map_cons, List.map_map, List.flatten_cons, Nat.cast_zero, add_zero,
        List.append_assoc, hm]
    · intro n hn str2
      have := h (n + 1) (by omega) str2
      have he : start + 1 + (n : Int) = start + ((n + 1 : Nat) : Int) := by push_cast; ring
      rw [he]
      exact this

namespace Canvas

/-- The two nested loops of the renderers, when every cell has a text. -/
theorem renderWith_eq (c : Canvas) (cell : Int → Option GoString) (g : Int → GoString)
    (hcell : ∀ y x : Nat, y < c.bheight.toNat → x < c.bwidth.toNat →
      cell ((y : Int) * c.bwidth + x) = some (g ((y : Int) * c.bwidth + x))) :
    c.renderWith cell =
      some (((List.range c.bheight.toNat).map (fun y : Nat =>
        ((List.range c.bwidth.toNat).map (fun x : Nat => g ((y : Int) * c.bwidth + x))).flatten
          ++ [13, 10])).flatten) := by
  unfold renderWith
  have h := countLoop_acc
    (fun y str =>
      match countLoop (fun x str =>
          match cell (y * c.bwidth + x) with
          | none => none
          | some g => some (str ++ g)) c.bwidth.toNat 0 str with
      | none => none
      | some str => some (str ++ [13, 10]))
    (fun y => ((List.range c.bwidth.toNat).map (fun x : Nat => g (y * c.bwidth + x))).flatten
      ++ [13, 10])
    c.bheight.toNat 0 [] ?_
  · simpa using h
  · intro y hy str
    have hin := countLoop_acc
      (fun x str =>
        match cell ((0 + (y : Int)) * c.bwidth + x) with
        | none => none
        | some g => some (str ++ g))
      (fun x => g ((0 + (y : Int)) * c.bwidth + x)) c.bwidth.toNat 0 str ?_
    · simp only [hin]
      simp
    · intro x hx str2
      have := hcell y x hy hx
      simp only [zero_add]
      rw [this]

theorem byteAt_lt (c : Canvas) (i : Nat) (h : i < c.value.length) :
    c.byteAt (i : Int) = some (c.value.getD i 0) := by
  unfold byteAt
  rw [if_neg (by omega), Int.toNat_ofNat, List.getD_eq_getElem?_getD,
    List.getElem?_eq_getElem h]
  rfl

theorem cell_lt (c : Canvas) (h : c.Renderable) (y x : Nat) (hy : y < c.bheight.toNat)
    (hx : x < c.bwidth.toNat) :
    (y : Int) * c.bwidth + x = ((y * c.bwidth.toNat + x : Nat) : Int) ∧
      y * c.bwidth.toNat + x < c.value.length := by
  obtain ⟨hw, hh, hlen, -⟩ := h
  have e1 : ((c.bwidth.toNat : Nat) : Int) = c.bwidth := Int.toNat_of_nonneg hw
  have e2 : ((c.bheight.toNat : Nat) : Int) = c.bheight := Int.toNat_of_nonneg hh
  constructor
  · push_cast; rw [e1]
  · have h1 : y * c.bwidth.toNat + x < c.bheight.toNat * c.bwidth.toNat := by
      calc y * c.bwidth.toNat + x < y * c.bwidth.toNat + c.bwidth.toNat := by omega
        _ = (y + 1) * c.bwidth.toNat := by ring
        _ ≤ c.bheight.toNat * c.bwidth.toNat := Nat.mul_le_mul_right _ hy
    have h2 : (c.value.length : Int) = ((c.bheight.toNat * c.bwidth.toNat : Nat) : Int) := by
      push_cast; rw [e1, e2, hlen]; ring
    have h3 : c.value.length = c.bheight.toNat * c.bwidth.toNat := by exact_mod_cast h2
    omega

theorem getD_lt16 (c : Canvas) (h : c.Renderable) (i : Nat) (hi : i < c.value.length) :
    c.value.getD i 0 < 16 := by
  rw [List.getD_eq_getElem?_getD, List.getElem?_eq_getElem hi]
  exact h.2.2.2 _ (List.getElem_mem _)

theorem StringDense_eq (c : Canvas) (h : c.Renderable) :
    c.StringDense = some (glyphRows c.denseGlyphs) := by
  unfold StringDense
  rw [renderWith_eq c c.denseCell
    (fun i => sprintfC (BlocksDense.getD (c.value.getD i.toNat 0) 0))]
  · simp only [glyphRows, denseGlyphs, List.map_map]
    refine congrArg some (congrArg List.flatten (List.map_congr_left ?_))
    intro y hy
    simp only [Function.comp, List.map_map]
    refine congrArg (fun l => l ++ [13, 10]) (congrArg List.flatten (List.map_congr_left ?_))
    intro x hx
    rw [List.mem_range] at hy hx
    simp only [Function.comp]
    rw [(cell_lt c h y x hy hx).1, Int.toNat_ofNat]
  · intro y x hy hx
    obtain ⟨e, hlt⟩ := cell_lt c h y x hy hx
    have h16 := getD_lt16 c h _ hlt
    rw [e, Int.toNat_ofNat]
    unfold denseCell
    rw [byteAt_lt c _ hlt]
    simp only []
    have hl : c.value.getD (y * c.bwidth.toNat + x) 0 < BlocksDense.length := h16
    simp only [List.getD_eq_getElem?_getD] at hl ⊢
    rw [List.getElem?_eq_getElem hl]
    rfl

theorem StringAspect_eq (c : Canvas) (h : c.Renderable) :
    c.StringAspect = some (glyphRows c.aspectGlyphs) := by
  unfold StringAspect
  rw [renderWith_eq c c.aspectCell
    (fun i => sprintfC (BlocksAspect.getD (c.value.getD i.toNat 0) (0, 0)).1 ++
      sprintfC (BlocksAspect.getD (c.value.getD i.toNat 0) (0, 0)).2)]
  · simp only [glyphRows, aspectGlyphs, List.map_map]
    refine congrArg some (congrArg List.flatten (List.map_congr_left ?_))
    intro y hy
    simp only [Function.comp, List.map_flatten, List.map_map, List.flatten_flatten]
    refine congrArg (fun l => l ++ [13, 10]) ?_
    refine congrArg List.flatten (List.map_congr_left ?_)
    intro x hx
    rw [List.mem_range] at hy hx
    simp only [Function.comp]
    rw [(cell_lt c h y x hy hx).1, Int.toNat_ofNat]
    simp
  · intro y x hy hx
    obtain ⟨e, hlt⟩ := cell_lt c h y x hy hx
    have h16 := getD_lt16 c h _ hlt
    rw [e, Int.toNat_ofNat]
    unfold aspectCell
    rw [byteAt_lt c _ hlt]
    simp only []
    have hl : c.value.getD (y * c.bwidth.toNat + x) 0 < BlocksAspect.length := h16
    simp only [List.getD_eq_getElem?_getD] at hl ⊢
    rw [List.getElem?_eq_getElem hl]
    rfl

end Canvas

namespace Canvas

theorem Init_eq (w h : Int) (hw : 0 ≤ w) (hh : 0 ≤ h) :
    Init w h = some
      { pwidth := w, pheight := h, bwidth := w / 2 + 1, bheight := h / 2 + 1,
        value := List.replicate ((w / 2 + 1) * (h / 2 + 1)).toNat 0,
        xor := false, wrap := false } := by
  have h1 : Int.tdiv w 2 = w / 2 := Int.tdiv_eq_ediv hw (by norm_num)
  have h2 : Int.tdiv h 2 = h / 2 := Int.tdiv_eq_ediv hh (by norm_num)
  have h3 : 0 ≤ (w / 2 + 1) * (h / 2 + 1) := mul_nonneg (by omega) (by omega)
  unfold Init
  simp only [h1, h2]
  rw [if_neg (by omega)]

theorem blank_Renderable (pw ph bw bh : Int) (x wr : Bool) (hw : 0 ≤ bw) (hh : 0 ≤ bh) :
    Renderable
      { pwidth := pw, pheight := ph, bwidth := bw, bheight := bh,
        value := List.replicate (bw * bh).toNat 0, xor := x, wrap := wr } := by
  refine ⟨hw, hh, ?_, ?_⟩
  · simp [Int.toNat_of_nonneg (mul_nonneg hw hh)]
  · intro v hv
    rw [(List.mem_replicate.1 hv).2]
    norm_num

theorem Clear_Renderable (c : Canvas) (h : c.Renderable) : c.Clear.Renderable := by
  obtain ⟨hw, hh, hlen, -⟩ := h
  refine ⟨hw, hh, by simpa [Clear] using hlen, ?_⟩
  intro v hv
  simp only [Clear, List.mem_map] at hv
  obtain ⟨_, _, rfl⟩ := hv
  norm_num

theorem lt16_or (v b : Nat) (hv : v < 16) (hb : b < 16) : v ||| b < 16 :=
  Nat.or_lt_two_pow (n := 4) hv hb

theorem lt16_xor (v b : Nat) (hv : v < 16) (hb : b < 16) : v ^^^ b < 16 :=
  Nat.xor_lt_two_pow (n := 4) hv hb

theorem address_bit (c : Canvas) (x y : Int) (index : Int) (bit : Nat)
    (h : c.address x y = some (index, bit)) : bit < 16 := by
  unfold address at h
  cases hx : normAxis c.wrap c.pwidth x with
  | none => simp [hx] at h
  | some x2 =>
    cases hy : normAxis c.wrap c.pheight y with
    | none => simp [hx, hy] at h
    | some y2 =>
      simp only [hx, hy] at h
      split_ifs at h with hs
      simp only [Option.some.injEq, Prod.mk.injEq] at h
      have hxm : Int.tmod x2 2 ≤ 1 := by
        have := Int.tmod_lt_of_pos x2 (by norm_num : (0 : Int) < 2); omega
      have hym : Int.tmod y2 2 ≤ 1 := by
        have := Int.tmod_lt_of_pos y2 (by norm_num : (0 : Int) < 2); omega
      have hk : (Int.tmod y2 2 * 2 + Int.tmod x2 2).toNat ≤ 3 := by omega
      rw [← h.2, shift_byte _ hk]
      calc 2 ^ (Int.tmod y2 2 * 2 + Int.tmod x2 2).toNat ≤ 2 ^ 3 :=
            Nat.pow_le_pow_right (by norm_num) hk
        _ < 16 := by norm_num

/-- Plot keeps every byte of the buffer a quadrant value. -/
theorem Plot_Renderable (c d : Canvas) (h : c.Renderable) (x y : Int)
    (hp : c.Plot x y = some d) : d.Renderable := by
  unfold Plot at hp
  cases ha : c.address x y with
  | none => simp [ha] at hp
  | some ib =>
    obtain ⟨index, bit⟩ := ib
    have hbit := address_bit c x y index bit ha
    simp only [ha] at hp
    cases hv : c.byteAt index with
    | none => simp [hv] at hp
    | some v =>
      simp only [hv, Option.some.injEq] at hp
      have hv16 : v < 16 := by
        unfold byteAt at hv
        split_ifs at hv
        exact h.2.2.2 v (List.getElem?_mem hv)
      subst hp
      refine ⟨h.1, h.2.1, by simpa using h.2.2.1, ?_⟩
      intro u hu
      rcases List.mem_or_eq_of_mem_set hu with hu | rfl
      · exact h.2.2.2 u hu
      · cases c.xor
        · exact lt16_or v bit hv16 hbit
        · exact lt16_xor v bit hv16 hbit

theorem getD_replicate_zero (n i : Nat) : (List.replicate n 0).getD i 0 = 0 := by
  rw [List.getD_eq_getElem?_getD, List.getElem?_replicate]
  split_ifs <;> rfl

/-- The rendering of a canvas fresh from Init. -/
theorem Init_render (w h : Int) (hw : 0 ≤ w) (hh : 0 ≤ h) :
    ∃ c, Init w h = some c ∧ c.Renderable ∧ c.bwidth = w / 2 + 1 ∧ c.bheight = h / 2 + 1 ∧
      c.StringDense = some (glyphRows
        (List.replicate (h / 2 + 1).toNat (List.replicate (w / 2 + 1).toNat 0x20))) ∧
      c.StringAspect = some (glyphRows
        (List.replicate (h / 2 + 1).toNat (List.replicate (2 * (w / 2 + 1).toNat) 0x20))) := by
  have hr := blank_Renderable w h (w / 2 + 1) (h / 2 + 1) false false (by omega) (by omega)
  refine ⟨_, Init_eq w h hw hh, hr, rfl, rfl, ?_, ?_⟩
  · rw [StringDense_eq _ hr]
    simp only [denseGlyphs, getD_replicate_zero, List.map_const', List.length_range]
    rfl
  · rw [StringAspect_eq _ hr]
    simp only [aspectGlyphs, getD_replicate_zero, List.map_const', List.length_range]
    congr 3
    have : ∀ n : Nat, (List.replicate n [(32 : Int), 32]).flatten = List.replicate (2 * n) 32 := by
      intro n
      induction n with
      | zero => rfl
      | succ n ih =>
        rw [List.replicate_succ, List.flatten_cons, ih, Nat.mul_succ]
        rfl
    exact this _

theorem denseGlyphs_shape (c : Canvas) (h : c.Renderable) :
    (c.denseGlyphs.length : Int) = c.bheight ∧
      ∀ row ∈ c.denseGlyphs, (row.length : Int) = c.bwidth ∧ ∀ g ∈ row, g ∈ BlocksDense := by
  constructor
  · simp [denseGlyphs, Int.toNat_of_nonneg h.2.1]
  · intro row hrow
    simp only [denseGlyphs, List.mem_map, List.mem_range] at hrow
    obtain ⟨y, hy, rfl⟩ := hrow
    constructor
    · simp [Int.toNat_of_nonneg h.1]
    · intro g hg
      simp only [List.mem_map, List.mem_range] at hg
      obtain ⟨x, hx, rfl⟩ := hg
      have hl : c.value.getD (y * c.bwidth.toNat + x) 0 < BlocksDense.length :=
        getD_lt16 c h _ (cell_lt c h y x hy hx).2
      simp only [List.getD_eq_getElem?_getD] at hl ⊢
      rw [List.getElem?_eq_getElem hl]
      exact List.getElem_mem _

theorem aspectGlyphs_shape (c : Canvas) (h : c.Renderable) :
    (c.aspectGlyphs.length : Int) = c.bheight ∧
      ∀ row ∈ c.aspectGlyphs, (row.length : Int) = 2 * c.bwidth := by
  constructor
  · simp [aspectGlyphs, Int.toNat_of_nonneg h.2.1]
  · intro row hrow
    simp only [aspectGlyphs, List.mem_map, List.mem_range] at hrow
    obtain ⟨y, hy, rfl⟩ := hrow
    have : ∀ (f : Nat → Int × Int) (n : Nat),
        (((List.range n).map (fun x => [(f x).1, (f x).2])).flatten).length = 2 * n := by
      intro f n
      induction n with
      | zero => rfl
      | succ n ih =>
        rw [List.range_succ, List.map_append, List.flatten_append, List.length_append, ih]
        simp
        omega
    rw [this (fun x => BlocksAspect.getD (c.value.getD (y * c.bwidth.toNat + x) 0) (0, 0))]
    push_cast
    rw [Int.toNat_of_nonneg h.1]

/-- C21 as the claim states it fails at Init(1,1): the buffer has one column,
and ceil(1/2) + 1 is two. -/
theorem C21_counterexample :
    ∃ c, Init 1 1 = some c ∧ c.bwidth = 1 ∧ c.bwidth ≠ Int.ceil ((1 : ℚ) / 2) + 1 := by
  refine ⟨_, rfl, rfl, ?_⟩
  have h : Int.ceil ((1 : ℚ) / 2) = 1 := by
    rw [Int.ceil_eq_iff]; norm_num
  rw [h]
  decide

/-- C21 amended: for every pixel extent (W,H) with W ≥ 0 and H ≥ 0, Init
returns a canvas of that pixel extent whose byte buffer has floor(W/2) + 1
columns and floor(H/2) + 1 rows, and whose length is their product. -/
theorem C21_buffer_extent (W H : Int) (hW : 0 ≤ W) (hH : 0 ≤ H) :
    ∃ c, Init W H = some c ∧ c.pwidth = W ∧ c.pheight = H ∧
      c.bwidth = Int.floor ((W : ℚ) / 2) + 1 ∧ c.bheight = Int.floor ((H : ℚ) / 2) + 1 ∧
      (c.value.length : Int) = c.bwidth * c.bheight := by
  have fl : ∀ n : Int, Int.floor ((n : ℚ) / 2) = n / 2 := by
    intro n
    have := Rat.floor_intCast_div_natCast n 2
    simpa using this
  have h3 : 0 ≤ (W / 2 + 1) * (H / 2 + 1) := mul_nonneg (by omega) (by omega)
  refine ⟨_, Init_eq W H hW hH, rfl, rfl, ?_, ?_, ?_⟩
  · rw [fl]
  · rw [fl]
  · simp [Int.toNat_of_nonneg h3]

/-- C21 amended, at Init(3,5): two columns and three rows. -/
theorem C21_buffer_extent_witness :
    ∃ c, Init 3 5 = some c ∧ c.pwidth = 3 ∧ c.pheight = 5 ∧
      c.bwidth = Int.floor (((3 : Int) : ℚ) / 2) + 1 ∧
      c.bheight = Int.floor (((5 : Int) : ℚ) / 2) + 1 ∧
      (c.value.length : Int) = c.bwidth * c.bheight :=
  C21_buffer_extent 3 5 (by decide) (by decide)

/-- C22: for every canvas whose buffer can be rendered (extents not negative,
one byte per cell, every byte a quadrant value, as Init makes it and Plot and
Clear keep it), StringDense returns bheight rows of bwidth glyphs of
BlocksDense, each row followed by "\r\n", and StringAspect returns bheight rows
of 2*bwidth glyphs, each row followed by "\r\n"; a second such canvas of the
same buffer extents renders to as many rows with as many glyphs per row. -/
theorem C22_render_rows (c : Canvas) (h : c.Renderable) :
    c.StringDense = some (glyphRows c.denseGlyphs) ∧
      (c.denseGlyphs.length : Int) = c.bheight ∧
      (∀ row ∈ c.denseGlyphs, (row.length : Int) = c.bwidth ∧ ∀ g ∈ row, g ∈ BlocksDense) ∧
      c.StringAspect = some (glyphRows c.aspectGlyphs) ∧
      (c.aspectGlyphs.length : Int) = c.bheight ∧
      (∀ row ∈ c.aspectGlyphs, (row.length : Int) = 2 * c.bwidth) ∧
      (∀ d : Canvas, d.Renderable → d.bwidth = c.bwidth → d.bheight = c.bheight →
        d.StringDense = some (glyphRows d.denseGlyphs) ∧
        d.StringAspect = some (glyphRows d.aspectGlyphs) ∧
        d.denseGlyphs.length = c.denseGlyphs.length ∧
        d.aspectGlyphs.length = c.aspectGlyphs.length ∧
        (∀ r ∈ d.denseGlyphs, ∀ r2 ∈ c.denseGlyphs, r.length = r2.length) ∧
        (∀ r ∈ d.aspectGlyphs, ∀ r2 ∈ c.aspectGlyphs, r.length = r2.length)) := by
  have hd := denseGlyphs_shape c h
  have ha := aspectGlyphs_shape c h
  refine ⟨StringDense_eq c h, hd.1, hd.2, StringAspect_eq c h, ha.1, ha.2, ?_⟩
  intro d hdr hw hh
  have hd2 := denseGlyphs_shape d hdr
  have ha2 := aspectGlyphs_shape d hdr
  refine ⟨StringDense_eq d hdr, StringAspect_eq d hdr, ?_, ?_, ?_, ?_⟩
  · have := hd.1; have := hd2.1; omega
  · have := ha.1; have := ha2.1; omega
  · intro r hr r2 hr2
    have := (hd2.2 r hr).1; have := (hd.2 r2 hr2).1; omega
  · intro r hr r2 hr2
    have := ha2.2 r hr; have := ha.2 r2 hr2; omega

/-- C22 at `quadCanvas`, a 2 x 2 byte buffer with the bytes 1, 0, 8, 15. -/
theorem C22_render_rows_witness :
    quadCanvas.StringDense = some (glyphRows quadCanvas.denseGlyphs) ∧
      (quadCanvas.denseGlyphs.length : Int) = quadCanvas.bheight ∧
      (∀ row ∈ quadCanvas.denseGlyphs,
        (row.length : Int) = quadCanvas.bwidth ∧ ∀ g ∈ row, g ∈ BlocksDense) ∧
      quadCanvas.StringAspect = some (glyphRows quadCanvas.aspectGlyphs) ∧
      (quadCanvas.aspectGlyphs.length : Int) = quadCanvas.bheight ∧
      (∀ row ∈ quadCanvas.aspectGlyphs, (row.length : Int) = 2 * quadCanvas.bwidth) ∧
      (∀ d : Canvas, d.Renderable → d.bwidth = quadCanvas.bwidth →
          d.bheight = quadCanvas.bheight →
        d.StringDense = some (glyphRows d.denseGlyphs) ∧
        d.StringAspect = some (glyphRows d.aspectGlyphs) ∧
        d.denseGlyphs.length = quadCanvas.denseGlyphs.length ∧
        d.aspectGlyphs.length = quadCanvas.aspectGlyphs.length ∧
        (∀ r ∈ d.denseGlyphs, ∀ r2 ∈ quadCanvas.denseGlyphs, r.length = r2.length) ∧
        (∀ r ∈ d.aspectGlyphs, ∀ r2 ∈ quadCanvas.aspectGlyphs, r.length = r2.length)) :=
  C22_render_rows quadCanvas (by decide)

/-- C23 fails on the code: Init(80,80) makes a buffer of 41 x 41 bytes, so
StringDense renders 41 rows of 41 glyphs and StringAspect 41 rows of 82 glyphs,
not 40 rows of 40 and of 80. -/
theorem C23_init_80_renders_41 :
    ∃ c, Init 80 80 = some c ∧ c.bwidth = 41 ∧ c.bheight = 41 ∧
      c.StringDense = some (glyphRows (List.replicate 41 (List.replicate 41 0x20))) ∧
      c.StringAspect = some (glyphRows (List.replicate 41 (List.replicate 82 0x20))) := by
  obtain ⟨c, hc, -, hw, hh, hd, ha⟩ := Init_render 80 80 (by decide) (by decide)
  exact ⟨c, hc, hw, hh, hd, ha⟩

end Canvas

/-! ### KeyDecoder: sizes and sentinels -/

theorem sentinel_band (s : Int) (h : s ∈ sentinels) : 0xD800 ≤ s ∧ s ≤ 0xDFFF := by
  simp only [sentinels, KeyUnknown, KeyUp, KeyDown, KeyLeft, KeyRight, KeyBackTab, KeyDel,
    List.mem_cons, List.mem_singleton, List.not_mem_nil, or_false] at h
  omega

theorem validScalar_not_sentinel (r : Int) (h : validScalar r) : r ∉ sentinels := by
  intro hs
  have := sentinel_band r hs
  unfold validScalar at h
  omega

/-- ReadKey returns a sentinel only after it has read ESC, '[' and a third
rune. -/
theorem ReadKey_sentinel (fuel : Nat) (input : List (Int × Int)) (e : Error)
    (last : Option (Int × Int)) (reader2 : Reader) (res : KeyResult)
    (hv : ∀ p ∈ input, validScalar p.1)
    (h : ReadKey fuel (Reader.mk input e last) = some (reader2, res))
    (hs : res.r ∈ sentinels) :
    ∃ n1 n2 p rest, input = (27, n1) :: (91, n2) :: p :: rest := by
  have h0 : (0 : Int) ∉ sentinels := validScalar_not_sentinel 0 (by decide)
  have h27 : (27 : Int) ∉ sentinels := validScalar_not_sentinel 27 (by decide)
  cases fuel with
  | zero => simp [ReadKey, readKeyLoop] at h
  | succ f1 =>
    rcases input with _ | ⟨⟨r1, n1⟩, rest1⟩
    · simp only [ReadKey, readKeyLoop, Reader.ReadRune, Option.some.injEq,
        Prod.mk.injEq] at h
      rw [← h.2] at hs
      exact absurd hs h0
    · by_cases h1 : r1 = 27
      · subst h1
        cases f1 with
        | zero => simp [ReadKey, readKeyLoop, Reader.ReadRune, KeyEscape] at h
        | succ f2 =>
          rcases rest1 with _ | ⟨⟨r2, n2⟩, rest2⟩
          · simp [ReadKey, readKeyLoop, Reader.ReadRune, KeyEscape] at h
            rw [← h.2] at hs
            exact absurd hs h0
          · by_cases h2 : r2 = 91
            · subst h2
              rcases rest2 with _ | ⟨p, rest3⟩
              · cases f2 with
                | zero => simp [ReadKey, readKeyLoop, Reader.ReadRune, KeyEscape, KeyLBracket] at h
                | succ f3 =>
                  simp [ReadKey, readKeyLoop, Reader.ReadRune, KeyEscape, KeyLBracket] at h
                  rw [← h.2] at hs
                  exact absurd hs h0
              · exact ⟨n1, n2, p, rest3, rfl⟩
            · simp [ReadKey, readKeyLoop, Reader.ReadRune, Reader.UnreadRune, KeyEscape,
                KeyLBracket, h2] at h
              rw [← h.2] at hs
              exact absurd hs h27
      · simp [ReadKey, readKeyLoop, Reader.ReadRune, KeyEscape, h1] at h
        rw [← h.2] at hs
        exact absurd hs
          (validScalar_not_sentinel r1 (hv (r1, n1) (List.mem_cons_self _ _)))

/-- With fuel 4 ReadKey returns on every reader. -/
theorem ReadKey_total (reader : Reader) : ∃ out, ReadKey 4 reader = some out := by
  obtain ⟨input, e, last⟩ := reader
  rcases input with _ | ⟨⟨r1, n1⟩, rest1⟩
  · exact ⟨_, rfl⟩
  · by_cases h1 : r1 = 27
    · subst h1
      rcases rest1 with _ | ⟨⟨r2, n2⟩, rest2⟩
      · exact ⟨_, rfl⟩
      · by_cases h2 : r2 = 91
        · subst h2
          rcases rest2 with _ | ⟨⟨r3, n3⟩, rest3⟩
          · exact ⟨_, rfl⟩
          · by_cases h3 : r3 = 51
            · subst h3
              rcases rest3 with _ | ⟨⟨r4, n4⟩, rest4⟩
              · exact ⟨_, rfl⟩
              · simp only [ReadKey, readKeyLoop, Reader.ReadRune, KeyEscape, KeyLBracket]
                simp
                split_ifs <;> exact ⟨_, _, rfl⟩
            · simp only [ReadKey, readKeyLoop, Reader.ReadRune, KeyEscape, KeyLBracket]
              simp [h3]
              split_ifs <;> exact ⟨_, _, rfl⟩
        · simp [ReadKey, readKeyLoop, Reader.ReadRune, Reader.UnreadRune, KeyEscape,
            KeyLBracket, h2]
    · simp [ReadKey, readKeyLoop, Reader.ReadRune, KeyEscape, h1]

/-- C27 fails on the code: on the single rune U+00E9, which is two bytes
long, ReadRune returns the size 2 and ReadKey the size 1, the number of runes;
and on ESC followed by U+00E9, where ReadKey consumes the one byte of ESC and
pushes the second rune back, it returns the size 0. -/
theorem C27_size_counts_runes :
    (Reader.mk [(233, 2)] Error.eof none).ReadRune =
        (Reader.mk [] Error.eof (some (233, 2)), 233, 2, none) ∧
      ReadKey 4 (Reader.mk [(233, 2)] Error.eof none) =
        some (Reader.mk [] Error.eof (some (233, 2)), KeyResult.mk 233 1 none) ∧
      ReadKey 4 (Reader.mk [(27, 1), (233, 2)] Error.eof none) =
        some (Reader.mk [(233, 2)] Error.eof none, KeyResult.mk 27 0 none) := by
  decide

/-- C28: the seven sentinel tokens are pairwise distinct, lie in the surrogate
band 0xD800..0xDFFF and are no Unicode scalar values; ReadKey returns on every
reader (fuel 4 is enough); and whenever ReadKey, on an input of valid scalar
values, returns a sentinel, that input begins with ESC, '[' and a third rune:
the sentinel was decoded, not passed through. -/
theorem C28_sentinels :
    sentinels.Nodup ∧
      (∀ s ∈ sentinels, 0xD800 ≤ s ∧ s ≤ 0xDFFF ∧ ¬ validScalar s) ∧
      (∀ reader : Reader, ∃ out, ReadKey 4 reader = some out) ∧
      (∀ (fuel : Nat) (reader reader2 : Reader) (res : KeyResult),
        (∀ p ∈ reader.input, validScalar p.1) →
        ReadKey fuel reader = some (reader2, res) → res.r ∈ sentinels →
        ∃ n1 n2 p rest, reader.input = (27, n1) :: (91, n2) :: p :: rest) := by
  refine ⟨by decide, ?_, ReadKey_total, ?_⟩
  · intro s hs
    have hb := sentinel_band s hs
    exact ⟨hb.1, hb.2, fun hv => validScalar_not_sentinel s hv hs⟩
  · intro fuel reader reader2 res hv h hs
    obtain ⟨input, e, last⟩ := reader
    exact ReadKey_sentinel fuel input e last reader2 res hv h hs

/-! ### The render handler of ScrollUp tiles -/

theorem flatten_replicate_single (n : Nat) (b : Nat) :
    (List.replicate n [b]).flatten = List.replicate n b := by
  induction n with
  | zero => rfl
  | succ n ih => rw [List.replicate_succ, List.flatten_cons, ih]; rfl

theorem stringsRepeat_space (n : Nat) :
    stringsRepeat [32] (n : Int) = some (List.replicate n 32) := by
  unfold stringsRepeat
  rw [if_neg (by omega), Int.toNat_ofNat, flatten_replicate_single]

/-- The loop of wrapStr, given enough fuel, appends rows of exactly `W` bytes
whose concatenation is the string followed by fewer than `W` spaces. -/
theorem wrapLoop_rows (W : Nat) (hW : 1 ≤ W) :
    ∀ (fuel : Nat) (str : GoString) (out : List GoString), str.length + 1 ≤ fuel →
      ∃ rows pad, wrapLoop (W : Int) fuel str out = some (out ++ rows) ∧
        (str ≠ [] → rows ≠ []) ∧ (∀ row ∈ rows, row.length = W) ∧
        pad < W ∧ rows.flatten = str ++ List.replicate pad 32 := by
  intro fuel
  induction fuel with
  | zero => intro str out h; omega
  | succ f ih =>
    intro str out hf
    unfold wrapLoop
    by_cases h0 : (str.length : Int) > 0
    · rw [if_pos h0]
      by_cases h1 : (str.length : Int) > (W : Int)
      · rw [if_pos h1, if_neg (by omega), Int.toNat_ofNat]
        have hlen : (str.drop W).length + 1 ≤ f := by
          rw [List.length_drop]; omega
        obtain ⟨rows, pad, hr, -, hrow, hpad, hflat⟩ := ih (str.drop W) (out ++ [str.take W]) hlen
        refine ⟨str.take W :: rows, pad, ?_, fun _ => List.cons_ne_nil _ _, ?_, hpad, ?_⟩
        · rw [hr, List.append_assoc]; rfl
        · intro row hrow2
          rcases List.mem_cons.1 hrow2 with rfl | h
          · rw [List.length_take]; omega
          · exact hrow row h
        · rw [List.flatten_cons, hflat, ← List.append_assoc, List.take_append_drop]
      · rw [if_neg h1]
        have hsub : (W : Int) - (str.length : Int) = ((W - str.length : Nat) : Int) := by omega
        rw [hsub, stringsRepeat_space]
        simp only []
        obtain ⟨f2, rfl⟩ : ∃ f2, f = f2 + 1 := ⟨f - 1, by omega⟩
        refine ⟨[str ++ List.replicate (W - str.length) 32], W - str.length, ?_,
          fun _ => List.cons_ne_nil _ _, ?_, by omega, ?_⟩
        · unfold wrapLoop
          rw [if_neg (by simp)]
        · intro row hrow
          rw [List.mem_singleton.1 hrow, List.length_append, List.length_replicate]
          omega
        · simp
    · rw [if_neg h0]
      have hnil : str = [] := List.eq_nil_of_length_eq_zero (by omega)
      exact ⟨[], 0, by simp, fun h => absurd hnil h, by simp, by omega, by simp [hnil]⟩

/-- For a width `W ≥ 1` and enough fuel, wrapStr returns at least one row, all
rows of exactly `W` bytes, whose concatenation is the string (a single space
for the empty string) followed by fewer than `W` spaces. -/
theorem wrapStr_rows (W : Nat) (hW : 1 ≤ W) (s : GoString) (fuel : Nat)
    (hf : s.length + 2 ≤ fuel) :
    ∃ rows pad, wrapStr fuel s (W : Int) = some rows ∧ rows ≠ [] ∧
      (∀ row ∈ rows, row.length = W) ∧ pad < W ∧
      rows.flatten = (if s.length = 0 then [32] else s) ++ List.replicate pad 32 := by
  have hne : (if s.length = 0 then [32] else s) ≠ [] := by
    split_ifs with h
    · exact List.cons_ne_nil _ _
    · exact fun hs => h (by rw [hs]; rfl)
  have hlen : (if s.length = 0 then [32] else s).length + 1 ≤ fuel := by
    split_ifs with h
    · simp; omega
    · omega
  obtain ⟨rows, pad, hr, hnn, hrow, hpad, hflat⟩ :=
    wrapLoop_rows W hW fuel (if s.length = 0 then [32] else s) [] hlen
  refine ⟨rows, pad, ?_, hnn hne, hrow, hpad, hflat⟩
  unfold wrapStr
  rw [if_neg (by omega)]
  simpa using hr

theorem sliceAt_nat {α : Type} (l : List α) (n : Nat) (h : n < l.length) :
    sliceAt l (n : Int) = some (l.get ⟨n, h⟩) := by
  unfold sliceAt
  rw [if_neg (by omega), Int.toNat_ofNat, List.getElem?_eq_getElem h]
  rfl

theorem take_succ_get {α : Type} (l : List α) (n : Nat) (h : n < l.length) :
    l.take (n + 1) = l.take n ++ [l.get ⟨n, h⟩] := by
  rw [List.take_succ, List.getElem?_eq_getElem h]
  rfl

/-- One iteration of the loop of su_RenderText emits the last pending row, or
a blank row when none is pending. -/
theorem su_RenderRow_step (fuel : Nat) (t : Tile) (ss : List GoString) (blank : GoString)
    (y : Int) (st : SuState)
    (hwrap : ∀ s ∈ ss, ∃ rows, wrapStr fuel s t.Width = some rows ∧ rows ≠ [])
    (hinv : SuInv ss st) :
    ∃ st2, su_RenderRow fuel t ss blank y st = some st2 ∧ SuInv ss st2 ∧
      st2.str = st.str ++ CUP t.bounds.Min.X y ++
        ((pendingRows fuel t.Width ss st).getLast?.getD blank) ∧
      pendingRows fuel t.Width ss st2 = (pendingRows fuel t.Width ss st).dropLast := by
  obtain ⟨str, sub, curSub, curSS⟩ := st
  obtain ⟨h1, h2, h3, h4⟩ := hinv
  simp only at h1 h2 h3 h4
  unfold su_RenderRow
  simp only []
  by_cases hc : curSub ≥ 0
  · rw [if_pos hc]
    obtain ⟨n, rfl⟩ : ∃ n : Nat, curSub = n := ⟨curSub.toNat, by omega⟩
    have hn : n < sub.length := by omega
    rw [sliceAt_nat sub n hn]
    refine ⟨_, rfl, ⟨by simp only []; omega, by simp only []; omega, h3, h4⟩, ?_, ?_⟩
    · simp only [pendingRows]
      have e1 : ((n : Int) + 1).toNat = n + 1 := by omega
      rw [e1, take_succ_get sub n hn, ← List.append_assoc, List.getLast?_concat]
      simp
    · simp only [pendingRows]
      have e1 : ((n : Int) + 1).toNat = n + 1 := by omega
      have e2 : ((n : Int) - 1 + 1).toNat = n := by omega
      rw [e1, e2, take_succ_get sub n hn, ← List.append_assoc, List.dropLast_concat]
  · rw [if_neg hc]
    have hcs : curSub = -1 := by omega
    subst hcs
    by_cases hs : curSS ≥ 0
    · rw [if_pos hs]
      obtain ⟨m, rfl⟩ : ∃ m : Nat, curSS = m := ⟨curSS.toNat, by omega⟩
      have hm : m < ss.length := by omega
      rw [sliceAt_nat ss m hm]
      obtain ⟨rows, hrows, hne⟩ := hwrap (ss.get ⟨m, hm⟩) (List.get_mem _ _ _)
      simp only [hrows]
      have hlen : 0 < rows.length := List.length_pos.2 hne
      have hidx : ((rows.length : Int) - 1) = ((rows.length - 1 : Nat) : Int) := by omega
      have hlt : rows.length - 1 < rows.length := by omega
      rw [hidx, sliceAt_nat rows (rows.length - 1) hlt]
      have hlast : rows.get ⟨rows.length - 1, hlt⟩ = rows.getLast hne := by
        rw [List.getLast_eq_getElem]; rfl
      have hro : rowsOf fuel t.Width (ss.get ⟨m, hm⟩) = rows := by
        unfold rowsOf; rw [hrows]; rfl
      have hsplit : rows = rows.dropLast ++ [rows.getLast hne] :=
        (List.dropLast_concat_getLast hne).symm
      have e1 : ((m : Int) + 1).toNat = m + 1 := by omega
      have e2 : ((m : Int) - 1 + 1).toNat = m := by omega
      have e3 : (((rows.length - 1 : Nat) : Int) - 1 + 1).toNat = rows.length - 1 := by omega
      have hp : pendingRows fuel t.Width ss
          { str := str, sub := sub, curSub := -1, curSS := (m : Int) } =
          (((ss.take m).map (rowsOf fuel t.Width)).flatten ++ rows.dropLast) ++
            [rows.getLast hne] := by
        simp only [pendingRows]
        rw [e1, take_succ_get ss m hm, List.map_append, List.flatten_append]
        simp only [List.map_cons, List.map_nil, List.flatten_cons, List.flatten_nil,
          List.append_nil, hro]
        have e0 : ((-1 : Int) + 1).toNat = 0 := by decide
        rw [e0, List.take_zero, List.append_nil, List.append_assoc, ← hsplit]
      refine ⟨_, rfl, ⟨by simp only []; omega, by simp only []; omega, by simp only []; omega,
        by simp only []; omega⟩, ?_, ?_⟩
      · rw [hp, List.getLast?_concat, hlast]
        simp
      · rw [hp, List.dropLast_concat]
        simp only [pendingRows]
        rw [e2, e3, List.dropLast_eq_take]
    · rw [if_neg hs]
      have hss : curSS = -1 := by omega
      subst hss
      refine ⟨_, rfl, ⟨h1, h2, h3, h4⟩, ?_, ?_⟩
      · simp [pendingRows]
      · simp [pendingRows]

theorem take_bottom {α : Type} (P : List α) (r : α) (b : α) (k : Nat) :
    ((P ++ [r]).reverse ++ List.replicate (k + 1) b).take (k + 1) =
      r :: (P.reverse ++ List.replicate k b).take k := by
  rw [List.reverse_append]
  simp only [List.reverse_cons, List.reverse_nil, List.nil_append, List.singleton_append,
    List.cons_append, List.take_succ_cons]
  congr 1
  rw [List.take_append_eq_append_take, List.take_append_eq_append_take, List.take_replicate,
    List.take_replicate]
  congr 2
  omega

/-- The loop of su_RenderText emits, from the bottom row up, the pending rows
last to first and then blank rows. -/
theorem su_loop (fuel : Nat) (t : Tile) (ss : List GoString) (blank : GoString)
    (hwrap : ∀ s ∈ ss, ∃ rows, wrapStr fuel s t.Width = some rows ∧ rows ≠ []) :
    ∀ (k : Nat) (y : Int) (st : SuState), SuInv ss st →
      ∃ st2, countDown (su_RenderRow fuel t ss blank) k y st = some st2 ∧
        st2.str = st.str ++ emitRows t.bounds.Min.X y
          (((pendingRows fuel t.Width ss st).reverse ++ List.replicate k blank).take k) := by
  intro k
  induction k with
  | zero => intro y st _; exact ⟨st, rfl, by simp [emitRows]⟩
  | succ k ih =>
    intro y st hinv
    obtain ⟨st1, h1, hinv1, hstr1, hpend1⟩ := su_RenderRow_step fuel t ss blank y st hwrap hinv
    obtain ⟨st2, h2, hstr2⟩ := ih (y - 1) st1 hinv1
    refine ⟨st2, by simp only [countDown, h1, h2], ?_⟩
    rw [hstr2, hstr1, hpend1]
    rcases List.eq_nil_or_concat (pendingRows fuel t.Width ss st) with hnil | ⟨P, r, hP⟩
    · rw [hnil]
      simp only [List.getLast?_nil, Option.getD_none, List.dropLast_nil, List.reverse_nil,
        List.nil_append, List.take_replicate, Nat.min_self]
      rw [List.replicate_succ, emitRows]
      simp only [List.append_assoc]
    · rw [hP, List.concat_eq_append, List.getLast?_concat, List.dropLast_concat, take_bottom,
        emitRows]
      simp only [Option.getD_some, List.append_assoc]

theorem set_last {α : Type} (l : List α) (x : α) (h : l ≠ []) :
    l.set (l.length - 1) x = l.dropLast ++ [x] := by
  induction l with
  | nil => exact absurd rfl h
  | cons a rest ih =>
    cases rest with
    | nil => rfl
    | cons b rest2 =>
      have := ih (List.cons_ne_nil _ _)
      simp only [List.length_cons, Nat.add_sub_cancel] at this ⊢
      rw [List.set_cons_succ, this]
      rfl

theorem stringsSplit_ne_nil (sep : Nat) (s : GoString) : stringsSplit sep s ≠ [] := by
  cases s with
  | nil => simp [stringsSplit]
  | cons b rest =>
    unfold stringsSplit
    split_ifs
    · exact List.cons_ne_nil _ _
    · cases stringsSplit sep rest <;> exact List.cons_ne_nil _ _

theorem bottom_eq_lastRows (H : Nat) (blank : GoString) (R : List GoString) :
    (R.reverse ++ List.replicate H blank).take H = (lastRows H blank R).reverse := by
  unfold lastRows
  rw [List.reverse_drop, List.reverse_append, List.reverse_replicate, List.length_append,
    List.length_replicate]
  congr 1
  omega

/-- C30: for every tile with Width ≥ 1, every buffer content, cursor prefix
and input line, and fuel for the wrapStr calls: su_RenderText returns; wrapStr
returns the rows `subs` of each logical line (the buffer split at "\n", the
last piece replaced by cursor + line); the text returned is one positioned row
`CUP(Min.X, y) + row` for each `y` from Max.Y down to Min.Y; read top to bottom
the rows are the last Height rows of the concatenation of `subs`, preceded by
blank rows when there are fewer; each row is exactly Width bytes; and the tile
is returned with its cursor position set behind the input line on the bottom
row. -/
theorem C30_su_render_rows (t : Tile) (fuel : Nat) (hW : 1 ≤ t.Width)
    (hfuel : ∀ s ∈ su_Lines t, s.length + 2 ≤ fuel) :
    ∃ (subs : List (List GoString)) (t2 : Tile) (out : GoString),
      List.Forall₂ (fun s sub => wrapStr fuel s t.Width = some sub) (su_Lines t) subs ∧
      su_Lines t = (stringsSplit 10 t.buffer).dropLast ++ [t.cursor ++ t.line] ∧
      su_RenderText fuel t = some (t2, out) ∧
      t2 = { t with curPos := ⟨t.bounds.Min.X + ((t.cursor.length : Int) + t.line.length),
        t.bounds.Max.Y⟩ } ∧
      out = emitRows t.bounds.Min.X t.bounds.Max.Y
        (lastRows t.Height.toNat (List.replicate t.Width.toNat 32) subs.flatten).reverse ∧
      (lastRows t.Height.toNat (List.replicate t.Width.toNat 32) subs.flatten).length =
        t.Height.toNat ∧
      (∀ row ∈ lastRows t.Height.toNat (List.replicate t.Width.toNat 32) subs.flatten,
        (row.length : Int) = t.Width) := by
  have hWeq : t.Width = ((t.Width.toNat : Nat) : Int) := (Int.toNat_of_nonneg (by omega)).symm
  have hWn : 1 ≤ t.Width.toNat := by omega
  have hrows : ∀ s ∈ su_Lines t, ∃ rows, wrapStr fuel s t.Width = some rows ∧ rows ≠ [] ∧
      ∀ row ∈ rows, row.length = t.Width.toNat := by
    intro s hs
    obtain ⟨rows, pad, h1, h2, h3, -, -⟩ := wrapStr_rows t.Width.toNat hWn s fuel (hfuel s hs)
    rw [← hWeq] at h1
    exact ⟨rows, h1, h2, h3⟩
  have hwrap : ∀ s ∈ su_Lines t, ∃ rows, wrapStr fuel s t.Width = some rows ∧ rows ≠ [] :=
    fun s hs => let ⟨rows, h1, h2, _⟩ := hrows s hs; ⟨rows, h1, h2⟩
  have hinit : SuInv (su_Lines t)
      { str := [], sub := [], curSub := -1, curSS := ((su_Lines t).length : Int) - 1 } :=
    ⟨le_refl _, by simp, by simp only []; omega, by simp⟩
  obtain ⟨st2, hloop, hstr⟩ := su_loop fuel t (su_Lines t) (List.replicate t.Width.toNat 32)
    hwrap t.Height.toNat t.bounds.Max.Y _ hinit
  have hpend : pendingRows fuel t.Width (su_Lines t)
      { str := [], sub := [], curSub := -1, curSS := ((su_Lines t).length : Int) - 1 } =
      ((su_Lines t).map (rowsOf fuel t.Width)).flatten := by
    simp only [pendingRows]
    have e1 : (((su_Lines t).length : Int) - 1 + 1).toNat = (su_Lines t).length := by omega
    rw [e1, List.take_length]
    simp
  rw [hpend, bottom_eq_lastRows] at hstr
  refine ⟨(su_Lines t).map (rowsOf fuel t.Width),
    { t with curPos := ⟨t.bounds.Min.X + ((t.cursor.length : Int) + t.line.length),
        t.bounds.Max.Y⟩ },
    st2.str, ?_, ?_, ?_, rfl, ?_, ?_, ?_⟩
  · rw [List.forall₂_map_right_iff, List.forall₂_same]
    intro s hs
    obtain ⟨rows, h1, -⟩ := hwrap s hs
    simp [rowsOf, h1]
  · exact set_last _ _ (stringsSplit_ne_nil 10 t.buffer)
  · unfold su_RenderText
    have hb : stringsRepeat [32] t.Width = some (List.replicate t.Width.toNat 32) := by
      rw [hWeq, stringsRepeat_space, Int.toNat_ofNat]
    simp only [hb, hloop]
  · simpa using hstr
  · unfold lastRows
    rw [List.length_drop, List.length_append, List.length_replicate]
    omega
  · intro row hrow
    have hmem := List.mem_of_mem_drop hrow
    rcases List.mem_append.1 hmem with h | h
    · rw [(List.mem_replicate.1 h).2, List.length_replicate, ← hWeq]
    · obtain ⟨sub, hsub, hin⟩ := List.mem_flatten.1 h
      obtain ⟨s, hs, rfl⟩ := List.mem_map.1 hsub
      obtain ⟨rows, h1, -, h3⟩ := hrows s hs
      have : rowsOf fuel t.Width s = rows := by simp [rowsOf, h1]
      rw [this] at hin
      rw [h3 row hin, ← hWeq]

/-- C30 at `suDemoTile` (5 columns, 3 rows, buffer "hi\n", input line "> x")
with fuel 10. -/
theorem C30_su_render_rows_witness :
    ∃ (subs : List (List GoString)) (t2 : Tile) (out : GoString),
      List.Forall₂ (fun s sub => wrapStr 10 s suDemoTile.Width = some sub)
        (su_Lines suDemoTile) subs ∧
      su_Lines suDemoTile =
        (stringsSplit 10 suDemoTile.buffer).dropLast ++ [suDemoTile.cursor ++ suDemoTile.line] ∧
      su_RenderText 10 suDemoTile = some (t2, out) ∧
      t2 = { suDemoTile with curPos := ⟨suDemoTile.bounds.Min.X +
        ((suDemoTile.cursor.length : Int) + suDemoTile.line.length), suDemoTile.bounds.Max.Y⟩ } ∧
      out = emitRows suDemoTile.bounds.Min.X suDemoTile.bounds.Max.Y
        (lastRows suDemoTile.Height.toNat (List.replicate suDemoTile.Width.toNat 32)
          subs.flatten).reverse ∧
      (lastRows suDemoTile.Height.toNat (List.replicate suDemoTile.Width.toNat 32)
        subs.flatten).length = suDemoTile.Height.toNat ∧
      (∀ row ∈ lastRows suDemoTile.Height.toNat (List.replicate suDemoTile.Width.toNat 32)
          subs.flatten, (row.length : Int) = suDemoTile.Width) :=
  C30_su_render_rows suDemoTile 10 (by decide) (by decide)

/-! ### UTF-8 -/

theorem sprintfC_valid (r : Int) (h : validScalar r) :
    sprintfC r =
      if r.toNat < 0x80 then [r.toNat]
      else if r.toNat < 0x800 then [0xC0 + r.toNat / 64, 0x80 + r.toNat % 64]
      else if r.toNat < 0x10000 then
        [0xE0 + r.toNat / 4096, 0x80 + r.toNat / 64 % 64, 0x80 + r.toNat % 64]
      else [0xF0 + r.toNat / 262144, 0x80 + r.toNat / 4096 % 64, 0x80 + r.toNat / 64 % 64,
        0x80 + r.toNat % 64] := by
  unfold validScalar at h
  have hr : (if r < 0 ∨ r > 0x10FFFF ∨ (0xD800 ≤ r ∧ r ≤ 0xDFFF) then 0xFFFD else r) = r :=
    if_neg (by omega)
  simp only [sprintfC, hr]

theorem decodeRune_1 (s0 : Nat) (rest : GoString) (h0 : s0 < 0x80) :
    decodeRune (s0 :: rest) = ((s0 : Int), 1) := by
  simp only [decodeRune, if_pos h0]

theorem decodeRune_2 (s0 s1 : Nat) (rest : GoString) (h0 : 0xC2 ≤ s0 ∧ s0 ≤ 0xDF)
    (h1 : 0x80 ≤ s1 ∧ s1 ≤ 0xBF) :
    decodeRune (s0 :: s1 :: rest) = (((s0 % 32 * 64 + s1 % 64 : Nat) : Int), 2) := by
  have a1 : ¬ s0 < 128 := by omega
  have a2 : ¬ (s0 < 194 ∨ 244 < s0) := by omega
  have a3 : s0 < 224 := by omega
  have a4 : ¬ s0 = 224 := by omega
  have a5 : ¬ s0 = 240 := by omega
  have a6 : ¬ s0 = 237 := by omega
  have a7 : ¬ s0 = 244 := by omega
  have a8 : ¬ (s1 < 128 ∨ 191 < s1) := by omega
  have a9 : ¬ (rest.length + 1 + 1 < 2) := by omega
  simp only [decodeRune, List.length_cons, List.getD_cons_succ, List.getD_cons_zero, a1, a2, a3,
    a4, a5, a6, a7, a8, a9, if_true, if_false, le_refl]

theorem decodeRune_3 (s0 s1 s2 : Nat) (rest : GoString) (h0 : 0xE0 ≤ s0 ∧ s0 ≤ 0xEF)
    (h1 : 0x80 ≤ s1 ∧ s1 ≤ 0xBF) (hlo : s0 = 0xE0 → 0xA0 ≤ s1) (hhi : s0 = 0xED → s1 ≤ 0x9F)
    (h2 : 0x80 ≤ s2 ∧ s2 ≤ 0xBF) :
    decodeRune (s0 :: s1 :: s2 :: rest) =
      (((s0 % 16 * 4096 + s1 % 64 * 64 + s2 % 64 : Nat) : Int), 3) := by
  have a1 : ¬ s0 < 128 := by omega
  have a2 : ¬ (s0 < 194 ∨ 244 < s0) := by omega
  have a3 : ¬ s0 < 224 := by omega
  have a4 : s0 < 240 := by omega
  have a5 : ¬ s0 = 240 := by omega
  have a7 : ¬ s0 = 244 := by omega
  have a8 : ¬ (s2 < 128 ∨ 191 < s2) := by omega
  have a9 : ¬ (rest.length + 1 + 1 + 1 < 3) := by omega
  have a10 : ¬ ((3 : Nat) ≤ 2) := by omega
  have a11 : ¬ ((s1 < if s0 = 224 then 160 else 128) ∨ (if s0 = 237 then 159 else 191) < s1) := by
    split_ifs <;> omega
  simp only [decodeRune, List.length_cons, List.getD_cons_succ, List.getD_cons_zero, a1, a2, a3,
    a4, a5, a7, a8, a9, a10, a11, if_true, if_false, le_refl]

theorem decodeRune_4 (s0 s1 s2 s3 : Nat) (rest : GoString) (h0 : 0xF0 ≤ s0 ∧ s0 ≤ 0xF4)
    (h1 : 0x80 ≤ s1 ∧ s1 ≤ 0xBF) (hlo : s0 = 0xF0 → 0x90 ≤ s1) (hhi : s0 = 0xF4 → s1 ≤ 0x8F)
    (h2 : 0x80 ≤ s2 ∧ s2 ≤ 0xBF) (h3 : 0x80 ≤ s3 ∧ s3 ≤ 0xBF) :
    decodeRune (s0 :: s1 :: s2 :: s3 :: rest) =
      (((s0 % 8 * 262144 + s1 % 64 * 4096 + s2 % 64 * 64 + s3 % 64 : Nat) : Int), 4) := by
  have a1 : ¬ s0 < 128 := by omega
  have a2 : ¬ (s0 < 194 ∨ 244 < s0) := by omega
  have a3 : ¬ s0 < 224 := by omega
  have a4 : ¬ s0 < 240 := by omega
  have a5 : ¬ s0 = 224 := by omega
  have a6 : ¬ s0 = 237 := by omega
  have a8 : ¬ (s2 < 128 ∨ 191 < s2) := by omega
  have a8b : ¬ (s3 < 128 ∨ 191 < s3) := by omega
  have a9 : ¬ (rest.length + 1 + 1 + 1 + 1 < 4) := by omega
  have a10 : ¬ ((4 : Nat) ≤ 2) := by omega
  have a10b : ¬ ((4 : Nat) ≤ 3) := by omega
  have a11 : ¬ ((s1 < if s0 = 240 then 144 else 128) ∨ (if s0 = 244 then 143 else 191) < s1) := by
    split_ifs <;> omega
  simp only [decodeRune, List.length_cons, List.getD_cons_succ, List.getD_cons_zero, a1, a2, a3,
    a4, a5, a6, a8, a8b, a9, a10, a10b, a11, if_true, if_false, le_refl]

/-- Decoding the encoding of a scalar value gives it back, with its width. -/
theorem decodeRune_encode (r : Int) (h : validScalar r) (s : GoString) :
    decodeRune (sprintfC r ++ s) = (r, (sprintfC r).length) := by
  rw [sprintfC_valid r h]
  unfold validScalar at h
  obtain ⟨n, rfl⟩ : ∃ n : Nat, r = n := ⟨r.toNat, by omega⟩
  simp only [Int.toNat_ofNat]
  by_cases h1 : n < 0x80
  · rw [if_pos h1]
    exact decodeRune_1 n s h1
  · rw [if_neg h1]
    by_cases h2 : n < 0x800
    · rw [if_pos h2]
      simp only [List.cons_append, List.nil_append]
      rw [decodeRune_2 _ _ _ (by omega) (by omega)]
      simp only [List.length_cons, List.length_nil, Prod.mk.injEq, and_true, Nat.cast_inj]
      omega
    · rw [if_neg h2]
      by_cases h3 : n < 0x10000
      · rw [if_pos h3]
        simp only [List.cons_append, List.nil_append]
        rw [decodeRune_3 _ _ _ _ (by omega) (by omega) (by omega) (by omega) (by omega)]
        simp only [List.length_cons, List.length_nil, Prod.mk.injEq, and_true, Nat.cast_inj]
        omega
      · rw [if_neg h3]
        simp only [List.cons_append, List.nil_append]
        rw [decodeRune_4 _ _ _ _ _ (by omega) (by omega) (by omega) (by omega) (by omega)
          (by omega)]
        simp only [List.length_cons, List.length_nil, Prod.mk.injEq, and_true, Nat.cast_inj]
        omega

/-- What the decoder returns is a scalar value, and below 0x80 only the first
byte itself. -/
theorem decodeRune_range (b : Nat) (rest : GoString) :
    validScalar (decodeRune (b :: rest)).1 ∧
      ((decodeRune (b :: rest)).1 < 0x80 → (decodeRune (b :: rest)).1 = b) := by
  unfold validScalar
  by_cases a1 : b < 128
  · rw [decodeRune_1 _ _ a1]
    dsimp only
    omega
  · by_cases a2 : (b < 194 ∨ 244 < b)
    · have : decodeRune (b :: rest) = (RuneError, 1) := by
        simp only [decodeRune, a1, a2, if_true, if_false]
      rw [this]
      simp only [RuneError]
      omega
    · by_cases a3 : b < 224
      · have a4 : ¬ b = 224 := by omega
        have a5 : ¬ b = 240 := by omega
        have a6 : ¬ b = 237 := by omega
        have a7 : ¬ b = 244 := by omega
        simp only [decodeRune, a1, a2, a3, a4, a5, a6, a7, if_true, if_false, le_refl, RuneError]
        split_ifs <;> dsimp only <;> omega
      · by_cases a4 : b < 240
        · have a5 : ¬ b = 240 := by omega
          have a7 : ¬ b = 244 := by omega
          have a10 : ¬ ((3 : Nat) ≤ 2) := by omega
          simp only [decodeRune, a1, a2, a3, a4, a5, a7, a10, if_true, if_false, le_refl,
            RuneError]
          by_cases b1 : b = 224
          · simp only [b1, if_true]
            split_ifs <;> dsimp only <;> omega
          · by_cases b2 : b = 237
            · simp only [b2, if_true, if_false]
              split_ifs <;> dsimp only <;> omega
            · simp only [b1, b2, if_false]
              split_ifs <;> dsimp only <;> omega
        · have a5 : ¬ b = 224 := by omega
          have a6 : ¬ b = 237 := by omega
          have a10 : ¬ ((4 : Nat) ≤ 2) := by omega
          have a10b : ¬ ((4 : Nat) ≤ 3) := by omega
          simp only [decodeRune, a1, a2, a3, a4, a5, a6, a10, a10b, if_true, if_false, le_refl,
            RuneError]
          by_cases b1 : b = 240
          · simp only [b1, if_true]
            split_ifs <;> dsimp only <;> omega
          · by_cases b2 : b = 244
            · simp only [b2, if_true, if_false]
              split_ifs <;> dsimp only <;> omega
            · simp only [b1, b2, if_false]
              split_ifs <;> dsimp only <;> omega

theorem runesFrom_drop (s : GoString) : ∀ k : Nat, runesFrom k s = runesFrom 0 (s.drop k) := by
  induction s with
  | nil => intro k; simp [runesFrom]
  | cons b rest ih =>
    intro k
    cases k with
    | zero => rfl
    | succ k => simp only [runesFrom, List.drop_succ_cons]; exact ih k

theorem sprintfC_ne_nil (r : Int) : sprintfC r ≠ [] := by
  unfold sprintfC
  simp only []
  split_ifs <;> exact List.cons_ne_nil _ _

/-- The range loop over the encoding of a scalar value followed by `s` yields
the value and then the runes of `s`. -/
theorem stringRunes_encode (r : Int) (h : validScalar r) (s : GoString) :
    stringRunes (sprintfC r ++ s) = r :: stringRunes s := by
  have hd := decodeRune_encode r h s
  obtain ⟨b, tail, hb⟩ := List.exists_cons_of_ne_nil (sprintfC_ne_nil r)
  rw [hb] at hd ⊢
  simp only [List.cons_append] at hd ⊢
  unfold stringRunes
  rw [runesFrom, hd]
  simp only [List.length_cons, Nat.add_sub_cancel]
  rw [runesFrom_drop, List.drop_left]

theorem stringRunes_encodeAll (ws : List Int) (h : ∀ r ∈ ws, validScalar r) (s : GoString) :
    stringRunes ((ws.map sprintfC).flatten ++ s) = ws ++ stringRunes s := by
  induction ws with
  | nil => rfl
  | cons r rest ih =>
    simp only [List.map_cons, List.flatten_cons, List.append_assoc, List.cons_append]
    rw [stringRunes_encode r (h r (List.mem_cons_self _ _)),
      ih (fun q hq => h q (List.mem_cons_of_mem _ hq))]

theorem stringRunes_nil : stringRunes [] = [] := rfl

/-- Every rune of the range loop is a scalar value, and a rune below 0x80 is a
byte of the string. -/
theorem runesFrom_range (s : GoString) :
    ∀ (k : Nat) (r : Int), r ∈ runesFrom k s →
      validScalar r ∧ (r < 0x80 → ∃ b ∈ s, (b : Int) = r) := by
  induction s with
  | nil => intro k r h; simp [runesFrom] at h
  | cons b rest ih =>
    intro k r h
    cases k with
    | zero =>
      rw [runesFrom] at h
      rcases List.mem_cons.1 h with rfl | h2
      · obtain ⟨hv, ha⟩ := decodeRune_range b rest
        exact ⟨hv, fun hlt => ⟨b, List.mem_cons_self _ _, (ha hlt).symm⟩⟩
      · obtain ⟨hv, ha⟩ := ih _ r h2
        exact ⟨hv, fun hlt => let ⟨c, hc, e⟩ := ha hlt; ⟨c, List.mem_cons_of_mem _ hc, e⟩⟩
    | succ k =>
      rw [runesFrom] at h
      obtain ⟨hv, ha⟩ := ih _ r h
      exact ⟨hv, fun hlt => let ⟨c, hc, e⟩ := ha hlt; ⟨c, List.mem_cons_of_mem _ hc, e⟩⟩

/-- The bytes of the encoding of a scalar value: the value itself below 0x80,
bytes from 0x80 on otherwise. -/
theorem sprintfC_bytes (r : Int) (h : validScalar r) :
    (r < 0x80 → sprintfC r = [r.toNat]) ∧ (0x80 ≤ r → ∀ b ∈ sprintfC r, 0x80 ≤ b) := by
  rw [sprintfC_valid r h]
  unfold validScalar at h
  constructor
  · intro hlt
    rw [if_pos (by omega)]
  · intro hge b hb
    rw [if_neg (by omega)] at hb
    split_ifs at hb <;>
      simp only [List.mem_cons, List.mem_singleton, List.not_mem_nil, or_false] at hb <;>
      omega

/-! ### FormatTextClipCol -/

theorem encodeRunes_append (a b : List Int) :
    encodeRunes (a ++ b) = encodeRunes a ++ encodeRunes b := by
  simp [encodeRunes]

theorem encodeRunes_spaces (n : Nat) : encodeRunes (List.replicate n 32) = List.replicate n 32 := by
  induction n with
  | zero => rfl
  | succ n ih =>
    rw [List.replicate_succ, List.replicate_succ]
    have : encodeRunes (32 :: List.replicate n 32) = [32] ++ encodeRunes (List.replicate n 32) := by
      simp only [encodeRunes, List.map_cons, List.flatten_cons]
      rfl
    rw [this, ih]
    rfl

theorem take_concat_le (ws : List Int) (r : Int) (k : Nat)
    (hk : k ≤ ws.length) : (ws ++ [r]).take k = ws.take k := by
  rw [List.take_append_eq_append_take]
  have : k - ws.length = 0 := by omega
  rw [this]
  simp

/-- One rune of the line keeps the invariant of the loop. -/
theorem clipRune_inv (isPrint : Int → Bool) (width col : Int) (st : ClipState) (ws : List Int)
    (r : Int) (h : ClipInv isPrint width col st ws) :
    ∃ ws2, ClipInv isPrint width col (clipRune isPrint width col st r) ws2 ∧
      (ws2 = ws ∨ ws2 = ws ++ [r]) := by
  obtain ⟨hb, hj, hcnt, hpos, hfit⟩ := h
  unfold clipRune
  by_cases hwin : st.c ≥ col ∧ st.c < col + width
  · refine ⟨ws ++ [r], ?_, Or.inr rfl⟩
    have hfit2 : ∀ k, k < (ws ++ [r]).length →
        (((ws ++ [r]).take k).countP isPrint : Int) < width := by
      intro k hk
      rw [List.length_append, List.length_singleton] at hk
      rw [take_concat_le ws r k (by omega)]
      by_cases hk2 : k < ws.length
      · exact hfit k hk2
      · have : k = ws.length := by omega
        rw [this, List.take_length, hcnt]
        omega
    simp only [if_pos hwin]
    by_cases hp : isPrint r = true
    · simp only [hp, if_true]
      refine ⟨by rw [hb, encodeRunes_append]; simp [encodeRunes], by simp [hj], ?_,
        fun _ => by simp only []; omega, hfit2⟩
      rw [List.countP_append]
      simp only [List.countP_cons_of_pos _ _ hp, List.countP_nil]
      push_cast
      rw [hcnt]
      omega
    · simp only [hp, Bool.false_eq_true, if_false]
      refine ⟨by rw [hb, encodeRunes_append]; simp [encodeRunes], by simp [hj], ?_,
        fun _ => by simp only []; omega, hfit2⟩
      rw [List.countP_append]
      simp only [List.countP_cons_of_neg _ _ hp, List.countP_nil]
      push_cast
      rw [hcnt]
      omega
  · refine ⟨ws, ?_, Or.inl rfl⟩
    simp only [if_neg hwin]
    by_cases hp : isPrint r = true
    · simp only [hp, if_true]
      refine ⟨hb, hj, ?_, fun h => by have := hpos h; simp only []; omega, hfit⟩
      rw [hcnt]
      simp only []
      by_cases hlt : st.c < col
      · omega
      · have : col + width ≤ st.c := by omega
        omega
    · simp only [hp, Bool.false_eq_true, if_false]
      exact ⟨hb, hj, hcnt, hpos, hfit⟩

/-- The loop over the runes of a line keeps the invariant; what is written are
runes of the line. -/
theorem clipFold_inv (isPrint : Int → Bool) (width col : Int) (rs : List Int) :
    ∀ (st : ClipState) (ws : List Int), ClipInv isPrint width col st ws →
      ∃ ws2, ClipInv isPrint width col (rs.foldl (clipRune isPrint width col) st) ws2 ∧
        ∀ r ∈ ws2, r ∈ ws ∨ r ∈ rs := by
  induction rs with
  | nil => intro st ws h; exact ⟨ws, h, fun r hr => Or.inl hr⟩
  | cons r rest ih =>
    intro st ws h
    obtain ⟨ws1, h1, hws1⟩ := clipRune_inv isPrint width col st ws r h
    obtain ⟨ws2, h2, hws2⟩ := ih _ ws1 h1
    refine ⟨ws2, h2, ?_⟩
    intro q hq
    rcases hws2 q hq with h3 | h3
    · rcases hws1 with rfl | rfl
      · exact Or.inl h3
      · rcases List.mem_append.1 h3 with h4 | h4
        · exact Or.inl h4
        · rw [List.mem_singleton.1 h4]; exact Or.inr (List.mem_cons_self _ _)
    · exact Or.inr (List.mem_cons_of_mem _ h3)

/-- The new value of a line: the encoding of runes `ws`, each a space or a
rune of the line, `width` of them printable, and fewer than `width` printable
ones before each. -/
theorem clipLine_spec (isPrint : Int → Bool) (hsp : isPrint 32 = true) (width col : Int)
    (hw : 1 ≤ width) (hcol : 0 ≤ col) (line : GoString) :
    ∃ ws : List Int,
      clipLine isPrint width col (List.replicate width.toNat 32) line = some (encodeRunes ws) ∧
      (ws.countP isPrint : Int) = width ∧
      (∀ k, k < ws.length → ((ws.take k).countP isPrint : Int) < width) ∧
      (∀ r ∈ ws, r = 32 ∨ r ∈ stringRunes line) := by
  have hinit : ClipInv isPrint width col { c := 0, j := 0, b := [] } [] := by
    refine ⟨rfl, rfl, ?_, fun h => absurd h (by decide), fun k hk => absurd hk (by simp)⟩
    simp only [List.countP_nil, Nat.cast_zero]
    omega
  obtain ⟨ws, ⟨hb, hj, hcnt, hpos, hfit⟩, hws⟩ :=
    clipFold_inv isPrint width col (stringRunes line) _ [] hinit
  have hsp2 : ∀ n : Nat, (List.replicate n (32 : Int)).countP isPrint = n := by
    intro n
    rw [List.countP_replicate, if_pos hsp]
  have hfitpad : ∀ (us : List Int) (n : Nat),
      (∀ k, k < us.length → ((us.take k).countP isPrint : Int) < width) →
      (us.countP isPrint : Int) + n = width →
      ∀ k, k < (us ++ List.replicate n 32).length →
        (((us ++ List.replicate n 32).take k).countP isPrint : Int) < width := by
    intro us n hfu hsum k hk
    rw [List.length_append, List.length_replicate] at hk
    rw [List.take_append_eq_append_take, List.countP_append, List.take_replicate, hsp2]
    by_cases hk2 : k < us.length
    · have := hfu k hk2
      have e : min (k - us.length) n = 0 := by omega
      rw [e]
      push_cast
      omega
    · rw [List.take_of_length_le (by omega)]
      push_cast
      omega
  unfold clipLine
  simp only []
  by_cases hj0 : ((stringRunes line).foldl (clipRune isPrint width col)
      { c := 0, j := 0, b := [] }).j = 0
  · rw [if_pos hj0]
    refine ⟨List.replicate width.toNat 32, by rw [encodeRunes_spaces], ?_, ?_, ?_⟩
    · rw [hsp2]; omega
    · have := hfitpad [] width.toNat (fun k hk => absurd hk (by simp)) (by simp; omega)
      simpa using this
    · intro r hr
      exact Or.inl (List.mem_replicate.1 hr).2
  · rw [if_neg hj0]
    have hjpos : 0 < ((stringRunes line).foldl (clipRune isPrint width col)
        { c := 0, j := 0, b := [] }).j := by
      rw [hj] at hj0 ⊢
      omega
    have hge := hpos hjpos
    have hmem : ∀ r ∈ ws, r = 32 ∨ r ∈ stringRunes line := by
      intro r hr
      rcases hws r hr with h | h
      · simp at h
      · exact Or.inr h
    by_cases hwin : ((stringRunes line).foldl (clipRune isPrint width col)
        { c := 0, j := 0, b := [] }).c ≥ col ∧
        ((stringRunes line).foldl (clipRune isPrint width col)
          { c := 0, j := 0, b := [] }).c < col + width
    · rw [if_pos hwin]
      obtain ⟨n, hn⟩ : ∃ n : Nat, col + width -
          ((stringRunes line).foldl (clipRune isPrint width col)
            { c := 0, j := 0, b := [] }).c = n := ⟨_, (Int.toNat_of_nonneg (by omega)).symm⟩
      rw [hn, stringsRepeat_space]
      simp only []
      refine ⟨ws ++ List.replicate n 32, ?_, ?_, ?_, ?_⟩
      · rw [encodeRunes_append, encodeRunes_spaces, hb]
      · rw [List.countP_append, hsp2]
        push_cast
        rw [hcnt]
        omega
      · exact hfitpad ws n hfit (by rw [hcnt]; omega)
      · intro r hr
        rcases List.mem_append.1 hr with h | h
        · exact hmem r h
        · exact Or.inl (List.mem_replicate.1 h).2
    · rw [if_neg hwin]
      refine ⟨ws, by rw [hb], ?_, hfit, hmem⟩
      rw [hcnt]
      omega

theorem mem_replaceByte (old : Nat) (new text : GoString) (b : Nat)
    (h : b ∈ replaceByte old new text) : (b ∈ text ∧ b ≠ old) ∨ b ∈ new := by
  simp only [replaceByte, List.mem_flatten, List.mem_map] at h
  obtain ⟨l, ⟨a, ha, rfl⟩, hb⟩ := h
  by_cases hao : a = old
  · rw [if_pos hao] at hb
    exact Or.inr hb
  · rw [if_neg hao, List.mem_singleton] at hb
    subst hb
    exact Or.inl ⟨ha, hao⟩

theorem mem_stringsSplit (sep : Nat) (s : GoString) :
    ∀ l ∈ stringsSplit sep s, ∀ b ∈ l, b ∈ s ∧ b ≠ sep := by
  induction s with
  | nil => intro l hl b hb; simp [stringsSplit] at hl; subst hl; simp at hb
  | cons a rest ih =>
    intro l hl b hb
    unfold stringsSplit at hl
    by_cases ha : a = sep
    · rw [if_pos ha] at hl
      rcases List.mem_cons.1 hl with rfl | hl2
      · simp at hb
      · obtain ⟨h1, h2⟩ := ih l hl2 b hb
        exact ⟨List.mem_cons_of_mem _ h1, h2⟩
    · rw [if_neg ha] at hl
      cases hs : stringsSplit sep rest with
      | nil => exact absurd hs (stringsSplit_ne_nil sep rest)
      | cons l0 ls =>
        rw [hs] at hl ih
        simp only [] at hl
        rcases List.mem_cons.1 hl with rfl | hl2
        · rcases List.mem_cons.1 hb with rfl | hb2
          · exact ⟨List.mem_cons_self _ _, ha⟩
          · obtain ⟨h1, h2⟩ := ih l0 (List.mem_cons_self _ _) b hb2
            exact ⟨List.mem_cons_of_mem _ h1, h2⟩
        · obtain ⟨h1, h2⟩ := ih l (List.mem_cons_of_mem _ hl2) b hb
          exact ⟨List.mem_cons_of_mem _ h1, h2⟩

/-- The lines that the loop runs over contain no tab, line feed or carriage
return. -/
theorem textLines_bytes (text : GoString) (n : Nat) :
    ∀ line ∈ textLines text (List.replicate n 32), ∀ b ∈ line, b ≠ 9 ∧ b ≠ 10 ∧ b ≠ 13 := by
  intro line hline b hb
  obtain ⟨h1, h10⟩ := mem_stringsSplit 10 _ line hline b hb
  refine ⟨?_, h10, ?_⟩
  · rcases mem_replaceByte 9 _ _ b h1 with h | h
    · exact h.2
    · rw [(List.mem_replicate.1 h).2]; decide
  · rcases mem_replaceByte 9 _ _ b h1 with h | h
    · rcases mem_replaceByte 13 _ _ b h.1 with h2 | h2
      · exact h2.2
      · rw [List.mem_singleton.1 h2]; decide
    · rw [(List.mem_replicate.1 h).2]; decide

theorem replaceCRLF_id (s : GoString) (h : 13 ∉ s) : replaceCRLF s = s := by
  induction s with
  | nil => rfl
  | cons a rest ih =>
    cases rest with
    | nil => rfl
    | cons b rest2 =>
      have ha : a ≠ 13 := fun e => h (by rw [e]; exact List.mem_cons_self _ _)
      rw [replaceCRLF, if_neg (fun hc => ha hc.1), ih (fun hm => h (List.mem_cons_of_mem _ hm))]

theorem replaceByte_id (old : Nat) (new s : GoString) (h : old ∉ s) :
    replaceByte old new s = s := by
  induction s with
  | nil => rfl
  | cons a rest ih =>
    have ha : a ≠ old := fun e => h (by rw [e]; exact List.mem_cons_self _ _)
    have := ih (fun hm => h (List.mem_cons_of_mem _ hm))
    simp only [replaceByte, List.map_cons, List.flatten_cons, if_neg ha] at this ⊢
    rw [this]
    rfl

theorem stringsSplit_id (sep : Nat) (s : GoString) (h : sep ∉ s) : stringsSplit sep s = [s] := by
  induction s with
  | nil => rfl
  | cons a rest ih =>
    have ha : a ≠ sep := fun e => h (by rw [e]; exact List.mem_cons_self _ _)
    rw [stringsSplit, if_neg ha, ih (fun hm => h (List.mem_cons_of_mem _ hm))]

theorem stringRunes_encodeRunes (ws : List Int) (h : ∀ r ∈ ws, validScalar r) :
    stringRunes (encodeRunes ws) = ws := by
  have := stringRunes_encodeAll ws h []
  simpa [encodeRunes, stringRunes_nil] using this

/-- The bytes of the encoding of scalar values: none is a byte below 0x80 that
is not one of the values. -/
theorem encodeRunes_bytes (ws : List Int) (h : ∀ r ∈ ws, validScalar r) (b : Nat)
    (hb : b ∈ encodeRunes ws) : 0x80 ≤ b ∨ (b : Int) ∈ ws := by
  simp only [encodeRunes, List.mem_flatten, List.mem_map] at hb
  obtain ⟨l, ⟨r, hr, rfl⟩, hbl⟩ := hb
  have hv := h r hr
  obtain ⟨h1, h2⟩ := sprintfC_bytes r hv
  by_cases hlt : r < 0x80
  · rw [h1 hlt, List.mem_singleton] at hbl
    right
    unfold validScalar at hv
    have : (b : Int) = r := by rw [hbl]; exact Int.toNat_of_nonneg hv.1
    rw [this]
    exact hr
  · exact Or.inl (h2 (by omega) b hbl)

/-- With the window at column 0 the loop writes every rune of a list in which
fewer than `width` printable runes stand before each rune. -/
theorem clipFold_all (isPrint : Int → Bool) (width : Int) (rs : List Int) :
    ∀ pre : List Int,
      (∀ k, k < (pre ++ rs).length → (((pre ++ rs).take k).countP isPrint : Int) < width) →
      rs.foldl (clipRune isPrint width 0)
          { c := (pre.countP isPrint : Int), j := (pre.length : Int), b := encodeRunes pre } =
        { c := ((pre ++ rs).countP isPrint : Int), j := ((pre ++ rs).length : Int),
          b := encodeRunes (pre ++ rs) } := by
  induction rs with
  | nil => intro pre _; simp
  | cons r rest ih =>
    intro pre hfit
    have hk := hfit pre.length (by simp)
    rw [List.take_left] at hk
    have hstep : clipRune isPrint width 0
        { c := (pre.countP isPrint : Int), j := (pre.length : Int), b := encodeRunes pre } r =
        { c := ((pre ++ [r]).countP isPrint : Int), j := ((pre ++ [r]).length : Int),
          b := encodeRunes (pre ++ [r]) } := by
      unfold clipRune
      have hwin : ((pre.countP isPrint : Nat) : Int) ≥ 0 ∧
          ((pre.countP isPrint : Nat) : Int) < 0 + width := ⟨by omega, by omega⟩
      simp only [if_pos hwin]
      by_cases hp : isPrint r = true
      · simp only [hp, if_true, List.countP_append, List.countP_cons_of_pos _ _ hp,
          List.countP_nil, List.length_append, List.length_singleton, encodeRunes_append]
        simp [encodeRunes]
      · simp only [hp, Bool.false_eq_true, if_false, List.countP_append,
          List.countP_cons_of_neg _ _ hp, List.countP_nil, List.length_append,
          List.length_singleton, encodeRunes_append]
        simp [encodeRunes]
    rw [List.foldl_cons, hstep, ih (pre ++ [r]) (by simpa using hfit)]
    simp

/-- Clipping again at column 0 returns the line. -/
theorem clipLine_again (isPrint : Int → Bool) (width : Int) (hw : 1 ≤ width) (blank : GoString)
    (ws : List Int) (hv : ∀ r ∈ ws, validScalar r) (hcnt : (ws.countP isPrint : Int) = width)
    (hfit : ∀ k, k < ws.length → ((ws.take k).countP isPrint : Int) < width) :
    clipLine isPrint width 0 blank (encodeRunes ws) = some (encodeRunes ws) := by
  have hfold := clipFold_all isPrint width ws [] (by simpa using hfit)
  simp only [List.countP_nil, List.length_nil, Nat.cast_zero, List.nil_append] at hfold
  have he : encodeRunes [] = [] := rfl
  rw [he] at hfold
  have hlen : 0 < ws.length := by
    rcases ws with _ | ⟨a, rest⟩
    · simp at hcnt; omega
    · simp
  unfold clipLine
  simp only [stringRunes_encodeRunes ws hv, hfold]
  rw [if_neg (by omega), if_neg (by omega)]

theorem clipLines_spec (isPrint : Int → Bool) (width col : Int) (blank : GoString)
    (hline : ∀ line, ∃ L, clipLine isPrint width col blank line = some L) :
    ∀ lines, ∃ out, clipLines isPrint width col blank lines = some out ∧
      List.Forall₂ (fun line L => clipLine isPrint width col blank line = some L) lines out := by
  intro lines
  induction lines with
  | nil => exact ⟨[], rfl, List.Forall₂.nil⟩
  | cons line rest ih =>
    obtain ⟨L, hL⟩ := hline line
    obtain ⟨out, hout, hall⟩ := ih
    exact ⟨L :: out, by simp only [clipLines, hL, hout], List.Forall₂.cons hL hall⟩

theorem forall₂_mem_right {α β : Type} (R : α → β → Prop) (l1 : List α) (l2 : List β)
    (h : List.Forall₂ R l1 l2) : ∀ y ∈ l2, ∃ x ∈ l1, R x y := by
  induction h with
  | nil => intro y hy; simp at hy
  | cons hr _ ih =>
    intro y hy
    rcases List.mem_cons.1 hy with rfl | hy2
    · exact ⟨_, List.mem_cons_self _ _, hr⟩
    · obtain ⟨x, hx, hxy⟩ := ih y hy2
      exact ⟨x, List.mem_cons_of_mem _ hx, hxy⟩

theorem FormatTextClipCol_eq (isPrint : Int → Bool) (text : GoString) (width tabSize col : Int)
    (hw : 0 ≤ width) (ht : 0 ≤ tabSize) :
    FormatTextClipCol isPrint text width tabSize col =
      clipLines isPrint width col (List.replicate width.toNat 32)
        (textLines text (List.replicate tabSize.toNat 32)) := by
  have e1 : stringsRepeat [32] tabSize = some (List.replicate tabSize.toNat 32) := by
    conv_lhs => rw [← Int.toNat_of_nonneg ht]
    exact stringsRepeat_space _
  have e2 : stringsRepeat [32] width = some (List.replicate width.toNat 32) := by
    conv_lhs => rw [← Int.toNat_of_nonneg hw]
    exact stringsRepeat_space _
  simp only [FormatTextClipCol, e1, e2, textLines]

theorem IsPrint_space (beyond : Int → Bool) : IsPrint beyond 32 = true := by
  simp [IsPrint]

/-- What FormatTextClipCol returns: one line for each line of the text, the
encoding of scalar values none of which is a tab, line feed or carriage return,
`width` of them printable and fewer than `width` printable ones before each. -/
theorem FormatTextClipCol_spec (beyond : Int → Bool) (text : GoString)
    (width tabSize col : Int) (hw : 1 ≤ width) (ht : 0 ≤ tabSize) (hc : 0 ≤ col) :
    ∃ lines, FormatTextClipCol (IsPrint beyond) text width tabSize col = some lines ∧
      List.Forall₂ (fun line L => ∃ ws : List Int, L = encodeRunes ws ∧
          (∀ r ∈ ws, validScalar r) ∧
          (ws.countP (IsPrint beyond) : Int) = width ∧
          (∀ k, k < ws.length → ((ws.take k).countP (IsPrint beyond) : Int) < width) ∧
          (∀ r ∈ ws, r = 32 ∨ r ∈ stringRunes line) ∧
          (∀ b ∈ L, b ≠ 9 ∧ b ≠ 10 ∧ b ≠ 13))
        (textLines text (List.replicate tabSize.toNat 32)) lines := by
  have hline : ∀ line, ∃ L, clipLine (IsPrint beyond) width col
      (List.replicate width.toNat 32) line = some L := fun line =>
    let ⟨ws, h, _⟩ := clipLine_spec (IsPrint beyond) (IsPrint_space beyond) width col hw hc line
    ⟨_, h⟩
  obtain ⟨out, hout, hall⟩ := clipLines_spec (IsPrint beyond) width col _ hline
    (textLines text (List.replicate tabSize.toNat 32))
  refine ⟨out, by rw [FormatTextClipCol_eq _ _ _ _ _ (by omega) ht, hout], ?_⟩
  clear hout
  have hbytes := textLines_bytes text tabSize.toNat
  revert hbytes
  generalize textLines text (List.replicate tabSize.toNat 32) = lines at hall ⊢
  intro hbytes
  induction hall with
  | nil => exact List.Forall₂.nil
  | @cons line L rest out2 hL _ ih =>
    refine List.Forall₂.cons ?_ (ih (fun l hl => hbytes l (List.mem_cons_of_mem _ hl)))
    obtain ⟨ws, h1, h2, h3, h4⟩ :=
      clipLine_spec (IsPrint beyond) (IsPrint_space beyond) width col hw hc line
    have hLeq : L = encodeRunes ws := by
      rw [hL] at h1
      exact Option.some.inj h1
    have hval : ∀ r ∈ ws, validScalar r := by
      intro r hr
      rcases h4 r hr with rfl | h
      · decide
      · exact (runesFrom_range line 0 r h).1
    refine ⟨ws, hLeq, hval, h2, h3, h4, ?_⟩
    intro b hb
    rw [hLeq] at hb
    rcases encodeRunes_bytes ws hval b hb with hge | hmem
    · omega
    · rcases h4 _ hmem with h32 | hr
      · omega
      · by_cases hlt : (b : Int) < 0x80
        · obtain ⟨c, hc2, hce⟩ := (runesFrom_range line 0 _ hr).2 hlt
          have : c = b := by exact_mod_cast hce
          subst this
          exact hbytes line (List.mem_cons_self _ _) c hc2
        · omega

/-- C25 as the claim states it fails on the text that is the single control
character U+0001, with width 1 and column 0: the line returned is that
character followed by a space, two runes and not one. -/
theorem C25_counterexample :
    RuneCountInString [1, 32] = 2 ∧
      ∀ beyond : Int → Bool, FormatTextClipCol (IsPrint beyond) [1] 1 0 0 = some [[1, 32]] :=
  ⟨rfl, fun _ => rfl⟩

/-- C25 amended: for every text, width ≥ 1, tabSize ≥ 0 and col ≥ 0,
FormatTextClipCol returns one line for each line of the text (the text after
the line-end and tab replacements, split at "\n"); every line returned contains
exactly width printable runes, and exactly width runes when every rune of its
line of the text is printable. -/
theorem C25_clip_printable_width (beyond : Int → Bool) (text : GoString)
    (width tabSize col : Int) (hw : 1 ≤ width) (ht : 0 ≤ tabSize) (hc : 0 ≤ col) :
    ∃ lines, FormatTextClipCol (IsPrint beyond) text width tabSize col = some lines ∧
      List.Forall₂ (fun line L =>
          ((stringRunes L).countP (IsPrint beyond) : Int) = width ∧
          ((∀ r ∈ stringRunes line, IsPrint beyond r = true) → RuneCountInString L = width))
        (textLines text (List.replicate tabSize.toNat 32)) lines := by
  obtain ⟨lines, hl, hall⟩ := FormatTextClipCol_spec beyond text width tabSize col hw ht hc
  refine ⟨lines, hl, hall.imp ?_⟩
  rintro line L ⟨ws, rfl, hval, hcnt, -, hmem, -⟩
  rw [RuneCountInString, stringRunes_encodeRunes ws hval]
  refine ⟨hcnt, fun hp => ?_⟩
  have hall2 : ∀ r ∈ ws, IsPrint beyond r = true := by
    intro r hr
    rcases hmem r hr with rfl | h
    · exact IsPrint_space beyond
    · exact hp r h
  rw [← hcnt, List.countP_eq_length.2 hall2]

/-- C25 amended, at the text "a\tb\n\x01" with width 4, tabSize 2, col 1. -/
theorem C25_clip_printable_width_witness :
    ∃ lines, FormatTextClipCol (IsPrint (fun _ => true)) [97, 9, 98, 10, 1] 4 2 1 = some lines ∧
      List.Forall₂ (fun line L =>
          ((stringRunes L).countP (IsPrint (fun _ => true)) : Int) = 4 ∧
          ((∀ r ∈ stringRunes line, IsPrint (fun _ => true) r = true) →
            RuneCountInString L = 4))
        (textLines [97, 9, 98, 10, 1] (List.replicate (2 : Int).toNat 32)) lines :=
  C25_clip_printable_width (fun _ => true) [97, 9, 98, 10, 1] 4 2 1 (by decide) (by decide)
    (by decide)

/-- C26 as the claim states it fails on the text "abcdef" with width 3,
tabSize 3 and col 2: the line returned is "cde", and clipping "cde" again with
the same parameters returns "e  ". -/
theorem C26_counterexample :
    FormatTextClipCol (IsPrint (fun _ => true)) [97, 98, 99, 100, 101, 102] 3 3 2 =
        some [[99, 100, 101]] ∧
      FormatTextClipCol (IsPrint (fun _ => true)) [99, 100, 101] 3 3 2 =
        some [[101, 32, 32]] := by
  decide

/-- C26 amended: for every text, width ≥ 1, tabSize ≥ 0 and col ≥ 0, and
every line L returned by FormatTextClipCol(text, width, tabSize, col), clipping
L again at column 0, FormatTextClipCol(L, width, tabSize, 0), returns the single
line L; so clipping again with the same parameters changes nothing when col is
0. -/
theorem C26_reclip_at_zero (beyond : Int → Bool) (text : GoString)
    (width tabSize col : Int) (hw : 1 ≤ width) (ht : 0 ≤ tabSize) (hc : 0 ≤ col) :
    ∃ lines, FormatTextClipCol (IsPrint beyond) text width tabSize col = some lines ∧
      ∀ L ∈ lines, FormatTextClipCol (IsPrint beyond) L width tabSize 0 = some [L] := by
  obtain ⟨lines, hl, hall⟩ := FormatTextClipCol_spec beyond text width tabSize col hw ht hc
  refine ⟨lines, hl, ?_⟩
  intro L hL
  obtain ⟨line, -, ws, hLeq, hval, hcnt, hfit, -, hbytes⟩ := forall₂_mem_right _ _ _ hall L hL
  have h13 : 13 ∉ L := fun h => (hbytes 13 h).2.2 rfl
  have h9 : 9 ∉ L := fun h => (hbytes 9 h).1 rfl
  have h10 : 10 ∉ L := fun h => (hbytes 10 h).2.1 rfl
  rw [FormatTextClipCol_eq _ _ _ _ _ (by omega) ht]
  have hlines : textLines L (List.replicate tabSize.toNat 32) = [L] := by
    unfold textLines
    rw [replaceCRLF_id L h13, replaceByte_id 13 _ L h13, replaceByte_id 9 _ L h9,
      stringsSplit_id 10 L h10]
  rw [hlines, hLeq]
  simp only [clipLines, clipLine_again (IsPrint beyond) width hw _ ws hval hcnt hfit]

/-- C26 amended, at the text "abcdef" with width 3, tabSize 3, col 2. -/
theorem C26_reclip_at_zero_witness :
    ∃ lines, FormatTextClipCol (IsPrint (fun _ => true)) [97, 98, 99, 100, 101, 102] 3 3 2 =
        some lines ∧
      ∀ L ∈ lines, FormatTextClipCol (IsPrint (fun _ => true)) L 3 3 0 = some [L] :=
  C26_reclip_at_zero (fun _ => true) [97, 98, 99, 100, 101, 102] 3 3 2 (by decide) (by decide)
    (by decide)

/-! ### Rendering of a session -/

namespace TileTerm

theorem dirtyLoop_dirty (l : List Nat) :
    ∀ t u : TileTerm, dirtyLoop l t = some u → u.dirty = t.dirty := by
  induction l with
  | nil => intro t u h; simp only [dirtyLoop, Option.some.injEq] at h; rw [← h]
  | cons v rest ih =>
    intro t u h
    unfold dirtyLoop at h
    cases hv : t.heap[v]? with
    | none => simp [hv] at h
    | some vt =>
      simp only [hv] at h
      have h2 := ih _ _ h
      exact h2

theorem dirtyAllTiles_dirty (t u : TileTerm) (h : t.dirtyAllTiles = Run.done u) :
    u.dirty = t.dirty := by
  unfold dirtyAllTiles at h
  split_ifs at h
  cases hl : dirtyLoop t.tiles { t with lock := true } with
  | none => simp [hl] at h
  | some w =>
    simp only [hl, Run.done.injEq] at h
    rw [← h]
    have h2 := dirtyLoop_dirty _ _ _ hl
    exact h2

theorem setSize_dirty (t u : TileTerm) (w h : Int) (hs : t.setSize w h = Run.done u) :
    u.dirty = t.dirty := by
  unfold setSize at hs
  split_ifs at hs
  simp only [Run.done.injEq] at hs
  rw [← hs]

theorem setBounds_dirty (t : TileTerm) (p : Nat) (r : Rect) : (t.setBounds p r).dirty = t.dirty := by
  unfold setBounds
  cases t.heap[p]? <;> rfl

theorem layoutTile_dirty (t u : TileTerm) (tw th : Int) (i w : Nat)
    (h : layoutTile t tw th i w = some u) : u.dirty = t.dirty := by
  unfold layoutTile at h
  cases hw : t.heap[w]? with
  | none => simp [hw] at h
  | some wt =>
    simp only [hw] at h
    by_cases hi : i = 0
    · simp only [hi, if_true, Option.some.injEq] at h
      rw [← h, setBounds_dirty]
    · simp only [hi, if_false] at h
      cases hp : wt.parent with
      | none => simp [hp] at h
      | some p =>
        simp only [hp] at h
        cases hpt : t.heap[p]? with
        | none => simp [hpt] at h
        | some pt =>
          simp only [hpt] at h
          cases hz : t.zoomFraction w wt.fraction with
          | none => simp [hz] at h
          | some g =>
            simp only [hz, Option.some.injEq] at h
            rw [← h, setBounds_dirty, setBounds_dirty]

theorem layoutLoop_dirty (tw th : Int) (l : List Nat) :
    ∀ (i : Nat) (t u : TileTerm), layoutLoop tw th i l t = some u → u.dirty = t.dirty := by
  induction l with
  | nil => intro i t u h; simp only [layoutLoop, Option.some.injEq] at h; rw [← h]
  | cons w rest ih =>
    intro i t u h
    unfold layoutLoop at h
    cases h1 : layoutTile t tw th i w with
    | none => simp [h1] at h
    | some t1 =>
      simp only [h1] at h
      rw [ih _ _ _ h, layoutTile_dirty _ _ _ _ _ _ h1]

theorem layoutTiles_dirty (t u : TileTerm) (h : t.layoutTiles = Run.done u) :
    u.dirty = t.dirty := by
  unfold layoutTiles at h
  split_ifs at h
  cases hl : layoutLoop t.width t.height 0 t.tiles { t with lock := true } with
  | none => simp [hl] at h
  | some w =>
    simp only [hl, Run.done.injEq] at h
    rw [← h]
    have h2 := layoutLoop_dirty _ _ _ _ _ _ hl
    exact h2

theorem renderTextLoop_dirty (env : RenderEnv) (l : List Nat) :
    ∀ (t u : TileTerm) (str out : GoString),
      renderTextLoop env l t str = some (u, out) → u.dirty = t.dirty := by
  induction l with
  | nil =>
    intro t u str out h
    simp only [renderTextLoop, Option.some.injEq, Prod.mk.injEq] at h
    rw [← h.1]
  | cons v rest ih =>
    intro t u str out h
    unfold renderTextLoop at h
    cases hv : t.heap[v]? with
    | none => simp [hv] at h
    | some vt =>
      simp only [hv] at h
      by_cases hd : vt.dirty = true
      · simp only [hd, if_true] at h
        cases hr : vt.Render env with
        | none => simp [hr] at h
        | some p =>
          obtain ⟨t2, s⟩ := p
          simp only [hr] at h
          have h2 := ih _ _ _ _ h
          exact h2
      · simp only [hd, Bool.false_eq_true, if_false] at h
        exact ih _ u _ out h

theorem renderText_dirty (env : RenderEnv) (t u : TileTerm) (out : GoString)
    (h : t.renderText env = some (u, out)) : u.dirty = t.dirty := by
  unfold renderText at h
  cases hl : renderTextLoop env t.tiles t [] with
  | none => simp [hl] at h
  | some p =>
    obtain ⟨w, str⟩ := p
    simp only [hl] at h
    cases hc : w.renderCursor with
    | none => simp [hc] at h
    | some cur =>
      simp only [hc, Option.some.injEq, Prod.mk.injEq] at h
      rw [← h.1]
      exact renderTextLoop_dirty env _ _ _ _ _ hl

theorem fullRedraw_dirty (t u : TileTerm) (w h : Int) (out : GoString)
    (hr : t.fullRedraw w h = Run.done (u, out)) : u.dirty = t.dirty := by
  unfold fullRedraw at hr
  cases h1 : t.dirtyAllTiles with
  | done t1 =>
    simp only [h1] at hr
    cases h2 : t1.setSize w h with
    | done t2 =>
      simp only [h2] at hr
      cases h3 : t2.layoutTiles with
      | done t3 =>
        simp only [h3] at hr
        cases h4 : t3.renderOutline with
        | none => simp [h4] at hr
        | some str =>
          simp only [h4, Run.done.injEq, Prod.mk.injEq] at hr
          rw [← hr.1, layoutTiles_dirty _ _ h3, setSize_dirty _ _ _ _ h2,
            dirtyAllTiles_dirty _ _ h1]
      | panic => simp [h3] at hr
      | blocked => simp [h3] at hr
      | outOfFuel => simp [h3] at hr
    | panic => simp [h2] at hr
    | blocked => simp [h2] at hr
    | outOfFuel => simp [h2] at hr
  | panic => simp [h1] at hr
  | blocked => simp [h1] at hr
  | outOfFuel => simp [h1] at hr

/-- No statement of String, nor of what it calls, assigns to the dirty flag of
the session. -/
theorem String_dirty (env : RenderEnv) (size : Option (Int × Int)) (t u : TileTerm)
    (out : GoString) (h : String env size t = Run.done (u, out)) : u.dirty = t.dirty := by
  unfold String at h
  cases size with
  | none => simp at h
  | some wh =>
    obtain ⟨w, hh⟩ := wh
    simp only [getSize] at h
    by_cases hc : t.width ≠ w ∨ t.height ≠ hh ∨ t.dirty = true
    · simp only [if_pos hc] at h
      cases h1 : t.fullRedraw w hh with
      | done p =>
        obtain ⟨t1, str⟩ := p
        simp only [h1] at h
        cases h2 : t1.renderText env with
        | none => simp [h2] at h
        | some q =>
          obtain ⟨t2, text⟩ := q
          simp only [h2, Run.done.injEq, Prod.mk.injEq] at h
          rw [← h.1, renderText_dirty env _ _ _ h2, fullRedraw_dirty _ _ _ _ _ h1]
      | panic => simp [h1] at h
      | blocked => simp [h1] at h
      | outOfFuel => simp [h1] at h
    · simp only [if_neg hc] at h
      cases h2 : t.renderText env with
      | none => simp [h2] at h
      | some q =>
        obtain ⟨t2, text⟩ := q
        simp only [h2, Run.done.injEq, Prod.mk.injEq] at h
        rw [← h.1, renderText_dirty env _ _ _ h2]

set_option maxRecDepth 100000 in
theorem oneTile_renderTwice :
    renderTwice demoEnv (some (8, 5)) oneTile =
      (Box ⟨⟨1, 1⟩, ⟨8, 5⟩⟩ SingleBox [] [SGR_Negative, SGR_Bold]).map (fun border =>
        (border ++ emitRows 2 4 [[62, 32, 32, 32, 32, 32], [104, 105, 32, 32, 32, 32],
            [32, 32, 32, 32, 32, 32]] ++ CUP 4 4,
          border ++ emitRows 2 4 [[62, 32, 32, 32, 32, 32], [104, 105, 32, 32, 32, 32],
            [32, 32, 32, 32, 32, 32]] ++ CUP 4 4)) := by
  decide!

set_option maxRecDepth 100000 in
theorem oneTile_border :
    (Box ⟨⟨1, 1⟩, ⟨8, 5⟩⟩ SingleBox [] [SGR_Negative, SGR_Bold]).map List.length = some 176 := by
  decide!

set_option maxRecDepth 100000 in
theorem oneTile_dirtyAfter : dirtyAfter demoEnv (some (8, 5)) oneTile = some (true, [true]) := by
  decide!

/-- C29 fails on the code: the dirty flag of the session, which NewTileTerm
sets, is never cleared: String returns the session with the flag as it found
it.  So every render is a full redraw.  On the session `oneTile` (one ScrollUp
tile with a border, terminal 8 x 5) the second of two consecutive renders, with
nothing dirtied between them, returns the same text as the first: the border
(176 bytes), the text of the tile and the cursor position, where the claim has
the cursor position alone.  After the first render the tile is still dirty as
well. -/
theorem C29_every_render_is_full :
    NewTileTerm.dirty = true ∧ oneTile.dirty = true ∧
      (∀ (env : RenderEnv) (size : Option (Int × Int)) (t u : TileTerm) (out : GoString),
        String env size t = Run.done (u, out) → u.dirty = t.dirty) ∧
      renderTwice demoEnv (some (8, 5)) oneTile =
        (Box ⟨⟨1, 1⟩, ⟨8, 5⟩⟩ SingleBox [] [SGR_Negative, SGR_Bold]).map (fun border =>
          (border ++ emitRows 2 4 [[62, 32, 32, 32, 32, 32], [104, 105, 32, 32, 32, 32],
              [32, 32, 32, 32, 32, 32]] ++ CUP 4 4,
            border ++ emitRows 2 4 [[62, 32, 32, 32, 32, 32], [104, 105, 32, 32, 32, 32],
              [32, 32, 32, 32, 32, 32]] ++ CUP 4 4)) ∧
      (Box ⟨⟨1, 1⟩, ⟨8, 5⟩⟩ SingleBox [] [SGR_Negative, SGR_Bold]).map List.length = some 176 ∧
      dirtyAfter demoEnv (some (8, 5)) oneTile = some (true, [true]) :=
  ⟨rfl, rfl, String_dirty, oneTile_renderTwice, oneTile_border, oneTile_dirtyAfter⟩

end TileTerm

/-! ### Degenerate geometry of the drawing helpers -/

/-- C31: for every rectangle whose extent is zero or negative on one axis
(Max.X - Min.X <= 0 or Max.Y - Min.Y <= 0), every glyph set, title and style,
Box returns the empty string and ClearRect returns the empty string; neither
fails. -/
theorem C31_degenerate_rect_empty (r : Rect) (chars : List Int) (text : GoString)
    (style : List Int) (h : r.Max.X - r.Min.X ≤ 0 ∨ r.Max.Y - r.Min.Y ≤ 0) :
    Box r chars text style = some [] ∧ ClearRect r = some [] := by
  constructor
  · unfold Box
    rw [if_pos (by omega)]
  · unfold ClearRect
    rw [if_pos (by omega)]

/-- C31 at the rectangle from (3,3) to (3,1), of extent 0 in x and -2 in y. -/
theorem C31_degenerate_rect_empty_witness :
    ((3 : Int) - 3 ≤ 0 ∨ (1 : Int) - 3 ≤ 0) ∧
      Box ⟨⟨3, 3⟩, ⟨3, 1⟩⟩ TileTerm.SingleBox [97] [] = some [] ∧
      ClearRect ⟨⟨3, 3⟩, ⟨3, 1⟩⟩ = some [] :=
  ⟨by decide, C31_degenerate_rect_empty ⟨⟨3, 3⟩, ⟨3, 1⟩⟩ TileTerm.SingleBox [97] []
    (by decide)⟩

theorem stringsRepeat_neg (s : GoString) (n : Int) (h : n < 0) : stringsRepeat s n = none := by
  unfold stringsRepeat
  rw [if_pos h]

theorem stringsRepeat_nonneg (s : GoString) (n : Int) (h : 0 ≤ n) :
    stringsRepeat s n = some (List.replicate n.toNat s).flatten := by
  unfold stringsRepeat
  rw [if_neg (by omega)]

/-- C32 fails on the code for negative extents: for x2 < x1 HLine panics in
strings.Repeat, and for y2 < y1 so does VLine; neither returns the
cursor-positioning sequence.  (With `a` as the larger and `b` as the smaller
coordinate of the line axis.) -/
theorem HLine_zero (x y c : Int) : HLine x x y c = some (CUP x y) := by
  unfold HLine
  rw [stringsRepeat_nonneg _ _ (by omega)]
  simp

theorem VLine_zero (x y c : Int) : VLine x y y c = some (CUP x y) := by
  unfold VLine
  rw [stringsRepeat_nonneg _ _ (by omega)]
  simp

/-- C32 fails on the code for negative extents: for x2 < x1 HLine panics in
strings.Repeat, and for y2 < y1 so does VLine; neither returns the
cursor-positioning sequence.  Here `a` is the first and `b` the second
coordinate of the line axis, `b < a`, and `p` the coordinate of the other axis.
For the extent zero both return the cursor-positioning sequence alone, as
claimed. -/
theorem C32_negative_extent_panics (a b p c : Int) (h : b < a) :
    HLine a b p c = none ∧ VLine p a b c = none ∧
      HLine a a p c = some (CUP a p) ∧ VLine p a a c = some (CUP p a) := by
  refine ⟨?_, ?_, HLine_zero a p c, VLine_zero p a c⟩
  · unfold HLine
    rw [stringsRepeat_neg _ _ (by omega)]
  · unfold VLine
    rw [stringsRepeat_neg _ _ (by omega)]

/-- C32 at HLine(5, 3, 1, '-') and VLine(1, 5, 3, '-'). -/
theorem C32_negative_extent_panics_witness :
    (3 : Int) < 5 ∧ HLine 5 3 1 45 = none ∧ VLine 1 5 3 45 = none ∧
      HLine 5 5 1 45 = some (CUP 5 1) ∧ VLine 1 5 5 45 = some (CUP 1 5) :=
  ⟨by decide, C32_negative_extent_panics 5 3 1 45 (by decide)⟩

theorem HLine_some (x1 x2 y c : Int) (h : x1 ≤ x2) : ∃ s, HLine x1 x2 y c = some s := by
  unfold HLine
  rw [stringsRepeat_nonneg _ _ (by omega)]
  exact ⟨_, rfl⟩

theorem VLine_some (x y1 y2 c : Int) (h : y1 ≤ y2) : ∃ s, VLine x y1 y2 c = some s := by
  unfold VLine
  rw [stringsRepeat_nonneg _ _ (by omega)]
  exact ⟨_, rfl⟩

theorem HLineText_none_iff (x1 x2 y c : Int) (text : GoString) (style : List Int) :
    HLineText x1 x2 y c text style = none ↔ x2 - x1 - text.length < 0 := by
  unfold HLineText
  by_cases hn : x2 - x1 - (text.length : Int) < 0
  · simp only [hn, iff_true]
    by_cases h1 : Int.tdiv (x2 - x1 - (text.length : Int)) 2 < 0
    · rw [stringsRepeat_neg _ _ h1]
    · rw [stringsRepeat_nonneg _ _ (by omega)]
      have h2 : x2 - x1 - (text.length : Int) -
          Int.tdiv (x2 - x1 - (text.length : Int)) 2 < 0 := by
        have e : Int.tdiv (x2 - x1 - (text.length : Int)) 2 =
            -((-(x2 - x1 - (text.length : Int))) / 2) := by
          rw [← Int.tdiv_eq_ediv (by omega) (by norm_num), Int.neg_tdiv, neg_neg]
        rw [e]
        omega
      simp only [stringsRepeat_neg _ _ h2]
  · simp only [hn, iff_false]
    have h0 : 0 ≤ x2 - x1 - (text.length : Int) := by omega
    have h1 : 0 ≤ Int.tdiv (x2 - x1 - (text.length : Int)) 2 := by
      rw [Int.tdiv_eq_ediv h0 (by norm_num)]; omega
    have h2 : 0 ≤ x2 - x1 - (text.length : Int) -
        Int.tdiv (x2 - x1 - (text.length : Int)) 2 := by
      rw [Int.tdiv_eq_ediv h0 (by norm_num)]; omega
    rw [stringsRepeat_nonneg _ _ h1]
    simp only [stringsRepeat_nonneg _ _ h2]
    simp

/-- When Box fails, for a rectangle of extents at least 2: exactly when the
title is as long as the x extent. -/
theorem Box_none_iff (r : Rect) (chars : List Int) (text : GoString) (style : List Int)
    (hx : 2 ≤ r.Max.X - r.Min.X) (hy : 2 ≤ r.Max.Y - r.Min.Y) :
    Box r chars text style = none ↔ (text.length : Int) = r.Max.X - r.Min.X := by
  obtain ⟨v1, hv1⟩ := VLine_some r.Max.X (r.Min.Y + 1) r.Max.Y (chars.getD Box_Vert 0)
    (by omega)
  obtain ⟨v2, hv2⟩ := VLine_some r.Min.X (r.Min.Y + 1) r.Max.Y (chars.getD Box_Vert 0)
    (by omega)
  obtain ⟨b1, hb1⟩ := HLine_some (r.Min.X + 1) r.Max.X r.Max.Y (chars.getD Box_Horiz 0)
    (by omega)
  unfold Box
  rw [if_neg (by omega)]
  simp only [hv1, hv2, hb1]
  by_cases hlong : (text.length : Int) > r.Max.X - r.Min.X
  · obtain ⟨t1, ht1⟩ := HLine_some (r.Min.X + 1) r.Max.X r.Min.Y (chars.getD Box_Horiz 0)
      (by omega)
    simp only [if_pos hlong, ht1]
    constructor
    · intro h; simp at h
    · intro h; omega
  · simp only [if_neg hlong]
    cases ht : HLineText (r.Min.X + 1) r.Max.X r.Min.Y (chars.getD Box_Horiz 0) text style with
    | none =>
      have := (HLineText_none_iff _ _ _ _ _ _).1 ht
      simp only [true_iff]
      omega
    | some top =>
      have hnot : ¬ (r.Max.X - (r.Min.X + 1) - (text.length : Int) < 0) := by
        intro hneg
        have := (HLineText_none_iff (r.Min.X + 1) r.Max.X r.Min.Y (chars.getD Box_Horiz 0)
          text style).2 hneg
        rw [this] at ht
        simp at ht
      constructor
      · intro h; simp at h
      · intro h; omega

/-- C34 fails on the code: for a rectangle with both extents at least 2, Box
fails exactly when the title is as long as the x extent Max.X - Min.X.  The
title test `len(text) > r.Max.X - r.Min.X` sends such a title to HLineText, whose
line is one column shorter, so the second repeat count is -1 and strings.Repeat
panics.  For every other title length Box returns. -/
theorem C34_box_title_of_box_width (r : Rect) (chars : List Int) (text : GoString)
    (style : List Int) (hx : 2 ≤ r.Max.X - r.Min.X) (hy : 2 ≤ r.Max.Y - r.Min.Y) :
    (Box r chars text style = none ↔ (text.length : Int) = r.Max.X - r.Min.X) ∧
      ((text.length : Int) = r.Max.X - r.Min.X →
        ∀ t : Tile, t.outline = some chars → t.name = text → IncRect t.bounds = r →
          ∀ focus, t.renderOutline focus = none) := by
  refine ⟨Box_none_iff r chars text style hx hy, ?_⟩
  intro hlen t ho hn hr focus
  unfold Tile.renderOutline
  rw [ho]
  cases focus
  · simp only [Bool.false_eq_true, if_false, hn, hr]
    exact (Box_none_iff r chars text [] hx hy).2 hlen
  · simp only [if_true, hn, hr]
    exact (Box_none_iff r chars text _ hx hy).2 hlen

/-- C34 at the rectangle from (1,1) to (4,4) with the title "abc", as long as
the x extent 3: Box fails, and so does renderOutline of a tile with that name
and outline rectangle. -/
theorem C34_box_title_of_box_width_witness :
    ((2 : Int) ≤ 4 - 1 ∧ (2 : Int) ≤ 4 - 1) ∧
      ((Box ⟨⟨1, 1⟩, ⟨4, 4⟩⟩ TileTerm.SingleBox [97, 98, 99] [] = none ↔
          (([97, 98, 99] : GoString).length : Int) = 4 - 1) ∧
        ((([97, 98, 99] : GoString).length : Int) = 4 - 1 →
          ∀ t : Tile, t.outline = some TileTerm.SingleBox → t.name = [97, 98, 99] →
            IncRect t.bounds = ⟨⟨1, 1⟩, ⟨4, 4⟩⟩ → ∀ focus, t.renderOutline focus = none)) :=
  ⟨⟨by decide, by decide⟩,
    C34_box_title_of_box_width ⟨⟨1, 1⟩, ⟨4, 4⟩⟩ TileTerm.SingleBox [97, 98, 99] []
      (by decide) (by decide)⟩

namespace Canvas

/-! ### Buffer addressing and the glyph tables -/

theorem normAxis_range (w : Bool) (extent v : Int) (h : 1 ≤ extent) :
    ∃ u, normAxis w extent v = some u ∧ 0 ≤ u ∧ u < extent := by
  cases w
  · exact ⟨_, normAxis_clamp extent v h, clampTo_range extent v h⟩
  · have hne : (extent == 0) = false := by
      rw [beq_eq_false_iff_ne]; omega
    unfold normAxis
    simp only [Bool.true_and, hne, Bool.false_eq_true, if_false, if_true]
    refine ⟨_, rfl, ?_, ?_⟩ <;> split_ifs <;> omega

/-- The addressing of Plot and Read at any coordinates is the addressing of a
pixel of the canvas. -/
theorem address_range (c : Canvas) (hW : 1 ≤ c.pwidth) (hH : 1 ≤ c.pheight) (x y : Int) :
    ∃ u v, 0 ≤ u ∧ u < c.pwidth ∧ 0 ≤ v ∧ v < c.pheight ∧
      c.address x y = some (cellIndex c u v, 2 ^ cellBit u v) ∧
      c.Plot x y = c.Plot u v ∧ c.Read x y = c.Read u v := by
  obtain ⟨u, hu, hu0, hu1⟩ := normAxis_range c.wrap c.pwidth x hW
  obtain ⟨v, hv, hv0, hv1⟩ := normAxis_range c.wrap c.pheight y hH
  have ha : c.address x y = c.address u v := by
    unfold address
    rw [hu, hv, normAxis_inrange _ _ _ hu0 hu1, normAxis_inrange _ _ _ hv0 hv1]
  refine ⟨u, v, hu0, hu1, hv0, hv1, ?_, ?_, ?_⟩
  · rw [ha, address_inrange c u v hu0 hu1 hv0 hv1]
  · unfold Plot; rw [ha]
  · unfold Read; rw [ha]

theorem two_pow_cellBit (x y : Int) :
    2 ^ cellBit x y = 1 ∨ 2 ^ cellBit x y = 2 ∨ 2 ^ cellBit x y = 4 ∨ 2 ^ cellBit x y = 8 := by
  have h := cellBit_le x y
  generalize cellBit x y = k at h
  interval_cases k <;> simp

/-- C36: for every canvas of the shape that Init makes with W >= 1 and H >= 1,
in wrap or clamp mode and in or- or xor-mode, and all integers x and y, the
addressing that opens Plot and Read gives a byte index with
0 <= index < bwidth*bheight, inside the buffer, and a bit mask that is one of 1,
2, 4, 8; so Plot and Read both return. -/
theorem C36_address_in_buffer (c : Canvas) (hwf : c.WF) (hW : 1 ≤ c.pwidth)
    (hH : 1 ≤ c.pheight) (x y : Int) :
    ∃ index bit, c.address x y = some (index, bit) ∧
      0 ≤ index ∧ index < c.bwidth * c.bheight ∧ index < c.value.length ∧
      (bit = 1 ∨ bit = 2 ∨ bit = 4 ∨ bit = 8) ∧
      (∃ v, c.byteAt index = some v) ∧
      (∃ d, c.Plot x y = some d) ∧ (∃ b, c.Read x y = some b) := by
  obtain ⟨u, v, hu0, hu1, hv0, hv1, ha, hp, hr⟩ := address_range c hW hH x y
  have hrange := cellIndex_range c hwf u v hu0 hu1 hv0 hv1
  have h1 := Plot_inrange c hwf u v hu0 hu1 hv0 hv1
  have h2 := Read_inrange c hwf u v hu0 hu1 hv0 hv1
  rw [← hp] at h1
  rw [← hr] at h2
  refine ⟨_, _, ha, hrange.1, ?_, hrange.2, two_pow_cellBit u v,
    ⟨_, byteAt_cell c hwf u v hu0 hu1 hv0 hv1⟩, ⟨_, h1⟩, ⟨_, h2⟩⟩
  rw [← hwf.2.2]; exact hrange.2

/-- C36 at a canvas of 10 x 6 pixels in wrap mode and the coordinates
(-25, 1000). -/
theorem C36_address_in_buffer_witness :
    (xorCanvas.PlotWrap.WF ∧ 1 ≤ xorCanvas.PlotWrap.pwidth ∧ 1 ≤ xorCanvas.PlotWrap.pheight) ∧
      ∃ index bit, xorCanvas.PlotWrap.address (-25) 1000 = some (index, bit) ∧
        0 ≤ index ∧ index < xorCanvas.PlotWrap.bwidth * xorCanvas.PlotWrap.bheight ∧
        index < xorCanvas.PlotWrap.value.length ∧
        (bit = 1 ∨ bit = 2 ∨ bit = 4 ∨ bit = 8) ∧
        (∃ v, xorCanvas.PlotWrap.byteAt index = some v) ∧
        (∃ d, xorCanvas.PlotWrap.Plot (-25) 1000 = some d) ∧
        (∃ b, xorCanvas.PlotWrap.Read (-25) 1000 = some b) :=
  ⟨⟨by decide, by decide, by decide⟩,
    C36_address_in_buffer xorCanvas.PlotWrap (by decide) (by decide) (by decide) (-25) 1000⟩

/-- What Plot changes: one byte of the buffer, and nothing else. -/
theorem Plot_shape (c d : Canvas) (x y : Int) (hp : c.Plot x y = some d) :
    ∃ (i : Nat) (v bit : Nat), c.value[i]? = some v ∧ bit < 16 ∧
      d = { c with value := c.value.set i (if c.xor then v ^^^ bit else v ||| bit) } := by
  unfold Plot at hp
  cases ha : c.address x y with
  | none => simp [ha] at hp
  | some ib =>
    obtain ⟨index, bit⟩ := ib
    have hbit := address_bit c x y index bit ha
    simp only [ha] at hp
    cases hv : c.byteAt index with
    | none => simp [hv] at hp
    | some v =>
      simp only [hv, Option.some.injEq] at hp
      unfold byteAt at hv
      split_ifs at hv
      exact ⟨index.toNat, v, bit, hv, hbit, hp.symm⟩

/-- The shape of Init and the range of the bytes: what every method keeps. -/
theorem Plot_keeps (c d : Canvas) (x y : Int) (hwf : c.WF) (h16 : ∀ v ∈ c.value, v < 16)
    (hp : c.Plot x y = some d) : d.WF ∧ ∀ v ∈ d.value, v < 16 := by
  obtain ⟨i, v, bit, hv, hbit, rfl⟩ := Plot_shape c d x y hp
  refine ⟨⟨hwf.1, hwf.2.1, by simpa using hwf.2.2⟩, ?_⟩
  intro u hu
  rcases List.mem_or_eq_of_mem_set hu with hu | rfl
  · exact h16 u hu
  · have hv16 : v < 16 := h16 v (List.getElem?_mem hv)
    cases c.xor
    · exact lt16_or v bit hv16 hbit
    · exact lt16_xor v bit hv16 hbit

theorem plotAll_keeps (ps : List (Int × Int)) :
    ∀ c d : Canvas, c.WF → (∀ v ∈ c.value, v < 16) → plotAll c ps = some d →
      d.WF ∧ ∀ v ∈ d.value, v < 16 := by
  induction ps with
  | nil =>
    intro c d hwf h16 hp
    simp only [plotAll, Option.some.injEq] at hp
    subst hp
    exact ⟨hwf, h16⟩
  | cons p ps ih =>
    intro c d hwf h16 hp
    simp only [plotAll] at hp
    cases h1 : c.Plot p.1 p.2 with
    | none => simp [h1] at hp
    | some c1 =>
      simp only [h1] at hp
      obtain ⟨hwf1, h161⟩ := Plot_keeps c c1 p.1 p.2 hwf h16 h1
      exact ih c1 d hwf1 h161 hp

theorem Init_keeps (w h : Int) (c : Canvas) (hi : Init w h = some c) :
    c.WF ∧ ∀ v ∈ c.value, v < 16 := by
  unfold Init at hi
  simp only at hi
  split_ifs at hi with hneg
  simp only [Option.some.injEq] at hi
  subst hi
  refine ⟨⟨rfl, rfl, ?_⟩, ?_⟩
  · simp only [List.length_replicate]
    omega
  · intro v hv
    rw [List.mem_replicate] at hv
    omega

/-- Every reachable canvas has the shape of Init and bytes below 16. -/
theorem Reachable_keeps (c : Canvas) (h : c.Reachable) :
    c.WF ∧ ∀ v ∈ c.value, v < 16 := by
  induction h with
  | init w h c hi => exact Init_keeps w h c hi
  | plot c d x y _ hp ih => exact Plot_keeps c d x y ih.1 ih.2 hp
  | line c d fuel x0 y0 x1 y1 _ hl ih =>
    rw [Line_eq_lineStart] at hl
    cases hs : lineStart fuel x0 y0 x1 y1 with
    | none => simp [hs] at hl
    | some pts =>
      simp only [hs, Option.some_bind] at hl
      exact plotAll_keeps pts c d ih.1 ih.2 hl
  | bmp c d x y bmp _ hb ih =>
    have hB : c.Bmp x y bmp = plotAll c (bmpPoints x y 0 bmp) := by
      rw [plotAll_eq_plotSeq]
      exact bmpWith_eq Plot x y bmp 0 c
    rw [hB] at hb
    exact plotAll_keeps _ c d ih.1 ih.2 hb
  | clear c _ ih =>
    refine ⟨⟨ih.1.1, ih.1.2.1, by simpa [Clear] using ih.1.2.2⟩, ?_⟩
    intro v hv
    simp only [Clear, List.mem_map] at hv
    obtain ⟨_, _, rfl⟩ := hv
    norm_num
  | plotXor c _ ih => exact ih
  | plotOr c _ ih => exact ih
  | plotWrap c _ ih => exact ih
  | plotUnwrap c _ ih => exact ih

theorem BlocksDense_lt16 (v : Nat) (h : v < 16) : ∃ g, BlocksDense[v]? = some g := by
  interval_cases v <;> exact ⟨_, rfl⟩

theorem BlocksAspect_lt16 (v : Nat) (h : v < 16) : ∃ g, BlocksAspect[v]? = some g := by
  interval_cases v <;> exact ⟨_, rfl⟩

/-- The rows of a bordered renderer, when every cell has a text. -/
theorem renderBorderWith_some (c : Canvas) (cell : Int → Option GoString) (k : Int)
    (g : Int → GoString) (hk : 0 ≤ c.bwidth * k)
    (hcell : ∀ y x : Nat, y < c.bheight.toNat → x < c.bwidth.toNat →
      cell ((y : Int) * c.bwidth + x) = some (g ((y : Int) * c.bwidth + x))) :
    ∃ s, c.renderBorderWith cell k = some s := by
  unfold renderBorderWith
  rw [stringsRepeat_nonneg _ _ hk]
  have h := countLoop_acc
    (fun y str =>
      match countLoop (fun x str =>
          match cell (y * c.bwidth + x) with
          | none => none
          | some g => some (str ++ g)) c.bwidth.toNat 0 (str ++ sprintfC SBox_Vert) with
      | none => none
      | some str => some (str ++ (sprintfC SBox_Vert ++ [13, 10])))
    (fun y => sprintfC SBox_Vert ++
      ((List.range c.bwidth.toNat).map (fun x : Nat => g (y * c.bwidth + x))).flatten
      ++ (sprintfC SBox_Vert ++ [13, 10]))
    c.bheight.toNat 0
    (sprintfC SBox_UL ++ (List.replicate (c.bwidth * k).toNat (sprintfC SBox_Horiz)).flatten ++
      (sprintfC SBox_UR ++ [13, 10])) ?_
  · simp only [h]
    exact ⟨_, rfl⟩
  · intro y hy str
    have hin := countLoop_acc
      (fun x str =>
        match cell ((0 + (y : Int)) * c.bwidth + x) with
        | none => none
        | some g => some (str ++ g))
      (fun x => g ((0 + (y : Int)) * c.bwidth + x)) c.bwidth.toNat 0
      (str ++ sprintfC SBox_Vert) ?_
    · simp only [hin]
      simp
    · intro x hx str2
      have := hcell y x hy hx
      simp only [zero_add]
      rw [this]

theorem denseCell_lt (c : Canvas) (h : c.Renderable) (y x : Nat) (hy : y < c.bheight.toNat)
    (hx : x < c.bwidth.toNat) :
    ∃ s, c.denseCell ((y : Int) * c.bwidth + x) = some s := by
  obtain ⟨e, hlt⟩ := cell_lt c h y x hy hx
  obtain ⟨g, hg⟩ := BlocksDense_lt16 _ (getD_lt16 c h _ hlt)
  unfold denseCell
  rw [e, byteAt_lt c _ hlt]
  simp only [hg]
  exact ⟨_, rfl⟩

theorem aspectCell_lt (c : Canvas) (h : c.Renderable) (y x : Nat) (hy : y < c.bheight.toNat)
    (hx : x < c.bwidth.toNat) :
    ∃ s, c.aspectCell ((y : Int) * c.bwidth + x) = some s := by
  obtain ⟨e, hlt⟩ := cell_lt c h y x hy hx
  obtain ⟨g, hg⟩ := BlocksAspect_lt16 _ (getD_lt16 c h _ hlt)
  unfold aspectCell
  rw [e, byteAt_lt c _ hlt]
  simp only [hg]
  exact ⟨_, rfl⟩

theorem bordered_some (c : Canvas) (h : c.Renderable) :
    (∃ s, c.StringDenseBorder = some s) ∧ ∃ s, c.StringAspectBorder = some s := by
  have hw := h.1
  constructor
  · unfold StringDenseBorder
    apply renderBorderWith_some c c.denseCell 1 (fun i => (c.denseCell i).getD []) (by omega)
    intro y x hy hx
    obtain ⟨s, hs⟩ := denseCell_lt c h y x hy hx
    rw [hs]; rfl
  · unfold StringAspectBorder
    apply renderBorderWith_some c c.aspectCell 2 (fun i => (c.aspectCell i).getD []) (by omega)
    intro y x hy hx
    obtain ⟨s, hs⟩ := aspectCell_lt c h y x hy hx
    rw [hs]; rfl

/-- C37: in every canvas state reachable from Init by Plot, Line, Bmp, Clear
and the mode toggles (so in or-mode and in xor-mode), every byte of the buffer
is below 16; hence the lookup of every buffer byte in the 16-entry tables
BlocksDense and BlocksAspect, as the loops of StringDense, StringAspect and the
bordered variants do it, is in range, and when the extents are not negative all
four renderers return. -/
theorem C37_bytes_index_glyph_tables (c : Canvas) (h : c.Reachable) :
    (∀ v ∈ c.value, v < 16) ∧
      (∀ index v, c.byteAt index = some v →
        v < BlocksDense.length ∧ v < BlocksAspect.length ∧
          (∃ s, c.denseCell index = some s) ∧ ∃ s, c.aspectCell index = some s) ∧
      (0 ≤ c.pwidth → 0 ≤ c.pheight →
        (∃ s, c.StringDense = some s) ∧ (∃ s, c.StringAspect = some s) ∧
          (∃ s, c.StringDenseBorder = some s) ∧ ∃ s, c.StringAspectBorder = some s) := by
  obtain ⟨hwf, h16⟩ := Reachable_keeps c h
  refine ⟨h16, ?_, ?_⟩
  · intro index v hv
    have hv16 : v < 16 := by
      unfold byteAt at hv
      split_ifs at hv
      exact h16 v (List.getElem?_mem hv)
    obtain ⟨g1, hg1⟩ := BlocksDense_lt16 v hv16
    obtain ⟨g2, hg2⟩ := BlocksAspect_lt16 v hv16
    refine ⟨hv16, hv16, ?_, ?_⟩
    · unfold denseCell
      simp only [hv, hg1]
      exact ⟨_, rfl⟩
    · unfold aspectCell
      simp only [hv, hg2]
      exact ⟨_, rfl⟩
  · intro hw hh
    have hr : c.Renderable := by
      obtain ⟨hbw, hbh, hlen⟩ := hwf
      rw [Int.tdiv_eq_ediv hw (by norm_num)] at hbw
      rw [Int.tdiv_eq_ediv hh (by norm_num)] at hbh
      exact ⟨by omega, by omega, hlen, h16⟩
    exact ⟨⟨_, StringDense_eq c hr⟩, ⟨_, StringAspect_eq c hr⟩, bordered_some c hr⟩

/-- C37 at the canvas made by Init(3,3), PlotXor, Plot(1,1), Plot(1,1),
Plot(2,0) and Clear. -/
theorem C37_bytes_index_glyph_tables_witness :
    ∃ c : Canvas, c.Reachable ∧ (∀ v ∈ c.value, v < 16) ∧
      (∀ index v, c.byteAt index = some v →
        v < BlocksDense.length ∧ v < BlocksAspect.length ∧
          (∃ s, c.denseCell index = some s) ∧ ∃ s, c.aspectCell index = some s) ∧
      (0 ≤ c.pwidth → 0 ≤ c.pheight →
        (∃ s, c.StringDense = some s) ∧ (∃ s, c.StringAspect = some s) ∧
          (∃ s, c.StringDenseBorder = some s) ∧ ∃ s, c.StringAspectBorder = some s) :=
  have hr : (Canvas.mk 3 3 2 2 [0, 1, 0, 0] true false).Reachable :=
    Reachable.plot (Canvas.mk 3 3 2 2 [0, 0, 0, 0] true false) _ 2 0
      (Reachable.plot (Canvas.mk 3 3 2 2 [8, 0, 0, 0] true false) _ 1 1
        (Reachable.plot (Canvas.mk 3 3 2 2 [0, 0, 0, 0] true false) _ 1 1
          (Reachable.plotXor _ (Reachable.init 3 3 _ rfl)) rfl) rfl) rfl
  ⟨_, Reachable.clear _ hr, C37_bytes_index_glyph_tables _ (Reachable.clear _ hr)⟩

end Canvas

namespace Canvas

/-! ### Line: number of plots, no repeated coordinate, xor twice -/

/-- The points of an x-major trace lie in the box of the two end points, and no
point is visited twice: the trace has as many points as columns, and one point
in every column. -/
theorem xmajor_box_nodup (x0 y0 dx dy sx sy : Int) (hsx : sx = 1 ∨ sx = -1)
    (hsy : sy = 1 ∨ sy = -1) (hdx : 0 < dx) (hdy : 0 ≤ dy) (hle : dy ≤ dx) :
    ∃ pts, (∀ fuel, dx.toNat + 1 ≤ fuel →
        lineTrace (x0 + dx * sx) (y0 + dy * sy) dx dy sx sy fuel x0 y0 (dx - dy) = some pts) ∧
      pts.length = dx.toNat + 1 ∧ pts.Nodup ∧
      ∀ p ∈ pts, ∃ i2 j2, 0 ≤ i2 ∧ i2 ≤ dx ∧ 0 ≤ j2 ∧ j2 ≤ dy ∧
        p = (x0 + i2 * sx, y0 + j2 * sy) := by
  obtain ⟨pts, hpts, hhead, hlast, hconn, hlen, hclose, hcover⟩ :=
    trace_xmajor x0 y0 dx dy sx sy hsx hsy hdx hdy hle dx.toNat 0 0 0 (dx - dy) x0 y0
      (by ring) (by ring) (by ring) (by ring) (by omega) (by omega) (by omega)
  refine ⟨pts, hpts, hlen, ?_, ?_⟩
  · have hinj : Function.Injective (fun k : Nat => x0 + (k : Int) * sx) := by
      intro a b hab
      simp only at hab
      rcases hsx with rfl | rfl <;> omega
    have hnd : ((List.range (dx.toNat + 1)).map (fun k : Nat => x0 + (k : Int) * sx)).Nodup :=
      List.Nodup.map hinj (List.nodup_range _)
    have hsub : (List.range (dx.toNat + 1)).map (fun k : Nat => x0 + (k : Int) * sx) ⊆
        pts.map Prod.fst := by
      intro u hu
      rw [List.mem_map] at hu
      obtain ⟨k, hk, rfl⟩ := hu
      rw [List.mem_range] at hk
      obtain ⟨j2, hj2⟩ := hcover (k : Int) (by omega) (by omega)
      exact List.mem_map.2 ⟨_, hj2, rfl⟩
    have hperm := (List.subperm_of_subset hnd hsub).perm_of_length_le (by simp [hlen])
    exact List.Nodup.of_map _ ((hperm.nodup_iff).1 hnd)
  · intro p hp
    obtain ⟨i2, j2, hi0, hi1, heq, hc1, hc2⟩ := hclose p hp
    refine ⟨i2, j2, hi0, hi1, ?_, ?_, heq⟩
    · by_contra hneg
      have h1 := mul_le_mul_of_nonneg_right (by omega : j2 ≤ -1) (le_of_lt hdx)
      have h2 := mul_nonneg hi0 hdy
      omega
    · by_contra hbig
      have h1 := mul_le_mul_of_nonneg_right (by omega : dy + 1 ≤ j2) (le_of_lt hdx)
      have h2 := mul_le_mul_of_nonneg_right hi1 hdy
      rw [add_mul] at h1
      have e : dy * dx = dx * dy := mul_comm _ _
      omega

theorem line_xmajor_once (x0 y0 x1 y1 : Int)
    (hle : lineAbs (y1 - y0) ≤ lineAbs (x1 - x0)) :
    ∃ pts, (∀ fuel, lineSteps x0 y0 x1 y1 ≤ fuel → lineStart fuel x0 y0 x1 y1 = some pts) ∧
      lineOnce x0 y0 x1 y1 pts := by
  have hsx : lineSign x0 x1 = 1 ∨ lineSign x0 x1 = -1 := by
    unfold lineSign; split_ifs <;> simp
  have hsy : lineSign y0 y1 = 1 ∨ lineSign y0 y1 = -1 := by
    unfold lineSign; split_ifs <;> simp
  have hx1 : x0 + lineAbs (x1 - x0) * lineSign x0 x1 = x1 := by
    unfold lineAbs lineSign; split_ifs <;> omega
  have hy1 : y0 + lineAbs (y1 - y0) * lineSign y0 y1 = y1 := by
    unfold lineAbs lineSign; split_ifs <;> omega
  have hdy : 0 ≤ lineAbs (y1 - y0) := by unfold lineAbs; split_ifs <;> omega
  have hsteps : lineSteps x0 y0 x1 y1 = (lineAbs (x1 - x0)).toNat + 1 := by
    unfold lineSteps; rw [max_eq_left hle]
  by_cases hdx : lineAbs (x1 - x0) = 0
  · have hdy0 : lineAbs (y1 - y0) = 0 := by omega
    have hx : x0 = x1 := by unfold lineAbs at hdx; split_ifs at hdx <;> omega
    have hy : y0 = y1 := by unfold lineAbs at hdy0; split_ifs at hdy0 <;> omega
    subst hx hy
    refine ⟨[(x0, y0)], ?_, ?_, List.nodup_singleton _, ?_⟩
    · intro fuel hf
      obtain ⟨f, rfl⟩ : ∃ f, fuel = f + 1 := ⟨fuel - 1, by unfold lineSteps at hf; omega⟩
      simp [lineStart, lineTrace]
    · rw [hsteps, hdx]; rfl
    · intro p hp
      rw [List.mem_singleton] at hp
      subst hp
      simp
  · have hpos : 0 < lineAbs (x1 - x0) := by
      have : 0 ≤ lineAbs (x1 - x0) := by unfold lineAbs; split_ifs <;> omega
      omega
    obtain ⟨pts, hpts, hlen, hnd, hbox⟩ :=
      xmajor_box_nodup x0 y0 (lineAbs (x1 - x0)) (lineAbs (y1 - y0)) (lineSign x0 x1)
        (lineSign y0 y1) hsx hsy hpos hdy hle
    rw [hx1, hy1] at hpts
    refine ⟨pts, fun fuel hf => hpts fuel (by omega), by rw [hlen, hsteps], hnd, ?_⟩
    intro p hp
    obtain ⟨i2, j2, hi0, hi1, hj0, hj1, rfl⟩ := hbox p hp
    simp only
    have hxa : lineAbs (x1 - x0) * lineSign x0 x1 = x1 - x0 := by omega
    have hya : lineAbs (y1 - y0) * lineSign y0 y1 = y1 - y0 := by omega
    rcases hsx with hs | hs <;> rcases hsy with ht | ht <;> rw [hs] at hxa ⊢ <;>
      rw [ht] at hya ⊢ <;> omega

theorem lineOnce_swap (x0 y0 x1 y1 : Int) (qs : List (Int × Int))
    (h : lineOnce y0 x0 y1 x1 qs) : lineOnce x0 y0 x1 y1 (qs.map Prod.swap) := by
  obtain ⟨hlen, hnd, hbox⟩ := h
  have hsteps : lineSteps y0 x0 y1 x1 = lineSteps x0 y0 x1 y1 := by
    unfold lineSteps; rw [max_comm]
  refine ⟨by rw [List.length_map, hlen, hsteps], ?_, ?_⟩
  · exact List.Nodup.map Prod.swap_injective hnd
  · intro p hp
    rw [List.mem_map] at hp
    obtain ⟨q, hq, rfl⟩ := hp
    have := hbox q hq
    simp only [Prod.fst_swap, Prod.snd_swap]
    omega

/-- For every pair of end points: enough fuel gives the trace of Line, and the
trace has the properties of `lineOnce`. -/
theorem line_once (x0 y0 x1 y1 : Int) :
    ∃ pts, (∀ fuel, lineSteps x0 y0 x1 y1 ≤ fuel → lineStart fuel x0 y0 x1 y1 = some pts) ∧
      lineOnce x0 y0 x1 y1 pts := by
  by_cases hle : lineAbs (y1 - y0) ≤ lineAbs (x1 - x0)
  · exact line_xmajor_once x0 y0 x1 y1 hle
  · obtain ⟨qs, hqs, honce⟩ := line_xmajor_once y0 x0 y1 x1 (by omega)
    have hsteps : lineSteps y0 x0 y1 x1 = lineSteps x0 y0 x1 y1 := by
      unfold lineSteps; rw [max_comm]
    have hswap : ∀ l : List (Int × Int), (l.map Prod.swap).map Prod.swap = l := by
      intro l; simp
    refine ⟨qs.map Prod.swap, ?_, lineOnce_swap x0 y0 x1 y1 qs honce⟩
    intro fuel hf
    have h1 := hqs fuel (by rw [hsteps]; exact hf)
    rw [lineStart_swap] at h1
    cases hl : lineStart fuel x0 y0 x1 y1 with
    | none => rw [hl] at h1; simp at h1
    | some l =>
      rw [hl] at h1
      simp only [Option.map_some', Option.some.injEq] at h1
      rw [← h1, hswap]

theorem xorMask_append (l1 l2 : List (Nat × Nat)) (k : Nat) :
    xorMask (l1 ++ l2) k = xorMask l1 k ^^^ xorMask l2 k := by
  induction l1 with
  | nil => simp [xorMask]
  | cons q rest ih =>
    show (if q.1 = k then q.2 else 0) ^^^ xorMask (rest ++ l2) k = _
    rw [ih]
    simp only [xorMask, Nat.xor_assoc]

/-- A sequence of in-range xor-plots on a canvas of the shape of Init: it
returns, changes the buffer only, keeps its length, and flips in every byte the
bits of `xorMask`. -/
theorem plotAll_xor_value (ps : List (Int × Int)) :
    ∀ c : Canvas, c.WF → c.xor = true →
      (∀ p ∈ ps, 0 ≤ p.1 ∧ p.1 < c.pwidth ∧ 0 ≤ p.2 ∧ p.2 < c.pheight) →
      ∃ val, plotAll c ps = some { c with value := val } ∧ val.length = c.value.length ∧
        ∀ k, k < c.value.length →
          val.getD k 0 = c.value.getD k 0 ^^^ xorMask (cellsOf c ps) k := by
  induction ps with
  | nil =>
    intro c _ _ _
    exact ⟨c.value, rfl, rfl, fun k _ => by simp [cellsOf, xorMask]⟩
  | cons p ps ih =>
    intro c hwf hx hin
    obtain ⟨hp0, hp1, hp2, hp3⟩ := hin p (List.mem_cons_self _ _)
    have hr := cellIndex_range c hwf p.1 p.2 hp0 hp1 hp2 hp3
    have hlt : (cellIndex c p.1 p.2).toNat < c.value.length := by omega
    obtain ⟨c1, hc1⟩ : ∃ c1 : Canvas, c1 = { c with
        value := c.value.set (cellIndex c p.1 p.2).toNat
          (c.value.getD (cellIndex c p.1 p.2).toNat 0 ^^^ 2 ^ cellBit p.1 p.2) } := ⟨_, rfl⟩
    have hplot : c.Plot p.1 p.2 = some c1 := by
      rw [hc1, Plot_inrange c hwf p.1 p.2 hp0 hp1 hp2 hp3]
      simp only [hx, if_true]
    have hwf1 : c1.WF := by
      rw [hc1]
      exact ⟨hwf.1, hwf.2.1, by simpa using hwf.2.2⟩
    have hx1 : c1.xor = true := by rw [hc1]; exact hx
    have hin1 : ∀ q ∈ ps, 0 ≤ q.1 ∧ q.1 < c1.pwidth ∧ 0 ≤ q.2 ∧ q.2 < c1.pheight := by
      intro q hq
      rw [hc1]
      exact hin q (List.mem_cons_of_mem _ hq)
    obtain ⟨val, hval, hlen, hget⟩ := ih c1 hwf1 hx1 hin1
    have hlen1 : c1.value.length = c.value.length := by rw [hc1]; simp
    have hcells : cellsOf c1 ps = cellsOf c ps := by rw [hc1]; rfl
    refine ⟨val, ?_, by rw [hlen, hlen1], ?_⟩
    · simp only [plotAll, hplot, hval]
      rw [hc1]
    · intro k hk
      rw [hget k (by rw [hlen1]; exact hk), hcells]
      have hk1 : c1.value.getD k 0 =
          c.value.getD k 0 ^^^ (if (cellIndex c p.1 p.2).toNat = k then 2 ^ cellBit p.1 p.2
            else 0) := by
        rw [hc1]
        simp only [List.getD_eq_getElem?_getD, List.getElem?_set, hlt, if_true]
        split_ifs with he
        · subst he; rfl
        · simp
      rw [hk1]
      simp only [cellsOf, List.map_cons, xorMask, Nat.xor_assoc]

/-- On a canvas of the shape of Init in xor mode, the same in-range plots made
twice restore the canvas. -/
theorem plotAll_xor_twice (ps : List (Int × Int)) (c : Canvas) (hwf : c.WF)
    (hx : c.xor = true)
    (hin : ∀ p ∈ ps, 0 ≤ p.1 ∧ p.1 < c.pwidth ∧ 0 ≤ p.2 ∧ p.2 < c.pheight) :
    ∃ d, plotAll c ps = some d ∧ plotAll d ps = some c := by
  obtain ⟨val, hval, hlen, hget⟩ := plotAll_xor_value ps c hwf hx hin
  obtain ⟨d, hd⟩ : ∃ d : Canvas, d = { c with value := val } := ⟨_, rfl⟩
  have hwfd : d.WF := by
    rw [hd]
    exact ⟨hwf.1, hwf.2.1, by simpa [hlen] using hwf.2.2⟩
  have hxd : d.xor = true := by rw [hd]; exact hx
  have hind : ∀ p ∈ ps, 0 ≤ p.1 ∧ p.1 < d.pwidth ∧ 0 ≤ p.2 ∧ p.2 < d.pheight := by
    rw [hd]; exact hin
  obtain ⟨val2, hval2, hlen2, hget2⟩ := plotAll_xor_value ps d hwfd hxd hind
  have hdl : d.value.length = c.value.length := by rw [hd]; exact hlen
  have hcells : cellsOf d ps = cellsOf c ps := by rw [hd]; rfl
  have hdv : d.value = val := by rw [hd]
  have heq : val2 = c.value := by
    apply List.ext_getElem (by rw [hlen2, hdl])
    intro k h1 h2
    have e1 := hget2 k (by rw [hdl]; exact h2)
    rw [hcells, hdv, hget k h2, Nat.xor_assoc, Nat.xor_self, Nat.xor_zero] at e1
    rw [List.getD_eq_getElem?_getD, List.getD_eq_getElem?_getD, List.getElem?_eq_getElem h1,
      List.getElem?_eq_getElem h2] at e1
    simpa using e1
  refine ⟨d, by rw [hd]; exact hval, ?_⟩
  rw [hval2, heq, hd]

/-- C38: for all integer end points, Line calls Plot exactly
max(|x1-x0|, |y1-y0|) + 1 times (with fuel for that many iterations it returns
this trace of calls) and passes no coordinate twice; and on a canvas of the
shape of Init in xor mode with both end points in range, drawing the same line
twice gives back the canvas, buffer and all. -/
theorem C38_line_plots_once (x0 y0 x1 y1 : Int) :
    ∃ pts, (∀ fuel, lineSteps x0 y0 x1 y1 ≤ fuel → linePlots fuel x0 y0 x1 y1 = some pts) ∧
      pts.length = (max |x1 - x0| |y1 - y0|).toNat + 1 ∧ pts.Nodup ∧
      ∀ (c : Canvas) (fuel : Nat), c.WF → c.xor = true →
        0 ≤ x0 → x0 < c.pwidth → 0 ≤ y0 → y0 < c.pheight →
        0 ≤ x1 → x1 < c.pwidth → 0 ≤ y1 → y1 < c.pheight →
        lineSteps x0 y0 x1 y1 ≤ fuel →
        ∃ d, c.Line fuel x0 y0 x1 y1 = some d ∧ d.Line fuel x0 y0 x1 y1 = some c := by
  obtain ⟨pts, hpts, hlen, hnd, hbox⟩ := line_once x0 y0 x1 y1
  refine ⟨pts, ?_, ?_, hnd, ?_⟩
  · intro fuel hf
    rw [linePlots_eq_lineStart]
    exact hpts fuel hf
  · rw [hlen, lineSteps, lineAbs_eq_abs, lineAbs_eq_abs]
  · intro c fuel hwf hx hx0 hx0w hy0 hy0h hx1 hx1w hy1 hy1h hf
    have hin : ∀ p ∈ pts, 0 ≤ p.1 ∧ p.1 < c.pwidth ∧ 0 ≤ p.2 ∧ p.2 < c.pheight := by
      intro p hp
      have := hbox p hp
      omega
    obtain ⟨d, hd1, hd2⟩ := plotAll_xor_twice pts c hwf hx hin
    refine ⟨d, ?_, ?_⟩
    · rw [Line_eq_lineStart, hpts fuel hf]
      exact hd1
    · rw [Line_eq_lineStart, hpts fuel hf]
      exact hd2

/-- C38 at the line from (1,1) to (8,4) on a canvas of 10 x 6 pixels in xor
mode with pixels set: drawn twice with fuel 8, it gives back the canvas. -/
theorem C38_line_plots_once_witness :
    ∃ d, xorCanvas.Line 8 1 1 8 4 = some d ∧ d.Line 8 1 1 8 4 = some xorCanvas := by
  obtain ⟨pts, -, -, -, h⟩ := C38_line_plots_once 1 1 8 4
  exact h xorCanvas 8 (by decide) rfl (by decide) (by decide) (by decide) (by decide)
    (by decide) (by decide) (by decide) (by decide) (by decide)

end Canvas

namespace TileTerm

/-! ### The session mutex in DeleteTile, and the parents of the tile list -/

theorem DeleteTile_locked (fuel : Nat) (s : TileTerm) (tile : Option Nat)
    (hlock : s.lock = true) (w : TileTerm) : DeleteTile fuel s tile ≠ Run.done w := by
  cases fuel with
  | zero => simp [DeleteTile]
  | succ fuel => simp [DeleteTile, hlock]

/-- When the loop of deleteTileChildren returns, under a `del` that never
returns on a held mutex: no tile of the list is a child, and the session is as
before. -/
theorem deleteChildrenLoop_done (del : TileTerm → Option Nat → Run TileTerm)
    (hdel : ∀ s v, s.lock = true → ∀ w, del s v ≠ Run.done w) (tile : Option Nat) :
    ∀ (l : List Nat) (s w : TileTerm), s.lock = true →
      deleteChildrenLoop del tile l s = Run.done w →
      w = s ∧ ∀ v ∈ l, ∀ vt, s.heap[v]? = some vt → vt.parent ≠ tile := by
  intro l
  induction l with
  | nil =>
    intro s w _ h
    simp only [deleteChildrenLoop, Run.done.injEq] at h
    exact ⟨h.symm, fun v hv => absurd hv (List.not_mem_nil v)⟩
  | cons v rest ih =>
    intro s w hlock h
    simp only [deleteChildrenLoop] at h
    cases hv : s.heap[v]? with
    | none => simp [hv] at h
    | some vt =>
      simp only [hv] at h
      by_cases hp : vt.parent = tile
      · rw [if_pos hp] at h
        cases hd : del s (some v) with
        | done s2 => exact absurd hd (hdel s (some v) hlock s2)
        | panic => simp [hd] at h
        | blocked => simp [hd] at h
        | outOfFuel => simp [hd] at h
      · rw [if_neg hp] at h
        obtain ⟨hw, hrest⟩ := ih s w hlock h
        refine ⟨hw, ?_⟩
        intro u hu ut hut
        rcases List.mem_cons.1 hu with rfl | hu
        · rw [hv] at hut
          simp only [Option.some.injEq] at hut
          subst hut
          exact hp
        · exact hrest u hu ut hut

/-- A DeleteTile call that returns: the tile is filtered out of the list, the
tile objects and the free mutex are as before, and no tile left in the list has
the deleted tile as parent. -/
theorem DeleteTile_done (fuel : Nat) (t u : TileTerm) (tile : Option Nat)
    (h : DeleteTile fuel t tile = Run.done u) :
    t.lock = false ∧ u.lock = false ∧ u.heap = t.heap ∧
      u.tiles = t.tiles.filter (fun v => decide (some v ≠ tile)) ∧
      ∀ v ∈ u.tiles, ∀ vt, u.heap[v]? = some vt → vt.parent ≠ tile := by
  cases fuel with
  | zero => simp [DeleteTile] at h
  | succ fuel =>
    cases hl : t.lock with
    | true => exact absurd h (DeleteTile_locked _ t tile hl u)
    | false =>
      simp only [DeleteTile, hl, Bool.false_eq_true, if_false] at h
      have key : ∀ (foc : Option Nat),
          (match deleteChildrenLoop (DeleteTile fuel) tile
              (t.tiles.filter (fun v => decide (some v ≠ tile)))
              (TileTerm.mk t.width t.height t.big foc
                (t.tiles.filter (fun v => decide (some v ≠ tile))) t.dirty true t.heap) with
            | Run.done tTerm => Run.done { tTerm with lock := false }
            | Run.panic => Run.panic
            | Run.blocked => Run.blocked
            | Run.outOfFuel => Run.outOfFuel) = Run.done u →
          u.lock = false ∧ u.heap = t.heap ∧
            u.tiles = t.tiles.filter (fun v => decide (some v ≠ tile)) ∧
            ∀ v ∈ u.tiles, ∀ vt, u.heap[v]? = some vt → vt.parent ≠ tile := by
        intro foc hk
        cases hd : deleteChildrenLoop (DeleteTile fuel) tile
            (t.tiles.filter (fun v => decide (some v ≠ tile)))
            (TileTerm.mk t.width t.height t.big foc
              (t.tiles.filter (fun v => decide (some v ≠ tile))) t.dirty true t.heap) with
        | done w =>
          rw [hd] at hk
          simp only [Run.done.injEq] at hk
          obtain ⟨hw, hno⟩ := deleteChildrenLoop_done (DeleteTile fuel)
            (fun s v hs w => DeleteTile_locked fuel s v hs w) tile _ _ w rfl hd
          subst hw
          subst hk
          exact ⟨rfl, rfl, rfl, hno⟩
        | panic => rw [hd] at hk; simp at hk
        | blocked => rw [hd] at hk; simp at hk
        | outOfFuel => rw [hd] at hk; simp at hk
      refine ⟨rfl, ?_⟩
      by_cases hf : t.focus = tile
      · simp only [hf, if_true] at h
        cases ht : t.tiles with
        | nil => simp [ht] at h
        | cons first rest =>
          simp only [ht] at h
          rw [ht] at key
          by_cases hne : tile ≠ some first
          · simp only [if_pos hne] at h
            exact key _ h
          · simp only [if_neg hne] at h
            exact key _ h
      · simp only [if_neg hf] at h
        exact key _ h

/-- C35 fails on the code: with the session mutex as explicit state, free
before the call, DeleteTile on a tile that has a child in the tile list takes
the mutex, and through deleteTileChildren calls DeleteTile on the child, which
takes the mutex again while the outer call holds it; the call waits without end
and never runs to completion, whatever the fuel. -/
theorem C35_delete_locks_twice (tTerm : TileTerm) (t : Nat) (fuel : Nat)
    (hlock : tTerm.lock = false)
    (hheap : ∀ v ∈ tTerm.tiles, ∃ vt, tTerm.heap[v]? = some vt)
    (hchild : ∃ v ∈ tTerm.tiles, v ≠ t ∧ ∃ vt, tTerm.heap[v]? = some vt ∧ vt.parent = some t) :
    DeleteTile (fuel + 2) tTerm (some t) = Run.blocked ∧
      ∀ f u, DeleteTile f tTerm (some t) ≠ Run.done u := by
  refine ⟨DeleteTile_blocked_of_child tTerm t fuel hlock hheap hchild, ?_⟩
  intro f u h
  obtain ⟨-, -, hheap2, htiles, hno⟩ := DeleteTile_done f tTerm u (some t) h
  obtain ⟨v, hv, hvt, vt, hvh, hpar⟩ := hchild
  have hvu : v ∈ u.tiles := by
    rw [htiles]
    exact List.mem_filter.2 ⟨hv, by simpa using hvt⟩
  exact hno v hvu vt (by rw [hheap2]; exact hvh) hpar

/-- C35 at the session `threeLevel`, root 0 -> child 1 -> grandchild 2, and
DeleteTile(root). -/
theorem C35_delete_locks_twice_witness :
    threeLevel.lock = false ∧
      DeleteTile 2 threeLevel (some 0) = Run.blocked ∧
      ∀ f u, DeleteTile f threeLevel (some 0) ≠ Run.done u :=
  ⟨rfl, C35_delete_locks_twice threeLevel 0 0 rfl
    (by
      intro v hv
      have ht : threeLevel.tiles = [0, 1, 2] := rfl
      rw [ht] at hv
      simp only [List.mem_cons, List.mem_singleton, List.not_mem_nil, or_false] at hv
      rcases hv with rfl | rfl | rfl <;> exact ⟨_, rfl⟩)
    ⟨1, by decide, by decide, _, rfl, rfl⟩⟩

end TileTerm

namespace TileTerm

theorem ParentsBefore_lt (heap : List Tile) :
    ∀ (l seen : List Nat), ParentsBefore heap seen l → ∀ v ∈ l, v < heap.length := by
  intro l
  induction l with
  | nil => intro seen _ v hv; exact absurd hv (List.not_mem_nil v)
  | cons a rest ih =>
    intro seen h v hv
    obtain ⟨⟨vt, hvt, -⟩, hrest⟩ := h
    rcases List.mem_cons.1 hv with rfl | hv
    · by_contra hge
      rw [List.getElem?_eq_none (by omega)] at hvt
      simp at hvt
    · exact ih _ hrest v hv

theorem ParentsBefore_heap_append (heap : List Tile) (x : Tile) :
    ∀ (l seen : List Nat), ParentsBefore heap seen l → ParentsBefore (heap ++ [x]) seen l := by
  intro l
  induction l with
  | nil => intro seen _; trivial
  | cons a rest ih =>
    intro seen h
    have hlt := ParentsBefore_lt heap _ _ h a (List.mem_cons_self _ _)
    obtain ⟨⟨vt, hvt, hpar⟩, hrest⟩ := h
    refine ⟨⟨vt, ?_, hpar⟩, ih _ hrest⟩
    rw [List.getElem?_append_left hlt]
    exact hvt

theorem ParentsBefore_concat (heap : List Tile) (n : Nat) :
    ∀ (l seen : List Nat), ParentsBefore heap seen l →
      (∃ vt, heap[n]? = some vt ∧
        ((seen ++ l = [] ∧ vt.parent = none) ∨ ∃ p, p ∈ seen ++ l ∧ vt.parent = some p)) →
      ParentsBefore heap seen (l ++ [n]) := by
  intro l
  induction l with
  | nil =>
    intro seen _ hn
    simp only [List.append_nil] at hn
    exact ⟨hn, trivial⟩
  | cons a rest ih =>
    intro seen h hn
    obtain ⟨ha, hrest⟩ := h
    refine ⟨ha, ih _ hrest ?_⟩
    simpa [List.append_assoc] using hn

theorem ParentsBefore_filter (heap : List Tile) (tile : Option Nat) :
    ∀ (l seen : List Nat), ParentsBefore heap seen l →
      (∀ v ∈ l.filter (fun v => decide (some v ≠ tile)), ∀ vt, heap[v]? = some vt →
        vt.parent ≠ tile) →
      ParentsBefore heap (seen.filter (fun v => decide (some v ≠ tile)))
        (l.filter (fun v => decide (some v ≠ tile))) := by
  intro l
  induction l with
  | nil => intro seen _ _; trivial
  | cons a rest ih =>
    intro seen h hno
    obtain ⟨⟨vt, hvt, hpar⟩, hrest⟩ := h
    by_cases hk : some a ≠ tile
    · have hfa : (a :: rest).filter (fun v => decide (some v ≠ tile)) =
          a :: rest.filter (fun v => decide (some v ≠ tile)) := by
        rw [List.filter_cons_of_pos]
        simpa using hk
      rw [hfa] at hno ⊢
      have hvp : vt.parent ≠ tile := hno a (List.mem_cons_self _ _) vt hvt
      have hih := ih (seen ++ [a]) hrest
        (fun v hv => hno v (List.mem_cons_of_mem _ hv))
      have hfs : (seen ++ [a]).filter (fun v => decide (some v ≠ tile)) =
          seen.filter (fun v => decide (some v ≠ tile)) ++ [a] := by
        rw [List.filter_append, List.filter_cons_of_pos]
        · rfl
        · simpa using hk
      rw [hfs] at hih
      refine ⟨⟨vt, hvt, ?_⟩, hih⟩
      rcases hpar with ⟨hs, hp⟩ | ⟨p, hp, hpp⟩
      · left
        exact ⟨by rw [hs]; rfl, hp⟩
      · right
        refine ⟨p, List.mem_filter.2 ⟨hp, ?_⟩, hpp⟩
        have : some p ≠ tile := by rw [← hpp]; exact hvp
        simpa using this
    · have hfa : (a :: rest).filter (fun v => decide (some v ≠ tile)) =
          rest.filter (fun v => decide (some v ≠ tile)) := by
        rw [List.filter_cons_of_neg]
        simpa using hk
      rw [hfa] at hno ⊢
      have hih := ih (seen ++ [a]) hrest hno
      have hfs : (seen ++ [a]).filter (fun v => decide (some v ≠ tile)) =
          seen.filter (fun v => decide (some v ≠ tile)) := by
        rw [List.filter_append, List.filter_cons_of_neg]
        · simp
        · simpa using hk
      rw [hfs] at hih
      exact hih

theorem ParentsBefore_index (heap : List Tile) :
    ∀ (l seen : List Nat), ParentsBefore heap seen l →
      ∀ i v, l[i]? = some v →
        ∃ vt, heap[v]? = some vt ∧
          ((seen = [] ∧ i = 0 ∧ vt.parent = none) ∨
            ∃ p, vt.parent = some p ∧ (p ∈ seen ∨ ∃ j, j < i ∧ l[j]? = some p)) := by
  intro l
  induction l with
  | nil => intro seen _ i v h; simp at h
  | cons a rest ih =>
    intro seen h i v hi
    obtain ⟨⟨vt, hvt, hpar⟩, hrest⟩ := h
    cases i with
    | zero =>
      simp only [List.getElem?_cons_zero, Option.some.injEq] at hi
      subst hi
      refine ⟨vt, hvt, ?_⟩
      rcases hpar with ⟨hs, hp⟩ | ⟨p, hp, hpp⟩
      · exact Or.inl ⟨hs, rfl, hp⟩
      · exact Or.inr ⟨p, hpp, Or.inl hp⟩
    | succ i =>
      simp only [List.getElem?_cons_succ] at hi
      obtain ⟨wt, hwt, hw⟩ := ih _ hrest i v hi
      refine ⟨wt, hwt, Or.inr ?_⟩
      rcases hw with ⟨hs, -, -⟩ | ⟨p, hpp, hp⟩
      · simp at hs
      · refine ⟨p, hpp, ?_⟩
        rcases hp with hp | ⟨j, hj, hjp⟩
        · rcases List.mem_append.1 hp with hp | hp
          · exact Or.inl hp
          · rw [List.mem_singleton] at hp
            subst hp
            exact Or.inr ⟨0, Nat.succ_pos i, by simp⟩
        · exact Or.inr ⟨j + 1, by omega, by simpa using hjp⟩

/-- What the tile list keeps when every AddTile names a listed parent: the
mutex is free between calls, the tiles are distinct, and every parent is an
earlier tile of the list. -/
theorem ReachableListed_keeps (t : TileTerm) (h : t.ReachableListed) :
    t.lock = false ∧ t.tiles.Nodup ∧ ParentsBefore t.heap [] t.tiles := by
  induction h with
  | new => exact ⟨rfl, List.nodup_nil, trivial⟩
  | add t u name cursor outline fraction location parent handler p _ hpar hadd ih =>
    obtain ⟨hlock, hnd, hpb⟩ := ih
    have hok : ¬ (t.tiles.length > 0 ∧ parent = none) := by
      rintro ⟨hlen, hn⟩
      subst hn
      have : t.tiles = [] := hpar
      rw [this] at hlen
      simp at hlen
    rw [AddTile_ok t name cursor outline fraction location parent handler hlock hok] at hadd
    simp only [Run.done.injEq, Prod.mk.injEq] at hadd
    obtain ⟨hu, -, -⟩ := hadd
    subst hu
    refine ⟨rfl, ?_, ?_⟩
    · show (t.tiles ++ [t.heap.length]).Nodup
      rw [List.nodup_append]
      refine ⟨hnd, List.nodup_singleton _, ?_⟩
      intro a ha hb
      rw [List.mem_singleton] at hb
      have := ParentsBefore_lt t.heap _ _ hpb a ha
      omega
    · show ParentsBefore (t.heap ++ [newTile name cursor outline fraction location parent handler])
        [] (t.tiles ++ [t.heap.length])
      apply ParentsBefore_concat
      · exact ParentsBefore_heap_append _ _ _ _ hpb
      · refine ⟨newTile name cursor outline fraction location parent handler, ?_, ?_⟩
        · simp
        · cases parent with
          | none =>
            left
            have : t.tiles = [] := hpar
            exact ⟨by simp [this], rfl⟩
          | some q =>
            right
            have : q ∈ t.tiles := hpar
            exact ⟨q, by simpa using this, rfl⟩
  | delete t u fuel tile _ hdel ih =>
    obtain ⟨-, hnd, hpb⟩ := ih
    obtain ⟨-, hlock, hheap, htiles, hno⟩ := DeleteTile_done fuel t u tile hdel
    refine ⟨hlock, ?_, ?_⟩
    · rw [htiles]
      exact hnd.filter _
    · rw [htiles, hheap]
      have := ParentsBefore_filter t.heap tile t.tiles [] hpb
        (by rw [← htiles, ← hheap]; exact hno)
      simpa using this

theorem ParentsBefore_WellFormed (t : TileTerm) (hlock : t.lock = false) (hnd : t.tiles.Nodup)
    (hpb : ParentsBefore t.heap [] t.tiles) : t.WellFormed ∧ t.ParentsInList := by
  have hidx := ParentsBefore_index t.heap t.tiles [] hpb
  refine ⟨⟨hlock, hnd, ?_⟩, ?_, ?_⟩
  · intro i v hv
    obtain ⟨vt, hvt, hcase⟩ := hidx i v hv
    refine ⟨vt, hvt, ?_, ?_⟩
    · intro hi
      rcases hcase with ⟨-, -, hp⟩ | ⟨p, -, hp⟩
      · exact hp
      · rcases hp with hp | ⟨j, hj, -⟩
        · simp at hp
        · omega
    · intro hi
      rcases hcase with ⟨-, h0, -⟩ | ⟨p, hpp, hp⟩
      · omega
      · rcases hp with hp | ⟨j, hj, hjp⟩
        · simp at hp
        · exact ⟨j, p, hj, hjp, hpp⟩
  · intro v hv
    obtain ⟨vt, hvt, hcase⟩ := hidx 0 v hv
    refine ⟨vt, hvt, ?_⟩
    rcases hcase with ⟨-, -, hp⟩ | ⟨p, -, hp⟩
    · exact hp
    · rcases hp with hp | ⟨j, hj, -⟩
      · simp at hp
      · omega
  · intro i v hi hv
    obtain ⟨vt, hvt, hcase⟩ := hidx i v hv
    rcases hcase with ⟨-, h0, -⟩ | ⟨p, hpp, hp⟩
    · omega
    · rcases hp with hp | ⟨j, hj, hjp⟩
      · simp at hp
      · exact ⟨vt, p, hvt, hpp, List.getElem?_mem hjp⟩

theorem twoLevel_Reachable : twoLevel.Reachable :=
  Reachable.add _ _ [] [] SingleBox ⟨1, 2⟩ LocType.Loc_Top (some 0) TileType.TileType_ScrollDown 1
    (Reachable.add _ _ [] [] SingleBox ⟨1, 1⟩ LocType.Loc_Top none TileType.TileType_ScrollUp 0
      Reachable.new rfl) rfl

/-- C33 fails as stated: AddTile(root), AddTile(child, parent root),
DeleteTile(child) and AddTile(parent: the deleted child) all succeed, and in the
session reached the tile list is root and the new tile, whose parent, the
deleted child, is not in the list. -/
theorem C33_counterexample :
    staleParent.Reachable ∧ staleParent.tiles = [0, 2] ∧
      staleParent.heap.map (fun t => t.parent) = [none, some 0, some 1] ∧
      ¬ staleParent.ParentsInList := by
  refine ⟨?_, rfl, rfl, ?_⟩
  · exact Reachable.add _ _ [] [] SingleBox ⟨1, 2⟩ LocType.Loc_Top (some 1)
      TileType.TileType_ScrollDown 2
      (Reachable.delete twoLevel _ 1 (some 1) twoLevel_Reachable rfl) rfl
  · intro h
    obtain ⟨vt, p, hvt, hp, hmem⟩ := h.2 1 2 (by decide) rfl
    have e : staleParent.heap[2]? = some (newTile [] [] SingleBox ⟨1, 2⟩ LocType.Loc_Top
        (some 1) TileType.TileType_ScrollDown) := rfl
    rw [e] at hvt
    simp only [Option.some.injEq] at hvt
    subst hvt
    have hp1 : p = 1 := by
      have : some 1 = some p := hp
      simpa using this.symm
    subst hp1
    have ht : staleParent.tiles = [0, 2] := rfl
    rw [ht] at hmem
    simp at hmem

/-- C33, amended: in every session state reachable from a new session by
AddTile calls that return a tile, each with nil as parent when the tile list is
empty and with a tile of the list as parent otherwise, and by DeleteTile calls
that return, tile 0 has no parent and the parent of every later tile is a tile
of the list, at an earlier position; the tiles are distinct and the mutex is
free. -/
theorem C33_listed_parents_stay_listed (t : TileTerm) (h : t.ReachableListed) :
    t.ParentsInList ∧ t.WellFormed := by
  obtain ⟨hlock, hnd, hpb⟩ := ReachableListed_keeps t h
  exact (ParentsBefore_WellFormed t hlock hnd hpb).symm

/-- C33 at the session `regrown`: three AddTile calls root -> child ->
grandchild, DeleteTile(grandchild), AddTile with the root as parent. -/
theorem C33_listed_parents_stay_listed_witness :
    regrown.ReachableListed ∧ regrown.tiles = [0, 1, 3] ∧
      regrown.ParentsInList ∧ regrown.WellFormed :=
  have h3 : threeLevel.ReachableListed :=
    ReachableListed.add _ _ [] [] SingleBox ⟨1, 2⟩ LocType.Loc_Top (some 1)
      TileType.TileType_ScrollDown 2
      (ReachableListed.add _ _ [] [] SingleBox ⟨1, 2⟩ LocType.Loc_Top (some 0)
        TileType.TileType_ScrollDown 1
        (ReachableListed.add _ _ [] [] SingleBox ⟨1, 1⟩ LocType.Loc_Top none
          TileType.TileType_ScrollUp 0 ReachableListed.new rfl rfl)
        (List.mem_cons_self 0 []) rfl)
      (List.mem_cons_of_mem 0 (List.mem_cons_self 1 [])) rfl
  have hr : regrown.ReachableListed :=
    ReachableListed.add _ _ [] [] SingleBox ⟨1, 2⟩ LocType.Loc_Top (some 0)
      TileType.TileType_ScrollDown 3
      (ReachableListed.delete threeLevel _ 1 (some 2) h3 rfl)
      (List.mem_cons_self 0 [1]) rfl
  ⟨hr, rfl, C33_listed_parents_stay_listed regrown hr⟩

end TileTerm

namespace Frac

/-! ### float32 -/

theorem units_pos : 0 < units := by unfold units; positivity

theorem units_cast_pos : (0 : Int) < (units : Int) := by exact_mod_cast units_pos

theorem nearestEven_le (a b K : Nat) (hb : 0 < b) (h : a ≤ K * b) : nearestEven a b ≤ K := by
  unfold nearestEven
  by_cases he : a = K * b
  · subst he
    simp [Nat.mul_mod_left, hb, Nat.mul_div_cancel]
  · have hlt : a < K * b := lt_of_le_of_ne h he
    have hq : a / b < K := (Nat.div_lt_iff_lt_mul hb).2 hlt
    split_ifs <;> omega

theorem nearestEven_exact (c b : Nat) (hb : 0 < b) : nearestEven (c * b) b = c := by
  unfold nearestEven
  simp [Nat.mul_mod_left, hb, Nat.mul_div_cancel]

theorem shiftCount_le (fuel : Nat) : ∀ (t j : Nat), t < 2 ^ (24 + j) → shiftCount fuel t ≤ j := by
  induction fuel with
  | zero => intro t j _; simp [shiftCount]
  | succ fuel ih =>
    intro t j h
    unfold shiftCount
    by_cases ht : t < 2 ^ 24
    · rw [if_pos ht]; omega
    · rw [if_neg ht]
      cases j with
      | zero => exact absurd h ht
      | succ j =>
        have h2 : t / 2 < 2 ^ (24 + j) := by
          apply Nat.div_lt_of_lt_mul
          have e : 2 * 2 ^ (24 + j) = 2 ^ (24 + (j + 1)) := by
            rw [← Nat.add_assoc, Nat.pow_succ, Nat.mul_comm]
          rw [e]; exact h
        have := ih (t / 2) j h2
        omega

/-- The step of the float32 grid at `t` units divides every value `T ≥ t` of at
most 24 significant bits. -/
theorem step_dvd (t T j : Nat) (ht : t ≤ T) (hle : T ≤ 2 ^ 24 * 2 ^ j) (hdvd : 2 ^ j ∣ T) :
    2 ^ shiftCount t t ∣ T := by
  rw [← Nat.pow_add] at hle
  by_cases hlt : t < 2 ^ (24 + j)
  · exact (pow_dvd_pow 2 (shiftCount_le t t j hlt)).trans hdvd
  · have hT : T = 2 ^ (24 + j) := by omega
    have hk : shiftCount t t ≤ j + 1 := by
      apply shiftCount_le
      have : 2 ^ (24 + j) < 2 ^ (24 + (j + 1)) := Nat.pow_lt_pow_right (by norm_num) (by omega)
      omega
    rw [hT]
    exact pow_dvd_pow 2 (by omega)

theorem float32_den (f : Frac) : (float32 f).den = (units : Int) := rfl

/-- A value of at most 24 significant bits, `T` units, is converted to
itself. -/
theorem float32_exact (f : Frac) (T : Nat) (hnum : 0 ≤ f.num) (hden : 0 < f.den)
    (hT : f.num * (units : Int) = (T : Int) * f.den) (hrep : 2 ^ shiftCount T T ∣ T) :
    float32 f = Frac.mk (T : Int) (units : Int) := by
  have ha : (f.num.natAbs : Int) = f.num := Int.natAbs_of_nonneg hnum
  have hb : (f.den.natAbs : Int) = f.den := Int.natAbs_of_nonneg (le_of_lt hden)
  have hb0 : 0 < f.den.natAbs := by omega
  have hA : f.num.natAbs * units = T * f.den.natAbs := by
    have : ((f.num.natAbs * units : Nat) : Int) = ((T * f.den.natAbs : Nat) : Int) := by
      rw [Nat.cast_mul, Nat.cast_mul, ha, hb]; exact hT
    exact_mod_cast this
  have ht : f.num.natAbs * units / f.den.natAbs = T := by
    rw [hA]; exact Nat.mul_div_cancel _ hb0
  obtain ⟨c, hc⟩ := hrep
  have hm : nearestEven (f.num.natAbs * units) (f.den.natAbs * 2 ^ shiftCount T T) = c := by
    have e : f.num.natAbs * units = c * (f.den.natAbs * 2 ^ shiftCount T T) := by
      rw [hA]
      calc T * f.den.natAbs = 2 ^ shiftCount T T * c * f.den.natAbs := by rw [← hc]
        _ = c * (f.den.natAbs * 2 ^ shiftCount T T) := by ring
    rw [e]
    exact nearestEven_exact c _ (Nat.mul_pos hb0 (by positivity))
  unfold float32
  simp only [ht, hm, if_neg (not_lt.2 hnum), one_mul]
  have : c * 2 ^ shiftCount T T = T := by rw [Nat.mul_comm]; exact hc.symm
  rw [this]

/-- The conversion of a value between 0 and `N ≤ 2^24` lies between 0 and `N`. -/
theorem float32_le (f : Frac) (N : Nat) (hnum : 0 ≤ f.num) (hden : 0 < f.den)
    (hN : N ≤ 2 ^ 24) (h : f.num ≤ N * f.den) :
    0 ≤ (float32 f).num ∧ (float32 f).num ≤ (N : Int) * (units : Int) ∧
      (float32 f).den = (units : Int) := by
  have ha : (f.num.natAbs : Int) = f.num := Int.natAbs_of_nonneg hnum
  have hb : (f.den.natAbs : Int) = f.den := Int.natAbs_of_nonneg (le_of_lt hden)
  have hb0 : 0 < f.den.natAbs := by omega
  have hle : f.num.natAbs ≤ N * f.den.natAbs := by
    have : ((f.num.natAbs : Nat) : Int) ≤ ((N * f.den.natAbs : Nat) : Int) := by
      rw [Nat.cast_mul, ha, hb]; exact h
    exact_mod_cast this
  have hA : f.num.natAbs * units ≤ N * units * f.den.natAbs := by
    calc f.num.natAbs * units ≤ N * f.den.natAbs * units := Nat.mul_le_mul_right _ hle
      _ = N * units * f.den.natAbs := by ring
  have ht : f.num.natAbs * units / f.den.natAbs ≤ N * units :=
    Nat.div_le_of_le_mul (by
      calc f.num.natAbs * units ≤ N * units * f.den.natAbs := hA
        _ = f.den.natAbs * (N * units) := by ring)
  have hTle : N * units ≤ 2 ^ 24 * 2 ^ 149 := Nat.mul_le_mul_right _ hN
  obtain ⟨K, hK⟩ := step_dvd _ (N * units) 149 ht hTle (Dvd.intro_left N rfl)
  have hm := nearestEven_le (f.num.natAbs * units)
    (f.den.natAbs * 2 ^ shiftCount (f.num.natAbs * units / f.den.natAbs)
      (f.num.natAbs * units / f.den.natAbs)) K (Nat.mul_pos hb0 (by positivity))
    (by
      calc f.num.natAbs * units ≤ N * units * f.den.natAbs := hA
        _ = K * (f.den.natAbs * 2 ^ shiftCount (f.num.natAbs * units / f.den.natAbs)
            (f.num.natAbs * units / f.den.natAbs)) := by rw [hK]; ring)
  have hfin : nearestEven (f.num.natAbs * units)
      (f.den.natAbs * 2 ^ shiftCount (f.num.natAbs * units / f.den.natAbs)
        (f.num.natAbs * units / f.den.natAbs)) *
      2 ^ shiftCount (f.num.natAbs * units / f.den.natAbs)
        (f.num.natAbs * units / f.den.natAbs) ≤ N * units := by
    rw [hK]
    calc _ ≤ K * 2 ^ shiftCount (f.num.natAbs * units / f.den.natAbs)
          (f.num.natAbs * units / f.den.natAbs) := Nat.mul_le_mul_right _ hm
      _ = _ := by ring
  unfold float32
  simp only [if_neg (not_lt.2 hnum), one_mul]
  refine ⟨Int.natCast_nonneg _, ?_, trivial⟩
  exact_mod_cast hfin

/-- With a size `n` from 0 to `2^24` and a fraction from 0 to 1, the
conversion `int(float32(n) * f)` lies between 0 and `n`. -/
theorem scale_range (n : Int) (f : Frac) (hn0 : 0 ≤ n) (hn : n ≤ 2 ^ 24) (h0 : 0 ≤ f.num)
    (h1 : f.num ≤ f.den) (hd : 0 < f.den) :
    0 ≤ scale n f ∧ scale n f ≤ n := by
  obtain ⟨N, rfl⟩ : ∃ N : Nat, n = N := ⟨n.toNat, by omega⟩
  have hN : N ≤ 2 ^ 24 := by exact_mod_cast hn
  have hu := units_cast_pos
  obtain ⟨x0, x1, xd⟩ := float32_le (Frac.mk (N : Int) 1) N (Int.natCast_nonneg _)
    Int.one_pos hN (by simp)
  obtain ⟨y0, y1, yd⟩ := float32_le f 1 h0 hd (by norm_num) (by simpa using h1)
  have hprod : (float32 (Frac.mk (N : Int) 1)).num * (float32 f).num ≤
      N * ((float32 (Frac.mk (N : Int) 1)).den * (float32 f).den) := by
    rw [xd, yd]
    calc (float32 (Frac.mk (N : Int) 1)).num * (float32 f).num
        ≤ ((N : Int) * units) * (((1 : Nat) : Int) * units) :=
          mul_le_mul x1 y1 y0 (mul_nonneg (Int.natCast_nonneg _) (le_of_lt hu))
      _ = N * ((units : Int) * units) := by push_cast; ring
  obtain ⟨p0, p1, pd⟩ := float32_le
    (Frac.mk ((float32 (Frac.mk (N : Int) 1)).num * (float32 f).num)
      ((float32 (Frac.mk (N : Int) 1)).den * (float32 f).den)) N
    (mul_nonneg x0 y0) (by rw [xd, yd]; exact mul_pos hu hu) hN hprod
  unfold scale toInt mul
  rw [pd]
  have hbig : ((N : Int) * units) < 2 ^ 63 * units := by
    have : (N : Int) < 2 ^ 63 := by
      have : (N : Int) ≤ 2 ^ 24 := hn
      omega
    exact mul_lt_mul_of_pos_right this hu
  have hneg : -(2 ^ 63) * (units : Int) ≤ 0 := by
    have : (0 : Int) ≤ 2 ^ 63 * units := mul_nonneg (by norm_num) (le_of_lt hu)
    linarith
  rw [if_neg (by
    rintro (h | h)
    · linarith
    · linarith)]
  rw [Int.tdiv_eq_ediv p0 (le_of_lt hu)]
  constructor
  · exact Int.ediv_nonneg p0 (le_of_lt hu)
  · calc _ ≤ ((N : Int) * units) / units := Int.ediv_le_ediv hu p1
      _ = N := Int.mul_ediv_cancel _ (ne_of_gt hu)

/-- The float32 difference `1. - f` of a fraction from 0 to 1 is a fraction
from 0 to 1. -/
theorem compl_range (f : Frac) (h0 : 0 ≤ f.num) (h1 : f.num ≤ f.den) (hd : 0 < f.den) :
    0 ≤ (compl f).num ∧ (compl f).num ≤ (compl f).den ∧ 0 < (compl f).den := by
  have hu := units_cast_pos
  obtain ⟨y0, y1, yd⟩ := float32_le f 1 h0 hd (by norm_num) (by simpa using h1)
  simp only [Nat.cast_one, one_mul] at y1
  obtain ⟨c0, c1, cd⟩ := float32_le
    (Frac.mk ((float32 f).den - (float32 f).num) ((float32 f).den)) 1
    (by simp only; rw [yd]; linarith) (by simp only; rw [yd]; exact hu) (by norm_num)
    (by simp only; rw [yd]; simp only [Nat.cast_one, one_mul]; linarith)
  simp only [Nat.cast_one, one_mul] at c1
  unfold compl
  rw [cd]
  exact ⟨c0, c1, hu⟩

theorem float32_int (N : Nat) (hN : N ≤ 2 ^ 24) :
    float32 (Frac.mk (N : Int) 1) = Frac.mk ((N * units : Nat) : Int) (units : Int) := by
  apply float32_exact _ (N * units) (Int.natCast_nonneg _) Int.one_pos
  · simp only [Nat.cast_mul, mul_one]
  · exact step_dvd _ _ 149 (le_refl _) (Nat.mul_le_mul_right _ hN) (Dvd.intro_left N rfl)

theorem units_half : units = 2 ^ 148 * 2 := by unfold units; norm_num

theorem float32_half :
    float32 (Frac.mk 1 2) = Frac.mk ((2 ^ 148 : Nat) : Int) (units : Int) := by
  apply float32_exact _ (2 ^ 148) (by decide) (by decide)
  · rw [units_half]; push_cast
  · exact step_dvd _ _ 124 (le_refl _) (by rw [← Nat.pow_add]) (pow_dvd_pow 2 (by norm_num))

/-- With a size `n` from 0 to `2^24`, the conversion `int(float32(n) * 0.5)`
is `n / 2`, rounded down. -/
theorem scale_half (n : Int) (hn0 : 0 ≤ n) (hn : n ≤ 2 ^ 24) :
    scale n (Frac.mk 1 2) = n / 2 := by
  obtain ⟨N, rfl⟩ : ∃ N : Nat, n = N := ⟨n.toNat, by omega⟩
  have hN : N ≤ 2 ^ 24 := by exact_mod_cast hn
  have hu := units_cast_pos
  have hp : float32 (Frac.mk (((N * units : Nat) : Int) * ((2 ^ 148 : Nat) : Int))
      ((units : Int) * (units : Int))) = Frac.mk ((N * 2 ^ 148 : Nat) : Int) (units : Int) := by
    apply float32_exact _ (N * 2 ^ 148)
      (mul_nonneg (Int.natCast_nonneg _) (Int.natCast_nonneg _)) (mul_pos hu hu)
    · simp only [Nat.cast_mul]; ring
    · exact step_dvd _ _ 148 (le_refl _) (Nat.mul_le_mul_right _ hN) (Dvd.intro_left N rfl)
  unfold scale mul
  rw [float32_int N hN, float32_half]
  simp only []
  rw [hp]
  unfold toInt
  simp only []
  have e2 : ((N * 2 ^ 148 : Nat) : Int) = (N : Int) * 2 ^ 148 := by
    rw [Nat.cast_mul, Nat.cast_pow]; rfl
  have eu : (units : Int) = 2 ^ 148 * 2 := by
    rw [units_half, Nat.cast_mul, Nat.cast_pow]; rfl
  have h148 : (0 : Int) < 2 ^ 148 := pow_pos (by norm_num) 148
  rw [e2, eu]
  have hlt : (N : Int) * 2 ^ 148 < 2 ^ 63 * (2 ^ 148 * 2) := by
    have h1 : (N : Int) * 2 ^ 148 ≤ 2 ^ 24 * 2 ^ 148 := mul_le_mul_of_nonneg_right hn (le_of_lt h148)
    have h2 : (2 : Int) ^ 24 * 2 ^ 148 < 2 ^ 63 * (2 ^ 148 * 2) := by
      have : (2 : Int) ^ 24 < 2 ^ 63 * 2 := by norm_num
      calc (2 : Int) ^ 24 * 2 ^ 148 < (2 ^ 63 * 2) * 2 ^ 148 := mul_lt_mul_of_pos_right this h148
        _ = 2 ^ 63 * (2 ^ 148 * 2) := by ring
    exact lt_of_le_of_lt h1 h2
  have hnn : (0 : Int) ≤ (N : Int) * 2 ^ 148 := mul_nonneg hn0 (le_of_lt h148)
  have hneg : -(2 ^ 63) * ((2 : Int) ^ 148 * 2) ≤ 0 := by
    have : (0 : Int) ≤ 2 ^ 63 * (2 ^ 148 * 2) :=
      mul_nonneg (by norm_num) (mul_nonneg (le_of_lt h148) (by norm_num))
    linarith
  rw [if_neg (by
    rintro (h | h)
    · linarith
    · linarith)]
  rw [Int.tdiv_eq_ediv hnn (mul_nonneg (le_of_lt h148) (by norm_num)),
    mul_comm (N : Int) (2 ^ 148), Int.mul_ediv_mul_of_pos _ _ h148]

theorem shiftCount_spec (fuel : Nat) :
    ∀ t, t < 2 ^ 24 * 2 ^ fuel → t / 2 ^ shiftCount fuel t < 2 ^ 24 := by
  induction fuel with
  | zero => intro t h; simpa [shiftCount] using h
  | succ fuel ih =>
    intro t h
    unfold shiftCount
    by_cases ht : t < 2 ^ 24
    · rw [if_pos ht]; simpa using ht
    · rw [if_neg ht]
      have h2 : t / 2 < 2 ^ 24 * 2 ^ fuel := by
        apply Nat.div_lt_of_lt_mul
        calc t < 2 ^ 24 * 2 ^ (fuel + 1) := h
          _ = 2 * (2 ^ 24 * 2 ^ fuel) := by rw [Nat.pow_succ]; ring
      have := ih (t / 2) h2
      rw [Nat.pow_succ, Nat.mul_comm, ← Nat.div_div_eq_div_mul]
      exact this

theorem nearestEven_le_succ (a b : Nat) : nearestEven a b ≤ a / b + 1 := by
  unfold nearestEven
  split_ifs <;> omega

/-- The result of a conversion to float32 is a number of units of at most 24
significant bits. -/
theorem float32_units (f : Frac) :
    ∃ M : Nat, float32 f = Frac.mk ((if f.num < 0 then -1 else 1) * (M : Int)) (units : Int) ∧
      2 ^ shiftCount M M ∣ M := by
  refine ⟨nearestEven (f.num.natAbs * units)
      (f.den.natAbs * 2 ^ shiftCount (f.num.natAbs * units / f.den.natAbs)
        (f.num.natAbs * units / f.den.natAbs)) *
      2 ^ shiftCount (f.num.natAbs * units / f.den.natAbs)
        (f.num.natAbs * units / f.den.natAbs), rfl, ?_⟩
  have hspec := shiftCount_spec (f.num.natAbs * units / f.den.natAbs)
    (f.num.natAbs * units / f.den.natAbs)
    (lt_of_lt_of_le (Nat.lt_two_pow _) (Nat.le_mul_of_pos_left _ (by positivity)))
  have hm := nearestEven_le_succ (f.num.natAbs * units)
    (f.den.natAbs * 2 ^ shiftCount (f.num.natAbs * units / f.den.natAbs)
      (f.num.natAbs * units / f.den.natAbs))
  rw [← Nat.div_div_eq_div_mul] at hm
  exact step_dvd _ _ _ (le_refl _) (Nat.mul_le_mul_right _ (by omega)) (Dvd.intro_left _ rfl)

theorem float32_of_units (s : Int) (T : Nat) (hs : s = 1 ∨ s = -1)
    (hrep : 2 ^ shiftCount T T ∣ T) :
    float32 (Frac.mk (s * (T : Int)) (units : Int)) = Frac.mk (s * (T : Int)) (units : Int) := by
  have hu := units_pos
  have hab : (s * (T : Int)).natAbs = T := by
    rcases hs with rfl | rfl <;> simp
  have ht : T * units / units = T := Nat.mul_div_cancel _ hu
  obtain ⟨c, hc⟩ := hrep
  have hm : nearestEven (T * units) (units * 2 ^ shiftCount T T) = c := by
    have e : T * units = c * (units * 2 ^ shiftCount T T) := by
      calc T * units = 2 ^ shiftCount T T * c * units := by rw [← hc]
        _ = c * (units * 2 ^ shiftCount T T) := by ring
    rw [e]
    exact nearestEven_exact c _ (Nat.mul_pos hu (by positivity))
  have hcT : c * 2 ^ shiftCount T T = T := by rw [Nat.mul_comm]; exact hc.symm
  have hun : ((units : Nat) : Int).natAbs = units := Int.natAbs_cast units
  have hform : float32 (Frac.mk (s * (T : Int)) (units : Int)) =
      Frac.mk ((if s * (T : Int) < 0 then -1 else 1) *
        ((nearestEven ((s * (T : Int)).natAbs * units)
          (((units : Nat) : Int).natAbs *
            2 ^ shiftCount ((s * (T : Int)).natAbs * units / ((units : Nat) : Int).natAbs)
              ((s * (T : Int)).natAbs * units / ((units : Nat) : Int).natAbs)) *
          2 ^ shiftCount ((s * (T : Int)).natAbs * units / ((units : Nat) : Int).natAbs)
              ((s * (T : Int)).natAbs * units / ((units : Nat) : Int).natAbs) : Nat) : Int))
        (units : Int) := rfl
  rw [hform, hab, hun, ht, hm, hcT]
  congr 1
  rcases hs with rfl | rfl
  · have : ¬ (1 * (T : Int) < 0) := by
      have := Int.natCast_nonneg T
      omega
    rw [if_neg this]
  · by_cases h0 : T = 0
    · subst h0; simp
    · have : -1 * (T : Int) < 0 := by
        have : (0 : Int) < T := by exact_mod_cast Nat.pos_of_ne_zero h0
        omega
      rw [if_pos this]

/-- The conversion to float32 changes no float32 value: converting twice is
converting once. -/
theorem float32_idem (f : Frac) : float32 (float32 f) = float32 f := by
  obtain ⟨M, hM, hrep⟩ := float32_units f
  rw [hM]
  exact float32_of_units _ M (by split_ifs <;> simp) hrep

theorem scale_float32 (n : Int) (f : Frac) : scale n (float32 f) = scale n f := by
  unfold scale mul
  rw [float32_idem]

theorem compl_float32 (f : Frac) : compl (float32 f) = compl f := by
  unfold compl
  rw [float32_idem]

theorem float32_compl (f : Frac) : float32 (compl f) = compl f := by
  unfold compl
  rw [float32_idem]

set_option maxRecDepth 100000 in
/-- The constants `.9`, `.1`, `0.8` and `0.5` as float32 values. -/
theorem float32_constants :
    float32 (Frac.mk 9 10) = float32 (Frac.mk 15099494 (2 ^ 24)) ∧
      float32 (Frac.mk 1 10) = float32 (Frac.mk 13421773 (2 ^ 27)) ∧
      float32 (Frac.mk 4 5) = float32 (Frac.mk 13421773 (2 ^ 24)) ∧
      float32 (Frac.mk 1 2) = Frac.mk (2 ^ 148) (2 ^ 149) ∧
      float32 (Frac.mk 15099494 (2 ^ 24)) = Frac.mk (15099494 * 2 ^ 125) (2 ^ 149) := by
  decide

set_option maxRecDepth 100000 in
theorem scale_above_bound :
    scale 16777219 (Frac.mk 1 1) = 16777220 ∧ scale 33554435 (Frac.mk 1 2) = 16777218 := by
  decide

set_option maxRecDepth 100000 in
theorem scale_complement_example :
    scale 25 (compl (Frac.mk 4 5)) = 4 ∧
      float32 (Frac.mk 4 5) = float32 (Frac.mk 13421773 16777216) := by
  decide

end Frac

namespace TileTerm

/-! ### Layout with float32 fractions -/

/-- The switch of layoutTiles partitions a non-empty rectangle of at most 2^24
cells along the split axis. -/
theorem splitRect_Partition (location : LocType) (f : Frac) (pr : Rect)
    (h0 : 0 ≤ f.num) (h1 : f.num ≤ f.den) (hd : 0 < f.den)
    (hx : pr.Min.X ≤ pr.Max.X) (hy : pr.Min.Y ≤ pr.Max.Y)
    (hext : splitExtent location pr ≤ 2 ^ 24) :
    Partition location pr (splitRect location f pr).1 (splitRect location f pr).2 := by
  obtain ⟨hc0, hc1, hcd⟩ := Frac.compl_range f h0 h1 hd
  cases location
  · have sy := Frac.scale_range (pr.Max.Y - pr.Min.Y + 1) f (by omega) hext h0 h1 hd
    refine ⟨?_, ?_, ?_⟩
    · intro q; simp only [splitRect, contains]; omega
    · intro q; simp only [splitRect, contains]; omega
    · simp [splitRect]
  · have cy := Frac.scale_range (pr.Max.Y - pr.Min.Y + 1) f.compl (by omega) hext hc0 hc1 hcd
    refine ⟨?_, ?_, ?_⟩
    · intro q; simp only [splitRect, contains]; omega
    · intro q; simp only [splitRect, contains]; omega
    · simp [splitRect]
  · have sx := Frac.scale_range (pr.Max.X - pr.Min.X + 1) f (by omega) hext h0 h1 hd
    refine ⟨?_, ?_, ?_⟩
    · intro q; simp only [splitRect, contains]; omega
    · intro q; simp only [splitRect, contains]; omega
    · simp [splitRect]
  · have cx := Frac.scale_range (pr.Max.X - pr.Min.X + 1) f.compl (by omega) hext hc0 hc1 hcd
    refine ⟨?_, ?_, ?_⟩
    · intro q; simp only [splitRect, contains]; omega
    · intro q; simp only [splitRect, contains]; omega
    · simp [splitRect]

/-- C15, amended: for every non-root tile `w` that layoutTiles processes
(index other than 0, parent `p` another object), with a fraction in (0,1] and
the rectangle `pr` of the parent non-empty and at most 2^24 = 16777216 cells
long along the split axis, where `pr` is the remaining outer rectangle (IncRect
of the parent's bounds when the parent has a border): whatever the edge, and
whether or not a tile is enlarged, the loop body succeeds and there is an
allotment `wr` and a remainder `rest` that partition `pr` (no overlap, adjacent
along the split axis, same extent on the other axis, together exactly `pr`);
the tile gets `wr`, shrunk by its own border if it has one, and the remaining
outer rectangle of the parent becomes `rest`. -/
theorem C15_layout_partition (tTerm : TileTerm) (tw th : Int) (i w p : Nat) (wt pt : Tile)
    (hi : i ≠ 0) (hw : tTerm.heap[w]? = some wt) (hpar : wt.parent = some p)
    (hp : tTerm.heap[p]? = some pt) (hne : p ≠ w)
    (hbig : ∀ b, tTerm.big = some b → ∃ bt, tTerm.heap[b]? = some bt)
    (hf0 : 0 < wt.fraction.num) (hf1 : wt.fraction.num ≤ wt.fraction.den)
    (hx : (if pt.outline.isSome then IncRect pt.bounds else pt.bounds).Min.X ≤
      (if pt.outline.isSome then IncRect pt.bounds else pt.bounds).Max.X)
    (hy : (if pt.outline.isSome then IncRect pt.bounds else pt.bounds).Min.Y ≤
      (if pt.outline.isSome then IncRect pt.bounds else pt.bounds).Max.Y)
    (hext : splitExtent wt.location
      (if pt.outline.isSome then IncRect pt.bounds else pt.bounds) ≤ 2 ^ 24) :
    ∃ u wr rest, layoutTile tTerm tw th i w = some u ∧
      Partition wt.location (if pt.outline.isSome then IncRect pt.bounds else pt.bounds)
        wr rest ∧
      u.heap[w]? = some { wt with bounds := if wt.outline.isSome then DecRect wr else wr } ∧
      (∃ pt2, u.heap[p]? = some pt2 ∧ pt2.outline = pt.outline ∧
        (if pt2.outline.isSome then IncRect pt2.bounds else pt2.bounds) = rest) := by
  obtain ⟨g, hg⟩ : ∃ g, tTerm.zoomFraction w wt.fraction = some g := by
    unfold zoomFraction
    cases hb : tTerm.big with
    | none => exact ⟨_, rfl⟩
    | some b =>
      obtain ⟨bt, hbt⟩ := hbig b hb
      simp only [hbt]
      split_ifs <;> exact ⟨_, rfl⟩
  obtain ⟨g0, g1, gd⟩ := zoomFraction_range tTerm w wt.fraction g hf0 hf1 hg
  have hpart := splitRect_Partition wt.location g
    (if pt.outline.isSome then IncRect pt.bounds else pt.bounds) g0 g1 gd hx hy hext
  refine ⟨(tTerm.setBounds p
      (if pt.outline.isSome then DecRect (splitRect wt.location g
        (if pt.outline.isSome then IncRect pt.bounds else pt.bounds)).2
      else (splitRect wt.location g
        (if pt.outline.isSome then IncRect pt.bounds else pt.bounds)).2)).setBounds w
      (if wt.outline.isSome then DecRect (splitRect wt.location g
        (if pt.outline.isSome then IncRect pt.bounds else pt.bounds)).1
      else (splitRect wt.location g
        (if pt.outline.isSome then IncRect pt.bounds else pt.bounds)).1), _, _, ?_, hpart, ?_, ?_⟩
  · exact layoutTile_nonroot tTerm tw th i w p wt pt g hi hw hpar hp hg
  · rw [setBounds_heap_same _ _ _ wt]
    rw [setBounds_heap_other _ _ _ _ hne]
    exact hw
  · refine ⟨?pt2, ?h1, ?h2, ?h3⟩
    case h1 =>
      rw [setBounds_heap_other _ _ _ _ (Ne.symm hne)]
      exact setBounds_heap_same _ _ _ pt hp
    case h2 => rfl
    case h3 =>
      cases ho : pt.outline.isSome
      · simp [ho]
      · simp [ho, IncRect_DecRect]

/-- C15 at the child of the session `threeLevel`, whose parent, the root, has
a border and the bounds (0,0)-(0,0). -/
theorem C15_layout_partition_witness :
    ∃ u wr rest, layoutTile threeLevel 80 25 1 1 = some u ∧
      Partition childTile.location
        (if rootTile.outline.isSome then IncRect rootTile.bounds else rootTile.bounds) wr rest ∧
      u.heap[1]? = some { childTile with
        bounds := if childTile.outline.isSome then DecRect wr else wr } ∧
      (∃ pt2, u.heap[0]? = some pt2 ∧ pt2.outline = rootTile.outline ∧
        (if pt2.outline.isSome then IncRect pt2.bounds else pt2.bounds) = rest) :=
  C15_layout_partition threeLevel 80 25 1 1 0 childTile rootTile (by decide) rfl rfl rfl
    (by decide) (fun b hb => by cases hb) (by decide) (by decide) (by decide) (by decide)
    (by decide)

set_option maxRecDepth 100000 in
theorem tall_layout :
    layoutBounds (rootChild SingleBox SingleBox ⟨1, 1⟩ 80 16777219) =
        some [some ⟨⟨2, 16777222⟩, ⟨79, 16777218⟩⟩, some ⟨⟨2, 2⟩, ⟨79, 16777219⟩⟩] ∧
      splitRect LocType.Loc_Top ⟨1, 1⟩ (fullRect 80 16777219) =
        (⟨⟨1, 1⟩, ⟨80, 16777220⟩⟩, ⟨⟨1, 16777221⟩, ⟨80, 16777219⟩⟩) := by
  decide

/-- C15 fails as stated: in the session of a root and one child with edge Top
and fraction 1, both with a border, on a terminal of 80 x 16777219 cells, the
remaining outer rectangle of the root is the whole terminal, rows 1..16777219,
when layoutTiles comes to the child; `float32(16777219)` is 16777220, so the
allotment of the child (IncRect of its bounds) is the rows 1..16777220, with the
cell (1, 16777220) outside the rectangle of the parent: allotment and remainder
do not partition it. -/
theorem C15_counterexample :
    layoutBounds (rootChild SingleBox SingleBox ⟨1, 1⟩ 80 16777219) =
        some [some ⟨⟨2, 16777222⟩, ⟨79, 16777218⟩⟩, some ⟨⟨2, 2⟩, ⟨79, 16777219⟩⟩] ∧
      IncRect ⟨⟨2, 2⟩, ⟨79, 16777219⟩⟩ = ⟨⟨1, 1⟩, ⟨80, 16777220⟩⟩ ∧
      contains ⟨⟨1, 1⟩, ⟨80, 16777220⟩⟩ ⟨1, 16777220⟩ ∧
      ¬ contains (fullRect 80 16777219) ⟨1, 16777220⟩ ∧
      ¬ Partition LocType.Loc_Top (fullRect 80 16777219)
        (splitRect LocType.Loc_Top ⟨1, 1⟩ (fullRect 80 16777219)).1
        (splitRect LocType.Loc_Top ⟨1, 1⟩ (fullRect 80 16777219)).2 := by
  refine ⟨tall_layout.1, by decide, by simp [contains], by simp [contains, fullRect], ?_⟩
  rw [tall_layout.2]
  intro h
  have h2 := (h.2.1 ⟨1, 16777220⟩).2 (Or.inl (by simp [contains]))
  simp [contains, fullRect] at h2

/-- A border on both tiles: the layout of a root and one child of it with edge
Top and fraction 0.5, on a terminal of height 0 to 2^24. -/
theorem layout_top_half (tTerm : TileTerm) (r c : Nat) (rt ct : Tile)
    (hlock : tTerm.lock = false) (hbig : tTerm.big = none) (htiles : tTerm.tiles = [r, c])
    (hr : tTerm.heap[r]? = some rt) (hc : tTerm.heap[c]? = some ct) (hne : r ≠ c)
    (hro : rt.outline.isSome = true) (hco : ct.outline.isSome = true)
    (hpar : ct.parent = some r)
    (hloc : ct.location = LocType.Loc_Top) (hfrac : ct.fraction = ⟨1, 2⟩)
    (hth0 : 0 ≤ tTerm.height) (hth : tTerm.height ≤ 2 ^ 24) :
    ∃ u, layoutTiles tTerm = Run.done u ∧
      u.heap[c]? = some { ct with
        bounds := ⟨⟨2, 2⟩, ⟨tTerm.width - 1, tTerm.height / 2 - 1⟩⟩ } ∧
      u.heap[r]? = some { rt with
        bounds := ⟨⟨2, tTerm.height / 2 + 2⟩, ⟨tTerm.width - 1, tTerm.height - 1⟩⟩ } := by
  have hscale : Frac.scale (tTerm.height - 1 + 1) ⟨1, 2⟩ = tTerm.height / 2 := by
    rw [sub_add_cancel]
    exact Frac.scale_half tTerm.height hth0 hth
  have h1 := layoutTile_root { tTerm with lock := true } tTerm.width tTerm.height r rt hr
  rw [hro] at h1
  simp only [if_true] at h1
  obtain ⟨s1, hs1⟩ : ∃ s1, s1 = ({ tTerm with lock := true } : TileTerm).setBounds r
      (DecRect (fullRect tTerm.width tTerm.height)) := ⟨_, rfl⟩
  rw [← hs1] at h1
  have hs1c : s1.heap[c]? = some ct := by
    rw [hs1, setBounds_heap_other _ _ _ _ hne]; exact hc
  have hs1r : s1.heap[r]? =
      some { rt with bounds := DecRect (fullRect tTerm.width tTerm.height) } := by
    rw [hs1]
    exact setBounds_heap_same { tTerm with lock := true } r _ rt hr
  have hz : s1.zoomFraction c ct.fraction = some ct.fraction := by
    unfold zoomFraction
    rw [hs1, (setBounds_fields _ _ _).2.1]
    simp only [hbig]
  have h2 : layoutTile s1 tTerm.width tTerm.height 1 c =
      some ((s1.setBounds r
          ⟨⟨2, tTerm.height / 2 + 2⟩, ⟨tTerm.width - 1, tTerm.height - 1⟩⟩).setBounds c
        ⟨⟨2, 2⟩, ⟨tTerm.width - 1, tTerm.height / 2 - 1⟩⟩) := by
    rw [layoutTile_nonroot s1 tTerm.width tTerm.height 1 c r ct _ ct.fraction
      (by decide) hs1c hpar hs1r hz]
    simp only [hro, hco, if_true, IncRect_DecRect]
    simp only [hloc, hfrac, splitRect, fullRect, hscale, DecRect]
    congr 3 <;> congr 1 <;> congr 1 <;> omega
  refine ⟨{ (s1.setBounds r
        ⟨⟨2, tTerm.height / 2 + 2⟩, ⟨tTerm.width - 1, tTerm.height - 1⟩⟩).setBounds c
      ⟨⟨2, 2⟩, ⟨tTerm.width - 1, tTerm.height / 2 - 1⟩⟩ with lock := false }, ?_, ?_, ?_⟩
  · have hL : layoutLoop tTerm.width tTerm.height 0 [r, c] { tTerm with lock := true } =
        some ((s1.setBounds r
          ⟨⟨2, tTerm.height / 2 + 2⟩, ⟨tTerm.width - 1, tTerm.height - 1⟩⟩).setBounds c
          ⟨⟨2, 2⟩, ⟨tTerm.width - 1, tTerm.height / 2 - 1⟩⟩) := by
      simp only [layoutLoop, h1, h2]
    have hL2 := (congrArg (fun l => layoutLoop tTerm.width tTerm.height 0 l
      ({ tTerm with lock := true } : TileTerm)) htiles).trans hL
    unfold layoutTiles
    rw [hlock]
    simp only [Bool.false_eq_true, if_false]
    rw [hL2]
  · show ((s1.setBounds r _).setBounds c _).heap[c]? = _
    exact setBounds_heap_same _ _ _ ct (by
      rw [setBounds_heap_other _ _ _ _ hne]; exact hs1c)
  · show ((s1.setBounds r _).setBounds c _).heap[r]? = _
    rw [setBounds_heap_other _ _ _ _ (Ne.symm hne)]
    exact setBounds_heap_same s1 r _
      { rt with bounds := DecRect (fullRect tTerm.width tTerm.height) } hs1r

/-- No session reached by AddTile and DeleteTile calls holds a tile without
border: AddTile stores the address of its outline argument in every tile. -/
theorem Reachable_outline (t : TileTerm) (h : t.Reachable) :
    ∀ vt ∈ t.heap, vt.outline ≠ none := by
  induction h with
  | new => intro vt hvt; simp [NewTileTerm] at hvt
  | add t u name cursor outline fraction location parent handler p _ hadd ih =>
    by_cases hfail : t.tiles.length > 0 ∧ parent = none
    · unfold AddTile at hadd
      rw [if_pos hfail] at hadd
      simp at hadd
    · cases hl : t.lock with
      | true =>
        unfold AddTile at hadd
        rw [if_neg hfail, hl] at hadd
        simp at hadd
      | false =>
        rw [AddTile_ok t name cursor outline fraction location parent handler hl hfail] at hadd
        simp only [Run.done.injEq, Prod.mk.injEq] at hadd
        obtain ⟨hu, -⟩ := hadd
        subst hu
        intro vt hvt
        have hvt2 : vt ∈ t.heap ++ [newTile name cursor outline fraction location parent
            handler] := hvt
        rcases List.mem_append.1 hvt2 with hvt3 | hvt3
        · exact ih vt hvt3
        · rw [List.mem_singleton] at hvt3
          subst hvt3
          simp [newTile]
  | delete t u fuel tile _ hdel ih =>
    obtain ⟨-, -, hheap, -, -⟩ := DeleteTile_done fuel t u tile hdel
    rw [hheap]
    exact ih

set_option maxRecDepth 100000 in
theorem wide_layout :
    layoutBounds (rootChild SingleBox SingleBox ⟨1, 2⟩ 80 33554435) =
      some [some ⟨⟨2, 16777220⟩, ⟨79, 33554434⟩⟩, some ⟨⟨2, 2⟩, ⟨79, 16777217⟩⟩] := by
  decide

/-- C14 fails on the code: the session of the claim cannot be built.  AddTile
stores a box character set in every tile, so in no session reached by AddTile
and DeleteTile calls is a tile borderless, and for the session of a root and
one child with edge Top and fraction 0.5, whatever the box character sets of
the two AddTile calls, on a terminal of width tw and height th from 1 to 2^24,
layoutTiles insets both tiles by their border: the child has the rows
2..floor(th/2)-1 over the columns 2..tw-1 (height floor(th/2) - 2, width
tw - 2), not the rows 1..floor(th/2) over the full width, and the root the rows
floor(th/2)+2..th-1.  The band of the claim, rows 1..floor(th/2), is the child
with its border, and the root with its border is left with the rows
floor(th/2)+1..th.  Above 2^24 the band is not floor(th*0.5) either: for th =
33554435 the child with its border has the rows 1..16777218. -/
theorem C14_no_borderless_tile (o1 o2 : List Int) (tw th : Int) (h1 : 1 ≤ th)
    (h2 : th ≤ 2 ^ 24) :
    (∀ t : TileTerm, t.Reachable → ∀ vt ∈ t.heap, vt.outline ≠ none) ∧
      (∃ u rt2 ct2, layoutTiles (rootChild o1 o2 ⟨1, 2⟩ tw th) = Run.done u ∧
        u.heap[0]? = some rt2 ∧ u.heap[1]? = some ct2 ∧
        rt2.outline = some o1 ∧ ct2.outline = some o2 ∧
        ct2.bounds = ⟨⟨2, 2⟩, ⟨tw - 1, th / 2 - 1⟩⟩ ∧
        ct2.Height = th / 2 - 2 ∧ ct2.Width = tw - 2 ∧
        rt2.bounds = ⟨⟨2, th / 2 + 2⟩, ⟨tw - 1, th - 1⟩⟩ ∧
        IncRect ct2.bounds = ⟨⟨1, 1⟩, ⟨tw, th / 2⟩⟩ ∧
        IncRect rt2.bounds = ⟨⟨1, th / 2 + 1⟩, ⟨tw, th⟩⟩) ∧
      layoutBounds (rootChild SingleBox SingleBox ⟨1, 2⟩ 80 33554435) =
        some [some ⟨⟨2, 16777220⟩, ⟨79, 33554434⟩⟩, some ⟨⟨2, 2⟩, ⟨79, 16777217⟩⟩] := by
  refine ⟨Reachable_outline, ?_, wide_layout⟩
  obtain ⟨u, hu, hc, hr⟩ := layout_top_half (rootChild o1 o2 ⟨1, 2⟩ tw th) 0 1
    (newTile [] [] o1 ⟨1, 1⟩ LocType.Loc_Top none TileType.TileType_ScrollUp)
    (newTile [] [] o2 ⟨1, 2⟩ LocType.Loc_Top (some 0) TileType.TileType_ScrollDown)
    rfl rfl rfl rfl rfl (by decide) rfl rfl rfl rfl rfl (by show 0 ≤ th; omega) h2
  refine ⟨u, _, _, hu, hr, hc, rfl, rfl, rfl, ?_, ?_, rfl, ?_, ?_⟩
  · show th / 2 - 1 - 2 + 1 = th / 2 - 2
    omega
  · show tw - 1 - 2 + 1 = tw - 2
    omega
  · show IncRect ⟨⟨2, 2⟩, ⟨tw - 1, th / 2 - 1⟩⟩ = _
    simp [IncRect]
  · show IncRect ⟨⟨2, th / 2 + 2⟩, ⟨tw - 1, th - 1⟩⟩ = _
    simp only [IncRect]
    congr 2 <;> omega

/-- C14 at the box character set of zeros, `[6]int{}`, for both tiles and a
terminal of 80 x 25: the child has the rows 2..11 over the columns 2..79. -/
theorem C14_no_borderless_tile_witness :
    ((1 : Int) ≤ 25 ∧ (25 : Int) ≤ 2 ^ 24) ∧
      (∀ t : TileTerm, t.Reachable → ∀ vt ∈ t.heap, vt.outline ≠ none) ∧
      (∃ u rt2 ct2, layoutTiles (rootChild [0, 0, 0, 0, 0, 0] [0, 0, 0, 0, 0, 0] ⟨1, 2⟩ 80 25) =
          Run.done u ∧
        u.heap[0]? = some rt2 ∧ u.heap[1]? = some ct2 ∧
        rt2.outline = some [0, 0, 0, 0, 0, 0] ∧ ct2.outline = some [0, 0, 0, 0, 0, 0] ∧
        ct2.bounds = ⟨⟨2, 2⟩, ⟨80 - 1, 25 / 2 - 1⟩⟩ ∧
        ct2.Height = 25 / 2 - 2 ∧ ct2.Width = 80 - 2 ∧
        rt2.bounds = ⟨⟨2, 25 / 2 + 2⟩, ⟨80 - 1, 25 - 1⟩⟩ ∧
        IncRect ct2.bounds = ⟨⟨1, 1⟩, ⟨80, 25 / 2⟩⟩ ∧
        IncRect rt2.bounds = ⟨⟨1, 25 / 2 + 1⟩, ⟨80, 25⟩⟩) ∧
      layoutBounds (rootChild SingleBox SingleBox ⟨1, 2⟩ 80 33554435) =
        some [some ⟨⟨2, 16777220⟩, ⟨79, 33554434⟩⟩, some ⟨⟨2, 2⟩, ⟨79, 16777217⟩⟩] :=
  ⟨⟨by decide, by decide⟩,
    C14_no_borderless_tile [0, 0, 0, 0, 0, 0] [0, 0, 0, 0, 0, 0] 80 25 (by decide) (by decide)⟩

/-- C13 fails as stated: after AddTile(root) and DeleteTile(root) the tile list
is empty and the focus is nil; the next AddTile, not the first of the session,
succeeds and sets the focus to its tile. -/
theorem C13_counterexample :
    emptied.Reachable ∧ emptied.tiles = [] ∧ emptied.focus = none ∧ emptied.heap.length = 1 ∧
      ∃ u, emptied.AddTile [] [] SingleBox ⟨1, 1⟩ LocType.Loc_Top none
          TileType.TileType_ScrollUp = Run.done (u, some 1, none) ∧
        u.tiles = [1] ∧ u.focus = some 1 ∧ u.focus ≠ emptied.focus := by
  refine ⟨?_, rfl, rfl, rfl, _, rfl, rfl, rfl, by decide⟩
  exact Reachable.delete _ _ 1 (some 0)
    (Reachable.add _ _ [] [] SingleBox ⟨1, 1⟩ LocType.Loc_Top none TileType.TileType_ScrollUp 0
      Reachable.new rfl) rfl

end TileTerm

end Termfun
